import Mathlib

/-! # blimc: bounded model checker on top of an incremental SAT solver

A shallow embedding of `blimc.c`.  C `int` and `unsigned` values are modelled by
`Int` and `Nat` without wrap-around; arrays (`coi`, `stack`, `litmap`) are modelled
by total functions on indices.  Program state that the C code keeps in globals is
passed explicitly.
-/

namespace Blimc

/-! ## The AIG as seen by blimc (declarations of `aiger.h`) -/

/-- Modelled from the spec: the `aiger_symbol` record of `aiger.h` (not part of the source
file), restricted to the fields blimc reads: the literal of an input, latch, output or bad
property, and for latches the next-state literal and the reset literal. -/
structure aiger_symbol where
  lit : Nat
  next : Nat
  reset : Nat
deriving DecidableEq, Repr

/-- Modelled from the spec: the `aiger_and` record of `aiger.h`: an and-gate
`lhs = rhs0 & rhs1`. -/
structure aiger_and where
  lhs : Nat
  rhs0 : Nat
  rhs1 : Nat
deriving DecidableEq, Repr

/-- Modelled from the spec: the `aiger` record of `aiger.h`, restricted to the fields blimc
reads.  The `num_*` counters of the C record are the lengths of the lists. -/
structure aiger where
  maxvar : Nat
  inputs : List aiger_symbol
  latches : List aiger_symbol
  outputs : List aiger_symbol
  bad : List aiger_symbol
  ands : List aiger_and
  num_constraints : Nat
  num_justice : Nat
  num_fairness : Nat

/-- Modelled from the spec: macro `aiger_false` of `aiger.h`. -/
def aiger_false : Nat := 0

/-- Modelled from the spec: macro `aiger_true` of `aiger.h`. -/
def aiger_true : Nat := 1

/-- Modelled from the spec: macro `aiger_lit2var` of `aiger.h`: a literal is a node index
shifted left by one. -/
def aiger_lit2var (l : Nat) : Nat := l / 2

/-- Modelled from the spec: macro `aiger_sign` of `aiger.h`: bit 0 is the negation bit. -/
def aiger_sign (l : Nat) : Nat := l % 2

/-- Modelled from the spec: macro `aiger_strip` of `aiger.h`: clear the negation bit. -/
def aiger_strip (l : Nat) : Nat := l - l % 2

/-- Modelled from the spec: `aiger_is_input` of the AIGER library: the input symbol whose
literal is the given (stripped) literal, if that node is an input. -/
def aiger_is_input (m : aiger) (lit : Nat) : Option aiger_symbol :=
  m.inputs.find? (fun s => s.lit == lit)

/-- Modelled from the spec: `aiger_is_latch` of the AIGER library: the latch symbol whose
literal is the given (stripped) literal, if that node is a latch. -/
def aiger_is_latch (m : aiger) (lit : Nat) : Option aiger_symbol :=
  m.latches.find? (fun s => s.lit == lit)

/-- Modelled from the spec: `aiger_is_and` of the AIGER library: the and-gate whose left-hand
side is the given (stripped) literal, if that node is an and-gate. -/
def aiger_is_and (m : aiger) (lit : Nat) : Option aiger_and :=
  m.ands.find? (fun a => a.lhs == lit)

/-- The `badsyms` global as set by `main`: the bad properties if there are any, the outputs
otherwise. -/
def badsyms (m : aiger) : List aiger_symbol :=
  if m.bad.length ≠ 0 then m.bad else m.outputs

/-- The `num_bad` global as set by `main`. -/
def num_bad (m : aiger) : Nat := (badsyms m).length

/-- Source function `aiginput`: literal of the input with the given index. -/
def aiginput (m : aiger) (idx : Nat) : Nat := (m.inputs.getD idx ⟨0, 0, 0⟩).lit

/-- Source function `aiglatch`. -/
def aiglatch (m : aiger) (idx : Nat) : Nat := (m.latches.getD idx ⟨0, 0, 0⟩).lit

/-- Source function `aigreset`. -/
def aigreset (m : aiger) (idx : Nat) : Nat := (m.latches.getD idx ⟨0, 0, 0⟩).reset

/-- Source function `aignext`. -/
def aignext (m : aiger) (idx : Nat) : Nat := (m.latches.getD idx ⟨0, 0, 0⟩).next

/-- Source function `aigbad`. -/
def aigbad (m : aiger) (idx : Nat) : Nat := ((badsyms m).getD idx ⟨0, 0, 0⟩).lit

/-- Source function `prepilit`: the AIG literal `2 * n + s` becomes the signed solver literal
`n + 1`, negated when `s = 1` (the assertions of the C function are not part of the
computed value). -/
def prepilit (ulit : Nat) : Int :=
  let res : Int := ((ulit / 2 + 1 : Nat) : Int)
  if ulit % 2 = 1 then -res else res

/-- Source function `ulitincoi`: the COI mark of the node of a literal. -/
def ulitincoi (coi : Nat → Nat) (ulit : Nat) : Nat := coi (aiger_lit2var ulit)

/-! ## Cone of influence traversal -/

/-- Local variables of `travcoi` together with the `coi` array it fills. -/
structure Trav where
  coi : Nat → Nat
  stack : Nat → Nat
  top : Nat
  next : Nat
  lit : Nat
  latches : Nat
  inputs : Nat
  ands : Nat
  constants : Nat

/-- The statement `if (!coi[idx]) stack[top++] = lit, coi[idx] = top;` of `travcoi`, with
`idx = aiger_lit2var (lit)`. -/
def travPush (s : Trav) (lit : Nat) : Trav :=
  let idx := aiger_lit2var lit
  if s.coi idx = 0 then
    { s with
      stack := Function.update s.stack s.top lit
      top := s.top + 1
      coi := Function.update s.coi idx (s.top + 1) }
  else s

/-- One pass through the body of the `for (;;)` loop of `travcoi`, up to the exit test. -/
def travBody (m : aiger) (s : Trav) : Trav :=
  let stripped := aiger_strip s.lit
  if (aiger_is_input m stripped).isSome then
    { s with inputs := s.inputs + 1 }
  else
    match aiger_is_latch m stripped with
    | some l => travPush { s with latches := s.latches + 1 } l.next
    | none =>
      match aiger_is_and m stripped with
      | some a => travPush (travPush { s with ands := s.ands + 1 } a.rhs0) a.rhs1
      | none => { s with constants := s.constants + 1 }

/-- The `for (;;)` loop of `travcoi`; the first argument bounds the number of passes and
`none` means the bound was hit before the loop exit `next == top` was taken. -/
def travLoop (m : aiger) : Nat → Trav → Option Trav
  | 0, _ => none
  | fuel + 1, s =>
    let s1 := travBody m s
    if s1.next = s1.top then some s1
    else travLoop m fuel { s1 with lit := s1.stack s1.next, next := s1.next + 1 }

/-- The state of `travcoi` when it enters its loop: `coi` is the array handed over by `main`. -/
def travInit (m : aiger) (coi : Nat → Nat) : Trav :=
  { coi := Function.update coi (aiger_lit2var (aigbad m 0)) 1
    stack := fun _ => 0
    top := 1
    next := 1
    lit := aigbad m 0
    latches := 0
    inputs := 0
    ands := 0
    constants := 0 }

/-- Source function `travcoi`, started on the `coi` array given by `main`.  The loop is run
for at most `maxvar + 1` passes, one for each node index. -/
def travcoi (m : aiger) (coi : Nat → Nat) : Option Trav :=
  travLoop m (m.maxvar + 1) (travInit m coi)

/-- The zeroed `coi` array that `main` allocates before calling `travcoi`. -/
def coiZero : Nat → Nat := fun _ => 0

/-! ## The SAT solver interface -/

/-- Modelled from the spec: a solver instance as seen through the API of `lglib.h` and
`ccadical.h` (neither is part of the source file): the clauses closed so far, the literals
of the clause being added, a freeze counter for every variable, the assumptions pending for
the next call, the assumptions of the last call, and the number of simplification rounds
requested. -/
structure Solver where
  clauses : List (List Int)
  cur : List Int
  frozen : Nat → Int
  assumed : List Int
  lastAssumed : List Int
  nsimp : Nat

/-- Modelled from the spec: a newly initialised solver (`lglminit`, `ccadical_init`). -/
def Solver.fresh : Solver :=
  { clauses := [], cur := [], frozen := fun _ => 0, assumed := [], lastAssumed := [],
    nsimp := 0 }

/-- Modelled from the spec: `lgladd`: a non-zero literal is appended to the clause being
added, `0` closes it. -/
def lgladd (s : Solver) (lit : Int) : Solver :=
  if lit = 0 then { s with clauses := s.clauses ++ [s.cur], cur := [] }
  else { s with cur := s.cur ++ [lit] }

/-- Modelled from the spec: `ccadical_add`, the same contract as `lgladd`. -/
def ccadical_add (s : Solver) (lit : Int) : Solver := lgladd s lit

/-- Modelled from the spec: `lglfreeze` increments the freeze counter of the variable. -/
def lglfreeze (s : Solver) (lit : Int) : Solver :=
  { s with frozen := Function.update s.frozen lit.natAbs (s.frozen lit.natAbs + 1) }

/-- Modelled from the spec: `lglmelt` decrements the freeze counter of the variable. -/
def lglmelt (s : Solver) (lit : Int) : Solver :=
  { s with frozen := Function.update s.frozen lit.natAbs (s.frozen lit.natAbs - 1) }

/-- Modelled from the spec: `lglassume` and `ccadical_assume` record an assumption for the
next call of the solver. -/
def lglassume (s : Solver) (lit : Int) : Solver :=
  { s with assumed := s.assumed ++ [lit] }

/-- Modelled from the spec: `lglsimp` and `ccadical_simplify` as far as blimc can observe
them through the clause interface: the request is counted. -/
def lglsimp (s : Solver) : Solver := { s with nsimp := s.nsimp + 1 }

/-- Value of a literal under a total assignment of the variables. -/
def litval (σ : Nat → Bool) (l : Int) : Bool :=
  if l < 0 then !σ l.natAbs else σ l.natAbs

/-- A clause is satisfied when one of its literals is true. -/
def satClause (σ : Nat → Bool) (c : List Int) : Bool := c.any (litval σ)

/-- A clause list is satisfied when all its clauses are. -/
def satCnf (σ : Nat → Bool) (cs : List (List Int)) : Bool := cs.all (satClause σ)

/-! ## Global state of blimc -/

/-- The globals of `blimc.c` that the encoder and the unroller read and write.  A stored
clause (`Clause.lits`, zero terminated in C) is the list of its literals: all stored
literals are non-zero, so the terminator carries no information. -/
structure St where
  use_cadical : Bool
  cadical_extracting_clauses : Bool
  lgl : Solver
  cadical : Solver
  clauses : List (List Int)
  lits : List Int
  maxvar : Nat
  litmap : Nat → Nat
  coi : Nat → Nat

/-- Source function `extract`: collect a literal, or on `0` store the collected clause. -/
def extract (s : St) (lit : Int) : St :=
  if lit ≠ 0 then { s with lits := s.lits ++ [lit] }
  else { s with clauses := s.clauses ++ [s.lits], lits := [] }

/-- Source function `unit`. -/
def unit (s : St) (ilit : Int) : St :=
  if !s.use_cadical then
    { s with lgl := lgladd (lgladd s.lgl ilit) 0 }
  else
    let s1 := { s with cadical := ccadical_add s.cadical ilit }
    let s2 := if s1.cadical_extracting_clauses then extract s1 ilit else s1
    let s3 := { s2 with cadical := ccadical_add s2.cadical 0 }
    if s3.cadical_extracting_clauses then extract s3 0 else s3

/-- Source function `binary`. -/
def binary (s : St) (a b : Int) : St :=
  if !s.use_cadical then
    { s with lgl := lgladd (lgladd (lgladd s.lgl a) b) 0 }
  else
    let s1 := { s with cadical := ccadical_add s.cadical a }
    let s2 := if s1.cadical_extracting_clauses then extract s1 a else s1
    let s3 := { s2 with cadical := ccadical_add s2.cadical b }
    let s4 := if s3.cadical_extracting_clauses then extract s3 b else s3
    let s5 := { s4 with cadical := ccadical_add s4.cadical 0 }
    if s5.cadical_extracting_clauses then extract s5 0 else s5

/-- Source function `ternary`. -/
def ternary (s : St) (a b c : Int) : St :=
  if !s.use_cadical then
    { s with lgl := lgladd (lgladd (lgladd (lgladd s.lgl a) b) c) 0 }
  else
    let s1 := { s with cadical := ccadical_add s.cadical a }
    let s2 := if s1.cadical_extracting_clauses then extract s1 a else s1
    let s3 := { s2 with cadical := ccadical_add s2.cadical b }
    let s4 := if s3.cadical_extracting_clauses then extract s3 b else s3
    let s5 := { s4 with cadical := ccadical_add s4.cadical c }
    let s6 := if s5.cadical_extracting_clauses then extract s5 c else s5
    let s7 := { s6 with cadical := ccadical_add s6.cadical 0 }
    if s7.cadical_extracting_clauses then extract s7 0 else s7

/-- Source function `prepinput`. -/
def prepinput (m : aiger) (idx : Nat) : Int := prepilit (aiginput m idx)

/-- Source function `preplatch`. -/
def preplatch (m : aiger) (idx : Nat) : Int := prepilit (aiglatch m idx)

/-- Source function `prepnext`. -/
def prepnext (m : aiger) (idx : Nat) : Int := prepilit (aignext m idx)

/-- Source function `prepbad`. -/
def prepbad (m : aiger) (idx : Nat) : Int := prepilit (aigbad m idx)

/-- Source function `preplhs`. -/
def preplhs (m : aiger) (idx : Nat) : Int := prepilit (m.ands.getD idx ⟨0, 0, 0⟩).lhs

/-- Source function `prepleft`. -/
def prepleft (m : aiger) (idx : Nat) : Int := prepilit (m.ands.getD idx ⟨0, 0, 0⟩).rhs0

/-- Source function `prepright`. -/
def prepright (m : aiger) (idx : Nat) : Int := prepilit (m.ands.getD idx ⟨0, 0, 0⟩).rhs1

/-- One pass of the input loop of `prepfreeze`. -/
def prepfreezeInput (m : aiger) (nowitness : Bool) (s : St) (i : Nat) : St :=
  if !nowitness ∧ ulitincoi s.coi (aiginput m i) ≠ 0 then
    { s with lgl := lglfreeze s.lgl (prepinput m i) }
  else s

/-- One pass of the latch loop of `prepfreeze`. -/
def prepfreezeLatch (m : aiger) (s : St) (i : Nat) : St :=
  if ulitincoi s.coi (aiglatch m i) = 0 then s
  else { s with lgl := lglfreeze (lglfreeze s.lgl (preplatch m i)) (prepnext m i) }

/-- One pass of the bad loop of `prepfreeze`. -/
def prepfreezeBad (m : aiger) (s : St) (i : Nat) : St :=
  { s with lgl := lglfreeze s.lgl (prepbad m i) }

/-- Source function `prepfreeze`. -/
def prepfreeze (m : aiger) (nowitness : Bool) (s : St) : St :=
  let s1 := (List.range m.inputs.length).foldl (prepfreezeInput m nowitness) s
  let s2 := (List.range m.latches.length).foldl (prepfreezeLatch m) s1
  let s3 := (List.range (num_bad m)).foldl (prepfreezeBad m) s2
  if ulitincoi s3.coi 0 ≠ 0 then { s3 with lgl := lglfreeze s3.lgl 1 } else s3

/-- Source function `and`. -/
def and_ (s : St) (lhs rhs0 rhs1 : Int) : St :=
  ternary (binary (binary s (-lhs) rhs0) (-lhs) rhs1) (-rhs0) (-rhs1) lhs

/-- One pass of the gate loop of `logic`. -/
def logicAnd (m : aiger) (s : St) (i : Nat) : St :=
  if ulitincoi s.coi (m.ands.getD i ⟨0, 0, 0⟩).lhs ≠ 0 then
    and_ s (preplhs m i) (prepleft m i) (prepright m i)
  else s

/-- Source function `logic`. -/
def logic (m : aiger) (s : St) : St :=
  let s1 := if ulitincoi s.coi 0 ≠ 0 then unit s (-1) else s
  (List.range m.ands.length).foldl (logicAnd m) s1

/-- Source function `mapuntimedlit`: the compact literal together with the updated state. -/
def mapuntimedlit (s : St) (lit : Int) : Int × St :=
  let idx := lit.natAbs
  if s.litmap idx = 0 then
    let s1 := { s with maxvar := s.maxvar + 1
                       litmap := Function.update s.litmap idx (s.maxvar + 1) }
    (if lit < 0 then -((s.maxvar + 1 : Nat) : Int) else ((s.maxvar + 1 : Nat) : Int), s1)
  else
    (if lit < 0 then -((s.litmap idx : Nat) : Int) else ((s.litmap idx : Nat) : Int), s)

/-- The inner loop of `mapcnf`: rewrite the literals of one clause from left to right. -/
def mapclause (s : St) : List Int → List Int × St
  | [] => ([], s)
  | lit :: rest =>
    let r := mapuntimedlit s lit
    let rs := mapclause r.2 rest
    (r.1 :: rs.1, rs.2)

/-- The outer loop of `mapcnf`: rewrite the clauses in order. -/
def mapclauses (s : St) : List (List Int) → List (List Int) × St
  | [] => ([], s)
  | c :: rest =>
    let r := mapclause s c
    let rs := mapclauses r.2 rest
    (r.1 :: rs.1, rs.2)

/-- Source function `mapcnf`: rewrite the stored clauses in place. -/
def mapcnf (s : St) : St :=
  let r := mapclauses s s.clauses
  { r.2 with clauses := r.1 }

/-- Source function `mainilit`. -/
def mainilit (s : St) (ulit : Nat) : Int :=
  let tmp := prepilit ulit
  let idx := tmp.natAbs
  let res : Int := ((s.litmap idx : Nat) : Int)
  if tmp < 0 then -res else res

/-- Source function `shift` (the time is never negative; no overflow). -/
def shift (s : St) (ilit : Int) (time : Nat) : Int :=
  let idx := ilit.natAbs
  let res : Int := ((idx + time * s.maxvar : Nat) : Int)
  if ilit < 0 then -res else res

/-- Source function `equiv`. -/
def equiv (s : St) (a b : Int) : St :=
  binary (binary s (-a) b) a (-b)

/-- One pass of the latch loop of `shiftcnf` (run only for `time > 0`). -/
def shiftcnfLatch (m : aiger) (time : Nat) (s : St) (i : Nat) : St :=
  if ulitincoi s.coi (aiglatch m i) = 0 then s
  else
    let prev := shift s (mainilit s (aignext m i)) (time - 1)
    let lit := shift s (mainilit s (aiglatch m i)) time
    let s1 := equiv s prev lit
    if !s1.use_cadical then { s1 with lgl := lglmelt s1.lgl prev } else s1

/-- The innermost statement of the clause loop of `shiftcnf`: add one shifted literal. -/
def shiftcnfLit (time : Nat) (s : St) (lit : Int) : St :=
  if !s.use_cadical then { s with lgl := lgladd s.lgl (shift s lit time) }
  else { s with cadical := ccadical_add s.cadical (shift s lit time) }

/-- One pass of the clause loop of `shiftcnf`: the shifted literals, then the closing `0`. -/
def shiftcnfClause (time : Nat) (s : St) (c : List Int) : St :=
  let s1 := c.foldl (shiftcnfLit time) s
  if !s1.use_cadical then { s1 with lgl := lgladd s1.lgl 0 }
  else { s1 with cadical := ccadical_add s1.cadical 0 }

/-- One pass of the freeze loop of `shiftcnf`. -/
def shiftcnfFreeze (m : aiger) (time : Nat) (s : St) (i : Nat) : St :=
  if ulitincoi s.coi (aiglatch m i) ≠ 0 then
    if !s.use_cadical then
      { s with lgl := lglfreeze s.lgl (shift s (mainilit s (aignext m i)) time) }
    else s
  else s

/-- Source function `shiftcnf`. -/
def shiftcnf (m : aiger) (s : St) (time : Nat) : St :=
  let s1 := if time > 0 then (List.range m.latches.length).foldl (shiftcnfLatch m time) s
            else s
  let s2 := s1.clauses.foldl (shiftcnfClause time) s1
  (List.range m.latches.length).foldl (shiftcnfFreeze m time) s2

/-- Source function `bad`: assume the bad literal of the given time. -/
def bad (m : aiger) (s : St) (time : Nat) : St :=
  if !s.use_cadical then
    { s with lgl := lglassume s.lgl (shift s (mainilit s (aigbad m 0)) time) }
  else
    { s with cadical := lglassume s.cadical (shift s (mainilit s (aigbad m 0)) time) }

/-- One pass of the first loop of `init`: the next compact variable for a COI latch. -/
def initLatch (m : aiger) (s : St) (i : Nat) : St :=
  if ulitincoi s.coi (aiglatch m i) = 0 then s
  else
    { s with maxvar := s.maxvar + 1
             litmap := Function.update s.litmap (preplatch m i).toNat (s.maxvar + 1) }

/-- One pass of the second loop of `init`: the next compact variable for a COI input. -/
def initInput (m : aiger) (s : St) (i : Nat) : St :=
  if ulitincoi s.coi (aiginput m i) = 0 then s
  else
    { s with maxvar := s.maxvar + 1
             litmap := Function.update s.litmap (prepinput m i).toNat (s.maxvar + 1) }

/-- One pass of the third loop of `init`: map the next-state literal of a COI latch. -/
def initNext (m : aiger) (s : St) (i : Nat) : St :=
  if ulitincoi s.coi (aiglatch m i) ≠ 0 then (mapuntimedlit s (prepnext m i)).2 else s

/-- One pass of the last loop of `init`: the reset unit of a COI latch. -/
def initReset (m : aiger) (s : St) (i : Nat) : St :=
  if ulitincoi s.coi (aiglatch m i) = 0 then s
  else if aiglatch m i = aigreset m i then s
  else
    let s1 := if aiger_false = aigreset m i then unit s (-(mainilit s (aiglatch m i))) else s
    if aiger_true = aigreset m i then unit s1 (mainilit s1 (aiglatch m i)) else s1

/-- Source function `init`. -/
def init (m : aiger) (s : St) : St :=
  let s0 := { s with litmap := fun _ => 0, maxvar := 0 }
  let s1 := (List.range m.latches.length).foldl (initLatch m) s0
  let s2 := (List.range m.inputs.length).foldl (initInput m) s1
  let s3 := mapcnf s2
  let s4 := (List.range m.latches.length).foldl (initNext m) s3
  (List.range m.latches.length).foldl (initReset m) s4

/-! ## The main function -/

/-- The command line of blimc as far as it steers the model checker. -/
structure Flags where
  use_cadical : Bool
  nowitness : Bool
  xstim : Bool
  noclone : Bool
  maxk : Nat

/-- Modelled from the spec: the answers of the SAT solver library (not part of the source
file), as functions of the step and of the solver instance they are asked on: `fixed` is
`lglfixed` / `ccadical_fixed`, `sat` is `lglsat` / `ccadical_solve`, `cloneSimp` and
`cloneSat` are `lglsimp` and `lglsat` on the clone, `deref` is `lglderef` / `ccadical_val`
and `travall` lists the clauses that `lgltravall` hands to its callback. -/
structure Oracle where
  fixed : Solver → Int → Int
  sat : Nat → Solver → Int
  cloneSimp : Nat → Solver → Int
  cloneSat : Nat → Solver → Int
  deref : Solver → Int → Int
  travall : Solver → List (List Int)

/-- How a run of `main` ends: `die` (message on stderr, exit status 1, nothing on stdout),
the pass bound of the traversal model exhausted, or a return from `main` with the exit code
and the lines written to stdout. -/
inductive Outcome where
  | die (msg : String)
  | stuck
  | exit (res : Int) (out : List String)
deriving DecidableEq, Repr

/-- The solver instance that is queried: `lgl` or `cadical`. -/
def St.solver (s : St) : Solver := if !s.use_cadical then s.lgl else s.cadical

/-- The solver call of one step of the BMC loop: `lglsat` / `ccadical_solve`, and when the
answer is `0` the clone-and-retry block, which simplifies the clone and, if that is
inconclusive too, solves it without conflict limit. -/
def solveStep (o : Oracle) (k : Nat) (sv : Solver) : Int :=
  let res := o.sat k sv
  if res = 0 then
    let res1 := o.cloneSimp k sv
    if res1 = 0 then o.cloneSat k sv else res1
  else res

/-- Modelled from the spec: a call of the solver consumes the assumptions; its answer and
the values it reports afterwards are relative to them. -/
def St.solved (s : St) : St :=
  if !s.use_cadical then
    { s with lgl := { s.lgl with assumed := [], lastAssumed := s.lgl.assumed } }
  else
    { s with cadical := { s.cadical with assumed := [], lastAssumed := s.cadical.assumed } }

/-- The simplification at the end of a pass of the BMC loop. -/
def St.simplify (s : St) : St :=
  if !s.use_cadical then { s with lgl := lglsimp s.lgl }
  else { s with cadical := lglsimp s.cadical }

/-- The line `u<k>` printed after an unsatisfiable step. -/
def uLine (k : Nat) : String := "u" ++ toString k

/-- Variables of `main` that the BMC loop updates: the globals, `res`, `k`, and the lines
written to stdout so far. -/
structure Bmc where
  st : St
  res : Int
  k : Nat
  out : List String

/-- The main BMC loop `for (k = 0; k <= maxk; k++)`.  The first argument is the number of
values of `k` that are left, `maxk + 1 - k`; at `0` the loop condition fails. -/
def bmcLoop (m : aiger) (fl : Flags) (o : Oracle) : Nat → Bmc → Bmc
  | 0, b => b
  | fuel + 1, b =>
    let s1 := bad m (shiftcnf m b.st b.k) b.k
    let res := solveStep o b.k s1.solver
    let s2 := s1.solved
    if res = 10 then { b with st := s2, res := res }
    else
      let out := b.out ++ [uLine b.k]
      if m.latches.length = 0 then { st := s2, res := res, k := b.k, out := out }
      else
        let s3 := if b.k < fl.maxk ∧ (b.k + 1) &&& b.k = 0 then s2.simplify else s2
        bmcLoop m fl o fuel { st := s3, res := res, k := b.k + 1, out := out }

/-- The character printed for a solver value in the witness. -/
def vch (xstim : Bool) (val : Int) : Char :=
  if val > 0 then '1' else if val = 0 ∧ xstim then 'x' else '0'

/-- The line of initial latch values of the witness. -/
def latchLine (m : aiger) (fl : Flags) (o : Oracle) (s : St) : String :=
  String.mk ((List.range m.latches.length).map (fun i =>
    let val := if ulitincoi s.coi (aiglatch m i) ≠ 0 then
                 o.deref s.solver (shift s (mainilit s (aiglatch m i)) 0)
               else 0
    vch fl.xstim val))

/-- The line of input values of the witness for time `i`. -/
def inputLine (m : aiger) (fl : Flags) (o : Oracle) (s : St) (i : Nat) : String :=
  String.mk ((List.range m.inputs.length).map (fun j =>
    let val := if ulitincoi s.coi (aiginput m j) ≠ 0 then
                 o.deref s.solver (shift s (mainilit s (aiginput m j)) i)
               else 0
    vch fl.xstim val))

/-- The witness lines printed after `1` and `b0` unless `-n` was given. -/
def witnessLines (m : aiger) (fl : Flags) (o : Oracle) (s : St) (k : Nat) : List String :=
  if !fl.nowitness then
    latchLine m fl o s :: (List.range (k + 1)).map (inputLine m fl o s)
  else []

/-- The call `lgltravall (lgl, 0, extract)`: every clause the solver lists is handed to
`extract` literal by literal, followed by `0`. -/
def travallExtract (o : Oracle) (s : St) : St :=
  (o.travall s.lgl).foldl (fun s c => extract (c.foldl extract s) 0) s

/-- The part of `main` between the traversal and the test of the fixed bad literal: create
the solver, `logic`, and for Lingeling `prepfreeze` and the first simplification. -/
def encode (m : aiger) (fl : Flags) (coi : Nat → Nat) : St :=
  let s0 : St :=
    { use_cadical := fl.use_cadical
      cadical_extracting_clauses := fl.use_cadical
      lgl := Solver.fresh
      cadical := Solver.fresh
      clauses := []
      lits := []
      maxvar := 0
      litmap := fun _ => 0
      coi := coi }
  let s1 := logic m s0
  let s2 := if !fl.use_cadical then prepfreeze m fl.nowitness s1 else s1
  s2.simplify

/-- The first part of the `else` branch of `main`: for Lingeling the simplified clauses are
extracted and a new solver replaces the first one, for CaDiCaL extraction is switched off;
then `init`. -/
def prepare (m : aiger) (o : Oracle) (s : St) : St :=
  let s1 := if !s.use_cadical then { travallExtract o s with lgl := Solver.fresh }
            else { s with cadical_extracting_clauses := false }
  init m s1

/-- The part of `main` from the test of the fixed bad literal to `return res`. -/
def verdict (m : aiger) (fl : Flags) (o : Oracle) (s : St) : Outcome :=
  if o.fixed s.solver (prepbad m 0) < 0 then
    Outcome.exit 20 ["0", "b0", "."]
  else
    let b := bmcLoop m fl o (fl.maxk + 1) { st := prepare m o s, res := 0, k := 0, out := [] }
    if b.res = 10 then
      Outcome.exit b.res (b.out ++ ["1", "b0"] ++ witnessLines m fl o b.st b.k ++ ["."])
    else if b.res = 20 ∧ m.latches.length = 0 then
      Outcome.exit b.res (b.out ++ ["0", "b0", "."])
    else
      Outcome.exit b.res (b.out ++ ["2", "b0", "."])

/-- Source function `main` after option parsing and reading of the model. -/
def main (m : aiger) (fl : Flags) (o : Oracle) : Outcome :=
  if m.outputs.length = 0 ∧ m.bad.length = 0 then
    Outcome.die "model contains no output nor bad state property"
  else if m.bad.length > 1 then
    Outcome.die "can not handle multiple bad state properties"
  else if m.bad.length = 0 ∧ m.outputs.length > 1 then
    Outcome.die "can not handle multiple outputs (without bad state property)"
  else if m.num_constraints > 0 then
    Outcome.die "can not handle environment constraints"
  else
    match travcoi m coiZero with
    | none => Outcome.stuck
    | some t => verdict m fl o (encode m fl t.coi)

/-! ## Well-formed models -/

/-- All literals that are referenced (as bad literal, next-state literal or gate input). -/
def referenced (m : aiger) : List Nat :=
  (badsyms m).map (fun s => s.lit) ++ m.latches.map (fun s => s.next) ++
    m.ands.map (fun a => a.rhs0) ++ m.ands.map (fun a => a.rhs1)

/-- All literals that are defined (as input, latch output or gate output). -/
def defined (m : aiger) : List Nat :=
  m.inputs.map (fun s => s.lit) ++ m.latches.map (fun s => s.lit) ++
    m.ands.map (fun a => a.lhs)

/-- What the AIGER reader guarantees of a model with a single property: defined literals are
even, non-constant, within `maxvar` and pairwise distinct; referenced literals are within
`maxvar` and denote the constant or a defined node; resets are `0`, `1` or the latch itself;
and the and-gates are acyclic, expressed by a rank that decreases from a gate to its inputs. -/
structure WellFormed (m : aiger) : Prop where
  one_bad : num_bad m = 1
  def_ok : ∀ l ∈ defined m, l % 2 = 0 ∧ 2 ≤ l ∧ l ≤ 2 * m.maxvar + 1
  def_nodup : (defined m).Nodup
  ref_le : ∀ l ∈ referenced m, l ≤ 2 * m.maxvar + 1
  ref_def : ∀ l ∈ referenced m, l / 2 = 0 ∨ aiger_strip l ∈ defined m
  reset_ok : ∀ s ∈ m.latches, s.reset = aiger_false ∨ s.reset = aiger_true ∨ s.reset = s.lit
  acyclic : ∃ rank : Nat → Nat, (∀ v, rank v ≤ m.maxvar) ∧
    ∀ a ∈ m.ands, rank (a.rhs0 / 2) < rank (a.lhs / 2) ∧ rank (a.rhs1 / 2) < rank (a.lhs / 2)

/-- The structural predecessors of node `n` are marked: if `n` is a latch, the node of its
next-state literal; if `n` is an and-gate, the nodes of both its inputs. -/
def ClosedAt (m : aiger) (coi : Nat → Nat) (n : Nat) : Prop :=
  (∀ l ∈ m.latches, aiger_lit2var l.lit = n → coi (aiger_lit2var l.next) ≠ 0) ∧
  (∀ a ∈ m.ands, aiger_lit2var a.lhs = n →
    coi (aiger_lit2var a.rhs0) ≠ 0 ∧ coi (aiger_lit2var a.rhs1) ≠ 0)

/-- COI closure of a mark array: the predecessors of every marked node are marked. -/
def CoiClosed (m : aiger) (coi : Nat → Nat) : Prop :=
  ∀ n, coi n ≠ 0 → ClosedAt m coi n

/-- Loop invariant of `travcoi`: `next` and `top` delimit the pending part of the stack, every
pending entry carries its discovery index, marks are bounded by `top`, injective on marked
nodes, hit every index up to `top`, and only nodes within `maxvar` are marked. -/
structure TravCore (m : aiger) (s : Trav) : Prop where
  next_pos : 1 ≤ s.next
  next_le : s.next ≤ s.top
  stk : ∀ j, s.next ≤ j → j < s.top → s.coi (aiger_lit2var (s.stack j)) = j + 1
  le_top : ∀ v, s.coi v ≤ s.top
  bound : ∀ v, s.coi v ≠ 0 → v ≤ m.maxvar
  inj : ∀ u v, s.coi u ≠ 0 → s.coi u = s.coi v → u = v
  surj : ∀ j, 1 ≤ j → j ≤ s.top → ∃ v, s.coi v = j
  badm : s.coi (aiger_lit2var (aigbad m 0)) ≠ 0
  cur : s.coi (aiger_lit2var s.lit) = s.next

/-- Every node discovered before index `p` has its predecessors marked. -/
def ClosedBelow (m : aiger) (s : Trav) (p : Nat) : Prop :=
  ∀ n, s.coi n ≠ 0 → s.coi n < p → ClosedAt m s.coi n

/-! ## Clause-level view of the encoder -/

/-- The effect of handing one complete clause to `unit`, `binary` or `ternary`: the clause is
appended to the clause list of the solver in use, and in CaDiCaL mode with extraction
switched on also to the stored clauses. -/
def emit (s : St) (c : List Int) : St :=
  if !s.use_cadical then
    { s with lgl := { s.lgl with clauses := s.lgl.clauses ++ [c] } }
  else if s.cadical_extracting_clauses then
    { s with cadical := { s.cadical with clauses := s.cadical.clauses ++ [c] }
             clauses := s.clauses ++ [c] }
  else
    { s with cadical := { s.cadical with clauses := s.cadical.clauses ++ [c] } }

/-- No clause is half-way added to a solver or half-way extracted. -/
def Ready (s : St) : Prop := s.lgl.cur = [] ∧ s.cadical.cur = [] ∧ s.lits = []

/-- The three clauses of an and-gate `lhs = rhs0 & rhs1` in the order `and` emits them. -/
def andClauses (lhs rhs0 rhs1 : Int) : List (List Int) :=
  [[-lhs, rhs0], [-lhs, rhs1], [-rhs0, -rhs1, lhs]]

/-- The clauses that `logic` emits, in order: the unit on the constant if the constant is in
the COI, then for every gate index whose output is in the COI the clauses of that gate. -/
def logicClauses (m : aiger) (coi : Nat → Nat) : List (List Int) :=
  (if ulitincoi coi 0 ≠ 0 then [[-1]] else []) ++
    (List.range m.ands.length).flatMap (fun i =>
      if ulitincoi coi (m.ands.getD i ⟨0, 0, 0⟩).lhs ≠ 0 then
        andClauses (preplhs m i) (prepleft m i) (prepright m i)
      else [])

/-- The globals that emitting clauses leaves alone are the same in both states. -/
structure Frame (s s1 : St) : Prop where
  use_cadical : s1.use_cadical = s.use_cadical
  extracting : s1.cadical_extracting_clauses = s.cadical_extracting_clauses
  maxvar : s1.maxvar = s.maxvar
  litmap : s1.litmap = s.litmap
  coi : s1.coi = s.coi

/-- State `s1` is reached from `s` by emitting exactly the clauses `cs`, in order: they are
appended to the clause list of the solver in use, and to the stored clauses when CaDiCaL is
used with extraction switched on. -/
structure Emits (s s1 : St) (cs : List (List Int)) : Prop where
  frame : Frame s s1
  ready : Ready s1
  solver : s1.solver.clauses = s.solver.clauses ++ cs
  stored : s1.clauses = s.clauses ++
    (if s.use_cadical = true ∧ s.cadical_extracting_clauses = true then cs else [])

/-- A literal rewritten through a variable map: the sign is kept. -/
def mlit (litmap : Nat → Nat) (lit : Int) : Int :=
  if lit < 0 then -((litmap lit.natAbs : Nat) : Int) else ((litmap lit.natAbs : Nat) : Int)

/-- The two globals that make up the variable map: `litmap` and `maxvar`. -/
structure VarMap where
  litmap : Nat → Nat
  maxvar : Nat

/-- The variable map of a state. -/
def St.varMap (s : St) : VarMap := ⟨s.litmap, s.maxvar⟩

/-- Replace the variable map of a state. -/
def St.setMap (s : St) (v : VarMap) : St := { s with litmap := v.litmap, maxvar := v.maxvar }

/-- The assignment `litmap[idx] = ++maxvar`. -/
def VarMap.assign (v : VarMap) (idx : Nat) : VarMap :=
  ⟨Function.update v.litmap idx (v.maxvar + 1), v.maxvar + 1⟩

/-- The effect of `mapuntimedlit` on the variable map: assign the next variable to an index
that has none. -/
def VarMap.mapIdx (v : VarMap) (idx : Nat) : VarMap :=
  if v.litmap idx = 0 then v.assign idx else v

/-- The variable map before the first loop of `init`. -/
def VarMap.zero : VarMap := ⟨fun _ => 0, 0⟩

/-- The non-zero entries of the map are pairwise distinct and are exactly `1 .. maxvar`. -/
structure MapInv (v : VarMap) : Prop where
  le : ∀ i, v.litmap i ≤ v.maxvar
  inj : ∀ i j, v.litmap i ≠ 0 → v.litmap i = v.litmap j → i = j
  surj : ∀ x, 1 ≤ x → x ≤ v.maxvar → ∃ i, v.litmap i = x

/-- The elements of a sequence that are not in `seen`, each once, in order of first
occurrence. -/
def firstNew : List Nat → List Nat → List Nat
  | _, [] => []
  | seen, x :: l => if x ∈ seen then firstNew seen l else x :: firstNew (x :: seen) l

/-- The `litmap` indices of the COI latches, in latch order. -/
def latchSeq (m : aiger) (coi : Nat → Nat) : List Nat :=
  ((List.range m.latches.length).filter (fun i => ulitincoi coi (aiglatch m i) ≠ 0)).map
    (fun i => (preplatch m i).toNat)

/-- The `litmap` indices of the COI inputs, in input order. -/
def inputSeq (m : aiger) (coi : Nat → Nat) : List Nat :=
  ((List.range m.inputs.length).filter (fun i => ulitincoi coi (aiginput m i) ≠ 0)).map
    (fun i => (prepinput m i).toNat)

/-- The `litmap` indices of the next-state literals of the COI latches, in latch order. -/
def nextSeq (m : aiger) (coi : Nat → Nat) : List Nat :=
  ((List.range m.latches.length).filter (fun i => ulitincoi coi (aiglatch m i) ≠ 0)).map
    (fun i => (prepnext m i).natAbs)

/-- The `litmap` indices of the literals of a clause list, scanned left to right. -/
def clauseSeq (cs : List (List Int)) : List Nat := cs.flatten.map Int.natAbs

/-- The variable map that `init` builds for the mark array `coi` and the stored clauses `cs`:
the COI latches, the COI inputs, the literals of the stored clauses, the next-state
literals of the COI latches. -/
def initMap (m : aiger) (coi : Nat → Nat) (cs : List (List Int)) : VarMap :=
  (nextSeq m coi).foldl VarMap.mapIdx
    ((clauseSeq cs).foldl VarMap.mapIdx
      ((inputSeq m coi).foldl VarMap.assign
        ((latchSeq m coi).foldl VarMap.assign VarMap.zero)))

/-- The state of `init` before its last loop: the variable map is built and the stored
clauses are rewritten through it. -/
def initMapped (m : aiger) (s : St) : St :=
  { s with litmap := (initMap m s.coi s.clauses).litmap
           maxvar := (initMap m s.coi s.clauses).maxvar
           clauses := s.clauses.map (fun c => c.map (mlit (initMap m s.coi s.clauses).litmap)) }

/-- The unit clauses that the last loop of `init` emits, in order. -/
def resetClauses (m : aiger) (s : St) : List (List Int) :=
  (List.range m.latches.length).flatMap (fun i =>
    if ulitincoi s.coi (aiglatch m i) = 0 then []
    else if aiglatch m i = aigreset m i then []
    else
      (if aiger_false = aigreset m i then [[-(mainilit s (aiglatch m i))]] else []) ++
      (if aiger_true = aigreset m i then [[mainilit s (aiglatch m i)]] else []))

/-- All `litmap` indices in the order `init` visits them. -/
def initSeq (m : aiger) (coi : Nat → Nat) (cs : List (List Int)) : List Nat :=
  latchSeq m coi ++ inputSeq m coi ++ (clauseSeq cs ++ nextSeq m coi)

/-- The two clauses of `equiv (a, b)`. -/
def equivClauses (a b : Int) : List (List Int) := [[-a, b], [a, -b]]

/-- The clauses that pass `i` of the latch loop of `shiftcnf` emits. -/
def latchClausesAt (m : aiger) (s : St) (time : Nat) (i : Nat) : List (List Int) :=
  if ulitincoi s.coi (aiglatch m i) = 0 then []
  else equivClauses (shift s (mainilit s (aignext m i)) (time - 1))
    (shift s (mainilit s (aiglatch m i)) time)

/-- The clauses that the latch loop of `shiftcnf` emits, in order. -/
def latchClauses (m : aiger) (s : St) (time : Nat) : List (List Int) :=
  (List.range m.latches.length).flatMap (latchClausesAt m s time)

/-- The stored clauses with every literal shifted to the given time. -/
def shiftedClauses (s : St) (time : Nat) : List (List Int) :=
  s.clauses.map (fun c => c.map (fun lit => shift s lit time))

/-- The clauses that `shiftcnf` emits, in order. -/
def shiftClauses (m : aiger) (s : St) (time : Nat) : List (List Int) :=
  (if time > 0 then latchClauses m s time else []) ++ shiftedClauses s time

/-- The two states differ at most in freeze counters, assumptions and simplification counts. -/
structure SameClauses (s s1 : St) : Prop where
  frame : Frame s s1
  lgl_cur : s1.lgl.cur = s.lgl.cur
  cadical_cur : s1.cadical.cur = s.cadical.cur
  lits : s1.lits = s.lits
  solver : s1.solver.clauses = s.solver.clauses
  stored : s1.clauses = s.clauses

/-- What `shiftcnf` needs of the state that `init` leaves: nothing is half-way added,
extraction is switched off, stored literals are non-zero, and the latch and next-state
literals of every COI latch have a compact variable. -/
structure Unrollable (m : aiger) (s : St) : Prop where
  ready : Ready s
  noextract : s.cadical_extracting_clauses = false
  lits_ne : ∀ c ∈ s.clauses, ∀ lit ∈ c, lit ≠ 0
  latch_ne : ∀ i, i < m.latches.length → ulitincoi s.coi (aiglatch m i) ≠ 0 →
    mainilit s (aiglatch m i) ≠ 0 ∧ mainilit s (aignext m i) ≠ 0

/-! ## Runs of the BMC loop -/

/-- The globals at the start of pass `k` of the BMC loop, when the loop starts in `s0` and
no earlier pass left the loop. -/
def passState (m : aiger) (fl : Flags) (s0 : St) : Nat → St
  | 0 => s0
  | k + 1 =>
    let s2 := (bad m (shiftcnf m (passState m fl s0 k) k) k).solved
    if k < fl.maxk ∧ (k + 1) &&& k = 0 then s2.simplify else s2

/-- The answer of the solver in pass `k` of the BMC loop started in `s0`. -/
def answer (m : aiger) (fl : Flags) (o : Oracle) (s0 : St) (k : Nat) : Int :=
  solveStep o k (bad m (shiftcnf m (passState m fl s0 k) k) k).solver

/-- Pass `k` of the BMC loop started in `s0` is executed: `k` is within the bound, no
earlier pass was answered with `10`, and after pass `0` the model has latches. -/
def Performed (m : aiger) (fl : Flags) (o : Oracle) (s0 : St) (k : Nat) : Prop :=
  k ≤ fl.maxk ∧ (∀ i, i < k → answer m fl o s0 i ≠ 10) ∧ (k = 0 ∨ m.latches.length ≠ 0)

/-- An oracle that never reports the bad literal fixed and answers `20` in every pass. -/
def oracleUnsat : Oracle :=
  { fixed := fun _ _ => 0, sat := fun _ _ => 20, cloneSimp := fun _ _ => 0,
    cloneSat := fun _ _ => 20, deref := fun _ _ => 0, travall := fun sv => sv.clauses }

/-- Command line `blimc 1`: Lingeling, witness printed, bound `1`. -/
def flagsOne : Flags :=
  { use_cadical := false, nowitness := false, xstim := false, noclone := false, maxk := 1 }

/-- The clauses emitted by `shiftcnf (0)`, ..., `shiftcnf (k)`, in order. -/
def unrollClauses (m : aiger) (s : St) (k : Nat) : List (List Int) :=
  (List.range (k + 1)).flatMap (shiftClauses m s)

/-- The globals when the BMC loop of `main` starts, for the mark array `coi`. -/
def startState (m : aiger) (fl : Flags) (o : Oracle) (coi : Nat → Nat) : St :=
  prepare m o (encode m fl coi)

/-- The globals after `shiftcnf (k)` in pass `k` of the BMC loop of `main`. -/
def unrolledState (m : aiger) (fl : Flags) (o : Oracle) (coi : Nat → Nat) (k : Nat) : St :=
  shiftcnf m (passState m fl (startState m fl o coi) k) k

/-- The solver hands back the clauses it was given: the stored clauses are the clauses
emitted by `logic`. -/
def PlainTravall (o : Oracle) : Prop := ∀ sv : Solver, o.travall sv = sv.clauses

/-! ## Simulation of the AIG -/

/-- The value of node `v` in one cycle of the circuit, given the values `inp` of the inputs
and `lat` of the latches in that cycle: the constant is false, an and-gate is the
conjunction of its two input literals.  The first argument bounds the depth of the
evaluation. -/
def evalVar (m : aiger) (inp lat : Nat → Bool) : Nat → Nat → Bool
  | 0, _ => false
  | fuel + 1, v =>
    if v = 0 then false
    else if (aiger_is_input m (2 * v)).isSome then inp v
    else if (aiger_is_latch m (2 * v)).isSome then lat v
    else
      match aiger_is_and m (2 * v) with
      | some a =>
        (evalVar m inp lat fuel (a.rhs0 / 2) != decide (a.rhs0 % 2 = 1)) &&
        (evalVar m inp lat fuel (a.rhs1 / 2) != decide (a.rhs1 % 2 = 1))
      | none => false

/-- The value of an AIG literal in one cycle: the value of its node, negated when bit 0 is
set. -/
def evalLit (m : aiger) (inp lat : Nat → Bool) (fuel : Nat) (l : Nat) : Bool :=
  evalVar m inp lat fuel (l / 2) != decide (l % 2 = 1)

/-- The latch values in cycle `t` of the run from the initial latch values `init0` under the
input stimulus `inp`: a latch takes the value its next-state literal had in the cycle
before. -/
def simLatch (m : aiger) (init0 : Nat → Bool) (inp : Nat → Nat → Bool) : Nat → Nat → Bool
  | 0 => init0
  | t + 1 => fun v =>
    match aiger_is_latch m (2 * v) with
    | some l => evalLit m (inp t) (simLatch m init0 inp t) (m.maxvar + 1) l.next
    | none => false

/-- The value of an AIG literal in cycle `t` of the run. -/
def simLit (m : aiger) (init0 : Nat → Bool) (inp : Nat → Nat → Bool) (t : Nat) (l : Nat) :
    Bool :=
  evalLit m (inp t) (simLatch m init0 inp t) (m.maxvar + 1) l

/-- The initial value of the latch with node `v` that the witness printer reads from the
assignment: the value of `shift (mainilit (latch), 0)` for a COI latch, `0` otherwise. -/
def witnessLatch (s : St) (σ : Nat → Bool) (v : Nat) : Bool :=
  if ulitincoi s.coi (2 * v) ≠ 0 then litval σ (shift s (mainilit s (2 * v)) 0) else false

/-- The value at time `t` of the input with node `v` that the witness printer reads from the
assignment: the value of `shift (mainilit (input), t)` for a COI input, `0` otherwise. -/
def witnessInput (s : St) (σ : Nat → Bool) (t v : Nat) : Bool :=
  if ulitincoi s.coi (2 * v) ≠ 0 then litval σ (shift s (mainilit s (2 * v)) t) else false

/-- The value that an assignment gives to an AIG literal at a time. -/
def aval (s : St) (σ : Nat → Bool) (t : Nat) (u : Nat) : Bool :=
  litval σ (shift s (mainilit s u) t)

/-- A satisfying assignment of the clause list of the queried solver after `shiftcnf (k)`, on
a well-formed model with the mark array of `travcoi` and the stored clauses taken as the
clauses of `logic`. -/
structure SatRun (m : aiger) (fl : Flags) (o : Oracle) (coi : Nat → Nat) (k : Nat)
    (σ : Nat → Bool) : Prop where
  wf : WellFormed m
  plain : fl.use_cadical = true ∨ PlainTravall o
  trav : ∃ t, travcoi m coiZero = some t ∧ t.coi = coi
  sat : satCnf σ (unrolledState m fl o coi k).solver.clauses = true

/-! ## Example models -/

/-- A one-bit counter: latch `2` with reset `0`, next `¬2`, bad `2`. -/
def exCounter : aiger :=
  { maxvar := 1, inputs := [], latches := [⟨2, 3, 0⟩], outputs := [], bad := [⟨2, 0, 0⟩],
    ands := [], num_constraints := 0, num_justice := 0, num_fairness := 0 }

/-- Two inputs `2`, `4`, a latch `6` with next `8`, the gate `8 = 2 & 7`, bad `8`. -/
def exGate : aiger :=
  { maxvar := 4, inputs := [⟨2, 0, 0⟩, ⟨4, 0, 0⟩], latches := [⟨6, 8, 0⟩], outputs := [],
    bad := [⟨8, 0, 0⟩], ands := [⟨8, 2, 7⟩],
    num_constraints := 0, num_justice := 0, num_fairness := 0 }

/-- A state with three compact variables and nothing else. -/
def exSt3 : St :=
  { use_cadical := false, cadical_extracting_clauses := false, lgl := Solver.fresh,
    cadical := Solver.fresh, clauses := [], lits := [], maxvar := 3,
    litmap := fun _ => 0, coi := fun _ => 0 }

/-- The mark array that `travcoi` leaves for `exGate`. -/
def exGateCoi : Nat → Nat := ((travcoi exGate coiZero).map Trav.coi).getD coiZero

/-- Three inputs `2`, `4`, `6`, the gate `8 = 4 & 6`, bad `8`: input `2` is outside the COI. -/
def exJunk : aiger :=
  { maxvar := 4, inputs := [⟨2, 0, 0⟩, ⟨4, 0, 0⟩, ⟨6, 0, 0⟩], latches := [], outputs := [],
    bad := [⟨8, 0, 0⟩], ands := [⟨8, 4, 6⟩],
    num_constraints := 0, num_justice := 0, num_fairness := 0 }

/-- The mark array that `travcoi` leaves for `exJunk`. -/
def exJunkCoi : Nat → Nat := ((travcoi exJunk coiZero).map Trav.coi).getD coiZero

/-- One latch `2` with reset `1` and next-state literal `0` (constant false), bad `2`: the
bad literal is true in the initial state. -/
def exReset : aiger :=
  { maxvar := 1, inputs := [], latches := [⟨2, 0, 1⟩], outputs := [], bad := [⟨2, 0, 0⟩],
    ands := [], num_constraints := 0, num_justice := 0, num_fairness := 0 }

/-- The mark array that `travcoi` leaves for `exReset`. -/
def exResetCoi : Nat → Nat := ((travcoi exReset coiZero).map Trav.coi).getD coiZero

/-- Command line `blimc --use-cadical 0`. -/
def flagsCad : Flags :=
  { use_cadical := true, nowitness := false, xstim := false, noclone := true, maxk := 0 }

/-- Command line `blimc 0`: Lingeling, bound `0`. -/
def flagsZero : Flags :=
  { use_cadical := false, nowitness := false, xstim := false, noclone := false, maxk := 0 }

/-- The final state of `travcoi` on the one-bit counter. -/
def exCounterTrav : Trav := (travcoi exCounter coiZero).getD (travInit exCounter coiZero)

/-- The assignment that makes exactly variable `2` true. -/
def exSigma : Nat → Bool := fun v => decide (v = 2)

/-- The assignment whose true variables are the set bits of `bits`. -/
def maskAssign (bits : Nat) : Nat → Bool := fun v => bits.testBit v

/-- Search for a model of the clauses of a solver instance and of the given assumptions
among the assignments of the variables `0 .. nvars`. -/
def bruteModel (nvars : Nat) (sv : Solver) (assumed : List Int) : Option Nat :=
  (List.range (2 ^ (nvars + 1))).find? (fun bits =>
    satCnf (maskAssign bits) sv.clauses && assumed.all (litval (maskAssign bits)))

/-- A complete solver for instances over the variables `1 .. nvars`: it answers `10` exactly
when the clauses and the pending assumptions have a model, reports the values of the model
of the last call, never reports a literal as fixed, never returns `0`, and hands back the
clauses it was given. -/
def oracleBrute (nvars : Nat) : Oracle :=
  { fixed := fun _ _ => 0
    sat := fun _ sv => if (bruteModel nvars sv sv.assumed).isSome then 10 else 20
    cloneSimp := fun _ _ => 0
    cloneSat := fun _ sv => if (bruteModel nvars sv sv.assumed).isSome then 10 else 20
    deref := fun sv lit =>
      match bruteModel nvars sv sv.lastAssumed with
      | some bits => if litval (maskAssign bits) lit then 1 else -1
      | none => 0
    travall := fun sv => sv.clauses }

/-! ## A complete solver -/

/-- All lists of truth values of the given length. -/
def allAssign : Nat → List (List Bool)
  | 0 => [[]]
  | n + 1 => (allAssign n).flatMap (fun l => [false :: l, true :: l])

/-- The assignment given by a list of truth values: variable `v` has the value at position
`v`, variables beyond the list are false. -/
def assignOf (l : List Bool) : Nat → Bool := fun v => l.getD v false

/-- One more than the largest variable of the clauses and the assumptions. -/
def varBound (cs : List (List Int)) (asm : List Int) : Nat :=
  ((cs.flatten ++ asm).map Int.natAbs).foldl max 0 + 1

/-- Search for a model of the clauses of a solver instance and of the given assumptions
among all assignments of the variables that occur. -/
def findModel (sv : Solver) (assumed : List Int) : Option (List Bool) :=
  (allAssign (varBound sv.clauses assumed)).find? (fun l =>
    satCnf (assignOf l) sv.clauses && assumed.all (litval (assignOf l)))

/-- A complete solver: it answers `10` exactly when the clauses and the pending assumptions
have a model and `20` otherwise, reports the values of a model of the last call, never
reports a literal as fixed, and hands back the clauses it was given. -/
def oracleFull : Oracle :=
  { fixed := fun _ _ => 0
    sat := fun _ sv => if (findModel sv sv.assumed).isSome then 10 else 20
    cloneSimp := fun _ _ => 0
    cloneSat := fun _ sv => if (findModel sv sv.assumed).isSome then 10 else 20
    deref := fun sv lit =>
      match findModel sv sv.lastAssumed with
      | some l => if litval (assignOf l) lit then 1 else -1
      | none => 0
    travall := fun sv => sv.clauses }

/-- What the scenarios ask of the solver: it hands back the clauses it was given, reports a
literal as fixed to false only if no model of the clauses makes it true, answers `10` when
the clauses and the assumptions have a model and `20` when they have none, and after a call
that had a model reports the values of one such model. -/
structure Complete (o : Oracle) : Prop where
  plain : PlainTravall o
  fixed_sound : ∀ sv lit, o.fixed sv lit < 0 →
    ∀ σ, satCnf σ sv.clauses = true → litval σ lit = false
  sat_yes : ∀ k sv, (∃ σ, satCnf σ sv.clauses = true ∧ sv.assumed.all (litval σ) = true) →
    o.sat k sv = 10
  sat_no : ∀ k sv, (¬ ∃ σ, satCnf σ sv.clauses = true ∧ sv.assumed.all (litval σ) = true) →
    o.sat k sv = 20
  deref_model : ∀ sv,
    (∃ σ, satCnf σ sv.clauses = true ∧ sv.lastAssumed.all (litval σ) = true) →
    ∃ σ, satCnf σ sv.clauses = true ∧ sv.lastAssumed.all (litval σ) = true ∧
      ∀ lit, (0 < o.deref sv lit ↔ litval σ lit = true) ∧
        (o.deref sv lit < 0 ↔ litval σ lit = false)

/-- Command line `blimc 5`: Lingeling, witness printed, bound `5`. -/
def flagsFive : Flags :=
  { use_cadical := false, nowitness := false, xstim := false, noclone := false, maxk := 5 }

/-- The command lines of the counter scenario: bound `5`, witness printed, the other options
free. -/
def flagsCounter (uc xs nc : Bool) : Flags :=
  { use_cadical := uc, nowitness := false, xstim := xs, noclone := nc, maxk := 5 }

/-- Two latches: latch `2` with reset `1` and next-state literal `0`, which is the bad
literal, and latch `4` (its own next state, reset `0`), which nothing refers to. -/
def exSpare : aiger :=
  { maxvar := 2, inputs := [], latches := [⟨2, 0, 1⟩, ⟨4, 4, 0⟩], outputs := [],
    bad := [⟨2, 0, 0⟩], ands := [], num_constraints := 0, num_justice := 0,
    num_fairness := 0 }

/-- The final state of `travcoi` on `exSpare`. -/
def exSpareTrav : Trav := (travcoi exSpare coiZero).getD (travInit exSpare coiZero)

/-- Command line `blimc -x 0`: Lingeling, witness printed with `x` for unknown values. -/
def flagsX : Flags :=
  { use_cadical := false, nowitness := false, xstim := true, noclone := false, maxk := 0 }

/-- The model with the counters of justice properties and fairness constraints replaced. -/
def withJustice (m : aiger) (j f : Nat) : aiger :=
  { m with num_justice := j, num_fairness := f }

/-- The one-bit counter with a second bad state property. -/
def exTwoBad : aiger :=
  { maxvar := 1, inputs := [], latches := [⟨2, 3, 0⟩], outputs := [],
    bad := [⟨2, 0, 0⟩, ⟨3, 0, 0⟩], ands := [], num_constraints := 0, num_justice := 0,
    num_fairness := 0 }

/-- The final state of `travcoi` on `exGate`. -/
def exGateTrav : Trav := (travcoi exGate coiZero).getD (travInit exGate coiZero)

/-- The state in which `main` calls `logic` on `exGate` with Lingeling. -/
def exGateSt : St :=
  { use_cadical := false, cadical_extracting_clauses := false, lgl := Solver.fresh,
    cadical := Solver.fresh, clauses := [], lits := [], maxvar := 0,
    litmap := fun _ => 0, coi := exGateCoi }

/-! ## Freeze counters -/

/-- The state with the Lingeling instance replaced. -/
def St.withLgl (s : St) (L : Solver) : St := { s with lgl := L }

/-- The variable whose freeze counter pass `i` of a latch loop of `shiftcnf` touches: the
variable of the next-state literal of latch `i` at the given time, if the latch is in the
COI. -/
def nextVar (m : aiger) (s : St) (time i : Nat) : Option Nat :=
  if ulitincoi s.coi (aiglatch m i) ≠ 0 then
    some (shift s (mainilit s (aignext m i)) time).natAbs
  else none

/-- The number of COI latches whose next-state literal at the given time has variable `x`. -/
def nextCount (m : aiger) (s : St) (time x : Nat) : Nat :=
  ((List.range m.latches.length).filter (fun i => decide (nextVar m s time i = some x))).length

/-! ## A loop state of the one-bit counter -/

/-- The variables of `main` when the BMC loop starts on the one-bit counter with bound `1`
and Lingeling. -/
def exBmc : Bmc :=
  { st := startState exCounter flagsOne oracleUnsat exCounterTrav.coi, res := 0, k := 0,
    out := [] }

/-! ## Reachability in the AIG -/

/-- Backward reachability as the specification words it: the node of the bad literal is
reachable, and from a reachable latch the node of its next-state literal, from a reachable
and-gate the nodes of its two inputs.  The reset literal of a latch plays no part. -/
inductive Reach (m : aiger) : Nat → Prop where
  | bad : Reach m (aiger_lit2var (aigbad m 0))
  | next (l : aiger_symbol) : l ∈ m.latches → Reach m (aiger_lit2var l.lit) →
      Reach m (aiger_lit2var l.next)
  | left (a : aiger_and) : a ∈ m.ands → Reach m (aiger_lit2var a.lhs) →
      Reach m (aiger_lit2var a.rhs0)
  | right (a : aiger_and) : a ∈ m.ands → Reach m (aiger_lit2var a.lhs) →
      Reach m (aiger_lit2var a.rhs1)

/-- The model with the reset literal of every latch replaced. -/
def withReset (m : aiger) (f : aiger_symbol → Nat) : aiger :=
  { m with latches := m.latches.map (fun l => { l with reset := f l }) }

/-! ## Invariants of the worklist of `travcoi` -/

/-- The nodes handled so far are counted: at the head of the loop the four counters add up
to `next - 1`. -/
def CountHead (s : Trav) : Prop := s.inputs + s.latches + s.ands + s.constants + 1 = s.next

/-- After the loop body the four counters add up to `next`. -/
def CountBody (s : Trav) : Prop := s.inputs + s.latches + s.ands + s.constants = s.next

/-- Every slot `1 .. top - 1` of the stack holds a literal whose node carries the mark
`slot + 1`, and the slots outside `1 .. top - 1` were never written. -/
def StackOk (s : Trav) : Prop :=
  1 ≤ s.top ∧ (∀ j, 1 ≤ j → j < s.top → s.coi (aiger_lit2var (s.stack j)) = j + 1) ∧
    ∀ j, (j = 0 ∨ s.top ≤ j) → s.stack j = 0

/-- Every marked node is backward reachable from the node of the bad literal. -/
def MarkedReach (m : aiger) (s : Trav) : Prop := ∀ v, s.coi v ≠ 0 → Reach m v

/-! ## The assertions of the literal functions -/

/-- The three assertions at the head of source function `prepilit`. -/
def prepilitAssert (m : aiger) (coi : Nat → Nat) (ulit : Nat) : Prop :=
  aiger_lit2var ulit ≤ m.maxvar ∧ coi (aiger_lit2var ulit) ≠ 0 ∧ ulit ≤ 2 * m.maxvar + 1

/-- The assertion of source functions `mainilit` and `mapuntimedlit` on the index
`idx = abs (lit)`: `1 <= idx && idx <= model->maxvar + 1`. -/
def indexAssert (m : aiger) (lit : Int) : Prop :=
  1 ≤ lit.natAbs ∧ lit.natAbs ≤ m.maxvar + 1

/-- The assertion of source function `shift`: `1 <= idx && idx <= maxvar`. -/
def shiftAssert (s : St) (ilit : Int) : Prop :=
  1 ≤ ilit.natAbs ∧ ilit.natAbs ≤ s.maxvar

/-! ## Runs of the AIG as assignments -/

/-- The node whose compact variable is `c`. -/
def nodeOfVar (m : aiger) (s : St) (c : Nat) : Option Nat :=
  (List.range (m.maxvar + 1)).find? (fun n => s.litmap (n + 1) == c)

/-- The assignment that a run of the AIG (initial latch values `init0`, input stimulus `inp`)
gives to the solver variables: the variable `shift (c, t)` of the node with compact variable
`c` has the value of that node in cycle `t`. -/
def runAssign (m : aiger) (s : St) (init0 : Nat → Bool) (inp : Nat → Nat → Bool) :
    Nat → Bool := fun x =>
  if x = 0 ∨ s.maxvar = 0 then false
  else
    match nodeOfVar m s ((x - 1) % s.maxvar + 1) with
    | some n =>
      evalVar m (inp ((x - 1) / s.maxvar)) (simLatch m init0 inp ((x - 1) / s.maxvar))
        (m.maxvar + 1) n
    | none => false

/-- The initial latch values respect the resets: a latch with reset `0` starts at `0`, a
latch with reset `1` starts at `1`, the others start anywhere. -/
def ValidInit (m : aiger) (init0 : Nat → Bool) : Prop :=
  ∀ l ∈ m.latches, (l.reset = aiger_false → init0 (l.lit / 2) = false) ∧
    (l.reset = aiger_true → init0 (l.lit / 2) = true)

/-- The run that starts every latch with reset `1` at `1` and every other latch at `0`. -/
def resetInit (m : aiger) : Nat → Bool := fun v =>
  match aiger_is_latch m (2 * v) with
  | some l => decide (l.reset = aiger_true)
  | none => false

/-- The setting of the completeness argument: a well-formed model, the result of `travcoi`
on it, and the stored clauses taken as the clauses of `logic`. -/
structure RunSetup (m : aiger) (fl : Flags) (o : Oracle) (t : Trav) : Prop where
  wf : WellFormed m
  trav : travcoi m coiZero = some t
  plain : fl.use_cadical = true ∨ PlainTravall o

/-- A property of a solver instance that adding literals, freezing and melting keep. -/
structure LglKeeps (Q : Solver → Prop) : Prop where
  add : ∀ L l, Q L → Q (lgladd L l)
  melt : ∀ L l, Q L → Q (lglmelt L l)
  freeze : ∀ L l, Q L → Q (lglfreeze L l)

/-! ## Facts about well-formed models -/

theorem aiger_strip_eq (l : Nat) : aiger_strip l = 2 * (l / 2) := by
  unfold aiger_strip; omega

theorem mem_defined_input {m : aiger} {i : aiger_symbol} (h : i ∈ m.inputs) :
    i.lit ∈ defined m := by
  unfold defined
  simp only [List.mem_append, List.mem_map]
  exact Or.inl (Or.inl ⟨i, h, rfl⟩)

theorem mem_defined_latch {m : aiger} {l : aiger_symbol} (h : l ∈ m.latches) :
    l.lit ∈ defined m := by
  unfold defined
  simp only [List.mem_append, List.mem_map]
  exact Or.inl (Or.inr ⟨l, h, rfl⟩)

theorem mem_defined_and {m : aiger} {a : aiger_and} (h : a ∈ m.ands) :
    a.lhs ∈ defined m := by
  unfold defined
  simp only [List.mem_append, List.mem_map]
  exact Or.inr ⟨a, h, rfl⟩

theorem mem_referenced_next {m : aiger} {l : aiger_symbol} (h : l ∈ m.latches) :
    l.next ∈ referenced m := by
  unfold referenced
  simp only [List.mem_append, List.mem_map]
  exact Or.inl (Or.inl (Or.inr ⟨l, h, rfl⟩))

theorem mem_referenced_rhs0 {m : aiger} {a : aiger_and} (h : a ∈ m.ands) :
    a.rhs0 ∈ referenced m := by
  unfold referenced
  simp only [List.mem_append, List.mem_map]
  exact Or.inl (Or.inr ⟨a, h, rfl⟩)

theorem mem_referenced_rhs1 {m : aiger} {a : aiger_and} (h : a ∈ m.ands) :
    a.rhs1 ∈ referenced m := by
  unfold referenced
  simp only [List.mem_append, List.mem_map]
  exact Or.inr ⟨a, h, rfl⟩

theorem aigbad_mem_referenced {m : aiger} (h : num_bad m = 1) :
    aigbad m 0 ∈ referenced m := by
  unfold referenced aigbad
  unfold num_bad at h
  simp only [List.mem_append, List.mem_map]
  refine Or.inl (Or.inl (Or.inl ?_))
  cases hb : badsyms m with
  | nil => rw [hb] at h; simp at h
  | cons x xs => exact ⟨x, by simp, by simp⟩

namespace WellFormed

variable {m : aiger}

theorem input_ne_latch (h : WellFormed m) {i l : aiger_symbol} (hi : i ∈ m.inputs)
    (hl : l ∈ m.latches) : i.lit ≠ l.lit := by
  have hn := h.def_nodup
  unfold defined at hn
  have h1 := (List.nodup_append.mp (List.Nodup.of_append_left hn)).2.2
  intro he
  exact h1 (List.mem_map.mpr ⟨i, hi, rfl⟩) (List.mem_map.mpr ⟨l, hl, he.symm⟩)

theorem input_ne_and (h : WellFormed m) {i : aiger_symbol} {a : aiger_and}
    (hi : i ∈ m.inputs) (ha : a ∈ m.ands) : i.lit ≠ a.lhs := by
  have hn := h.def_nodup
  unfold defined at hn
  have h1 := (List.nodup_append.mp hn).2.2
  intro he
  refine h1 (List.mem_append.mpr (Or.inl (List.mem_map.mpr ⟨i, hi, rfl⟩)))
    (List.mem_map.mpr ⟨a, ha, he.symm⟩)

theorem latch_ne_and (h : WellFormed m) {l : aiger_symbol} {a : aiger_and}
    (hl : l ∈ m.latches) (ha : a ∈ m.ands) : l.lit ≠ a.lhs := by
  have hn := h.def_nodup
  unfold defined at hn
  have h1 := (List.nodup_append.mp hn).2.2
  intro he
  refine h1 (List.mem_append.mpr (Or.inr (List.mem_map.mpr ⟨l, hl, rfl⟩)))
    (List.mem_map.mpr ⟨a, ha, he.symm⟩)

theorem input_inj (h : WellFormed m) {i j : aiger_symbol} (hi : i ∈ m.inputs)
    (hj : j ∈ m.inputs) (he : i.lit = j.lit) : i = j := by
  have hn := h.def_nodup
  unfold defined at hn
  have h1 := List.Nodup.of_append_left (List.Nodup.of_append_left hn)
  exact List.inj_on_of_nodup_map h1 hi hj he

theorem latch_inj (h : WellFormed m) {i j : aiger_symbol} (hi : i ∈ m.latches)
    (hj : j ∈ m.latches) (he : i.lit = j.lit) : i = j := by
  have hn := h.def_nodup
  unfold defined at hn
  have h1 := List.Nodup.of_append_right (List.Nodup.of_append_left hn)
  exact List.inj_on_of_nodup_map h1 hi hj he

theorem and_inj (h : WellFormed m) {a b : aiger_and} (ha : a ∈ m.ands)
    (hb : b ∈ m.ands) (he : a.lhs = b.lhs) : a = b := by
  have hn := h.def_nodup
  unfold defined at hn
  have h1 := List.Nodup.of_append_right hn
  exact List.inj_on_of_nodup_map h1 ha hb he

theorem input_lit (h : WellFormed m) {i : aiger_symbol} (hi : i ∈ m.inputs) :
    i.lit = 2 * (i.lit / 2) ∧ 1 ≤ i.lit / 2 ∧ i.lit / 2 ≤ m.maxvar := by
  have := h.def_ok _ (mem_defined_input hi)
  omega

theorem latch_lit (h : WellFormed m) {l : aiger_symbol} (hl : l ∈ m.latches) :
    l.lit = 2 * (l.lit / 2) ∧ 1 ≤ l.lit / 2 ∧ l.lit / 2 ≤ m.maxvar := by
  have := h.def_ok _ (mem_defined_latch hl)
  omega

theorem and_lit (h : WellFormed m) {a : aiger_and} (ha : a ∈ m.ands) :
    a.lhs = 2 * (a.lhs / 2) ∧ 1 ≤ a.lhs / 2 ∧ a.lhs / 2 ≤ m.maxvar := by
  have := h.def_ok _ (mem_defined_and ha)
  omega

end WellFormed

theorem is_input_some {m : aiger} {x : Nat} {i : aiger_symbol}
    (h : aiger_is_input m x = some i) : i ∈ m.inputs ∧ i.lit = x := by
  unfold aiger_is_input at h
  exact ⟨List.mem_of_find?_eq_some h, by simpa using List.find?_some h⟩

theorem is_latch_some {m : aiger} {x : Nat} {l : aiger_symbol}
    (h : aiger_is_latch m x = some l) : l ∈ m.latches ∧ l.lit = x := by
  unfold aiger_is_latch at h
  exact ⟨List.mem_of_find?_eq_some h, by simpa using List.find?_some h⟩

theorem is_and_some {m : aiger} {x : Nat} {a : aiger_and}
    (h : aiger_is_and m x = some a) : a ∈ m.ands ∧ a.lhs = x := by
  unfold aiger_is_and at h
  exact ⟨List.mem_of_find?_eq_some h, by simpa using List.find?_some h⟩

theorem is_input_none {m : aiger} {x : Nat} (h : aiger_is_input m x = none) :
    ∀ i ∈ m.inputs, i.lit ≠ x := by
  unfold aiger_is_input at h
  simpa using h

theorem is_latch_none {m : aiger} {x : Nat} (h : aiger_is_latch m x = none) :
    ∀ l ∈ m.latches, l.lit ≠ x := by
  unfold aiger_is_latch at h
  simpa using h

theorem is_and_none {m : aiger} {x : Nat} (h : aiger_is_and m x = none) :
    ∀ a ∈ m.ands, a.lhs ≠ x := by
  unfold aiger_is_and at h
  simpa using h

theorem is_latch_of_mem {m : aiger} (h : WellFormed m) {l : aiger_symbol}
    (hl : l ∈ m.latches) : aiger_is_latch m l.lit = some l := by
  cases hf : aiger_is_latch m l.lit with
  | none => exact absurd rfl (is_latch_none hf l hl)
  | some l' =>
    obtain ⟨h1, h2⟩ := is_latch_some hf
    rw [h.latch_inj h1 hl h2]

theorem is_and_of_mem {m : aiger} (h : WellFormed m) {a : aiger_and}
    (ha : a ∈ m.ands) : aiger_is_and m a.lhs = some a := by
  cases hf : aiger_is_and m a.lhs with
  | none => exact absurd rfl (is_and_none hf a ha)
  | some a' =>
    obtain ⟨h1, h2⟩ := is_and_some hf
    rw [h.and_inj h1 ha h2]

theorem is_input_of_mem {m : aiger} (h : WellFormed m) {i : aiger_symbol}
    (hi : i ∈ m.inputs) : aiger_is_input m i.lit = some i := by
  cases hf : aiger_is_input m i.lit with
  | none => exact absurd rfl (is_input_none hf i hi)
  | some i' =>
    obtain ⟨h1, h2⟩ := is_input_some hf
    rw [h.input_inj h1 hi h2]

/-! ## The cone of influence traversal -/

theorem travPush_pos (s : Trav) (lit : Nat) (h0 : s.coi (aiger_lit2var lit) = 0) :
    travPush s lit =
      { s with stack := Function.update s.stack s.top lit, top := s.top + 1,
               coi := Function.update s.coi (aiger_lit2var lit) (s.top + 1) } := by
  unfold travPush; simp [h0]

theorem travPush_neg (s : Trav) (lit : Nat) (h0 : s.coi (aiger_lit2var lit) ≠ 0) :
    travPush s lit = s := by
  unfold travPush; simp [h0]

theorem travPush_next (s : Trav) (lit : Nat) : (travPush s lit).next = s.next := by
  by_cases h0 : s.coi (aiger_lit2var lit) = 0
  · rw [travPush_pos s lit h0]
  · rw [travPush_neg s lit h0]

theorem travPush_lit (s : Trav) (lit : Nat) : (travPush s lit).lit = s.lit := by
  by_cases h0 : s.coi (aiger_lit2var lit) = 0
  · rw [travPush_pos s lit h0]
  · rw [travPush_neg s lit h0]

theorem travPush_top_le (s : Trav) (lit : Nat) : s.top ≤ (travPush s lit).top := by
  by_cases h0 : s.coi (aiger_lit2var lit) = 0
  · rw [travPush_pos s lit h0]; simp
  · rw [travPush_neg s lit h0]

theorem travPush_keep (s : Trav) (lit : Nat) {v : Nat} (hv : s.coi v ≠ 0) :
    (travPush s lit).coi v = s.coi v := by
  by_cases h0 : s.coi (aiger_lit2var lit) = 0
  · rw [travPush_pos s lit h0]
    have : v ≠ aiger_lit2var lit := fun e => hv (e ▸ h0)
    simp [Function.update, this]
  · rw [travPush_neg s lit h0]

theorem travPush_marks (s : Trav) (lit : Nat) :
    (travPush s lit).coi (aiger_lit2var lit) ≠ 0 := by
  by_cases h0 : s.coi (aiger_lit2var lit) = 0
  · rw [travPush_pos s lit h0]; simp
  · rw [travPush_neg s lit h0]; exact h0

theorem travPush_new (s : Trav) (lit : Nat) {v : Nat} (hv : s.coi v = 0)
    (hv1 : (travPush s lit).coi v ≠ 0) : (travPush s lit).coi v = s.top + 1 := by
  by_cases h0 : s.coi (aiger_lit2var lit) = 0
  · rw [travPush_pos s lit h0] at hv1 ⊢
    by_cases e : v = aiger_lit2var lit
    · simp [Function.update, e]
    · simp [Function.update, e, hv] at hv1
  · rw [travPush_neg s lit h0] at hv1
    exact absurd hv hv1

theorem travPush_mono (s : Trav) (lit : Nat) {v : Nat} (hv : s.coi v ≠ 0) :
    (travPush s lit).coi v ≠ 0 := by
  rw [travPush_keep s lit hv]; exact hv

theorem ClosedAt.mono {m : aiger} {c c1 : Nat → Nat} {n : Nat} (h : ClosedAt m c n)
    (hm : ∀ v, c v ≠ 0 → c1 v ≠ 0) : ClosedAt m c1 n :=
  ⟨fun l hl e => hm _ (h.1 l hl e), fun a ha e => ⟨hm _ (h.2 a ha e).1, hm _ (h.2 a ha e).2⟩⟩

theorem travPush_core {m : aiger} {s : Trav} (h : TravCore m s) {lit : Nat}
    (hl : lit ≤ 2 * m.maxvar + 1) : TravCore m (travPush s lit) := by
  by_cases h0 : s.coi (aiger_lit2var lit) = 0
  · rw [travPush_pos s lit h0]
    refine ⟨h.next_pos, Nat.le_succ_of_le h.next_le, ?_, ?_, ?_, ?_, ?_, ?_, ?_⟩
    · intro j hj1 hj2
      simp only at hj1 hj2 ⊢
      by_cases ej : j = s.top
      · subst ej; simp [Function.update]
      · have hlt : j < s.top := by omega
        have hs := h.stk j hj1 hlt
        have hne : aiger_lit2var (s.stack j) ≠ aiger_lit2var lit := by
          intro e'; rw [e', h0] at hs; omega
        simp [Function.update, ej, hne, hs]
    · intro v
      simp only [Function.update]
      split
      · simp
      · exact Nat.le_succ_of_le (h.le_top v)
    · intro v hv
      simp only [Function.update] at hv
      split at hv
      · next e' => subst e'; unfold aiger_lit2var; omega
      · exact h.bound v hv
    · intro u v hu huv
      simp only [Function.update] at hu huv
      have hlu := h.le_top u
      have hlv := h.le_top v
      split at huv <;> split at huv
      · next e1 e2 => rw [e1, e2]
      · next e1 e2 => simp at huv; omega
      · next e1 e2 => simp at huv; omega
      · next e1 e2 =>
        simp [e1] at hu
        exact h.inj u v hu huv
    · intro j hj1 hj2
      simp only at hj2 ⊢
      by_cases ej : j = s.top + 1
      · exact ⟨aiger_lit2var lit, by simp [Function.update, ej]⟩
      · obtain ⟨v, hv⟩ := h.surj j hj1 (by omega)
        refine ⟨v, ?_⟩
        have : v ≠ aiger_lit2var lit := by
          intro e'; rw [e', h0] at hv; omega
        simp [Function.update, this, hv]
    · have := h.badm
      simp only [Function.update]
      split
      · simp
      · exact this
    · have hc := h.cur
      have hp := h.next_pos
      have : aiger_lit2var s.lit ≠ aiger_lit2var lit := by
        intro e'; rw [e', h0] at hc; omega
      simp [Function.update, this, hc]
  · rw [travPush_neg s lit h0]; exact h

theorem TravCore.congr {m : aiger} {s s1 : Trav} (h : TravCore m s) (hc : s1.coi = s.coi)
    (hs : s1.stack = s.stack) (ht : s1.top = s.top) (hn : s1.next = s.next)
    (hl : s1.lit = s.lit) : TravCore m s1 := by
  refine ⟨?_, ?_, ?_, ?_, ?_, ?_, ?_, ?_, ?_⟩
  · rw [hn]; exact h.next_pos
  · rw [hn, ht]; exact h.next_le
  · rw [hn, ht, hc, hs]; exact h.stk
  · rw [hc, ht]; exact h.le_top
  · rw [hc]; exact h.bound
  · rw [hc]; exact h.inj
  · rw [hc, ht]; exact h.surj
  · rw [hc]; exact h.badm
  · rw [hc, hl, hn]; exact h.cur

theorem TravCore.top_le {m : aiger} {s : Trav} (h : TravCore m s) : s.top ≤ m.maxvar + 1 := by
  classical
  have hsub : Finset.Icc 1 s.top ⊆
      ((Finset.range (m.maxvar + 1)).filter (fun v => s.coi v ≠ 0)).image s.coi := by
    intro j hj
    rw [Finset.mem_Icc] at hj
    obtain ⟨v, hv⟩ := h.surj j hj.1 hj.2
    rw [Finset.mem_image]
    refine ⟨v, ?_, hv⟩
    rw [Finset.mem_filter, Finset.mem_range]
    have hv0 : s.coi v ≠ 0 := by omega
    exact ⟨Nat.lt_succ_of_le (h.bound v hv0), hv0⟩
  have h1 := Finset.card_le_card hsub
  have h2 : (((Finset.range (m.maxvar + 1)).filter (fun v => s.coi v ≠ 0)).image s.coi).card ≤
      ((Finset.range (m.maxvar + 1)).filter (fun v => s.coi v ≠ 0)).card := Finset.card_image_le
  have h3 : ((Finset.range (m.maxvar + 1)).filter (fun v => s.coi v ≠ 0)).card ≤
      (Finset.range (m.maxvar + 1)).card := Finset.card_filter_le _ _
  rw [Nat.card_Icc] at h1
  rw [Finset.card_range] at h3
  omega

theorem closedBelow_step {m : aiger} {s s1 : Trav} (hcore : TravCore m s)
    (hcore1 : TravCore m s1) (hnext : s1.next = s.next) (hlit : s1.lit = s.lit)
    (hkeep : ∀ v, s.coi v ≠ 0 → s1.coi v = s.coi v) (hcb : ClosedBelow m s s.next)
    (hcur : ClosedAt m s1.coi (aiger_lit2var s.lit)) : ClosedBelow m s1 (s.next + 1) := by
  intro n hn0 hn1
  by_cases e : s1.coi n = s.next
  · have hc := hcore1.cur
    rw [hlit, hnext] at hc
    have : n = aiger_lit2var s.lit := hcore1.inj _ _ hn0 (e.trans hc.symm)
    rw [this]; exact hcur
  · have hlt : s1.coi n < s.next := by omega
    obtain ⟨v, hv⟩ := hcore.surj (s1.coi n) (by omega) (by have := hcore.next_le; omega)
    have hv0 : s.coi v ≠ 0 := by omega
    have hv1 : s1.coi v = s1.coi n := by rw [hkeep v hv0, hv]
    have hvn : v = n := hcore1.inj v n (by omega) hv1
    subst hvn
    have hcl := hcb v hv0 (by omega)
    refine hcl.mono ?_
    intro w hw
    rw [hkeep w hw]; exact hw

theorem travBody_spec {m : aiger} (hwf : WellFormed m) {s : Trav} (hcore : TravCore m s)
    (hcb : ClosedBelow m s s.next) :
    TravCore m (travBody m s) ∧ ClosedBelow m (travBody m s) (s.next + 1) ∧
      (travBody m s).next = s.next := by
  have hstrip : aiger_strip s.lit = 2 * aiger_lit2var s.lit := aiger_strip_eq s.lit
  unfold travBody
  simp only
  split
  · next hin =>
    obtain ⟨i, hi⟩ := Option.isSome_iff_exists.mp hin
    obtain ⟨hi1, hi2⟩ := is_input_some hi
    have hc1 : TravCore m { s with inputs := s.inputs + 1 } := hcore.congr rfl rfl rfl rfl rfl
    refine ⟨hc1, ?_, rfl⟩
    refine closedBelow_step hcore hc1 rfl rfl (fun _ _ => rfl) hcb ?_
    constructor
    · intro l hl e
      exfalso
      have := (hwf.latch_lit hl).1
      apply hwf.input_ne_latch hi1 hl
      rw [hi2, hstrip, this]
      unfold aiger_lit2var at e ⊢
      omega
    · intro a ha e
      exfalso
      have := (hwf.and_lit ha).1
      apply hwf.input_ne_and hi1 ha
      rw [hi2, hstrip, this]
      unfold aiger_lit2var at e ⊢
      omega
  · next hin =>
    split
    · next l hl =>
      obtain ⟨hl1, hl2⟩ := is_latch_some hl
      have hc0 : TravCore m { s with latches := s.latches + 1 } :=
        hcore.congr rfl rfl rfl rfl rfl
      have hc1 := travPush_core hc0 (hwf.ref_le _ (mem_referenced_next hl1))
      refine ⟨hc1, ?_, travPush_next _ _⟩
      refine closedBelow_step hcore hc1 (travPush_next _ _) (travPush_lit _ _)
        (fun v hv => travPush_keep _ _ hv) hcb ?_
      constructor
      · intro l1 hl1m e
        have h1 := (hwf.latch_lit hl1m).1
        have : l1 = l := by
          apply hwf.latch_inj hl1m hl1
          rw [hl2, hstrip, h1]
          unfold aiger_lit2var at e ⊢
          omega
        rw [this]
        exact travPush_marks _ _
      · intro a ha e
        exfalso
        have := (hwf.and_lit ha).1
        apply hwf.latch_ne_and hl1 ha
        rw [hl2, hstrip, this]
        unfold aiger_lit2var at e ⊢
        omega
    · next hla =>
      split
      · next a ha =>
        obtain ⟨ha1, ha2⟩ := is_and_some ha
        have hc0 : TravCore m { s with ands := s.ands + 1 } :=
          hcore.congr rfl rfl rfl rfl rfl
        have hc1 := travPush_core hc0 (hwf.ref_le _ (mem_referenced_rhs0 ha1))
        have hc2 := travPush_core hc1 (hwf.ref_le _ (mem_referenced_rhs1 ha1))
        refine ⟨hc2, ?_, ?_⟩
        · refine closedBelow_step hcore hc2 ?_ ?_ ?_ hcb ?_
          · rw [travPush_next, travPush_next]
          · rw [travPush_lit, travPush_lit]
          · intro v hv
            have h1 : (travPush { s with ands := s.ands + 1 } a.rhs0).coi v = s.coi v :=
              travPush_keep _ _ hv
            rw [travPush_keep _ _ (by rw [h1]; exact hv), h1]
          · constructor
            · intro l hl e
              exfalso
              have := (hwf.latch_lit hl).1
              apply is_latch_none hla l hl
              rw [hstrip, this]
              unfold aiger_lit2var at e ⊢
              omega
            · intro a1 ha1m e
              have h1 := (hwf.and_lit ha1m).1
              have : a1 = a := by
                apply hwf.and_inj ha1m ha1
                rw [ha2, hstrip, h1]
                unfold aiger_lit2var at e ⊢
                omega
              rw [this]
              exact ⟨travPush_mono _ _ (travPush_marks _ _), travPush_marks _ _⟩
        · rw [travPush_next, travPush_next]
      · next hand =>
        have hc1 : TravCore m { s with constants := s.constants + 1 } :=
          hcore.congr rfl rfl rfl rfl rfl
        refine ⟨hc1, ?_, rfl⟩
        refine closedBelow_step hcore hc1 rfl rfl (fun _ _ => rfl) hcb ?_
        constructor
        · intro l hl e
          exfalso
          have := (hwf.latch_lit hl).1
          apply is_latch_none hla l hl
          rw [hstrip, this]
          unfold aiger_lit2var at e ⊢
          omega
        · intro a ha e
          exfalso
          have := (hwf.and_lit ha).1
          apply is_and_none hand a ha
          rw [hstrip, this]
          unfold aiger_lit2var at e ⊢
          omega

theorem travLoop_spec {m : aiger} (hwf : WellFormed m) :
    ∀ (fuel : Nat) (s : Trav), TravCore m s → ClosedBelow m s s.next →
      m.maxvar + 1 - s.next < fuel →
      ∃ t, travLoop m fuel s = some t ∧ TravCore m t ∧ ClosedBelow m t (t.top + 1) := by
  intro fuel
  induction fuel with
  | zero => intro s _ _ h; omega
  | succ f ih =>
    intro s hcore hcb hf
    obtain ⟨h1, h2, h3⟩ := travBody_spec hwf hcore hcb
    unfold travLoop
    simp only
    split
    · next e =>
      refine ⟨_, rfl, h1, ?_⟩
      rw [← e, h3]; exact h2
    · next e =>
      have htop := h1.top_le
      have hle := h1.next_le
      have hlt : (travBody m s).next < (travBody m s).top := by omega
      apply ih
      · refine ⟨?_, ?_, ?_, h1.le_top, h1.bound, h1.inj, h1.surj, h1.badm, ?_⟩
        · simp only; omega
        · simp only; omega
        · intro j hj1 hj2
          simp only at hj1 hj2 ⊢
          exact h1.stk j (by omega) hj2
        · simp only
          exact h1.stk _ (Nat.le_refl _) hlt
      · simp only
        rw [h3]; exact h2
      · simp only
        rw [h3] at hlt ⊢
        omega

theorem travInit_core {m : aiger} (hwf : WellFormed m) :
    TravCore m (travInit m coiZero) ∧
      ClosedBelow m (travInit m coiZero) (travInit m coiZero).next := by
  have hb := hwf.ref_le _ (aigbad_mem_referenced hwf.one_bad)
  have hcoi : ∀ v, (travInit m coiZero).coi v =
      if v = aiger_lit2var (aigbad m 0) then 1 else 0 := by
    intro v
    simp [travInit, Function.update_apply, coiZero]
  have hnext : (travInit m coiZero).next = 1 := rfl
  have htop : (travInit m coiZero).top = 1 := rfl
  constructor
  · refine ⟨by rw [hnext], by rw [hnext, htop], ?_, ?_, ?_, ?_, ?_, ?_, ?_⟩
    · intro j h1 h2
      rw [hnext] at h1
      rw [htop] at h2
      omega
    · intro v
      rw [hcoi, htop]
      split <;> simp
    · intro v hv
      rw [hcoi] at hv
      split at hv
      · next e => rw [e]; unfold aiger_lit2var; omega
      · simp at hv
    · intro u v hu huv
      rw [hcoi] at hu huv
      rw [hcoi] at huv
      by_cases e1 : u = aiger_lit2var (aigbad m 0)
      · by_cases e2 : v = aiger_lit2var (aigbad m 0)
        · rw [e1, e2]
        · simp [e1, e2] at huv
      · simp [e1] at hu
    · intro j h1 h2
      rw [htop] at h2
      exact ⟨aiger_lit2var (aigbad m 0), by rw [hcoi]; simp; omega⟩
    · rw [hcoi]; simp
    · rw [hcoi, hnext]; simp [travInit]
  · intro n hn0 hn1
    rw [hnext] at hn1
    omega

theorem travcoi_spec {m : aiger} (hwf : WellFormed m) :
    ∃ t, travcoi m coiZero = some t ∧ TravCore m t ∧ CoiClosed m t.coi := by
  obtain ⟨h1, h2⟩ := travInit_core hwf
  have hf : m.maxvar + 1 - (travInit m coiZero).next < m.maxvar + 1 := by
    have : (travInit m coiZero).next = 1 := rfl
    omega
  obtain ⟨t, ht, hc, hcl⟩ := travLoop_spec hwf (m.maxvar + 1) _ h1 h2 hf
  refine ⟨t, ht, hc, ?_⟩
  intro n hn
  exact hcl n hn (Nat.lt_succ_of_le (hc.le_top n))

theorem exCounter_wf : WellFormed exCounter := by
  refine ⟨by decide, by decide, by decide, by decide, by decide, by decide, ?_⟩
  exact ⟨fun v => min v 1, fun v => Nat.min_le_right v 1, by decide⟩

theorem exGate_wf : WellFormed exGate := by
  refine ⟨by decide, by decide, by decide, by decide, by decide, by decide, ?_⟩
  exact ⟨fun v => min v 4, fun v => Nat.min_le_right v 4, by decide⟩

/-- C2 (COI closure): on a well-formed model `travcoi` returns, and in the mark array it
leaves, every marked latch has the node of its next-state literal marked, every marked
and-gate has the nodes of both inputs marked, and the node of the bad literal is marked. -/
theorem travcoi_closure (m : aiger) (hwf : WellFormed m) :
    ∃ t, travcoi m coiZero = some t ∧
      (∀ n, t.coi n ≠ 0 →
        (∀ l ∈ m.latches, aiger_lit2var l.lit = n → t.coi (aiger_lit2var l.next) ≠ 0) ∧
        (∀ a ∈ m.ands, aiger_lit2var a.lhs = n →
          t.coi (aiger_lit2var a.rhs0) ≠ 0 ∧ t.coi (aiger_lit2var a.rhs1) ≠ 0)) ∧
      t.coi (aiger_lit2var (aigbad m 0)) ≠ 0 := by
  obtain ⟨t, ht, hc, hcl⟩ := travcoi_spec hwf
  exact ⟨t, ht, hcl, hc.badm⟩

/-- Witness for C2 on the model with a latch fed by an and-gate. -/
theorem travcoi_closure_witness :
    WellFormed exGate ∧ ∃ t, travcoi exGate coiZero = some t ∧
      (∀ n, t.coi n ≠ 0 →
        (∀ l ∈ exGate.latches, aiger_lit2var l.lit = n → t.coi (aiger_lit2var l.next) ≠ 0) ∧
        (∀ a ∈ exGate.ands, aiger_lit2var a.lhs = n →
          t.coi (aiger_lit2var a.rhs0) ≠ 0 ∧ t.coi (aiger_lit2var a.rhs1) ≠ 0)) ∧
      t.coi (aiger_lit2var (aigbad exGate 0)) ≠ 0 :=
  ⟨exGate_wf, travcoi_closure exGate exGate_wf⟩

/-! ## The shift of literals -/

theorem shift_neg (s : St) {l : Int} (h : l < 0) (t : Nat) :
    shift s l t = -((l.natAbs + t * s.maxvar : Nat) : Int) := by
  unfold shift; simp [h]

theorem shift_nonneg (s : St) {l : Int} (h : ¬ l < 0) (t : Nat) :
    shift s l t = ((l.natAbs + t * s.maxvar : Nat) : Int) := by
  unfold shift; simp [h]

theorem shift_natAbs (s : St) (l : Int) (t : Nat) :
    (shift s l t).natAbs = l.natAbs + t * s.maxvar := by
  by_cases h : l < 0
  · rw [shift_neg s h, Int.natAbs_neg, Int.natAbs_ofNat]
  · rw [shift_nonneg s h, Int.natAbs_ofNat]

theorem shift_lt_zero (s : St) {l : Int} (t : Nat) (h0 : l ≠ 0) :
    shift s l t < 0 ↔ l < 0 := by
  by_cases h : l < 0
  · rw [shift_neg s h]
    simp only [h, iff_true]
    have : 0 < l.natAbs := Int.natAbs_pos.mpr h0
    omega
  · rw [shift_nonneg s h]
    simp only [h, iff_false]
    omega

theorem shift_ne_zero (s : St) {l : Int} (t : Nat) (h0 : l ≠ 0) : shift s l t ≠ 0 := by
  intro e
  have := shift_natAbs s l t
  rw [e] at this
  have : 0 < l.natAbs := Int.natAbs_pos.mpr h0
  simp at *
  omega

theorem slot_unique {V a b t u : Nat} (ha : 1 ≤ a) (haV : a ≤ V) (hb : 1 ≤ b) (hbV : b ≤ V)
    (h : a + t * V = b + u * V) : a = b ∧ t = u := by
  rcases Nat.lt_trichotomy t u with hlt | heq | hgt
  · have := Nat.mul_le_mul_right V (Nat.succ_le_of_lt hlt)
    rw [Nat.succ_mul] at this
    omega
  · subst heq; omega
  · have := Nat.mul_le_mul_right V (Nat.succ_le_of_lt hgt)
    rw [Nat.succ_mul] at this
    omega

theorem shift_inj (s : St) {l1 l2 : Int} {t1 t2 : Nat}
    (h1 : 1 ≤ l1.natAbs ∧ l1.natAbs ≤ s.maxvar) (h2 : 1 ≤ l2.natAbs ∧ l2.natAbs ≤ s.maxvar)
    (h : shift s l1 t1 = shift s l2 t2) : l1 = l2 ∧ t1 = t2 := by
  have hn1 : l1 ≠ 0 := by intro e; rw [e] at h1; simp at h1
  have hn2 : l2 ≠ 0 := by intro e; rw [e] at h2; simp at h2
  have habs : (shift s l1 t1).natAbs = (shift s l2 t2).natAbs := by rw [h]
  rw [shift_natAbs, shift_natAbs] at habs
  obtain ⟨e1, e2⟩ := slot_unique h1.1 h1.2 h2.1 h2.2 habs
  refine ⟨?_, e2⟩
  have hs : shift s l1 t1 < 0 ↔ shift s l2 t2 < 0 := by rw [h]
  rw [shift_lt_zero s t1 hn1, shift_lt_zero s t2 hn2] at hs
  omega

/-- C4 (shift is alias free): with `V = maxvar ≥ 1`, for literals with absolute value in
`[1, V]` the shifted literal is `sign l * (|l| + t * V)`; two shifted literals are equal
exactly when the literals and the times are equal; the copies of one literal at different
times differ; and the shifted variable lies in `[t * V + 1, (t + 1) * V]`. -/
theorem shift_alias_free (s : St) (l1 l2 : Int) (t1 t2 : Nat)
    (h1 : 1 ≤ l1.natAbs ∧ l1.natAbs ≤ s.maxvar)
    (h2 : 1 ≤ l2.natAbs ∧ l2.natAbs ≤ s.maxvar) :
    shift s l1 t1 = Int.sign l1 * ((l1.natAbs : Int) + (t1 : Int) * (s.maxvar : Int)) ∧
    (shift s l1 t1 = shift s l2 t2 ↔ l1 = l2 ∧ t1 = t2) ∧
    (t1 ≠ t2 → shift s l1 t1 ≠ shift s l1 t2) ∧
    (t1 * s.maxvar + 1 ≤ (shift s l1 t1).natAbs ∧
      (shift s l1 t1).natAbs ≤ (t1 + 1) * s.maxvar) := by
  refine ⟨?_, ?_, ?_, ?_⟩
  · by_cases h : l1 < 0
    · rw [shift_neg s h, Int.sign_eq_neg_one_of_neg h]
      push_cast; ring
    · have hn1 : l1 ≠ 0 := by intro e; rw [e] at h1; simp at h1
      have hp : 0 < l1 := by omega
      rw [shift_nonneg s h, Int.sign_eq_one_of_pos hp]
      push_cast; ring
  · constructor
    · exact shift_inj s h1 h2
    · rintro ⟨e1, e2⟩; rw [e1, e2]
  · intro hne e
    exact hne (shift_inj s h1 h1 e).2
  · rw [shift_natAbs, Nat.succ_mul]
    omega

/-- Witness for C4 with `maxvar = 3`, literals `-2` and `3`, times `1` and `4`. -/
theorem shift_alias_free_witness :
    (1 ≤ (-2 : Int).natAbs ∧ (-2 : Int).natAbs ≤ exSt3.maxvar) ∧
    (1 ≤ (3 : Int).natAbs ∧ (3 : Int).natAbs ≤ exSt3.maxvar) ∧
    shift exSt3 (-2) 1 =
      Int.sign (-2) * (((-2 : Int).natAbs : Int) + ((1 : Nat) : Int) * (exSt3.maxvar : Int)) ∧
    (shift exSt3 (-2) 1 = shift exSt3 3 4 ↔ (-2 : Int) = 3 ∧ 1 = 4) ∧
    (1 ≠ 4 → shift exSt3 (-2) 1 ≠ shift exSt3 (-2) 4) ∧
    (1 * exSt3.maxvar + 1 ≤ (shift exSt3 (-2) 1).natAbs ∧
      (shift exSt3 (-2) 1).natAbs ≤ (1 + 1) * exSt3.maxvar) :=
  ⟨by decide, by decide, shift_alias_free exSt3 (-2) 3 1 4 (by decide) (by decide)⟩

/-! ## The BMC loop and the verdict -/

theorem bmcLoop_spec (m : aiger) (fl : Flags) (o : Oracle) (s0 : St) :
    ∀ (fuel k : Nat) (res : Int), fuel + k = fl.maxk + 1 → 0 < fuel →
      (((bmcLoop m fl o fuel
          { st := passState m fl s0 k, res := res, k := k,
            out := (List.range k).map uLine }).res = 10 →
        ∃ j, k ≤ j ∧ j ≤ fl.maxk ∧ answer m fl o s0 j = 10 ∧
          (∀ i, k ≤ i → i < j → answer m fl o s0 i ≠ 10) ∧
          (j = k ∨ m.latches.length ≠ 0) ∧
          bmcLoop m fl o fuel
            { st := passState m fl s0 k, res := res, k := k,
              out := (List.range k).map uLine } =
          { st := (bad m (shiftcnf m (passState m fl s0 j) j) j).solved, res := 10, k := j,
            out := (List.range j).map uLine }) ∧
      ((bmcLoop m fl o fuel
          { st := passState m fl s0 k, res := res, k := k,
            out := (List.range k).map uLine }).res ≠ 10 →
        (m.latches.length = 0 →
          answer m fl o s0 k ≠ 10 ∧
          bmcLoop m fl o fuel
            { st := passState m fl s0 k, res := res, k := k,
              out := (List.range k).map uLine } =
          { st := (bad m (shiftcnf m (passState m fl s0 k) k) k).solved,
            res := answer m fl o s0 k, k := k, out := (List.range (k + 1)).map uLine }) ∧
        (m.latches.length ≠ 0 →
          (∀ i, k ≤ i → i ≤ fl.maxk → answer m fl o s0 i ≠ 10) ∧
          bmcLoop m fl o fuel
            { st := passState m fl s0 k, res := res, k := k,
              out := (List.range k).map uLine } =
          { st := passState m fl s0 (fl.maxk + 1), res := answer m fl o s0 fl.maxk,
            k := fl.maxk + 1, out := (List.range (fl.maxk + 1)).map uLine }))) := by
  intro fuel
  induction fuel with
  | zero => intro k res _ h; omega
  | succ n ih =>
    intro k res hk _
    have hout : (List.range k).map uLine ++ [uLine k] = (List.range (k + 1)).map uLine := by
      rw [List.range_succ, List.map_append]; rfl
    by_cases h10 : answer m fl o s0 k = 10
    · have hb : bmcLoop m fl o (n + 1)
          { st := passState m fl s0 k, res := res, k := k,
            out := (List.range k).map uLine } =
          { st := (bad m (shiftcnf m (passState m fl s0 k) k) k).solved, res := 10, k := k,
            out := (List.range k).map uLine } := by
        unfold answer at h10
        simp [bmcLoop, h10]
      rw [hb]
      refine ⟨fun _ => ⟨k, Nat.le_refl k, by omega, h10, ?_, Or.inl rfl, rfl⟩, ?_⟩
      · intro i h1 h2; omega
      · intro h; exact absurd rfl h
    · by_cases hl : m.latches.length = 0
      · have hb : bmcLoop m fl o (n + 1)
            { st := passState m fl s0 k, res := res, k := k,
              out := (List.range k).map uLine } =
            { st := (bad m (shiftcnf m (passState m fl s0 k) k) k).solved,
              res := answer m fl o s0 k, k := k,
              out := (List.range (k + 1)).map uLine } := by
          rw [← hout]
          unfold answer at h10 ⊢
          simp [bmcLoop, h10, hl]
        rw [hb]
        refine ⟨fun h => absurd h h10, fun _ => ⟨fun _ => ⟨h10, rfl⟩, fun h => absurd hl h⟩⟩
      · have hb : bmcLoop m fl o (n + 1)
            { st := passState m fl s0 k, res := res, k := k,
              out := (List.range k).map uLine } =
            bmcLoop m fl o n
              { st := passState m fl s0 (k + 1), res := answer m fl o s0 k, k := k + 1,
                out := (List.range (k + 1)).map uLine } := by
          rw [← hout]
          unfold answer at h10 ⊢
          simp only [bmcLoop, h10, hl, if_false, passState]
        rw [hb]
        cases n with
        | zero =>
          have hk1 : k = fl.maxk := by omega
          have hb0 : bmcLoop m fl o 0
              { st := passState m fl s0 (k + 1), res := answer m fl o s0 k, k := k + 1,
                out := (List.range (k + 1)).map uLine } =
              { st := passState m fl s0 (k + 1), res := answer m fl o s0 k, k := k + 1,
                out := (List.range (k + 1)).map uLine } := rfl
          rw [hb0]
          refine ⟨fun h => absurd h h10, fun _ =>
            ⟨fun h => absurd h hl, fun _ => ⟨?_, by rw [hk1]⟩⟩⟩
          intro i h1 h2
          have : i = k := by omega
          rw [this]; exact h10
        | succ n1 =>
          obtain ⟨hA, hB⟩ := ih (k + 1) (answer m fl o s0 k) (by omega) (by omega)
          constructor
          · intro h
            obtain ⟨j, hj1, hj2, hj3, hj4, hj5, hj6⟩ := hA h
            refine ⟨j, by omega, hj2, hj3, ?_, Or.inr hl, hj6⟩
            intro i h1 h2
            by_cases e : i = k
            · rw [e]; exact h10
            · exact hj4 i (by omega) h2
          · intro h
            refine ⟨fun h0 => absurd h0 hl, fun _ => ?_⟩
            obtain ⟨hB1, hB2⟩ := (hB h).2 hl
            refine ⟨?_, hB2⟩
            intro i h1 h2
            by_cases e : i = k
            · rw [e]; exact h10
            · exact hB1 i (by omega) h2

theorem verdict_spec (m : aiger) (fl : Flags) (o : Oracle) (s : St)
    (hans : ∀ k, Performed m fl o (prepare m o s) k →
      answer m fl o (prepare m o s) k = 10 ∨ answer m fl o (prepare m o s) k = 20) :
    ∃ (res : Int) (j : Nat) (v : String) (ws : List String),
      verdict m fl o s =
        Outcome.exit res ((List.range j).map uLine ++ [v, "b0"] ++ ws ++ ["."]) ∧
      ((o.fixed s.solver (prepbad m 0) < 0 ∧ v = "0" ∧ res = 20 ∧ j = 0 ∧ ws = []) ∨
       (¬ o.fixed s.solver (prepbad m 0) < 0 ∧ v = "1" ∧ res = 10 ∧
          Performed m fl o (prepare m o s) j ∧ answer m fl o (prepare m o s) j = 10) ∨
       (¬ o.fixed s.solver (prepbad m 0) < 0 ∧ v = "0" ∧ res = 20 ∧ j = 1 ∧ ws = [] ∧
          m.latches.length = 0 ∧ answer m fl o (prepare m o s) 0 = 20) ∨
       (¬ o.fixed s.solver (prepbad m 0) < 0 ∧ v = "2" ∧ res = 20 ∧ j = fl.maxk + 1 ∧
          ws = [] ∧ m.latches.length ≠ 0 ∧
          ∀ k, k ≤ fl.maxk → answer m fl o (prepare m o s) k = 20)) := by
  by_cases hfix : o.fixed s.solver (prepbad m 0) < 0
  · refine ⟨20, 0, "0", [], ?_, Or.inl ⟨hfix, rfl, rfl, rfl, rfl⟩⟩
    unfold verdict
    rw [if_pos hfix]
    rfl
  · obtain ⟨hA, hB⟩ := bmcLoop_spec m fl o (prepare m o s) (fl.maxk + 1) 0 0 rfl
      (Nat.succ_pos _)
    have hv : verdict m fl o s =
        (let b := bmcLoop m fl o (fl.maxk + 1)
            { st := passState m fl (prepare m o s) 0, res := 0, k := 0,
              out := (List.range 0).map uLine }
         if b.res = 10 then
           Outcome.exit b.res (b.out ++ ["1", "b0"] ++ witnessLines m fl o b.st b.k ++ ["."])
         else if b.res = 20 ∧ m.latches.length = 0 then
           Outcome.exit b.res (b.out ++ ["0", "b0", "."])
         else
           Outcome.exit b.res (b.out ++ ["2", "b0", "."])) := by
      unfold verdict
      rw [if_neg hfix]
      rfl
    rw [hv]
    by_cases h10 : (bmcLoop m fl o (fl.maxk + 1)
            { st := passState m fl (prepare m o s) 0, res := 0, k := 0,
              out := (List.range 0).map uLine }).res = 10
    · obtain ⟨j, _, hj2, hj3, hj4, hj5, hj6⟩ := hA h10
      refine ⟨10, j, "1", witnessLines m fl o
        (bad m (shiftcnf m (passState m fl (prepare m o s) j) j) j).solved j, ?_,
        Or.inr (Or.inl ⟨hfix, rfl, rfl, ⟨hj2, fun i hi => hj4 i (Nat.zero_le i) hi, ?_⟩, hj3⟩)⟩
      · rw [hj6]; simp
      · rcases hj5 with h | h
        · exact Or.inl h
        · exact Or.inr h
    · by_cases hl : m.latches.length = 0
      · obtain ⟨h1, h2⟩ := (hB h10).1 hl
        have h20 : answer m fl o (prepare m o s) 0 = 20 := by
          rcases hans 0 ⟨Nat.zero_le _, fun i hi => absurd hi (Nat.not_lt_zero i),
            Or.inl rfl⟩ with h | h
          · exact absurd h h1
          · exact h
        refine ⟨20, 1, "0", [], ?_, Or.inr (Or.inr (Or.inl
          ⟨hfix, rfl, rfl, rfl, rfl, hl, h20⟩))⟩
        rw [h2, h20]; simp [hl]
      · obtain ⟨h1, h2⟩ := (hB h10).2 hl
        have h20 : ∀ k, k ≤ fl.maxk → answer m fl o (prepare m o s) k = 20 := by
          intro k hk
          rcases hans k ⟨hk, fun i hi => h1 i (Nat.zero_le i) (by omega), Or.inr hl⟩
            with h | h
          · exact absurd h (h1 k (Nat.zero_le k) hk)
          · exact h
        refine ⟨20, fl.maxk + 1, "2", [], ?_, Or.inr (Or.inr (Or.inr
          ⟨hfix, rfl, rfl, rfl, rfl, hl, h20⟩))⟩
        rw [h2, h20 fl.maxk (Nat.le_refl _)]; simp [hl]

theorem main_eq_verdict (m : aiger) (fl : Flags) (o : Oracle) (t : Trav)
    (hbad : num_bad m = 1) (hmb : m.bad.length ≤ 1) (hc : m.num_constraints = 0)
    (ht : travcoi m coiZero = some t) :
    main m fl o = verdict m fl o (encode m fl t.coi) := by
  unfold num_bad badsyms at hbad
  unfold main
  rw [ht]
  by_cases hb : m.bad.length = 0
  · rw [if_neg (by simpa using hb)] at hbad
    simp [hb, hbad, hc]
  · have hb1 : m.bad.length = 1 := by omega
    simp [hb1, hc]

theorem answer_oracleUnsat (m : aiger) (fl : Flags) (s0 : St) (k : Nat) :
    answer m fl oracleUnsat s0 k = 20 := by
  simp [answer, solveStep, oracleUnsat]

/-- C9 (verdict selection): when every executed pass of the loop is answered with `10` (SAT)
or `20` (UNSAT), the part of `main` from the test of the fixed bad literal on returns, and stdout
consists of the lines `u0 .. u(j-1)`, one verdict line `v`, the line `b0`, witness lines and
the line `.`.  The verdict is `1` exactly when some executed pass was answered SAT (and `j`
is that pass), `0` exactly when the bad literal was reported fixed to false or the model
has no latches and pass `0` was answered UNSAT, and `2` exactly when the bad literal was not
fixed, the model has latches and all passes `0 .. maxk` were answered UNSAT. -/
theorem verdict_selection (m : aiger) (fl : Flags) (o : Oracle) (s : St)
    (hans : ∀ k, Performed m fl o (prepare m o s) k →
      answer m fl o (prepare m o s) k = 10 ∨ answer m fl o (prepare m o s) k = 20) :
    ∃ (res : Int) (j : Nat) (v : String) (ws : List String),
      verdict m fl o s =
        Outcome.exit res ((List.range j).map uLine ++ [v, "b0"] ++ ws ++ ["."]) ∧
      (v = "0" ∨ v = "1" ∨ v = "2") ∧
      (v = "1" ↔ ¬ o.fixed s.solver (prepbad m 0) < 0 ∧
        ∃ k, Performed m fl o (prepare m o s) k ∧ answer m fl o (prepare m o s) k = 10) ∧
      (v = "1" → Performed m fl o (prepare m o s) j ∧ answer m fl o (prepare m o s) j = 10) ∧
      (v = "0" ↔ o.fixed s.solver (prepbad m 0) < 0 ∨
        (m.latches.length = 0 ∧ answer m fl o (prepare m o s) 0 = 20)) ∧
      (v = "2" ↔ ¬ o.fixed s.solver (prepbad m 0) < 0 ∧ m.latches.length ≠ 0 ∧
        ∀ k, k ≤ fl.maxk → answer m fl o (prepare m o s) k = 20) ∧
      (v ≠ "1" → ws = []) := by
  obtain ⟨res, j, v, ws, hv, hc⟩ := verdict_spec m fl o s hans
  refine ⟨res, j, v, ws, hv, ?_⟩
  have h01 : ("0" : String) ≠ "1" := by decide
  have h02 : ("0" : String) ≠ "2" := by decide
  have h12 : ("1" : String) ≠ "2" := by decide
  rcases hc with ⟨hf, rfl, -, -, hw⟩ | ⟨hf, rfl, -, hp, ha⟩ | ⟨hf, rfl, -, -, hw, hl, ha⟩ |
    ⟨hf, rfl, -, -, hw, hl, ha⟩
  · refine ⟨Or.inl rfl, ?_, fun h => absurd h h01, ?_, ?_, fun _ => hw⟩
    · exact ⟨fun h => absurd h h01, fun h => absurd hf h.1⟩
    · exact ⟨fun _ => Or.inl hf, fun _ => rfl⟩
    · exact ⟨fun h => absurd h h02, fun h => absurd hf h.1⟩
  · refine ⟨Or.inr (Or.inl rfl), ?_, fun _ => ⟨hp, ha⟩, ?_, ?_, fun h => absurd rfl h⟩
    · exact ⟨fun _ => ⟨hf, j, hp, ha⟩, fun _ => rfl⟩
    · constructor
      · intro h; exact absurd h.symm h01
      · rintro (h | ⟨h1, h2⟩)
        · exact absurd h hf
        · exfalso
          rcases hp.2.2 with h0 | h0
          · rw [h0] at ha; rw [ha] at h2; omega
          · exact h0 h1
    · constructor
      · intro h; exact absurd h h12
      · rintro ⟨-, -, h3⟩
        exfalso
        have := h3 j hp.1
        rw [ha] at this; omega
  · refine ⟨Or.inl rfl, ?_, fun h => absurd h h01, ?_, ?_, fun _ => hw⟩
    · constructor
      · intro h; exact absurd h h01
      · rintro ⟨-, k, hp, hk⟩
        exfalso
        rcases hp.2.2 with h0 | h0
        · rw [h0] at hk; rw [hk] at ha; omega
        · exact h0 hl
    · exact ⟨fun _ => Or.inr ⟨hl, ha⟩, fun _ => rfl⟩
    · exact ⟨fun h => absurd h h02, fun h => absurd hl h.2.1⟩
  · refine ⟨Or.inr (Or.inr rfl), ?_, fun h => absurd h.symm h12, ?_, ?_, fun _ => hw⟩
    · constructor
      · intro h; exact absurd h.symm h12
      · rintro ⟨-, k, hp, hk⟩
        exfalso
        have := ha k hp.1
        rw [hk] at this; omega
    · constructor
      · intro h; exact absurd h.symm h02
      · rintro (h | ⟨h1, -⟩)
        · exact absurd h hf
        · exact absurd h1 hl
    · exact ⟨fun _ => ⟨hf, hl, ha⟩, fun _ => rfl⟩

/-- Witness for C9: the one-bit counter with bound `1` and a solver that always answers
UNSAT. -/
theorem verdict_selection_witness :
    (∀ k, Performed exCounter flagsOne oracleUnsat
        (prepare exCounter oracleUnsat (encode exCounter flagsOne coiZero)) k →
      answer exCounter flagsOne oracleUnsat
        (prepare exCounter oracleUnsat (encode exCounter flagsOne coiZero)) k = 10 ∨
      answer exCounter flagsOne oracleUnsat
        (prepare exCounter oracleUnsat (encode exCounter flagsOne coiZero)) k = 20) ∧
    ∃ (res : Int) (j : Nat) (v : String) (ws : List String),
      verdict exCounter flagsOne oracleUnsat (encode exCounter flagsOne coiZero) =
        Outcome.exit res ((List.range j).map uLine ++ [v, "b0"] ++ ws ++ ["."]) ∧
      (v = "0" ∨ v = "1" ∨ v = "2") ∧
      (v = "1" ↔ ¬ oracleUnsat.fixed (encode exCounter flagsOne coiZero).solver
          (prepbad exCounter 0) < 0 ∧
        ∃ k, Performed exCounter flagsOne oracleUnsat
            (prepare exCounter oracleUnsat (encode exCounter flagsOne coiZero)) k ∧
          answer exCounter flagsOne oracleUnsat
            (prepare exCounter oracleUnsat (encode exCounter flagsOne coiZero)) k = 10) ∧
      (v = "1" → Performed exCounter flagsOne oracleUnsat
            (prepare exCounter oracleUnsat (encode exCounter flagsOne coiZero)) j ∧
          answer exCounter flagsOne oracleUnsat
            (prepare exCounter oracleUnsat (encode exCounter flagsOne coiZero)) j = 10) ∧
      (v = "0" ↔ oracleUnsat.fixed (encode exCounter flagsOne coiZero).solver
          (prepbad exCounter 0) < 0 ∨
        (exCounter.latches.length = 0 ∧ answer exCounter flagsOne oracleUnsat
            (prepare exCounter oracleUnsat (encode exCounter flagsOne coiZero)) 0 = 20)) ∧
      (v = "2" ↔ ¬ oracleUnsat.fixed (encode exCounter flagsOne coiZero).solver
          (prepbad exCounter 0) < 0 ∧ exCounter.latches.length ≠ 0 ∧
        ∀ k, k ≤ flagsOne.maxk → answer exCounter flagsOne oracleUnsat
            (prepare exCounter oracleUnsat (encode exCounter flagsOne coiZero)) k = 20) ∧
      (v ≠ "1" → ws = []) :=
  ⟨fun k _ => Or.inr (answer_oracleUnsat _ _ _ k),
   verdict_selection exCounter flagsOne oracleUnsat (encode exCounter flagsOne coiZero)
     (fun k _ => Or.inr (answer_oracleUnsat _ _ _ k))⟩

/-- Counterexample for C10: the one-bit counter with bound `1` and a solver that answers
UNSAT in both passes prints the inconclusive verdict `2` and `main` returns `20`. -/
theorem exit_code_counterexample :
    main exCounter flagsOne oracleUnsat = Outcome.exit 20 ["u0", "u1", "2", "b0", "."] := by
  decide

/-- C10 (amended: exit code): when every executed pass of the loop is answered with `10` or
`20`, the value returned by `main` is `10` when verdict `1` was printed and `20` when verdict `0`
was printed; when the inconclusive verdict `2` was printed it is `20` as well, the answer
of the last pass. -/
theorem exit_code (m : aiger) (fl : Flags) (o : Oracle) (s : St)
    (hans : ∀ k, Performed m fl o (prepare m o s) k →
      answer m fl o (prepare m o s) k = 10 ∨ answer m fl o (prepare m o s) k = 20) :
    ∃ (res : Int) (j : Nat) (v : String) (ws : List String),
      verdict m fl o s =
        Outcome.exit res ((List.range j).map uLine ++ [v, "b0"] ++ ws ++ ["."]) ∧
      (v = "0" ∨ v = "1" ∨ v = "2") ∧
      (v = "1" → res = 10) ∧ (v = "0" → res = 20) ∧ (v = "2" → res = 20) := by
  obtain ⟨res, j, v, ws, hv, hc⟩ := verdict_spec m fl o s hans
  refine ⟨res, j, v, ws, hv, ?_⟩
  have h01 : ("0" : String) ≠ "1" := by decide
  have h12 : ("1" : String) ≠ "2" := by decide
  rcases hc with ⟨-, rfl, hr, -⟩ | ⟨-, rfl, hr, -⟩ | ⟨-, rfl, hr, -⟩ | ⟨-, rfl, hr, -⟩
  · exact ⟨Or.inl rfl, fun h => absurd h h01, fun _ => hr, fun _ => hr⟩
  · exact ⟨Or.inr (Or.inl rfl), fun _ => hr, fun h => absurd h.symm h01,
      fun h => absurd h h12⟩
  · exact ⟨Or.inl rfl, fun h => absurd h h01, fun _ => hr, fun _ => hr⟩
  · exact ⟨Or.inr (Or.inr rfl), fun h => absurd h.symm h12, fun _ => hr, fun _ => hr⟩

/-- Witness for the amended C10 on the two-input model with a solver that always answers
UNSAT. -/
theorem exit_code_witness :
    (∀ k, Performed exGate flagsOne oracleUnsat
        (prepare exGate oracleUnsat (encode exGate flagsOne coiZero)) k →
      answer exGate flagsOne oracleUnsat
        (prepare exGate oracleUnsat (encode exGate flagsOne coiZero)) k = 10 ∨
      answer exGate flagsOne oracleUnsat
        (prepare exGate oracleUnsat (encode exGate flagsOne coiZero)) k = 20) ∧
    ∃ (res : Int) (j : Nat) (v : String) (ws : List String),
      verdict exGate flagsOne oracleUnsat (encode exGate flagsOne coiZero) =
        Outcome.exit res ((List.range j).map uLine ++ [v, "b0"] ++ ws ++ ["."]) ∧
      (v = "0" ∨ v = "1" ∨ v = "2") ∧
      (v = "1" → res = 10) ∧ (v = "0" → res = 20) ∧ (v = "2" → res = 20) :=
  ⟨fun k _ => Or.inr (answer_oracleUnsat _ _ _ k),
   exit_code exGate flagsOne oracleUnsat (encode exGate flagsOne coiZero)
     (fun k _ => Or.inr (answer_oracleUnsat _ _ _ k))⟩

/-! ## Emission of clauses -/

theorem foldl_range_getD {α β : Type} (l : List α) (d : α) (f : β → α → β) (b : β) :
    (List.range l.length).foldl (fun b i => f b (l.getD i d)) b = l.foldl f b := by
  induction l using List.reverseRecOn generalizing b with
  | nil => rfl
  | append_singleton l a ih =>
    rw [List.length_append, List.length_singleton, List.range_succ, List.foldl_append,
      List.foldl_append]
    have h1 : (List.range l.length).foldl (fun b i => f b ((l ++ [a]).getD i d)) b =
        (List.range l.length).foldl (fun b i => f b (l.getD i d)) b := by
      apply List.foldl_ext
      intro b i hi
      rw [List.mem_range] at hi
      simp [List.getD_eq_getElem?_getD, List.getElem?_append_left hi]
    rw [h1, ih]
    simp [List.getD_eq_getElem?_getD]

theorem unit_eq_emit {s : St} (hr : Ready s) {a : Int} (ha : a ≠ 0) :
    unit s a = emit s [a] := by
  obtain ⟨h1, h2, h3⟩ := hr
  cases s with
  | mk uc ex lgl cad cls lits mv lm coi =>
    simp only at h1 h2 h3
    subst h3
    cases uc <;> cases ex <;>
      simp [unit, emit, lgladd, ccadical_add, extract, ha, h1, h2]

theorem binary_eq_emit {s : St} (hr : Ready s) {a b : Int} (ha : a ≠ 0) (hb : b ≠ 0) :
    binary s a b = emit s [a, b] := by
  obtain ⟨h1, h2, h3⟩ := hr
  cases s with
  | mk uc ex lgl cad cls lits mv lm coi =>
    simp only at h1 h2 h3
    subst h3
    cases uc <;> cases ex <;>
      simp [binary, emit, lgladd, ccadical_add, extract, ha, hb, h1, h2]

theorem ternary_eq_emit {s : St} (hr : Ready s) {a b c : Int} (ha : a ≠ 0) (hb : b ≠ 0)
    (hc : c ≠ 0) : ternary s a b c = emit s [a, b, c] := by
  obtain ⟨h1, h2, h3⟩ := hr
  cases s with
  | mk uc ex lgl cad cls lits mv lm coi =>
    simp only at h1 h2 h3
    subst h3
    cases uc <;> cases ex <;>
      simp [ternary, emit, lgladd, ccadical_add, extract, ha, hb, hc, h1, h2]

theorem emit_ready {s : St} (hr : Ready s) (c : List Int) : Ready (emit s c) := by
  obtain ⟨h1, h2, h3⟩ := hr
  unfold emit Ready
  split
  · exact ⟨h1, h2, h3⟩
  · split
    · exact ⟨h1, h2, h3⟩
    · exact ⟨h1, h2, h3⟩

theorem Frame.refl_frame (s : St) : Frame s s := ⟨rfl, rfl, rfl, rfl, rfl⟩

theorem Frame.compose {s s1 s2 : St} (h1 : Frame s s1) (h2 : Frame s1 s2) : Frame s s2 :=
  ⟨h2.use_cadical.trans h1.use_cadical, h2.extracting.trans h1.extracting,
    h2.maxvar.trans h1.maxvar, h2.litmap.trans h1.litmap, h2.coi.trans h1.coi⟩

theorem Frame.symm {s s1 : St} (h1 : Frame s s1) : Frame s1 s :=
  ⟨h1.use_cadical.symm, h1.extracting.symm, h1.maxvar.symm, h1.litmap.symm, h1.coi.symm⟩

theorem Emits.nil {s : St} (hr : Ready s) : Emits s s [] :=
  ⟨Frame.refl_frame s, hr, by simp, by simp⟩

theorem Emits.append {s s1 s2 : St} {cs ds : List (List Int)} (h1 : Emits s s1 cs)
    (h2 : Emits s1 s2 ds) : Emits s s2 (cs ++ ds) := by
  refine ⟨h1.frame.compose h2.frame, h2.ready, ?_, ?_⟩
  · rw [h2.solver, h1.solver, List.append_assoc]
  · rw [h2.stored, h1.stored, h1.frame.use_cadical, h1.frame.extracting]
    split <;> simp

theorem emit_emits {s : St} (hr : Ready s) (c : List Int) : Emits s (emit s c) [c] := by
  refine ⟨?_, emit_ready hr c, ?_, ?_⟩
  · unfold emit
    split
    · exact ⟨rfl, rfl, rfl, rfl, rfl⟩
    · split <;> exact ⟨rfl, rfl, rfl, rfl, rfl⟩
  · cases s with
    | mk uc ex lgl cad cls lits mv lm coi =>
      cases uc <;> cases ex <;> simp [emit, St.solver]
  · cases s with
    | mk uc ex lgl cad cls lits mv lm coi =>
      cases uc <;> cases ex <;> simp [emit]

theorem unit_emits {s : St} (hr : Ready s) {a : Int} (ha : a ≠ 0) :
    Emits s (unit s a) [[a]] := by
  rw [unit_eq_emit hr ha]; exact emit_emits hr _

theorem binary_emits {s : St} (hr : Ready s) {a b : Int} (ha : a ≠ 0) (hb : b ≠ 0) :
    Emits s (binary s a b) [[a, b]] := by
  rw [binary_eq_emit hr ha hb]; exact emit_emits hr _

theorem ternary_emits {s : St} (hr : Ready s) {a b c : Int} (ha : a ≠ 0) (hb : b ≠ 0)
    (hc : c ≠ 0) : Emits s (ternary s a b c) [[a, b, c]] := by
  rw [ternary_eq_emit hr ha hb hc]; exact emit_emits hr _

theorem and_emits {s : St} (hr : Ready s) {x a b : Int} (hx : x ≠ 0) (ha : a ≠ 0)
    (hb : b ≠ 0) : Emits s (and_ s x a b) (andClauses x a b) := by
  have hnx : -x ≠ 0 := by omega
  have hna : -a ≠ 0 := by omega
  have hnb : -b ≠ 0 := by omega
  have h1 := binary_emits hr hnx ha
  have h2 := binary_emits h1.ready hnx hb
  have h3 := ternary_emits h2.ready hna hnb hx
  exact (h1.append h2).append h3

theorem equiv_emits {s : St} (hr : Ready s) {a b : Int} (ha : a ≠ 0) (hb : b ≠ 0) :
    Emits s (equiv s a b) [[-a, b], [a, -b]] := by
  have hna : -a ≠ 0 := by omega
  have hnb : -b ≠ 0 := by omega
  have h1 := binary_emits hr hna hb
  have h2 := binary_emits h1.ready ha hnb
  exact h1.append h2

theorem foldl_emits {α : Type} (s0 : St) (l : List α) (g : St → α → St)
    (cl : α → List (List Int))
    (hg : ∀ s a, a ∈ l → Ready s → Frame s0 s → Emits s (g s a) (cl a)) :
    ∀ s, Ready s → Frame s0 s → Emits s (l.foldl g s) (l.flatMap cl) := by
  induction l with
  | nil => intro s hr _; exact Emits.nil hr
  | cons a l ih =>
    intro s hr hf
    have h1 := hg s a (List.mem_cons_self a l) hr hf
    have h2 := ih (fun s b hb => hg s b (List.mem_cons_of_mem a hb)) (g s a) h1.ready
      (hf.compose h1.frame)
    simpa using h1.append h2

theorem prepilit_ne_zero (u : Nat) : prepilit u ≠ 0 := by
  unfold prepilit
  simp only
  split <;> omega

theorem prepilit_natAbs (u : Nat) : (prepilit u).natAbs = u / 2 + 1 := by
  unfold prepilit
  simp only
  split <;> omega

theorem prepilit_neg_iff (u : Nat) : prepilit u < 0 ↔ u % 2 = 1 := by
  unfold prepilit
  simp only
  split <;> omega

theorem logic_emits (m : aiger) {s : St} (hr : Ready s) :
    Emits s (logic m s) (logicClauses m s.coi) := by
  unfold logic logicClauses
  simp only
  have h1 : Emits s (if ulitincoi s.coi 0 ≠ 0 then unit s (-1) else s)
      (if ulitincoi s.coi 0 ≠ 0 then [[-1]] else []) := by
    split
    · exact unit_emits hr (by decide)
    · exact Emits.nil hr
  refine h1.append ?_
  apply foldl_emits s _ _ _ _ _ h1.ready h1.frame
  intro s1 i _ hr1 hf1
  unfold logicAnd
  rw [hf1.coi]
  split
  · exact and_emits hr1 (prepilit_ne_zero _) (prepilit_ne_zero _) (prepilit_ne_zero _)
  · exact Emits.nil hr1

/-! ## The variable map -/

theorem VarMap.zero_inv : MapInv VarMap.zero :=
  ⟨fun _ => Nat.le_refl 0, fun _ _ h => absurd rfl h, fun x h1 h2 => by
    simp only [VarMap.zero] at h2; omega⟩

theorem VarMap.assign_inv {v : VarMap} (h : MapInv v) {idx : Nat} (h0 : v.litmap idx = 0) :
    MapInv (v.assign idx) := by
  refine ⟨?_, ?_, ?_⟩
  · intro i
    simp only [VarMap.assign, Function.update_apply]
    split
    · exact Nat.le_refl _
    · exact Nat.le_succ_of_le (h.le i)
  · intro i j hi hij
    simp only [VarMap.assign, Function.update_apply] at hi hij
    have hli := h.le i
    have hlj := h.le j
    by_cases ei : i = idx <;> by_cases ej : j = idx
    · rw [ei, ej]
    · simp only [ei, ej, if_true, if_false] at hij; omega
    · simp only [ei, ej, if_true, if_false] at hij; omega
    · simp only [ei, ej, if_false] at hi hij
      exact h.inj i j hi hij
  · intro x h1 h2
    simp only [VarMap.assign] at h2 ⊢
    by_cases ex : x = v.maxvar + 1
    · exact ⟨idx, by simp [ex]⟩
    · obtain ⟨i, hi⟩ := h.surj x h1 (by omega)
      refine ⟨i, ?_⟩
      have : i ≠ idx := by intro e; rw [e, h0] at hi; omega
      simp [Function.update_apply, this, hi]

theorem VarMap.mapIdx_inv {v : VarMap} (h : MapInv v) (idx : Nat) : MapInv (v.mapIdx idx) := by
  unfold VarMap.mapIdx
  split
  · next h0 => exact VarMap.assign_inv h h0
  · exact h

theorem VarMap.mapIdx_keep (v : VarMap) (idx : Nat) {i : Nat} (hi : v.litmap i ≠ 0) :
    (v.mapIdx idx).litmap i = v.litmap i := by
  unfold VarMap.mapIdx
  split
  · next h0 =>
    have : i ≠ idx := fun e => hi (e ▸ h0)
    simp [VarMap.assign, Function.update_apply, this]
  · rfl

theorem VarMap.mapIdx_maxvar_le (v : VarMap) (idx : Nat) : v.maxvar ≤ (v.mapIdx idx).maxvar := by
  unfold VarMap.mapIdx
  split
  · simp [VarMap.assign]
  · exact Nat.le_refl _

theorem VarMap.mapIdx_mapped (v : VarMap) (idx : Nat) : (v.mapIdx idx).litmap idx ≠ 0 := by
  unfold VarMap.mapIdx
  split
  · simp [VarMap.assign]
  · next h0 => exact h0

theorem VarMap.run_inv {v : VarMap} (h : MapInv v) (seq : List Nat) :
    MapInv (seq.foldl VarMap.mapIdx v) := by
  induction seq generalizing v with
  | nil => exact h
  | cons x l ih => exact ih (VarMap.mapIdx_inv h x)

theorem VarMap.run_keep (seq : List Nat) (v : VarMap) {i : Nat} (hi : v.litmap i ≠ 0) :
    (seq.foldl VarMap.mapIdx v).litmap i = v.litmap i := by
  induction seq generalizing v with
  | nil => rfl
  | cons x l ih =>
    have h1 := VarMap.mapIdx_keep v x hi
    rw [List.foldl_cons, ih (v.mapIdx x) (by rw [h1]; exact hi), h1]

theorem VarMap.run_maxvar_le (seq : List Nat) (v : VarMap) :
    v.maxvar ≤ (seq.foldl VarMap.mapIdx v).maxvar := by
  induction seq generalizing v with
  | nil => exact Nat.le_refl _
  | cons x l ih => exact Nat.le_trans (VarMap.mapIdx_maxvar_le v x) (ih (v.mapIdx x))

theorem VarMap.run_mapped (seq : List Nat) (v : VarMap) {i : Nat} (hi : i ∈ seq) :
    (seq.foldl VarMap.mapIdx v).litmap i ≠ 0 := by
  induction seq generalizing v with
  | nil => simp at hi
  | cons x l ih =>
    rw [List.foldl_cons]
    rcases List.mem_cons.mp hi with e | hl
    · rw [e, VarMap.run_keep l _ (VarMap.mapIdx_mapped v x)]
      exact VarMap.mapIdx_mapped v x
    · exact ih (v.mapIdx x) hl

theorem VarMap.run_numbering (seq : List Nat) :
    ∀ (v : VarMap) (seen : List Nat), (∀ i, v.litmap i ≠ 0 ↔ i ∈ seen) →
      (seq.foldl VarMap.mapIdx v).maxvar = v.maxvar + (firstNew seen seq).length ∧
      (∀ p, p < (firstNew seen seq).length →
        (seq.foldl VarMap.mapIdx v).litmap ((firstNew seen seq).getD p 0) = v.maxvar + 1 + p) ∧
      (∀ i, (seq.foldl VarMap.mapIdx v).litmap i ≠ 0 ↔ i ∈ seen ∨ i ∈ seq) := by
  induction seq with
  | nil =>
    intro v seen hs
    refine ⟨rfl, ?_, ?_⟩
    · intro p hp; simp [firstNew] at hp
    · intro i; simpa using hs i
  | cons x l ih =>
    intro v seen hs
    by_cases hx : x ∈ seen
    · have hv : v.mapIdx x = v := by
        unfold VarMap.mapIdx
        rw [if_neg ((hs x).mpr hx)]
      have hf : firstNew seen (x :: l) = firstNew seen l := by simp [firstNew, hx]
      rw [List.foldl_cons, hv, hf]
      obtain ⟨h1, h2, h3⟩ := ih v seen hs
      refine ⟨h1, h2, ?_⟩
      intro i
      rw [h3 i]
      constructor
      · rintro (h | h)
        · exact Or.inl h
        · exact Or.inr (List.mem_cons_of_mem x h)
      · rintro (h | h)
        · exact Or.inl h
        · rcases List.mem_cons.mp h with e | h
          · exact Or.inl (e ▸ hx)
          · exact Or.inr h
    · have h0 : v.litmap x = 0 := by
        by_contra hne
        exact hx ((hs x).mp hne)
      have hv : v.mapIdx x = v.assign x := by
        unfold VarMap.mapIdx
        rw [if_pos h0]
      have hf : firstNew seen (x :: l) = x :: firstNew (x :: seen) l := by
        simp [firstNew, hx]
      have hs1 : ∀ i, (v.assign x).litmap i ≠ 0 ↔ i ∈ x :: seen := by
        intro i
        simp only [VarMap.assign, Function.update_apply, List.mem_cons]
        by_cases e : i = x
        · simp [e]
        · simp [e, hs i]
      rw [List.foldl_cons, hv, hf]
      obtain ⟨h1, h2, h3⟩ := ih (v.assign x) (x :: seen) hs1
      refine ⟨?_, ?_, ?_⟩
      · rw [h1]; simp [VarMap.assign]; omega
      · intro p hp
        cases p with
        | zero =>
          have hk := VarMap.run_keep l (v.assign x) (i := x) (by simp [VarMap.assign])
          simp only [List.getD_cons_zero]
          rw [hk]; simp [VarMap.assign]
        | succ q =>
          simp only [List.getD_cons_succ]
          rw [h2 q (by simpa using hp)]
          simp [VarMap.assign]; omega
      · intro i
        rw [h3 i]
        simp only [List.mem_cons]
        constructor
        · rintro ((h | h) | h)
          · exact Or.inr (Or.inl h)
          · exact Or.inl h
          · exact Or.inr (Or.inr h)
        · rintro (h | h | h)
          · exact Or.inl (Or.inr h)
          · exact Or.inl (Or.inl h)
          · exact Or.inr h

theorem VarMap.assign_fold_eq (seq : List Nat) :
    ∀ v : VarMap, seq.Nodup → (∀ i ∈ seq, v.litmap i = 0) →
      seq.foldl VarMap.assign v = seq.foldl VarMap.mapIdx v := by
  induction seq with
  | nil => intro v _ _; rfl
  | cons x l ih =>
    intro v hn h0
    have hv : v.mapIdx x = v.assign x := by
      unfold VarMap.mapIdx
      rw [if_pos (h0 x (List.mem_cons_self x l))]
    rw [List.foldl_cons, List.foldl_cons, hv]
    apply ih _ (List.nodup_cons.mp hn).2
    intro i hi
    have : i ≠ x := fun e => (List.nodup_cons.mp hn).1 (e ▸ hi)
    simp [VarMap.assign, Function.update_apply, this, h0 i (List.mem_cons_of_mem x hi)]

/-! ## The mapping phase of `init` -/

theorem St.setMap_varMap (s : St) (v : VarMap) : (s.setMap v).varMap = v := rfl

theorem St.setMap_self (s : St) : s.setMap s.varMap = s := rfl

theorem St.setMap_setMap (s : St) (v w : VarMap) : (s.setMap v).setMap w = s.setMap w := rfl

theorem St.setMap_coi (s : St) (v : VarMap) : (s.setMap v).coi = s.coi := rfl

theorem St.setMap_clauses (s : St) (v : VarMap) : (s.setMap v).clauses = s.clauses := rfl

theorem foldl_setMap {α : Type} (coi : Nat → Nat) (l : List α) (f : St → α → St)
    (h : VarMap → α → VarMap)
    (hf : ∀ s a, s.coi = coi → f s a = s.setMap (h s.varMap a)) :
    ∀ s, s.coi = coi → l.foldl f s = s.setMap (l.foldl h s.varMap) := by
  induction l with
  | nil => intro s _; rfl
  | cons a l ih =>
    intro s hs
    rw [List.foldl_cons, List.foldl_cons, hf s a hs, ih _ (by rw [St.setMap_coi]; exact hs)]
    rfl

theorem foldl_filter_map {α β γ : Type} (l : List α) (c : α → Bool) (g : α → β)
    (f : γ → β → γ) (v : γ) :
    l.foldl (fun v a => if c a = true then f v (g a) else v) v =
      ((l.filter c).map g).foldl f v := by
  induction l generalizing v with
  | nil => rfl
  | cons a l ih =>
    rw [List.foldl_cons, ih]
    by_cases hc : c a = true
    · simp [List.filter, hc]
    · simp [List.filter, hc]

theorem mlit_ne_zero {L : Nat → Nat} {lit : Int} (h : L lit.natAbs ≠ 0) : mlit L lit ≠ 0 := by
  unfold mlit
  split <;> omega

theorem mlit_natAbs (L : Nat → Nat) (lit : Int) : (mlit L lit).natAbs = L lit.natAbs := by
  unfold mlit
  split <;> omega

theorem mlit_neg_iff {L : Nat → Nat} {lit : Int} (h : L lit.natAbs ≠ 0) :
    mlit L lit < 0 ↔ lit < 0 := by
  unfold mlit
  split <;> omega

theorem mlit_congr {L L1 : Nat → Nat} {lit : Int} (h : L1 lit.natAbs = L lit.natAbs) :
    mlit L1 lit = mlit L lit := by
  unfold mlit
  rw [h]

theorem mainilit_eq (s : St) (u : Nat) : mainilit s u = mlit s.litmap (prepilit u) := rfl

theorem mapuntimedlit_snd (s : St) (lit : Int) :
    (mapuntimedlit s lit).2 = s.setMap (s.varMap.mapIdx lit.natAbs) := by
  unfold mapuntimedlit VarMap.mapIdx St.setMap St.varMap VarMap.assign
  simp only
  split <;> rfl

theorem mapuntimedlit_fst (s : St) (lit : Int) :
    (mapuntimedlit s lit).1 = mlit (s.varMap.mapIdx lit.natAbs).litmap lit := by
  unfold mapuntimedlit VarMap.mapIdx St.varMap VarMap.assign mlit
  simp only
  split
  · simp
  · rfl

theorem mapclause_snd (c : List Int) :
    ∀ s : St, (mapclause s c).2 = s.setMap ((c.map Int.natAbs).foldl VarMap.mapIdx s.varMap) := by
  induction c with
  | nil => intro s; rfl
  | cons lit rest ih =>
    intro s
    simp only [mapclause, List.map_cons, List.foldl_cons]
    rw [ih, mapuntimedlit_snd]
    rfl

theorem mapclause_fst (c : List Int) :
    ∀ s : St, (mapclause s c).1 =
      c.map (mlit ((c.map Int.natAbs).foldl VarMap.mapIdx s.varMap).litmap) := by
  induction c with
  | nil => intro s; rfl
  | cons lit rest ih =>
    intro s
    simp only [mapclause, List.map_cons, List.foldl_cons]
    rw [ih, mapuntimedlit_snd, mapuntimedlit_fst, St.setMap_varMap]
    congr 1
    apply mlit_congr
    exact (VarMap.run_keep _ _ (VarMap.mapIdx_mapped _ _)).symm

theorem mapclauses_snd (cs : List (List Int)) :
    ∀ s : St, (mapclauses s cs).2 =
      s.setMap ((clauseSeq cs).foldl VarMap.mapIdx s.varMap) := by
  induction cs with
  | nil => intro s; rfl
  | cons c rest ih =>
    intro s
    simp only [mapclauses, clauseSeq, List.flatten_cons, List.map_append, List.foldl_append]
    rw [ih, mapclause_snd]
    rfl

theorem mapclauses_fst (cs : List (List Int)) :
    ∀ s : St, (mapclauses s cs).1 =
      cs.map (fun c => c.map (mlit ((clauseSeq cs).foldl VarMap.mapIdx s.varMap).litmap)) := by
  induction cs with
  | nil => intro s; rfl
  | cons c rest ih =>
    intro s
    simp only [mapclauses, clauseSeq, List.flatten_cons, List.map_append, List.foldl_append,
      List.map_cons]
    rw [ih, mapclause_snd, mapclause_fst, St.setMap_varMap]
    congr 1
    apply List.map_congr_left
    intro lit hlit
    apply mlit_congr
    exact (VarMap.run_keep _ _ (VarMap.run_mapped _ _ (List.mem_map_of_mem _ hlit))).symm

theorem mapcnf_eq (s : St) :
    mapcnf s =
      { s.setMap ((clauseSeq s.clauses).foldl VarMap.mapIdx s.varMap) with
        clauses := s.clauses.map (fun c =>
          c.map (mlit ((clauseSeq s.clauses).foldl VarMap.mapIdx s.varMap).litmap)) } := by
  unfold mapcnf
  simp only
  rw [mapclauses_snd, mapclauses_fst]

theorem initLatch_loop (m : aiger) (s : St) :
    (List.range m.latches.length).foldl (initLatch m) s =
      s.setMap ((latchSeq m s.coi).foldl VarMap.assign s.varMap) := by
  rw [foldl_setMap s.coi _ (initLatch m)
    (fun v i => if decide (ulitincoi s.coi (aiglatch m i) ≠ 0) = true then
      v.assign (preplatch m i).toNat else v) _ s rfl]
  · rw [foldl_filter_map]; rfl
  · intro s1 i hs1
    unfold initLatch
    by_cases hc : ulitincoi s1.coi (aiglatch m i) = 0
    · have hc2 : ulitincoi s.coi (aiglatch m i) = 0 := hs1 ▸ hc
      simp [hc, hc2]; rfl
    · have hc2 : ¬ ulitincoi s.coi (aiglatch m i) = 0 := hs1 ▸ hc
      simp [hc, hc2]; rfl

theorem initInput_loop (m : aiger) (s : St) :
    (List.range m.inputs.length).foldl (initInput m) s =
      s.setMap ((inputSeq m s.coi).foldl VarMap.assign s.varMap) := by
  rw [foldl_setMap s.coi _ (initInput m)
    (fun v i => if decide (ulitincoi s.coi (aiginput m i) ≠ 0) = true then
      v.assign (prepinput m i).toNat else v) _ s rfl]
  · rw [foldl_filter_map]; rfl
  · intro s1 i hs1
    unfold initInput
    by_cases hc : ulitincoi s1.coi (aiginput m i) = 0
    · have hc2 : ulitincoi s.coi (aiginput m i) = 0 := hs1 ▸ hc
      simp [hc, hc2]; rfl
    · have hc2 : ¬ ulitincoi s.coi (aiginput m i) = 0 := hs1 ▸ hc
      simp [hc, hc2]; rfl

theorem initNext_loop (m : aiger) (s : St) :
    (List.range m.latches.length).foldl (initNext m) s =
      s.setMap ((nextSeq m s.coi).foldl VarMap.mapIdx s.varMap) := by
  rw [foldl_setMap s.coi _ (initNext m)
    (fun v i => if decide (ulitincoi s.coi (aiglatch m i) ≠ 0) = true then
      v.mapIdx (prepnext m i).natAbs else v) _ s rfl]
  · rw [foldl_filter_map]; rfl
  · intro s1 i hs1
    unfold initNext
    by_cases hc : ulitincoi s1.coi (aiglatch m i) = 0
    · have hc2 : ulitincoi s.coi (aiglatch m i) = 0 := hs1 ▸ hc
      simp [hc, hc2]; rfl
    · have hc2 : ¬ ulitincoi s.coi (aiglatch m i) = 0 := hs1 ▸ hc
      simp [hc, hc2, mapuntimedlit_snd]

theorem init_eq (m : aiger) (s : St) :
    init m s = (List.range m.latches.length).foldl (initReset m) (initMapped m s) := by
  unfold init
  simp only
  congr 1
  have h0 : ({ s with litmap := fun _ => 0, maxvar := 0 } : St) = s.setMap VarMap.zero := rfl
  rw [h0, initLatch_loop, initInput_loop, mapcnf_eq, initNext_loop]
  simp only [St.setMap_setMap, St.setMap_varMap, St.setMap_coi, St.setMap_clauses]
  unfold initMapped initMap St.setMap
  simp only
  congr 1
  apply List.map_congr_left
  intro c hc
  apply List.map_congr_left
  intro lit hlit
  apply mlit_congr
  refine (VarMap.run_keep _ _ (VarMap.run_mapped _ _ ?_)).symm
  unfold clauseSeq
  exact List.mem_map_of_mem _ (List.mem_flatten.mpr ⟨c, hc, hlit⟩)

theorem range_map_getD {α : Type} (l : List α) (d : α) :
    (List.range l.length).map (fun i => l.getD i d) = l := by
  apply List.ext_getElem
  · simp
  · intro i h1 h2
    simp [List.getD_eq_getElem?_getD, List.getElem?_eq_getElem h2]

theorem range_filter_map_getD {α β : Type} (l : List α) (d : α) (c : α → Bool) (g : α → β) :
    ((List.range l.length).filter (fun i => c (l.getD i d))).map (fun i => g (l.getD i d)) =
      (l.filter c).map g := by
  have h := range_map_getD l d
  have h2 : (l.filter c).map g =
      (((List.range l.length).map (fun i => l.getD i d)).filter c).map g := by rw [h]
  rw [h2, List.filter_map, List.map_map]
  rfl

theorem latchSeq_eq (m : aiger) (coi : Nat → Nat) :
    latchSeq m coi =
      (m.latches.filter (fun l => decide (ulitincoi coi l.lit ≠ 0))).map
        (fun l => (prepilit l.lit).toNat) :=
  range_filter_map_getD m.latches ⟨0, 0, 0⟩ (fun l => decide (ulitincoi coi l.lit ≠ 0))
    (fun l => (prepilit l.lit).toNat)

theorem inputSeq_eq (m : aiger) (coi : Nat → Nat) :
    inputSeq m coi =
      (m.inputs.filter (fun l => decide (ulitincoi coi l.lit ≠ 0))).map
        (fun l => (prepilit l.lit).toNat) :=
  range_filter_map_getD m.inputs ⟨0, 0, 0⟩ (fun l => decide (ulitincoi coi l.lit ≠ 0))
    (fun l => (prepilit l.lit).toNat)

theorem nextSeq_eq (m : aiger) (coi : Nat → Nat) :
    nextSeq m coi =
      (m.latches.filter (fun l => decide (ulitincoi coi l.lit ≠ 0))).map
        (fun l => (prepilit l.next).natAbs) :=
  range_filter_map_getD m.latches ⟨0, 0, 0⟩ (fun l => decide (ulitincoi coi l.lit ≠ 0))
    (fun l => (prepilit l.next).natAbs)

theorem prepilit_toNat {u : Nat} (h : u % 2 = 0) : (prepilit u).toNat = u / 2 + 1 := by
  unfold prepilit
  simp only
  split <;> omega

theorem mem_latchSeq {m : aiger} (hwf : WellFormed m) {coi : Nat → Nat} {x : Nat} :
    x ∈ latchSeq m coi ↔ ∃ l ∈ m.latches, ulitincoi coi l.lit ≠ 0 ∧ x = l.lit / 2 + 1 := by
  rw [latchSeq_eq]
  simp only [List.mem_map, List.mem_filter, decide_eq_true_eq]
  constructor
  · rintro ⟨l, ⟨hl, hc⟩, rfl⟩
    have := hwf.def_ok _ (mem_defined_latch hl)
    exact ⟨l, hl, hc, prepilit_toNat this.1⟩
  · rintro ⟨l, hl, hc, rfl⟩
    have := hwf.def_ok _ (mem_defined_latch hl)
    exact ⟨l, ⟨hl, hc⟩, prepilit_toNat this.1⟩

theorem mem_inputSeq {m : aiger} (hwf : WellFormed m) {coi : Nat → Nat} {x : Nat} :
    x ∈ inputSeq m coi ↔ ∃ l ∈ m.inputs, ulitincoi coi l.lit ≠ 0 ∧ x = l.lit / 2 + 1 := by
  rw [inputSeq_eq]
  simp only [List.mem_map, List.mem_filter, decide_eq_true_eq]
  constructor
  · rintro ⟨l, ⟨hl, hc⟩, rfl⟩
    have := hwf.def_ok _ (mem_defined_input hl)
    exact ⟨l, hl, hc, prepilit_toNat this.1⟩
  · rintro ⟨l, hl, hc, rfl⟩
    have := hwf.def_ok _ (mem_defined_input hl)
    exact ⟨l, ⟨hl, hc⟩, prepilit_toNat this.1⟩

theorem mem_nextSeq {m : aiger} {coi : Nat → Nat} {x : Nat} :
    x ∈ nextSeq m coi ↔ ∃ l ∈ m.latches, ulitincoi coi l.lit ≠ 0 ∧ x = l.next / 2 + 1 := by
  rw [nextSeq_eq]
  simp only [List.mem_map, List.mem_filter, decide_eq_true_eq]
  constructor
  · rintro ⟨l, ⟨hl, hc⟩, rfl⟩
    exact ⟨l, hl, hc, prepilit_natAbs _⟩
  · rintro ⟨l, hl, hc, rfl⟩
    exact ⟨l, ⟨hl, hc⟩, prepilit_natAbs _⟩

theorem latch_input_nodup {m : aiger} (hwf : WellFormed m) (coi : Nat → Nat) :
    (latchSeq m coi ++ inputSeq m coi).Nodup := by
  rw [latchSeq_eq, inputSeq_eq, ← List.map_append]
  have hn := hwf.def_nodup
  unfold defined at hn
  have hn1 := List.Nodup.of_append_left hn
  have hI : (m.inputs.map (fun s => s.lit)).Nodup := List.Nodup.of_append_left hn1
  have hL : (m.latches.map (fun s => s.lit)).Nodup := List.Nodup.of_append_right hn1
  have hI1 : m.inputs.Nodup := List.Nodup.of_map _ hI
  have hL1 : m.latches.Nodup := List.Nodup.of_map _ hL
  apply List.Nodup.map_on
  · intro x hx y hy hxy
    have hmem : ∀ z, z ∈ m.latches.filter (fun l => decide (ulitincoi coi l.lit ≠ 0)) ++
        m.inputs.filter (fun l => decide (ulitincoi coi l.lit ≠ 0)) →
        z ∈ m.latches ∨ z ∈ m.inputs := by
      intro z hz
      rcases List.mem_append.mp hz with h | h
      · exact Or.inl (List.mem_filter.mp h).1
      · exact Or.inr (List.mem_filter.mp h).1
    have hev : ∀ z, z ∈ m.latches ∨ z ∈ m.inputs → z.lit % 2 = 0 := by
      intro z hz
      rcases hz with h | h
      · exact (hwf.def_ok _ (mem_defined_latch h)).1
      · exact (hwf.def_ok _ (mem_defined_input h)).1
    have hx1 := hmem x hx
    have hy1 := hmem y hy
    have ex := hev x hx1
    have ey := hev y hy1
    rw [prepilit_toNat ex, prepilit_toNat ey] at hxy
    have hlit : x.lit = y.lit := by omega
    rcases hx1 with h1 | h1 <;> rcases hy1 with h2 | h2
    · exact hwf.latch_inj h1 h2 hlit
    · exact absurd hlit.symm (hwf.input_ne_latch h2 h1)
    · exact absurd hlit (hwf.input_ne_latch h1 h2)
    · exact hwf.input_inj h1 h2 hlit
  · rw [List.nodup_append]
    refine ⟨hL1.filter _, hI1.filter _, ?_⟩
    intro x hx hy
    have h1 := (List.mem_filter.mp hx).1
    have h2 := (List.mem_filter.mp hy).1
    exact hwf.input_ne_latch h2 h1 rfl

theorem initMap_eq_run {m : aiger} (hwf : WellFormed m) (coi : Nat → Nat)
    (cs : List (List Int)) :
    initMap m coi cs = (initSeq m coi cs).foldl VarMap.mapIdx VarMap.zero := by
  unfold initMap initSeq
  rw [List.foldl_append, List.foldl_append, ← VarMap.assign_fold_eq _ _
    (latch_input_nodup hwf coi) (fun _ _ => rfl), List.foldl_append]

theorem initMap_inv {m : aiger} (hwf : WellFormed m) (coi : Nat → Nat)
    (cs : List (List Int)) : MapInv (initMap m coi cs) := by
  rw [initMap_eq_run hwf]
  exact VarMap.run_inv VarMap.zero_inv _

theorem initMap_mapped {m : aiger} (hwf : WellFormed m) (coi : Nat → Nat)
    (cs : List (List Int)) {i : Nat} :
    (initMap m coi cs).litmap i ≠ 0 ↔ i ∈ initSeq m coi cs := by
  rw [initMap_eq_run hwf]
  have h := (VarMap.run_numbering (initSeq m coi cs) VarMap.zero []
    (fun i => by simp [VarMap.zero])).2.2 i
  simpa using h

/-! ## Emission by `init` and `shiftcnf` -/

theorem mainilit_congr {s s1 : St} (h : s1.litmap = s.litmap) (u : Nat) :
    mainilit s1 u = mainilit s u := by
  unfold mainilit; rw [h]

theorem shift_congr {s s1 : St} (h : s1.maxvar = s.maxvar) (l : Int) (t : Nat) :
    shift s1 l t = shift s l t := by
  unfold shift; rw [h]

theorem SameClauses.refl_same (s : St) : SameClauses s s := ⟨Frame.refl_frame s, rfl, rfl, rfl, rfl, rfl⟩

theorem SameClauses.chain {s s1 s2 : St} (h1 : SameClauses s s1) (h2 : SameClauses s1 s2) :
    SameClauses s s2 :=
  ⟨h1.frame.compose h2.frame, h2.lgl_cur.trans h1.lgl_cur, h2.cadical_cur.trans h1.cadical_cur,
    h2.lits.trans h1.lits, h2.solver.trans h1.solver, h2.stored.trans h1.stored⟩

theorem Emits.then_same {s s1 s2 : St} {cs : List (List Int)} (h1 : Emits s s1 cs)
    (h2 : SameClauses s1 s2) : Emits s s2 cs := by
  refine ⟨h1.frame.compose h2.frame, ?_, ?_, ?_⟩
  · obtain ⟨a, b, c⟩ := h1.ready
    exact ⟨h2.lgl_cur.trans a, h2.cadical_cur.trans b, h2.lits.trans c⟩
  · rw [h2.solver, h1.solver]
  · rw [h2.stored, h1.stored]

theorem SameClauses.then_emits {s s1 s2 : St} {cs : List (List Int)} (h1 : SameClauses s s1)
    (h2 : Emits s1 s2 cs) : Emits s s2 cs := by
  refine ⟨h1.frame.compose h2.frame, h2.ready, ?_, ?_⟩
  · rw [h2.solver, h1.solver]
  · rw [h2.stored, h1.stored, h1.frame.use_cadical, h1.frame.extracting]

theorem same_lgl_frozen (s : St) (f : Nat → Int) :
    SameClauses s { s with lgl := { s.lgl with frozen := f } } := by
  refine ⟨⟨rfl, rfl, rfl, rfl, rfl⟩, rfl, rfl, rfl, ?_, rfl⟩
  unfold St.solver
  simp only
  split <;> rfl

theorem same_melt (s : St) (x : Int) : SameClauses s { s with lgl := lglmelt s.lgl x } :=
  same_lgl_frozen s _

theorem same_freeze (s : St) (x : Int) : SameClauses s { s with lgl := lglfreeze s.lgl x } :=
  same_lgl_frozen s _

theorem same_bad (m : aiger) (s : St) (t : Nat) : SameClauses s (bad m s t) := by
  unfold bad
  split
  · next h =>
    refine ⟨⟨rfl, rfl, rfl, rfl, rfl⟩, rfl, rfl, rfl, ?_, rfl⟩
    unfold St.solver lglassume
    simp only
    split <;> rfl
  · next h =>
    refine ⟨⟨rfl, rfl, rfl, rfl, rfl⟩, rfl, rfl, rfl, ?_, rfl⟩
    unfold St.solver lglassume
    simp only
    split <;> rfl

theorem same_solved (s : St) : SameClauses s s.solved := by
  unfold St.solved
  split
  · refine ⟨⟨rfl, rfl, rfl, rfl, rfl⟩, rfl, rfl, rfl, ?_, rfl⟩
    unfold St.solver
    simp only
    split <;> rfl
  · refine ⟨⟨rfl, rfl, rfl, rfl, rfl⟩, rfl, rfl, rfl, ?_, rfl⟩
    unfold St.solver
    simp only
    split <;> rfl

theorem same_simplify (s : St) : SameClauses s s.simplify := by
  unfold St.simplify
  split
  · refine ⟨⟨rfl, rfl, rfl, rfl, rfl⟩, rfl, rfl, rfl, ?_, rfl⟩
    unfold St.solver lglsimp
    simp only
    split <;> rfl
  · refine ⟨⟨rfl, rfl, rfl, rfl, rfl⟩, rfl, rfl, rfl, ?_, rfl⟩
    unfold St.solver lglsimp
    simp only
    split <;> rfl

theorem mainilit_ne_zero_iff (s : St) (u : Nat) :
    mainilit s u ≠ 0 ↔ s.litmap (u / 2 + 1) ≠ 0 := by
  rw [mainilit_eq]
  unfold mlit
  rw [prepilit_natAbs]
  split <;> omega

theorem initReset_emits (m : aiger) {s0 : St} (hr : Ready s0)
    (hmap : ∀ i, i < m.latches.length → ulitincoi s0.coi (aiglatch m i) ≠ 0 →
      mainilit s0 (aiglatch m i) ≠ 0) :
    Emits s0 ((List.range m.latches.length).foldl (initReset m) s0) (resetClauses m s0) := by
  unfold resetClauses
  apply foldl_emits s0 _ _ _ _ s0 hr (Frame.refl_frame s0)
  intro s i hi hrs hf
  rw [List.mem_range] at hi
  unfold initReset
  dsimp only
  rw [hf.coi]
  split
  · exact Emits.nil hrs
  · next hc =>
    split
    · exact Emits.nil hrs
    · have hne := hmap i hi hc
      have hm : mainilit s (aiglatch m i) = mainilit s0 (aiglatch m i) :=
        mainilit_congr hf.litmap _
      have h1 : Emits s
          (if aiger_false = aigreset m i then unit s (-(mainilit s (aiglatch m i))) else s)
          (if aiger_false = aigreset m i then [[-(mainilit s0 (aiglatch m i))]] else []) := by
        split
        · rw [hm]; exact unit_emits hrs (by omega)
        · exact Emits.nil hrs
      refine h1.append ?_
      generalize (if aiger_false = aigreset m i then unit s (-(mainilit s (aiglatch m i)))
        else s) = S1 at h1
      split
      · rw [mainilit_congr (h1.frame.litmap.trans hf.litmap)]
        exact unit_emits h1.ready hne
      · exact Emits.nil h1.ready

theorem shiftcnfLit_fold (time : Nat) (s0 : St) (c : List Int) :
    ∀ s : St, (∀ lit ∈ c, lit ≠ 0) → s.maxvar = s0.maxvar →
      c.foldl (shiftcnfLit time) s =
        if !s.use_cadical then
          { s with lgl :=
              { s.lgl with cur := s.lgl.cur ++ c.map (fun lit => shift s0 lit time) } }
        else
          { s with cadical :=
              { s.cadical with cur := s.cadical.cur ++ c.map (fun lit => shift s0 lit time) } } := by
  induction c with
  | nil => intro s _ _; cases s with
    | mk uc ex lgl cad cls lits mv lm coi => cases uc <;> simp
  | cons lit rest ih =>
    intro s hne hmv
    have h1 : lit ≠ 0 := hne lit (List.mem_cons_self _ _)
    have h2 := shift_ne_zero s0 time h1
    have hs : shift s lit time = shift s0 lit time := shift_congr hmv lit time
    have hmv1 : (shiftcnfLit time s lit).maxvar = s0.maxvar := by
      unfold shiftcnfLit
      split <;> exact hmv
    rw [List.foldl_cons, ih _ (fun l hl => hne l (List.mem_cons_of_mem _ hl)) hmv1]
    unfold shiftcnfLit
    rw [hs]
    cases s with
    | mk uc ex lgl cad cls lits mv lm coi =>
      cases uc
      · simp [lgladd, h2]
      · simp [lgladd, ccadical_add, h2]

theorem shiftcnfClause_emits (time : Nat) {s : St} (hr : Ready s)
    (hx : s.cadical_extracting_clauses = false) {c : List Int} (hne : ∀ lit ∈ c, lit ≠ 0) :
    Emits s (shiftcnfClause time s c) [c.map (fun lit => shift s lit time)] := by
  unfold shiftcnfClause
  simp only
  rw [shiftcnfLit_fold time s c s hne rfl]
  obtain ⟨h1, h2, h3⟩ := hr
  cases s with
  | mk uc ex lgl cad cls lits mv lm coi =>
    simp only at h1 h2 h3 hx
    subst hx
    cases uc
    · refine ⟨⟨rfl, rfl, rfl, rfl, rfl⟩, ⟨?_, h2, h3⟩, ?_, ?_⟩
      · simp [lgladd]
      · simp [lgladd, St.solver, h1]
      · simp
    · refine ⟨⟨rfl, rfl, rfl, rfl, rfl⟩, ⟨h1, ?_, h3⟩, ?_, ?_⟩
      · simp [lgladd, ccadical_add]
      · simp [lgladd, ccadical_add, St.solver, h2]
      · simp

theorem foldl_same {α : Type} (l : List α) (g : St → α → St)
    (hg : ∀ s a, SameClauses s (g s a)) : ∀ s, SameClauses s (l.foldl g s) := by
  induction l with
  | nil => intro s; exact SameClauses.refl_same s
  | cons a l ih => intro s; exact (hg s a).chain (ih (g s a))

theorem flatMap_singleton_map {α β : Type} (l : List α) (f : α → β) :
    l.flatMap (fun a => [f a]) = l.map f := by
  induction l with
  | nil => rfl
  | cons a l ih => simp [List.flatMap_cons, ih]

theorem Unrollable.transfer {m : aiger} {s s1 : St} (h : Unrollable m s) (hf : Frame s s1)
    (hr : Ready s1) (hc : s1.clauses = s.clauses) : Unrollable m s1 := by
  refine ⟨hr, by rw [hf.extracting]; exact h.noextract, by rw [hc]; exact h.lits_ne, ?_⟩
  intro i hi hcoi
  rw [hf.coi] at hcoi
  rw [mainilit_congr hf.litmap, mainilit_congr hf.litmap]
  exact h.latch_ne i hi hcoi

theorem Unrollable.after_emits {m : aiger} {s s1 : St} {cs : List (List Int)} (h : Unrollable m s)
    (he : Emits s s1 cs) : Unrollable m s1 := by
  apply h.transfer he.frame he.ready
  rw [he.stored, h.noextract]
  simp

theorem Unrollable.after_same {m : aiger} {s s1 : St} (h : Unrollable m s)
    (he : SameClauses s s1) : Unrollable m s1 :=
  h.after_emits ((Emits.nil h.ready).then_same he)

theorem latchClausesAt_congr (m : aiger) {s s1 : St} (hf : Frame s s1) (time i : Nat) :
    latchClausesAt m s1 time i = latchClausesAt m s time i := by
  unfold latchClausesAt
  rw [hf.coi, mainilit_congr hf.litmap, mainilit_congr hf.litmap]
  simp only [shift_congr hf.maxvar]

theorem shiftClauses_congr (m : aiger) {s s1 : St} (hf : Frame s s1)
    (hc : s1.clauses = s.clauses) (time : Nat) :
    shiftClauses m s1 time = shiftClauses m s time := by
  unfold shiftClauses latchClauses shiftedClauses
  have h1 : latchClausesAt m s1 time = latchClausesAt m s time :=
    funext (latchClausesAt_congr m hf time)
  rw [hc, h1]
  simp only [shift_congr hf.maxvar]

theorem shiftcnfLatch_emits (m : aiger) (time : Nat) {s0 s : St} (hu : Unrollable m s0)
    (hr : Ready s) (hf : Frame s0 s) {i : Nat} (hi : i < m.latches.length) :
    Emits s (shiftcnfLatch m time s i) (latchClausesAt m s0 time i) := by
  rw [← latchClausesAt_congr m hf]
  unfold shiftcnfLatch latchClausesAt
  dsimp only
  split
  · exact Emits.nil hr
  · next hc =>
    rw [hf.coi] at hc
    obtain ⟨h1, h2⟩ := hu.latch_ne i hi hc
    rw [← mainilit_congr hf.litmap] at h1 h2
    have he := equiv_emits hr (shift_ne_zero s (time - 1) h2) (shift_ne_zero s time h1)
    split
    · exact he.then_same (same_melt _ _)
    · exact he

theorem shiftcnf_emits (m : aiger) {s : St} (hu : Unrollable m s) (time : Nat) :
    Emits s (shiftcnf m s time) (shiftClauses m s time) := by
  unfold shiftcnf shiftClauses
  dsimp only
  have h1 : Emits s
      (if time > 0 then (List.range m.latches.length).foldl (shiftcnfLatch m time) s else s)
      (if time > 0 then latchClauses m s time else []) := by
    split
    · unfold latchClauses
      apply foldl_emits s _ _ _ _ s hu.ready (Frame.refl_frame s)
      intro s1 i hi hr1 hf1
      exact shiftcnfLatch_emits m time hu hr1 hf1 (List.mem_range.mp hi)
    · exact Emits.nil hu.ready
  generalize (if time > 0 then (List.range m.latches.length).foldl (shiftcnfLatch m time) s
    else s) = S1 at h1
  have hu1 := hu.after_emits h1
  have hc1 : S1.clauses = s.clauses := by
    rw [h1.stored, hu.noextract]; simp
  have h2 : Emits S1 (S1.clauses.foldl (shiftcnfClause time) S1) (shiftedClauses s time) := by
    unfold shiftedClauses
    rw [← flatMap_singleton_map, ← hc1]
    apply foldl_emits S1 _ _ _ _ S1 hu1.ready (Frame.refl_frame S1)
    intro s2 c hc hr2 hf2
    have hsh : (fun lit => shift s lit time) = (fun lit => shift s2 lit time) :=
      funext (fun lit => (shift_congr (hf2.maxvar.trans h1.frame.maxvar) lit time).symm)
    rw [hsh]
    exact shiftcnfClause_emits time hr2 (by rw [hf2.extracting]; exact hu1.noextract)
      (hu1.lits_ne c hc)
  refine (h1.append h2).then_same ?_
  apply foldl_same
  intro s3 i
  unfold shiftcnfFreeze
  split
  · split
    · exact same_freeze _ _
    · exact SameClauses.refl_same _
  · exact SameClauses.refl_same _

theorem passState_emits (m : aiger) (fl : Flags) {s0 : St} (hu : Unrollable m s0) :
    ∀ k, Emits s0 (passState m fl s0 k) ((List.range k).flatMap (shiftClauses m s0)) := by
  intro k
  induction k with
  | zero => exact Emits.nil hu.ready
  | succ k ih =>
    have hu1 := hu.after_emits ih
    have hc1 : (passState m fl s0 k).clauses = s0.clauses := by
      rw [ih.stored, hu.noextract]; simp
    have h2 := shiftcnf_emits m hu1 k
    rw [shiftClauses_congr m ih.frame hc1] at h2
    have h3 := ih.append h2
    rw [List.range_succ, List.flatMap_append]
    simp only [List.flatMap_singleton]
    unfold passState
    dsimp only
    split
    · exact h3.then_same (((same_bad m _ k).chain (same_solved _)).chain (same_simplify _))
    · exact h3.then_same ((same_bad m _ k).chain (same_solved _))

theorem unrolled_emits (m : aiger) (fl : Flags) {s0 : St} (hu : Unrollable m s0) (k : Nat) :
    Emits s0 (shiftcnf m (passState m fl s0 k) k) (unrollClauses m s0 k) := by
  have ih := passState_emits m fl hu k
  have hu1 := hu.after_emits ih
  have hc1 : (passState m fl s0 k).clauses = s0.clauses := by
    rw [ih.stored, hu.noextract]; simp
  have h2 := shiftcnf_emits m hu1 k
  rw [shiftClauses_congr m ih.frame hc1] at h2
  have h3 := ih.append h2
  unfold unrollClauses
  rw [List.range_succ, List.flatMap_append]
  simpa only [List.flatMap_singleton] using h3

/-! ## The state at the start of the BMC loop -/

theorem logicClauses_ne (m : aiger) (coi : Nat → Nat) :
    ∀ c ∈ logicClauses m coi, ∀ lit ∈ c, lit ≠ 0 := by
  intro c hc lit hlit
  unfold logicClauses at hc
  rcases List.mem_append.mp hc with h | h
  · split at h
    · simp only [List.mem_singleton] at h
      subst h
      simp only [List.mem_singleton] at hlit
      omega
    · simp at h
  · obtain ⟨i, _, hi⟩ := List.mem_flatMap.mp h
    split at hi
    · have h1 := prepilit_ne_zero (m.ands.getD i ⟨0, 0, 0⟩).lhs
      have h2 := prepilit_ne_zero (m.ands.getD i ⟨0, 0, 0⟩).rhs0
      have h3 := prepilit_ne_zero (m.ands.getD i ⟨0, 0, 0⟩).rhs1
      unfold andClauses preplhs prepleft prepright at hi
      simp only [List.mem_cons, List.mem_singleton, List.not_mem_nil, or_false] at hi
      rcases hi with rfl | rfl | rfl <;>
        simp only [List.mem_cons, List.mem_singleton, List.not_mem_nil, or_false] at hlit <;>
        omega
    · simp at hi

theorem extract_fold (c : List Int) :
    ∀ s : St, (∀ lit ∈ c, lit ≠ 0) → c.foldl extract s = { s with lits := s.lits ++ c } := by
  induction c with
  | nil => intro s _; simp
  | cons lit rest ih =>
    intro s hne
    have h1 : lit ≠ 0 := hne lit (List.mem_cons_self _ _)
    rw [List.foldl_cons, ih _ (fun l hl => hne l (List.mem_cons_of_mem _ hl))]
    simp [extract, h1]

theorem travall_fold (cs : List (List Int)) :
    ∀ s : St, (∀ c ∈ cs, ∀ lit ∈ c, lit ≠ 0) → s.lits = [] →
      cs.foldl (fun s c => extract (c.foldl extract s) 0) s =
        { s with clauses := s.clauses ++ cs } := by
  induction cs with
  | nil => intro s _ _; simp
  | cons c rest ih =>
    intro s hne hl
    rw [List.foldl_cons, extract_fold c s (hne c (List.mem_cons_self _ _)),
      ih _ (fun d hd => hne d (List.mem_cons_of_mem _ hd)) (by simp [extract])]
    simp [extract, hl]

theorem prepfreeze_same (m : aiger) (nw : Bool) (s : St) :
    SameClauses s (prepfreeze m nw s) := by
  unfold prepfreeze
  dsimp only
  have h1 : SameClauses s ((List.range m.inputs.length).foldl (prepfreezeInput m nw) s) := by
    apply foldl_same
    intro s1 i
    unfold prepfreezeInput
    split
    · exact same_freeze _ _
    · exact SameClauses.refl_same _
  have h2 := foldl_same (List.range m.latches.length) (prepfreezeLatch m) (fun s1 i => by
    unfold prepfreezeLatch
    split
    · exact SameClauses.refl_same _
    · exact (same_freeze s1 (preplatch m i)).chain (same_freeze _ _))
    ((List.range m.inputs.length).foldl (prepfreezeInput m nw) s)
  have h3 := foldl_same (List.range (num_bad m)) (prepfreezeBad m) (fun s1 i => by
    unfold prepfreezeBad
    exact same_freeze _ _)
    ((List.range m.latches.length).foldl (prepfreezeLatch m)
      ((List.range m.inputs.length).foldl (prepfreezeInput m nw) s))
  have h4 := (h1.chain h2).chain h3
  split
  · exact h4.chain (same_freeze _ _)
  · exact h4

theorem encode_spec (m : aiger) (fl : Flags) (coi : Nat → Nat) :
    (encode m fl coi).use_cadical = fl.use_cadical ∧
    (encode m fl coi).cadical_extracting_clauses = fl.use_cadical ∧
    (encode m fl coi).coi = coi ∧ Ready (encode m fl coi) ∧
    (encode m fl coi).solver.clauses = logicClauses m coi ∧
    (encode m fl coi).clauses = (if fl.use_cadical = true then logicClauses m coi else []) := by
  have hr : Ready (⟨fl.use_cadical, fl.use_cadical, Solver.fresh, Solver.fresh, [], [], 0,
      fun _ => 0, coi⟩ : St) := ⟨rfl, rfl, rfl⟩
  have h1 := logic_emits m hr
  have h2 : Emits (⟨fl.use_cadical, fl.use_cadical, Solver.fresh, Solver.fresh, [], [], 0,
      fun _ => 0, coi⟩ : St) (encode m fl coi) (logicClauses m coi) := by
    unfold encode
    dsimp only
    split
    · exact h1.then_same ((prepfreeze_same m _ _).chain (same_simplify _))
    · exact h1.then_same (same_simplify _)
  refine ⟨h2.frame.use_cadical, h2.frame.extracting, h2.frame.coi, h2.ready, ?_, ?_⟩
  · rw [h2.solver]
    unfold St.solver Solver.fresh
    simp
  · rw [h2.stored]
    simp

theorem extract_fold_gen (c : List Int) :
    ∀ s : St, (∀ l ∈ s.lits, l ≠ 0) →
      ∃ (T : List (List Int)) (L : List Int), (∀ d ∈ T, ∀ l ∈ d, l ≠ 0) ∧ (∀ l ∈ L, l ≠ 0) ∧
        c.foldl extract s = { s with clauses := s.clauses ++ T, lits := L } := by
  induction c with
  | nil => intro s hs; exact ⟨[], s.lits, by simp, hs, by simp⟩
  | cons lit rest ih =>
    intro s hs
    rw [List.foldl_cons]
    by_cases h0 : lit = 0
    · have hs1 : ∀ l ∈ (extract s lit).lits, l ≠ 0 := by simp [extract, h0]
      obtain ⟨T, L, hT, hL, e⟩ := ih (extract s lit) hs1
      refine ⟨s.lits :: T, L, ?_, hL, ?_⟩
      · intro d hd
        rcases List.mem_cons.mp hd with rfl | hd
        · exact hs
        · exact hT d hd
      · rw [e]; simp [extract, h0]
    · have hs1 : ∀ l ∈ (extract s lit).lits, l ≠ 0 := by
        intro l hl
        simp only [extract, h0, ne_eq, not_false_eq_true, if_true, List.mem_append,
          List.mem_singleton] at hl
        rcases hl with hl | rfl
        · exact hs l hl
        · exact h0
      obtain ⟨T, L, hT, hL, e⟩ := ih (extract s lit) hs1
      refine ⟨T, L, hT, hL, ?_⟩
      rw [e]; simp [extract, h0]

theorem travall_fold_gen (cs : List (List Int)) :
    ∀ s : St, s.lits = [] →
      ∃ T : List (List Int), (∀ d ∈ T, ∀ l ∈ d, l ≠ 0) ∧
        cs.foldl (fun s c => extract (c.foldl extract s) 0) s =
          { s with clauses := s.clauses ++ T } := by
  induction cs with
  | nil => intro s _; exact ⟨[], by simp, by simp⟩
  | cons c rest ih =>
    intro s hl
    rw [List.foldl_cons]
    obtain ⟨T, L, hT, hL, e⟩ := extract_fold_gen c s (by rw [hl]; simp)
    obtain ⟨T1, hT1, e1⟩ := ih (extract (c.foldl extract s) 0) (by simp [extract])
    refine ⟨T ++ [L] ++ T1, ?_, ?_⟩
    · intro d hd
      simp only [List.mem_append, List.mem_singleton] at hd
      rcases hd with (hd | rfl) | hd
      · exact hT d hd
      · exact hL
      · exact hT1 d hd
    · rw [e1, e]; simp [extract, hl]

theorem prepare_pre (m : aiger) (fl : Flags) (o : Oracle) (coi : Nat → Nat) :
    ∃ (P : St) (T0 : List (List Int)), startState m fl o coi = init m P ∧
      P.use_cadical = fl.use_cadical ∧
      P.cadical_extracting_clauses = false ∧ P.coi = coi ∧ Ready P ∧
      P.clauses = T0 ∧ (∀ d ∈ T0, ∀ l ∈ d, l ≠ 0) ∧
      (fl.use_cadical = true ∨ PlainTravall o → T0 = logicClauses m coi) ∧
      P.solver.clauses = (if fl.use_cadical = true then logicClauses m coi else []) := by
  obtain ⟨e1, e2, e3, e4, e5, e6⟩ := encode_spec m fl coi
  cases huc : fl.use_cadical
  · rw [huc] at e1 e2 e6
    have hsol : (encode m fl coi).lgl.clauses = logicClauses m coi := by
      rw [← e5]; unfold St.solver; simp [e1]
    obtain ⟨T, hT, eT⟩ := travall_fold_gen (o.travall (encode m fl coi).lgl)
      (encode m fl coi) e4.2.2
    have ht : travallExtract o (encode m fl coi) =
        { encode m fl coi with clauses := T } := by
      unfold travallExtract
      rw [eT, e6]
      simp
    refine ⟨{ encode m fl coi with clauses := T, lgl := Solver.fresh }, T,
      ?_, e1, e2, e3, ⟨rfl, e4.2.1, e4.2.2⟩, rfl, hT, ?_, ?_⟩
    · have hcond : (!(encode m fl coi).use_cadical) = true := by rw [e1]; rfl
      unfold startState prepare
      dsimp only
      rw [if_pos hcond, ht]
    · rintro (h | ho)
      · exact absurd h (by decide)
      · have e := travall_fold _ (encode m fl coi) (logicClauses_ne m coi) e4.2.2
        have hto : o.travall (encode m fl coi).lgl = logicClauses m coi := by
          rw [ho, hsol]
        rw [hto, e] at eT
        have := congrArg St.clauses eT
        simp only [e6] at this
        simpa using this.symm
    · unfold St.solver Solver.fresh
      simp [e1]
  · rw [huc] at e1 e2 e6
    refine ⟨{ encode m fl coi with cadical_extracting_clauses := false }, logicClauses m coi,
      ?_, e1, rfl, e3, e4, ?_, logicClauses_ne m coi, fun _ => rfl, ?_⟩
    · have hcond : ¬ (!(encode m fl coi).use_cadical) = true := by rw [e1]; decide
      unfold startState prepare
      dsimp only
      rw [if_neg hcond]
    · simpa using e6
    · have : ({ encode m fl coi with cadical_extracting_clauses := false } : St).solver =
          (encode m fl coi).solver := rfl
      rw [this, e5]; simp

theorem getD_mem {α : Type} (l : List α) (d : α) {i : Nat} (h : i < l.length) :
    l.getD i d ∈ l := by
  rw [List.getD_eq_getElem l d h]
  exact List.getElem_mem h

theorem mem_iff_getD {α : Type} (l : List α) (d : α) {a : α} :
    a ∈ l ↔ ∃ i, i < l.length ∧ l.getD i d = a := by
  constructor
  · intro h
    obtain ⟨i, hi, e⟩ := List.getElem_of_mem h
    exact ⟨i, hi, by rw [List.getD_eq_getElem l d hi]; exact e⟩
  · rintro ⟨i, hi, rfl⟩
    exact getD_mem l d hi

theorem resetClauses_congr (m : aiger) {s s1 : St} (hf : Frame s s1) :
    resetClauses m s1 = resetClauses m s := by
  unfold resetClauses
  rw [hf.coi]
  simp only [mainilit_congr hf.litmap]

theorem mem_clauseSeq {cs : List (List Int)} {c : List Int} {lit : Int} (hc : c ∈ cs)
    (hl : lit ∈ c) : lit.natAbs ∈ clauseSeq cs := by
  unfold clauseSeq
  exact List.mem_map_of_mem _ (List.mem_flatten.mpr ⟨c, hc, hl⟩)

theorem initMapped_unrollable {m : aiger} (hwf : WellFormed m) {P : St} (hr : Ready P)
    (hx : P.cadical_extracting_clauses = false) : Unrollable m (initMapped m P) := by
  refine ⟨hr, hx, ?_, ?_⟩
  · intro c hc lit hlit
    simp only [initMapped, List.mem_map] at hc
    obtain ⟨c0, hc0, rfl⟩ := hc
    obtain ⟨l0, hl0, rfl⟩ := List.mem_map.mp hlit
    apply mlit_ne_zero
    rw [initMap_mapped hwf]
    unfold initSeq
    exact List.mem_append_right _ (List.mem_append_left _ (mem_clauseSeq hc0 hl0))
  · intro i hi hcoi
    have hmem := getD_mem m.latches ⟨0, 0, 0⟩ hi
    rw [mainilit_ne_zero_iff, mainilit_ne_zero_iff]
    have hl : (initMapped m P).litmap = (initMap m P.coi P.clauses).litmap := rfl
    have hcoi1 : ulitincoi P.coi (aiglatch m i) ≠ 0 := hcoi
    rw [hl, initMap_mapped hwf, initMap_mapped hwf]
    unfold initSeq
    constructor
    · apply List.mem_append_left
      apply List.mem_append_left
      rw [mem_latchSeq hwf]
      exact ⟨_, hmem, hcoi1, rfl⟩
    · apply List.mem_append_right
      apply List.mem_append_right
      rw [mem_nextSeq]
      exact ⟨_, hmem, hcoi1, rfl⟩

theorem start_spec {m : aiger} (hwf : WellFormed m) (fl : Flags) (o : Oracle)
    (coi : Nat → Nat) :
    ∃ T0 : List (List Int), (∀ d ∈ T0, ∀ l ∈ d, l ≠ 0) ∧
    (fl.use_cadical = true ∨ PlainTravall o → T0 = logicClauses m coi) ∧
    (startState m fl o coi).litmap = (initMap m coi T0).litmap ∧
    (startState m fl o coi).maxvar = (initMap m coi T0).maxvar ∧
    (startState m fl o coi).coi = coi ∧
    (startState m fl o coi).use_cadical = fl.use_cadical ∧
    (startState m fl o coi).clauses = T0.map (fun c => c.map (mlit (initMap m coi T0).litmap)) ∧
    Unrollable m (startState m fl o coi) ∧
    (startState m fl o coi).solver.clauses =
      (if fl.use_cadical = true then logicClauses m coi else []) ++
        resetClauses m (startState m fl o coi) := by
  obtain ⟨P, T0, hP, p1, p2, p3, p4, p5, hT0, hplain, p6⟩ := prepare_pre m fl o coi
  have hu := initMapped_unrollable hwf p4 p2
  have he : Emits (initMapped m P) (init m P) (resetClauses m (initMapped m P)) := by
    rw [init_eq]
    apply initReset_emits m hu.ready
    intro i hi hc
    exact (hu.latch_ne i hi hc).1
  rw [hP]
  have hM1 : (initMapped m P).litmap = (initMap m coi T0).litmap := by
    simp only [initMapped, p3, p5]
  have hM2 : (initMapped m P).maxvar = (initMap m coi T0).maxvar := by
    simp only [initMapped, p3, p5]
  have hM3 : (initMapped m P).clauses = T0.map (fun c =>
      c.map (mlit (initMap m coi T0).litmap)) := by
    simp only [initMapped, p3, p5]
  have hM4 : (initMapped m P).solver = P.solver := by
    unfold St.solver initMapped
    simp only
  refine ⟨T0, hT0, hplain, he.frame.litmap.trans hM1, he.frame.maxvar.trans hM2,
    he.frame.coi.trans p3, he.frame.use_cadical.trans p1, ?_, hu.after_emits he, ?_⟩
  · rw [he.stored, hu.noextract, hM3]; simp
  · rw [he.solver, hM4, p6, resetClauses_congr m he.frame]

/-! ## The clause list of the queried solver -/

theorem unrolled_spec {m : aiger} (hwf : WellFormed m) (fl : Flags) (o : Oracle)
    (coi : Nat → Nat) (k : Nat) :
    (unrolledState m fl o coi k).solver.clauses =
      (startState m fl o coi).solver.clauses ++ unrollClauses m (startState m fl o coi) k ∧
    Frame (startState m fl o coi) (unrolledState m fl o coi k) ∧
    (unrolledState m fl o coi k).clauses = (startState m fl o coi).clauses := by
  obtain ⟨T0, -, -, -, -, -, -, -, hu, -⟩ := start_spec hwf fl o coi
  have he := unrolled_emits m fl hu k
  refine ⟨he.solver, he.frame, ?_⟩
  unfold unrolledState
  rw [he.stored, hu.noextract]
  simp

theorem unrollClauses_succ (m : aiger) (s : St) (k : Nat) :
    unrollClauses m s (k + 1) = unrollClauses m s k ++ shiftClauses m s (k + 1) := by
  unfold unrollClauses
  rw [List.range_succ, List.flatMap_append]
  simp

theorem mem_unrollClauses {m : aiger} {s : St} {k t : Nat} (ht : t ≤ k) {c : List Int}
    (hc : c ∈ shiftClauses m s t) : c ∈ unrollClauses m s k := by
  unfold unrollClauses
  exact List.mem_flatMap.mpr ⟨t, List.mem_range.mpr (Nat.lt_succ_of_le ht), hc⟩

theorem litval_neg (σ : Nat → Bool) {l : Int} (h : l ≠ 0) : litval σ (-l) = !litval σ l := by
  unfold litval
  by_cases hl : l < 0
  · have : ¬ (-l < 0) := by omega
    simp [hl, this]
  · have : -l < 0 := by omega
    simp [hl, this]

theorem satCnf_mem {σ : Nat → Bool} {cs : List (List Int)} (h : satCnf σ cs = true)
    {c : List Int} (hc : c ∈ cs) : satClause σ c = true := by
  unfold satCnf at h
  exact List.all_eq_true.mp h c hc

theorem equiv_sound {σ : Nat → Bool} {a b : Int} (ha : a ≠ 0) (hb : b ≠ 0)
    (h1 : satClause σ [-a, b] = true) (h2 : satClause σ [a, -b] = true) :
    litval σ b = litval σ a := by
  unfold satClause at h1 h2
  simp only [List.any_cons, List.any_nil, Bool.or_false, litval_neg σ ha,
    litval_neg σ hb] at h1 h2
  cases hA : litval σ a <;> cases hB : litval σ b <;> simp [hA, hB] at h1 h2 ⊢

/-- C3 (latch linkage): for every mark array (in particular the one `travcoi` leaves), after
`shiftcnf (0)`, ..., `shiftcnf (k)` of the BMC loop, for every COI latch `i` and every time
`1 ≤ tm ≤ k` the clause list of the queried solver contains `(-a, b)` and `(a, -b)` for
`a = shift (mainilit (next_i), tm - 1)` and `b = shift (mainilit (latch_i), tm)`, so every
assignment satisfying the clause list gives `a` and `b` the same value.  `shiftcnf (0)` adds
only the shifted stored clauses, each later `shiftcnf` adds the equivalence clauses of the
latch loop followed by the shifted stored clauses, and a latch outside the COI contributes
nothing to the latch loop. -/
theorem latch_linkage (m : aiger) (hwf : WellFormed m) (fl : Flags) (o : Oracle)
    (coi : Nat → Nat) (k : Nat) :
    (∀ i tm, i < m.latches.length → ulitincoi coi (aiglatch m i) ≠ 0 → 1 ≤ tm → tm ≤ k →
      [-(shift (startState m fl o coi) (mainilit (startState m fl o coi) (aignext m i))
          (tm - 1)),
        shift (startState m fl o coi) (mainilit (startState m fl o coi) (aiglatch m i)) tm]
        ∈ (unrolledState m fl o coi k).solver.clauses ∧
      [shift (startState m fl o coi) (mainilit (startState m fl o coi) (aignext m i))
          (tm - 1),
        -(shift (startState m fl o coi) (mainilit (startState m fl o coi) (aiglatch m i))
          tm)]
        ∈ (unrolledState m fl o coi k).solver.clauses ∧
      ∀ σ, satCnf σ (unrolledState m fl o coi k).solver.clauses = true →
        litval σ (shift (startState m fl o coi)
          (mainilit (startState m fl o coi) (aiglatch m i)) tm) =
        litval σ (shift (startState m fl o coi)
          (mainilit (startState m fl o coi) (aignext m i)) (tm - 1))) ∧
    (unrolledState m fl o coi 0).solver.clauses =
      (startState m fl o coi).solver.clauses ++ shiftedClauses (startState m fl o coi) 0 ∧
    (∀ j, (unrolledState m fl o coi (j + 1)).solver.clauses =
      (unrolledState m fl o coi j).solver.clauses ++
        (latchClauses m (startState m fl o coi) (j + 1) ++
          shiftedClauses (startState m fl o coi) (j + 1))) ∧
    (∀ i tm, ulitincoi coi (aiglatch m i) = 0 →
      latchClausesAt m (startState m fl o coi) tm i = []) := by
  obtain ⟨T0, -, -, -, -, hcoi, -, -, hu, -⟩ := start_spec hwf fl o coi
  refine ⟨?_, ?_, ?_, ?_⟩
  · intro i tm hi hc h1 h2
    have hc1 : ulitincoi (startState m fl o coi).coi (aiglatch m i) ≠ 0 := by
      rw [hcoi]; exact hc
    obtain ⟨n1, n2⟩ := hu.latch_ne i hi hc1
    have hmem : ∀ c, c ∈ latchClausesAt m (startState m fl o coi) tm i →
        c ∈ (unrolledState m fl o coi k).solver.clauses := by
      intro c hcl
      rw [(unrolled_spec hwf fl o coi k).1]
      apply List.mem_append_right
      apply mem_unrollClauses h2
      unfold shiftClauses
      rw [if_pos (by omega)]
      apply List.mem_append_left
      unfold latchClauses
      exact List.mem_flatMap.mpr ⟨i, List.mem_range.mpr hi, hcl⟩
    have hA := hmem [-(shift (startState m fl o coi)
        (mainilit (startState m fl o coi) (aignext m i)) (tm - 1)),
        shift (startState m fl o coi) (mainilit (startState m fl o coi) (aiglatch m i)) tm]
      (by unfold latchClausesAt equivClauses; rw [if_neg hc1]; simp)
    have hB := hmem [shift (startState m fl o coi)
        (mainilit (startState m fl o coi) (aignext m i)) (tm - 1),
        -(shift (startState m fl o coi) (mainilit (startState m fl o coi) (aiglatch m i))
          tm)]
      (by unfold latchClausesAt equivClauses; rw [if_neg hc1]; simp)
    refine ⟨hA, hB, ?_⟩
    intro σ hσ
    exact equiv_sound (shift_ne_zero _ _ n2) (shift_ne_zero _ _ n1) (satCnf_mem hσ hA)
      (satCnf_mem hσ hB)
  · rw [(unrolled_spec hwf fl o coi 0).1]
    have h1 : List.range 1 = [0] := rfl
    simp [unrollClauses, shiftClauses, h1]
  · intro j
    rw [(unrolled_spec hwf fl o coi (j + 1)).1, (unrolled_spec hwf fl o coi j).1,
      unrollClauses_succ, List.append_assoc]
    simp [shiftClauses]
  · intro i tm hc
    unfold latchClausesAt
    rw [hcoi, if_pos hc]

/-- Witness for C3: the model with a latch fed by an and-gate, unrolled to `k = 2`. -/
theorem latch_linkage_witness :
    WellFormed exGate ∧
    ((∀ i tm, i < exGate.latches.length → ulitincoi exGateCoi (aiglatch exGate i) ≠ 0 → 1 ≤ tm → tm ≤ 2 →
      [-(shift (startState exGate flagsOne oracleUnsat exGateCoi) (mainilit (startState exGate flagsOne oracleUnsat exGateCoi) (aignext exGate i))
          (tm - 1)),
        shift (startState exGate flagsOne oracleUnsat exGateCoi) (mainilit (startState exGate flagsOne oracleUnsat exGateCoi) (aiglatch exGate i)) tm]
        ∈ (unrolledState exGate flagsOne oracleUnsat exGateCoi 2).solver.clauses ∧
      [shift (startState exGate flagsOne oracleUnsat exGateCoi) (mainilit (startState exGate flagsOne oracleUnsat exGateCoi) (aignext exGate i))
          (tm - 1),
        -(shift (startState exGate flagsOne oracleUnsat exGateCoi) (mainilit (startState exGate flagsOne oracleUnsat exGateCoi) (aiglatch exGate i))
          tm)]
        ∈ (unrolledState exGate flagsOne oracleUnsat exGateCoi 2).solver.clauses ∧
      ∀ σ, satCnf σ (unrolledState exGate flagsOne oracleUnsat exGateCoi 2).solver.clauses = true →
        litval σ (shift (startState exGate flagsOne oracleUnsat exGateCoi)
          (mainilit (startState exGate flagsOne oracleUnsat exGateCoi) (aiglatch exGate i)) tm) =
        litval σ (shift (startState exGate flagsOne oracleUnsat exGateCoi)
          (mainilit (startState exGate flagsOne oracleUnsat exGateCoi) (aignext exGate i)) (tm - 1))) ∧
    (unrolledState exGate flagsOne oracleUnsat exGateCoi 0).solver.clauses =
      (startState exGate flagsOne oracleUnsat exGateCoi).solver.clauses ++ shiftedClauses (startState exGate flagsOne oracleUnsat exGateCoi) 0 ∧
    (∀ j, (unrolledState exGate flagsOne oracleUnsat exGateCoi (j + 1)).solver.clauses =
      (unrolledState exGate flagsOne oracleUnsat exGateCoi j).solver.clauses ++
        (latchClauses exGate (startState exGate flagsOne oracleUnsat exGateCoi) (j + 1) ++
          shiftedClauses (startState exGate flagsOne oracleUnsat exGateCoi) (j + 1))) ∧
    (∀ i tm, ulitincoi exGateCoi (aiglatch exGate i) = 0 →
      latchClausesAt exGate (startState exGate flagsOne oracleUnsat exGateCoi) tm i = [])) :=
  ⟨exGate_wf, latch_linkage exGate exGate_wf flagsOne oracleUnsat exGateCoi 2⟩

/-! ## Order of assignment in the variable map -/

theorem firstNew_nodup (seq : List Nat) :
    ∀ seen : List Nat, seq.Nodup → (∀ x ∈ seq, x ∉ seen) → firstNew seen seq = seq := by
  induction seq with
  | nil => intro _ _ _; rfl
  | cons x l ih =>
    intro seen hn hs
    have hx : x ∉ seen := hs x (List.mem_cons_self _ _)
    simp only [firstNew, hx, if_false]
    congr 1
    apply ih _ (List.nodup_cons.mp hn).2
    intro y hy
    simp only [List.mem_cons, not_or]
    refine ⟨?_, hs y (List.mem_cons_of_mem _ hy)⟩
    intro e
    exact (List.nodup_cons.mp hn).1 (e ▸ hy)

theorem mem_firstNew (seq : List Nat) :
    ∀ (seen : List Nat) (x : Nat), x ∈ firstNew seen seq ↔ x ∈ seq ∧ x ∉ seen := by
  induction seq with
  | nil => intro seen x; simp [firstNew]
  | cons y l ih =>
    intro seen x
    by_cases hy : y ∈ seen
    · simp only [firstNew, hy, if_true, ih, List.mem_cons]
      constructor
      · rintro ⟨h1, h2⟩; exact ⟨Or.inr h1, h2⟩
      · rintro ⟨h1 | h1, h2⟩
        · exact absurd (h1 ▸ hy) h2
        · exact ⟨h1, h2⟩
    · simp only [firstNew, hy, if_false, List.mem_cons, ih, not_or]
      constructor
      · rintro (h | ⟨h1, h2, h3⟩)
        · exact ⟨Or.inl h, h ▸ hy⟩
        · exact ⟨Or.inr h1, h3⟩
      · rintro ⟨h1 | h1, h2⟩
        · exact Or.inl h1
        · by_cases e : x = y
          · exact Or.inl e
          · exact Or.inr ⟨h1, e, h2⟩

theorem filter_range_pos (c : Nat → Bool) :
    ∀ n i, i < n → c i = true →
      ((List.range n).filter c)[((List.range i).filter c).length]? = some i := by
  intro n
  induction n with
  | zero => intro i hi; omega
  | succ n ih =>
    intro i hi hc
    rw [List.range_succ, List.filter_append]
    by_cases e : i = n
    · subst e
      rw [List.getElem?_append_right (Nat.le_refl _)]
      simp [List.filter, hc]
    · have h1 := ih i (by omega) hc
      obtain ⟨hlt, _⟩ := List.getElem?_eq_some.mp h1
      rw [List.getElem?_append_left hlt]
      exact h1

theorem initMap_stageA {m : aiger} (hwf : WellFormed m) (coi : Nat → Nat) :
    ((inputSeq m coi).foldl VarMap.assign
        ((latchSeq m coi).foldl VarMap.assign VarMap.zero)).maxvar =
      (latchSeq m coi ++ inputSeq m coi).length ∧
    (∀ p, p < (latchSeq m coi ++ inputSeq m coi).length →
      ((inputSeq m coi).foldl VarMap.assign
        ((latchSeq m coi).foldl VarMap.assign VarMap.zero)).litmap
          ((latchSeq m coi ++ inputSeq m coi).getD p 0) = p + 1) ∧
    (∀ i, ((inputSeq m coi).foldl VarMap.assign
        ((latchSeq m coi).foldl VarMap.assign VarMap.zero)).litmap i ≠ 0 ↔
      i ∈ latchSeq m coi ++ inputSeq m coi) := by
  have hn := latch_input_nodup hwf coi
  rw [← List.foldl_append, VarMap.assign_fold_eq _ _ hn (fun _ _ => rfl)]
  obtain ⟨h1, h2, h3⟩ := VarMap.run_numbering (latchSeq m coi ++ inputSeq m coi) VarMap.zero []
    (fun i => by simp [VarMap.zero])
  rw [firstNew_nodup _ _ hn (fun _ _ => List.not_mem_nil _)] at h1 h2
  refine ⟨by simpa [VarMap.zero] using h1, ?_, ?_⟩
  · intro p hp
    have := h2 p hp
    have hz : VarMap.zero.maxvar = 0 := rfl
    rw [hz] at this
    omega
  · intro i
    simpa using h3 i

theorem initMap_order {m : aiger} (hwf : WellFormed m) (coi : Nat → Nat)
    (cs : List (List Int)) :
    (initMap m coi cs).maxvar = (latchSeq m coi ++ inputSeq m coi).length +
      (firstNew (latchSeq m coi ++ inputSeq m coi) (clauseSeq cs ++ nextSeq m coi)).length ∧
    (∀ p, p < (latchSeq m coi ++ inputSeq m coi).length →
      (initMap m coi cs).litmap ((latchSeq m coi ++ inputSeq m coi).getD p 0) = p + 1) ∧
    (∀ p, p < (firstNew (latchSeq m coi ++ inputSeq m coi)
        (clauseSeq cs ++ nextSeq m coi)).length →
      (initMap m coi cs).litmap ((firstNew (latchSeq m coi ++ inputSeq m coi)
        (clauseSeq cs ++ nextSeq m coi)).getD p 0) =
        (latchSeq m coi ++ inputSeq m coi).length + 1 + p) := by
  obtain ⟨a1, a2, a3⟩ := initMap_stageA hwf coi
  have e : initMap m coi cs = (clauseSeq cs ++ nextSeq m coi).foldl VarMap.mapIdx
      ((inputSeq m coi).foldl VarMap.assign
        ((latchSeq m coi).foldl VarMap.assign VarMap.zero)) := by
    unfold initMap
    rw [List.foldl_append]
  obtain ⟨b1, b2, -⟩ := VarMap.run_numbering (clauseSeq cs ++ nextSeq m coi) _ _ a3
  rw [e]
  refine ⟨by rw [b1, a1], ?_, ?_⟩
  · intro p hp
    have h := a2 p hp
    rw [VarMap.run_keep _ _ (by rw [h]; omega), h]
  · intro p hp
    rw [b2 p hp, a1]

theorem mainilit_even (s : St) {u : Nat} (h : u % 2 = 0) :
    mainilit s u = ((s.litmap (u / 2 + 1) : Nat) : Int) := by
  rw [mainilit_eq]
  unfold mlit
  have h1 : ¬ prepilit u < 0 := by rw [prepilit_neg_iff]; omega
  rw [if_neg h1, prepilit_natAbs]

theorem getD_of_getElem? {l : List Nat} {i x : Nat} (h : l[i]? = some x) (d : Nat) :
    l.getD i d = x := by
  rw [List.getD_eq_getElem?_getD, h]; rfl

/-- C5 (variable compaction): with the stored clauses taken as the clauses of `logic` (as
they are in the CaDiCaL mode, and in the Lingeling mode when the solver hands back the
clauses it was given), after `init` the stored clauses are the clauses of `logic` renamed through `litmap`, the non-zero
entries of `litmap` are pairwise distinct, lie in `1 .. maxvar` and hit every value of
`1 .. maxvar`, and every literal of every stored clause has absolute value in
`1 .. maxvar`. -/
theorem compaction_bijection (m : aiger) (hwf : WellFormed m) (fl : Flags) (o : Oracle)
    (coi : Nat → Nat) (ho : fl.use_cadical = true ∨ PlainTravall o) :
    (startState m fl o coi).clauses =
      (logicClauses m coi).map (fun c => c.map (mlit (startState m fl o coi).litmap)) ∧
    (∀ i j, (startState m fl o coi).litmap i ≠ 0 →
      (startState m fl o coi).litmap i = (startState m fl o coi).litmap j → i = j) ∧
    (∀ i, (startState m fl o coi).litmap i ≠ 0 →
      1 ≤ (startState m fl o coi).litmap i ∧
      (startState m fl o coi).litmap i ≤ (startState m fl o coi).maxvar) ∧
    (∀ x, 1 ≤ x → x ≤ (startState m fl o coi).maxvar →
      ∃ i, (startState m fl o coi).litmap i = x) ∧
    (∀ c ∈ (startState m fl o coi).clauses, ∀ lit ∈ c,
      1 ≤ lit.natAbs ∧ lit.natAbs ≤ (startState m fl o coi).maxvar) := by
  obtain ⟨T0, -, hT, h1, h2, -, -, h5, hu, -⟩ := start_spec hwf fl o coi
  have hinv := initMap_inv hwf coi T0
  rw [h1, h2, h5]
  refine ⟨by rw [hT ho], hinv.inj, ?_, hinv.surj, ?_⟩
  · intro i hi
    exact ⟨Nat.pos_of_ne_zero hi, hinv.le i⟩
  · intro c hc lit hlit
    have hne : lit ≠ 0 := hu.lits_ne c (by rw [h5]; exact hc) lit hlit
    obtain ⟨c0, -, rfl⟩ := List.mem_map.mp hc
    obtain ⟨l0, -, rfl⟩ := List.mem_map.mp hlit
    rw [mlit_natAbs]
    have : (mlit (initMap m coi T0).litmap l0).natAbs ≠ 0 := by
      intro e; exact hne (Int.natAbs_eq_zero.mp e)
    rw [mlit_natAbs] at this
    exact ⟨Nat.pos_of_ne_zero this, hinv.le _⟩

/-- Witness for C5 on the model with a latch fed by an and-gate. -/
theorem compaction_bijection_witness :
    WellFormed exGate ∧ (flagsOne.use_cadical = true ∨ PlainTravall oracleUnsat) ∧
    ((startState exGate flagsOne oracleUnsat exGateCoi).clauses =
      (logicClauses exGate exGateCoi).map (fun c =>
        c.map (mlit (startState exGate flagsOne oracleUnsat exGateCoi).litmap)) ∧
    (∀ i j, (startState exGate flagsOne oracleUnsat exGateCoi).litmap i ≠ 0 →
      (startState exGate flagsOne oracleUnsat exGateCoi).litmap i =
        (startState exGate flagsOne oracleUnsat exGateCoi).litmap j → i = j) ∧
    (∀ i, (startState exGate flagsOne oracleUnsat exGateCoi).litmap i ≠ 0 →
      1 ≤ (startState exGate flagsOne oracleUnsat exGateCoi).litmap i ∧
      (startState exGate flagsOne oracleUnsat exGateCoi).litmap i ≤
        (startState exGate flagsOne oracleUnsat exGateCoi).maxvar) ∧
    (∀ x, 1 ≤ x → x ≤ (startState exGate flagsOne oracleUnsat exGateCoi).maxvar →
      ∃ i, (startState exGate flagsOne oracleUnsat exGateCoi).litmap i = x) ∧
    (∀ c ∈ (startState exGate flagsOne oracleUnsat exGateCoi).clauses, ∀ lit ∈ c,
      1 ≤ lit.natAbs ∧
      lit.natAbs ≤ (startState exGate flagsOne oracleUnsat exGateCoi).maxvar)) :=
  ⟨exGate_wf, Or.inr (fun _ => rfl),
    compaction_bijection exGate exGate_wf flagsOne oracleUnsat exGateCoi (Or.inr (fun _ => rfl))⟩

/-- C6 (order of assignment): with the stored clauses taken as the clauses of `logic` (as
they are in the CaDiCaL mode, and in the Lingeling mode when the solver hands back the
clauses it was given), after `init` the COI latch with index `i` has the compact variable `1 +` the number of COI latches
before it, the COI input with index `j` has the compact variable `L + 1 +` the number of COI
inputs before it (`L` the number of COI latches), and the remaining mapped indices, listed
in order of first occurrence in the stored clauses scanned left to right followed by the
next-state literals of the COI latches in latch order, have the variables `L + I + 1`,
`L + I + 2`, ... (`I` the number of COI inputs); no other index is mapped and `maxvar` is
the number of mapped indices. -/
theorem assignment_order (m : aiger) (hwf : WellFormed m) (fl : Flags) (o : Oracle)
    (coi : Nat → Nat) (ho : fl.use_cadical = true ∨ PlainTravall o) :
    (∀ i, i < m.latches.length → ulitincoi coi (aiglatch m i) ≠ 0 →
      mainilit (startState m fl o coi) (aiglatch m i) =
        ((((List.range i).filter (fun j => decide (ulitincoi coi (aiglatch m j) ≠ 0))).length
          + 1 : Nat) : Int)) ∧
    (∀ j, j < m.inputs.length → ulitincoi coi (aiginput m j) ≠ 0 →
      mainilit (startState m fl o coi) (aiginput m j) =
        (((latchSeq m coi).length +
          ((List.range j).filter (fun i => decide (ulitincoi coi (aiginput m i) ≠ 0))).length
          + 1 : Nat) : Int)) ∧
    (∀ p, p < (firstNew (latchSeq m coi ++ inputSeq m coi)
        (clauseSeq (logicClauses m coi) ++ nextSeq m coi)).length →
      (startState m fl o coi).litmap ((firstNew (latchSeq m coi ++ inputSeq m coi)
        (clauseSeq (logicClauses m coi) ++ nextSeq m coi)).getD p 0) =
        (latchSeq m coi).length + (inputSeq m coi).length + p + 1) ∧
    (∀ idx, (startState m fl o coi).litmap idx ≠ 0 →
      idx ∈ latchSeq m coi ∨ idx ∈ inputSeq m coi ∨
      idx ∈ firstNew (latchSeq m coi ++ inputSeq m coi)
        (clauseSeq (logicClauses m coi) ++ nextSeq m coi)) ∧
    (startState m fl o coi).maxvar = (latchSeq m coi).length + (inputSeq m coi).length +
      (firstNew (latchSeq m coi ++ inputSeq m coi)
        (clauseSeq (logicClauses m coi) ++ nextSeq m coi)).length := by
  obtain ⟨T0, -, hT, h1, h2, -, -, -, -, -⟩ := start_spec hwf fl o coi
  have hT0 := hT ho
  subst hT0
  obtain ⟨o1, o2, o3⟩ := initMap_order hwf coi (logicClauses m coi)
  rw [List.length_append] at o1 o2 o3
  refine ⟨?_, ?_, ?_, ?_, ?_⟩
  · intro i hi hc
    have hmem := getD_mem m.latches ⟨0, 0, 0⟩ hi
    have hev : aiglatch m i % 2 = 0 := (hwf.def_ok _ (mem_defined_latch hmem)).1
    have hpos := filter_range_pos (fun j => decide (ulitincoi coi (aiglatch m j) ≠ 0))
      m.latches.length i hi (by simpa using hc)
    have hseq : (latchSeq m coi)[((List.range i).filter
        (fun j => decide (ulitincoi coi (aiglatch m j) ≠ 0))).length]? =
        some ((preplatch m i).toNat) := by
      unfold latchSeq
      rw [List.getElem?_map, hpos]; rfl
    obtain ⟨hlt, _⟩ := List.getElem?_eq_some.mp hseq
    have hseq2 : (latchSeq m coi ++ inputSeq m coi)[((List.range i).filter
        (fun j => decide (ulitincoi coi (aiglatch m j) ≠ 0))).length]? =
        some ((preplatch m i).toNat) := by
      rw [List.getElem?_append_left hlt, hseq]
    have := o2 (((List.range i).filter
        (fun j => decide (ulitincoi coi (aiglatch m j) ≠ 0))).length) (by omega)
    rw [getD_of_getElem? hseq2] at this
    have hidx : (preplatch m i).toNat = aiglatch m i / 2 + 1 := prepilit_toNat hev
    rw [mainilit_even _ hev, h1, ← hidx, this]
  · intro j hj hc
    have hmem := getD_mem m.inputs ⟨0, 0, 0⟩ hj
    have hev : aiginput m j % 2 = 0 := (hwf.def_ok _ (mem_defined_input hmem)).1
    have hpos := filter_range_pos (fun i => decide (ulitincoi coi (aiginput m i) ≠ 0))
      m.inputs.length j hj (by simpa using hc)
    have hseq : (inputSeq m coi)[((List.range j).filter
        (fun i => decide (ulitincoi coi (aiginput m i) ≠ 0))).length]? =
        some ((prepinput m j).toNat) := by
      unfold inputSeq
      rw [List.getElem?_map, hpos]; rfl
    obtain ⟨hlt, _⟩ := List.getElem?_eq_some.mp hseq
    have hseq2 : (latchSeq m coi ++ inputSeq m coi)[(latchSeq m coi).length +
        ((List.range j).filter
          (fun i => decide (ulitincoi coi (aiginput m i) ≠ 0))).length]? =
        some ((prepinput m j).toNat) := by
      rw [List.getElem?_append_right (Nat.le_add_right _ _), Nat.add_sub_cancel_left, hseq]
    have := o2 ((latchSeq m coi).length + ((List.range j).filter
        (fun i => decide (ulitincoi coi (aiginput m i) ≠ 0))).length) (by omega)
    rw [getD_of_getElem? hseq2] at this
    have hidx : (prepinput m j).toNat = aiginput m j / 2 + 1 := prepilit_toNat hev
    rw [mainilit_even _ hev, h1, ← hidx, this]
  · intro p hp
    rw [h1, o3 p hp]
    omega
  · intro idx hidx
    rw [h1, initMap_mapped hwf] at hidx
    unfold initSeq at hidx
    rcases List.mem_append.mp hidx with h | h
    · rcases List.mem_append.mp h with h | h
      · exact Or.inl h
      · exact Or.inr (Or.inl h)
    · by_cases hs : idx ∈ latchSeq m coi ++ inputSeq m coi
      · rcases List.mem_append.mp hs with h | h
        · exact Or.inl h
        · exact Or.inr (Or.inl h)
      · exact Or.inr (Or.inr ((mem_firstNew _ _ _).mpr ⟨h, hs⟩))
  · rw [h2, o1]

/-- Witness for C6 on the model with a latch fed by an and-gate. -/
theorem assignment_order_witness :
    WellFormed exGate ∧ (flagsOne.use_cadical = true ∨ PlainTravall oracleUnsat) ∧
    ((∀ i, i < exGate.latches.length → ulitincoi exGateCoi (aiglatch exGate i) ≠ 0 →
      mainilit (startState exGate flagsOne oracleUnsat exGateCoi) (aiglatch exGate i) =
        ((((List.range i).filter
          (fun j => decide (ulitincoi exGateCoi (aiglatch exGate j) ≠ 0))).length
          + 1 : Nat) : Int)) ∧
    (∀ j, j < exGate.inputs.length → ulitincoi exGateCoi (aiginput exGate j) ≠ 0 →
      mainilit (startState exGate flagsOne oracleUnsat exGateCoi) (aiginput exGate j) =
        (((latchSeq exGate exGateCoi).length +
          ((List.range j).filter
            (fun i => decide (ulitincoi exGateCoi (aiginput exGate i) ≠ 0))).length
          + 1 : Nat) : Int)) ∧
    (∀ p, p < (firstNew (latchSeq exGate exGateCoi ++ inputSeq exGate exGateCoi)
        (clauseSeq (logicClauses exGate exGateCoi) ++ nextSeq exGate exGateCoi)).length →
      (startState exGate flagsOne oracleUnsat exGateCoi).litmap
        ((firstNew (latchSeq exGate exGateCoi ++ inputSeq exGate exGateCoi)
          (clauseSeq (logicClauses exGate exGateCoi) ++ nextSeq exGate exGateCoi)).getD p 0) =
        (latchSeq exGate exGateCoi).length + (inputSeq exGate exGateCoi).length + p + 1) ∧
    (∀ idx, (startState exGate flagsOne oracleUnsat exGateCoi).litmap idx ≠ 0 →
      idx ∈ latchSeq exGate exGateCoi ∨ idx ∈ inputSeq exGate exGateCoi ∨
      idx ∈ firstNew (latchSeq exGate exGateCoi ++ inputSeq exGate exGateCoi)
        (clauseSeq (logicClauses exGate exGateCoi) ++ nextSeq exGate exGateCoi)) ∧
    (startState exGate flagsOne oracleUnsat exGateCoi).maxvar =
      (latchSeq exGate exGateCoi).length + (inputSeq exGate exGateCoi).length +
      (firstNew (latchSeq exGate exGateCoi ++ inputSeq exGate exGateCoi)
        (clauseSeq (logicClauses exGate exGateCoi) ++ nextSeq exGate exGateCoi)).length) :=
  ⟨exGate_wf, Or.inr (fun _ => rfl),
    assignment_order exGate exGate_wf flagsOne oracleUnsat exGateCoi (Or.inr (fun _ => rfl))⟩

/-! ## The two numberings in the CaDiCaL instance -/

theorem exJunk_wf : WellFormed exJunk := by
  refine ⟨by decide, by decide, by decide, by decide, by decide, by decide, ?_⟩
  exact ⟨fun v => min v 4, fun v => Nat.min_le_right v 4, by decide⟩

theorem exReset_wf : WellFormed exReset := by
  refine ⟨by decide, by decide, by decide, by decide, by decide, by decide, ?_⟩
  exact ⟨fun v => min v 1, fun v => Nat.min_le_right v 1, by decide⟩

/-- C7 (failing input): on the well-formed model `exJunk` with `--use-cadical` and `maxk = 0`,
`travcoi` returns, `maxvar` ends as `V = 3`, and the solver queried in pass `0` holds the
clauses of `logic` in the numbering of `prepilit` followed by the shifted compact clauses;
its clause `(-5, 3)` has a literal of absolute value `5 > V * (maxk + 1) = 3`. -/
theorem literal_range_cadical :
    WellFormed exJunk ∧
    (travcoi exJunk coiZero).map Trav.coi = some exJunkCoi ∧
    (startState exJunk flagsCad oracleUnsat exJunkCoi).maxvar = 3 ∧
    (unrolledState exJunk flagsCad oracleUnsat exJunkCoi 0).solver.clauses =
      [[-5, 3], [-5, 4], [-3, -4, 5], [-3, 1], [-3, 2], [-1, -2, 3]] ∧
    ∃ c ∈ (unrolledState exJunk flagsCad oracleUnsat exJunkCoi 0).solver.clauses,
      ∃ lit ∈ c, ¬ lit.natAbs ≤
        (startState exJunk flagsCad oracleUnsat exJunkCoi).maxvar * (flagsCad.maxk + 1) := by
  refine ⟨exJunk_wf, ?_, by decide, by decide, ?_⟩
  · have hs : (travcoi exJunk coiZero).isSome = true := by decide
    unfold exJunkCoi
    cases h : travcoi exJunk coiZero with
    | none => rw [h] at hs; exact absurd hs (by decide)
    | some t => rfl
  · exact ⟨[-5, 3], by decide, -5, by decide, by decide⟩

/-- C8 (failing input): on the well-formed model `exReset` (latch with reset `1`, bad literal
the latch) at `k = 0`, the solver of the extracting mode holds `(1)`, `(-2)` and is
satisfiable together with the assumed bad literal `1`, while the CaDiCaL instance holds the
clause `(-1)` of `logic` in the numbering of `prepilit` followed by `(1)`, `(-2)` and no
assignment satisfies its clauses, with or without the assumption.  Run with a complete
solver, `main` prints verdict `1` with the witness in the first mode and `u0` and the
inconclusive verdict `2` in the second. -/
theorem backend_disagreement :
    main exReset flagsZero (oracleBrute 2) = Outcome.exit 10 ["1", "b0", "1", "", "."] ∧
    main exReset flagsCad (oracleBrute 2) = Outcome.exit 20 ["u0", "2", "b0", "."] ∧
    WellFormed exReset ∧
    (travcoi exReset coiZero).map Trav.coi = some exResetCoi ∧
    PlainTravall oracleUnsat ∧
    (unrolledState exReset flagsZero oracleUnsat exResetCoi 0).solver.clauses = [[1], [-2]] ∧
    shift (startState exReset flagsZero oracleUnsat exResetCoi)
      (mainilit (startState exReset flagsZero oracleUnsat exResetCoi) (aigbad exReset 0)) 0
      = 1 ∧
    (∃ σ, satCnf σ (unrolledState exReset flagsZero oracleUnsat exResetCoi 0).solver.clauses
        = true ∧
      litval σ (shift (startState exReset flagsZero oracleUnsat exResetCoi)
        (mainilit (startState exReset flagsZero oracleUnsat exResetCoi) (aigbad exReset 0)) 0)
        = true) ∧
    (unrolledState exReset flagsCad oracleUnsat exResetCoi 0).solver.clauses =
      [[-1], [1], [-2]] ∧
    shift (startState exReset flagsCad oracleUnsat exResetCoi)
      (mainilit (startState exReset flagsCad oracleUnsat exResetCoi) (aigbad exReset 0)) 0
      = 1 ∧
    (∀ σ, satCnf σ (unrolledState exReset flagsCad oracleUnsat exResetCoi 0).solver.clauses
        = false) := by
  have hL : (unrolledState exReset flagsZero oracleUnsat exResetCoi 0).solver.clauses =
      [[1], [-2]] := by decide
  have hC : (unrolledState exReset flagsCad oracleUnsat exResetCoi 0).solver.clauses =
      [[-1], [1], [-2]] := by decide
  have hbL : shift (startState exReset flagsZero oracleUnsat exResetCoi)
      (mainilit (startState exReset flagsZero oracleUnsat exResetCoi) (aigbad exReset 0)) 0
      = 1 := by decide
  have hbC : shift (startState exReset flagsCad oracleUnsat exResetCoi)
      (mainilit (startState exReset flagsCad oracleUnsat exResetCoi) (aigbad exReset 0)) 0
      = 1 := by decide
  refine ⟨by decide, by decide, exReset_wf, ?_, fun _ => rfl, hL, hbL, ?_, hC, hbC, ?_⟩
  · have hs : (travcoi exReset coiZero).isSome = true := by decide
    unfold exResetCoi
    cases h : travcoi exReset coiZero with
    | none => rw [h] at hs; exact absurd hs (by decide)
    | some t => rfl
  · refine ⟨fun v => decide (v = 1), ?_, ?_⟩
    · rw [hL]; decide
    · rw [hbL]; decide
  · intro σ
    rw [hC]
    cases h1 : σ 1 <;> simp [satCnf, satClause, litval, h1]

/-! ## Marked nodes are referenced nodes -/

theorem travPush_ref {m : aiger} {s : Trav}
    (h : ∀ v, s.coi v ≠ 0 → ∃ l ∈ referenced m, l / 2 = v) {lit : Nat}
    (hl : lit ∈ referenced m) :
    ∀ v, (travPush s lit).coi v ≠ 0 → ∃ l ∈ referenced m, l / 2 = v := by
  intro v hv
  by_cases h0 : s.coi v = 0
  · by_cases e : v = aiger_lit2var lit
    · exact ⟨lit, hl, e.symm⟩
    · exfalso
      by_cases h1 : s.coi (aiger_lit2var lit) = 0
      · rw [travPush_pos s lit h1] at hv
        simp [Function.update_apply, e, h0] at hv
      · rw [travPush_neg s lit h1] at hv
        exact hv h0
  · exact h v h0

theorem travBody_ref {m : aiger} {s : Trav}
    (h : ∀ v, s.coi v ≠ 0 → ∃ l ∈ referenced m, l / 2 = v) :
    ∀ v, (travBody m s).coi v ≠ 0 → ∃ l ∈ referenced m, l / 2 = v := by
  unfold travBody
  simp only
  split
  · exact h
  · split
    · next l hl =>
      exact travPush_ref (s := { s with latches := s.latches + 1 }) h
        (mem_referenced_next (is_latch_some hl).1)
    · split
      · next a ha =>
        have ha1 := (is_and_some ha).1
        exact travPush_ref
          (travPush_ref (s := { s with ands := s.ands + 1 }) h (mem_referenced_rhs0 ha1))
          (mem_referenced_rhs1 ha1)
      · exact h

theorem travLoop_ref {m : aiger} :
    ∀ (fuel : Nat) (s t : Trav), (∀ v, s.coi v ≠ 0 → ∃ l ∈ referenced m, l / 2 = v) →
      travLoop m fuel s = some t → ∀ v, t.coi v ≠ 0 → ∃ l ∈ referenced m, l / 2 = v := by
  intro fuel
  induction fuel with
  | zero => intro s t _ h; simp [travLoop] at h
  | succ f ih =>
    intro s t hs h
    unfold travLoop at h
    simp only at h
    split at h
    · cases h
      exact travBody_ref hs
    · exact ih { travBody m s with lit := (travBody m s).stack (travBody m s).next,
                                     next := (travBody m s).next + 1 } t (travBody_ref hs) h

theorem travcoi_ref {m : aiger} (hwf : WellFormed m) {t : Trav}
    (ht : travcoi m coiZero = some t) :
    ∀ v, t.coi v ≠ 0 → ∃ l ∈ referenced m, l / 2 = v := by
  apply travLoop_ref _ _ t _ ht
  intro v hv
  have hcoi : (travInit m coiZero).coi v =
      if v = aiger_lit2var (aigbad m 0) then 1 else 0 := by
    simp [travInit, Function.update_apply, coiZero]
  rw [hcoi] at hv
  split at hv
  · next e => exact ⟨aigbad m 0, aigbad_mem_referenced hwf.one_bad, e.symm⟩
  · exact absurd rfl hv

theorem travcoi_defined {m : aiger} (hwf : WellFormed m) {t : Trav}
    (ht : travcoi m coiZero = some t) {v : Nat} (hv : t.coi v ≠ 0) (h0 : v ≠ 0) :
    2 * v ∈ defined m := by
  obtain ⟨l, hl, e⟩ := travcoi_ref hwf ht v hv
  rcases hwf.ref_def l hl with h | h
  · omega
  · rw [aiger_strip_eq, e] at h
    exact h

theorem travcoi_closed_of {m : aiger} (hwf : WellFormed m) {t : Trav}
    (ht : travcoi m coiZero = some t) :
    CoiClosed m t.coi ∧ t.coi (aiger_lit2var (aigbad m 0)) ≠ 0 := by
  obtain ⟨t1, ht1, hc, hcl⟩ := travcoi_spec hwf
  rw [ht] at ht1
  cases ht1
  exact ⟨hcl, hc.badm⟩

/-! ## Soundness of the encoding -/

theorem logic_unit_mem (m : aiger) (coi : Nat → Nat) (h : ulitincoi coi 0 ≠ 0) :
    [-1] ∈ logicClauses m coi := by
  unfold logicClauses
  rw [if_pos h]
  simp

theorem logic_and_mem {m : aiger} {coi : Nat → Nat} {a : aiger_and} (ha : a ∈ m.ands)
    (hc : ulitincoi coi a.lhs ≠ 0) {c : List Int}
    (hcl : c ∈ andClauses (prepilit a.lhs) (prepilit a.rhs0) (prepilit a.rhs1)) :
    c ∈ logicClauses m coi := by
  obtain ⟨i, hi, e⟩ := (mem_iff_getD m.ands ⟨0, 0, 0⟩).mp ha
  unfold logicClauses
  apply List.mem_append_right
  refine List.mem_flatMap.mpr ⟨i, List.mem_range.mpr hi, ?_⟩
  unfold preplhs prepleft prepright
  rw [e, if_pos hc]
  exact hcl

theorem mlit_neg (L : Nat → Nat) {p : Int} (hp : p ≠ 0) : mlit L (-p) = -(mlit L p) := by
  unfold mlit
  rw [Int.natAbs_neg]
  by_cases h : p < 0
  · have : ¬ (-p < 0) := by omega
    rw [if_pos h, if_neg this]; omega
  · have : -p < 0 := by omega
    rw [if_neg h, if_pos this]

theorem shift_neg_lit (s : St) {x : Int} (hx : x ≠ 0) (t : Nat) :
    shift s (-x) t = -(shift s x t) := by
  unfold shift
  simp only [Int.natAbs_neg]
  by_cases h : x < 0
  · have : ¬ (-x < 0) := by omega
    rw [if_pos h, if_neg this]; omega
  · have : -x < 0 := by omega
    rw [if_neg h, if_pos this]

theorem shift_zero (s : St) (x : Int) : shift s x 0 = x := by
  unfold shift
  simp only [Nat.zero_mul, Nat.add_zero]
  split <;> omega

theorem lv_neg (s : St) (σ : Nat → Bool) (t : Nat) {p : Int}
    (hm : s.litmap p.natAbs ≠ 0) (hp : p ≠ 0) :
    litval σ (shift s (mlit s.litmap (-p)) t) = !litval σ (shift s (mlit s.litmap p) t) := by
  have h1 : mlit s.litmap p ≠ 0 := mlit_ne_zero hm
  rw [mlit_neg _ hp, shift_neg_lit s h1, litval_neg σ (shift_ne_zero s t h1)]

theorem prepilit_odd {u : Nat} (h : u % 2 = 1) : prepilit u = -(prepilit (2 * (u / 2))) := by
  unfold prepilit
  simp only
  have h1 : ¬ (2 * (u / 2)) % 2 = 1 := by omega
  have h2 : 2 * (u / 2) / 2 = u / 2 := by omega
  rw [if_pos h, if_neg h1, h2]

theorem prepilit_even {u : Nat} (h : ¬ u % 2 = 1) : prepilit u = prepilit (2 * (u / 2)) := by
  have : 2 * (u / 2) = u := by omega
  rw [this]

theorem aval_eq (s : St) (σ : Nat → Bool) (t : Nat) {u : Nat}
    (hm : s.litmap (u / 2 + 1) ≠ 0) :
    aval s σ t u = (aval s σ t (2 * (u / 2)) != decide (u % 2 = 1)) := by
  unfold aval
  rw [mainilit_eq, mainilit_eq]
  by_cases h : u % 2 = 1
  · rw [prepilit_odd h, lv_neg s σ t (by rw [prepilit_natAbs]; simpa using hm)
      (prepilit_ne_zero _)]
    simp [h]
  · rw [prepilit_even h]
    simp [h]

theorem SatRun.start {m : aiger} {fl : Flags} {o : Oracle} {coi : Nat → Nat} {k : Nat}
    {σ : Nat → Bool} (h : SatRun m fl o coi k σ) :
    (startState m fl o coi).litmap = (initMap m coi (logicClauses m coi)).litmap ∧
    (startState m fl o coi).coi = coi ∧
    (startState m fl o coi).clauses = (logicClauses m coi).map (fun c =>
      c.map (mlit (startState m fl o coi).litmap)) ∧
    Unrollable m (startState m fl o coi) := by
  obtain ⟨T0, -, hT, h1, -, h3, -, h5, hu, -⟩ := start_spec h.wf fl o coi
  have hT0 := hT h.plain
  subst hT0
  exact ⟨h1, h3, by rw [h5, h1], hu⟩

theorem SatRun.mem_sat {m : aiger} {fl : Flags} {o : Oracle} {coi : Nat → Nat} {k : Nat}
    {σ : Nat → Bool} (h : SatRun m fl o coi k σ) {tm : Nat} (htm : tm ≤ k) {c : List Int}
    (hc : c ∈ shiftClauses m (startState m fl o coi) tm) : satClause σ c = true := by
  apply satCnf_mem h.sat
  rw [(unrolled_spec h.wf fl o coi k).1]
  exact List.mem_append_right _ (mem_unrollClauses htm hc)

theorem SatRun.template_sat {m : aiger} {fl : Flags} {o : Oracle} {coi : Nat → Nat} {k : Nat}
    {σ : Nat → Bool} (h : SatRun m fl o coi k σ) {tm : Nat} (htm : tm ≤ k) {c : List Int}
    (hc : c ∈ logicClauses m coi) :
    c.any (fun lit => litval σ (shift (startState m fl o coi)
      (mlit (startState m fl o coi).litmap lit) tm)) = true := by
  obtain ⟨-, -, h3, -⟩ := h.start
  have hmem : (c.map (mlit (startState m fl o coi).litmap)).map
      (fun lit => shift (startState m fl o coi) lit tm) ∈
      shiftClauses m (startState m fl o coi) tm := by
    unfold shiftClauses shiftedClauses
    apply List.mem_append_right
    rw [h3]
    exact List.mem_map_of_mem _ (List.mem_map_of_mem _ hc)
  have := h.mem_sat htm hmem
  unfold satClause at this
  rw [List.any_map, List.any_map] at this
  exact this

theorem SatRun.coi_facts {m : aiger} {fl : Flags} {o : Oracle} {coi : Nat → Nat} {k : Nat}
    {σ : Nat → Bool} (h : SatRun m fl o coi k σ) :
    CoiClosed m coi ∧ coi (aiger_lit2var (aigbad m 0)) ≠ 0 ∧
    ∀ v, coi v ≠ 0 → v ≠ 0 → 2 * v ∈ defined m := by
  obtain ⟨t, ht, e⟩ := h.trav
  subst e
  obtain ⟨h1, h2⟩ := travcoi_closed_of h.wf ht
  exact ⟨h1, h2, fun v hv h0 => travcoi_defined h.wf ht hv h0⟩

theorem SatRun.mapped {m : aiger} {fl : Flags} {o : Oracle} {coi : Nat → Nat} {k : Nat}
    {σ : Nat → Bool} (h : SatRun m fl o coi k σ) {v : Nat} (hv : coi v ≠ 0) :
    (startState m fl o coi).litmap (v + 1) ≠ 0 := by
  obtain ⟨h1, -, -, -⟩ := h.start
  obtain ⟨-, -, hdef⟩ := h.coi_facts
  rw [h1, initMap_mapped h.wf]
  unfold initSeq
  by_cases h0 : v = 0
  · subst h0
    apply List.mem_append_right
    apply List.mem_append_left
    exact mem_clauseSeq (logic_unit_mem m coi hv) (List.mem_singleton.mpr rfl)
  · have hd := hdef v hv h0
    unfold defined at hd
    simp only [List.mem_append, List.mem_map] at hd
    rcases hd with (⟨i, hi, e⟩ | ⟨l, hl, e⟩) | ⟨a, ha, e⟩
    · apply List.mem_append_left
      apply List.mem_append_right
      rw [mem_inputSeq h.wf]
      refine ⟨i, hi, ?_, ?_⟩
      · unfold ulitincoi aiger_lit2var; rw [e]; simpa using hv
      · rw [e]; omega
    · apply List.mem_append_left
      apply List.mem_append_left
      rw [mem_latchSeq h.wf]
      refine ⟨l, hl, ?_, ?_⟩
      · unfold ulitincoi aiger_lit2var; rw [e]; simpa using hv
      · rw [e]; omega
    · apply List.mem_append_right
      apply List.mem_append_left
      have hc : ulitincoi coi a.lhs ≠ 0 := by
        unfold ulitincoi aiger_lit2var; rw [e]; simpa using hv
      have hmem : [-(prepilit a.lhs), prepilit a.rhs0] ∈ logicClauses m coi :=
        logic_and_mem ha hc (by simp [andClauses])
      have := mem_clauseSeq hmem (List.mem_cons_self _ _)
      rw [Int.natAbs_neg, prepilit_natAbs, e] at this
      have e2 : 2 * v / 2 = v := by omega
      rw [e2] at this
      exact this

theorem aval_lv (s : St) (σ : Nat → Bool) (t u : Nat) :
    aval s σ t u = litval σ (shift s (mlit s.litmap (prepilit u)) t) := rfl

theorem SatRun.const_false {m : aiger} {fl : Flags} {o : Oracle} {coi : Nat → Nat} {k : Nat}
    {σ : Nat → Bool} (h : SatRun m fl o coi k σ) (hc : coi 0 ≠ 0) {tm : Nat} (htm : tm ≤ k) :
    aval (startState m fl o coi) σ tm 0 = false := by
  have hs := h.template_sat htm (logic_unit_mem m coi hc)
  have hm := h.mapped hc
  simp only [List.any_cons, List.any_nil, Bool.or_false] at hs
  have e : prepilit 0 = 1 := by decide
  rw [lv_neg _ σ tm (p := 1) (by simpa using hm) (by decide)] at hs
  rw [aval_lv, e]
  simpa using hs

theorem SatRun.gate {m : aiger} {fl : Flags} {o : Oracle} {coi : Nat → Nat} {k : Nat}
    {σ : Nat → Bool} (h : SatRun m fl o coi k σ) {a : aiger_and} (ha : a ∈ m.ands)
    (hc : coi (a.lhs / 2) ≠ 0) {tm : Nat} (htm : tm ≤ k) :
    aval (startState m fl o coi) σ tm a.lhs =
      (aval (startState m fl o coi) σ tm a.rhs0 && aval (startState m fl o coi) σ tm a.rhs1) := by
  obtain ⟨hcl, -, -⟩ := h.coi_facts
  obtain ⟨c0, c1⟩ := (hcl _ hc).2 a ha rfl
  have m0 := h.mapped hc
  have m1 := h.mapped c0
  have m2 := h.mapped c1
  have hcu : ulitincoi coi a.lhs ≠ 0 := hc
  have s1 := h.template_sat htm
    (logic_and_mem ha hcu (c := [-(prepilit a.lhs), prepilit a.rhs0]) (by simp [andClauses]))
  have s2 := h.template_sat htm
    (logic_and_mem ha hcu (c := [-(prepilit a.lhs), prepilit a.rhs1]) (by simp [andClauses]))
  have s3 := h.template_sat htm
    (logic_and_mem ha hcu (c := [-(prepilit a.rhs0), -(prepilit a.rhs1), prepilit a.lhs])
      (by simp [andClauses]))
  have n0 : (startState m fl o coi).litmap (prepilit a.lhs).natAbs ≠ 0 := by
    rw [prepilit_natAbs]; exact m0
  have n1 : (startState m fl o coi).litmap (prepilit a.rhs0).natAbs ≠ 0 := by
    rw [prepilit_natAbs]; exact m1
  have n2 : (startState m fl o coi).litmap (prepilit a.rhs1).natAbs ≠ 0 := by
    rw [prepilit_natAbs]; exact m2
  simp only [List.any_cons, List.any_nil, Bool.or_false,
    lv_neg _ σ tm n0 (prepilit_ne_zero _), lv_neg _ σ tm n1 (prepilit_ne_zero _),
    lv_neg _ σ tm n2 (prepilit_ne_zero _)] at s1 s2 s3
  rw [aval_lv, aval_lv, aval_lv]
  revert s1 s2 s3
  cases litval σ (shift (startState m fl o coi)
      (mlit (startState m fl o coi).litmap (prepilit a.lhs)) tm) <;>
    cases litval σ (shift (startState m fl o coi)
      (mlit (startState m fl o coi).litmap (prepilit a.rhs0)) tm) <;>
    cases litval σ (shift (startState m fl o coi)
      (mlit (startState m fl o coi).litmap (prepilit a.rhs1)) tm) <;> simp

theorem SatRun.link {m : aiger} {fl : Flags} {o : Oracle} {coi : Nat → Nat} {k : Nat}
    {σ : Nat → Bool} (h : SatRun m fl o coi k σ) {l : aiger_symbol} (hl : l ∈ m.latches)
    (hc : coi (l.lit / 2) ≠ 0) {tm : Nat} (htm : tm + 1 ≤ k) :
    aval (startState m fl o coi) σ (tm + 1) l.lit = aval (startState m fl o coi) σ tm l.next := by
  obtain ⟨-, h2, -, hu⟩ := h.start
  obtain ⟨i, hi, e⟩ := (mem_iff_getD m.latches ⟨0, 0, 0⟩).mp hl
  have e1 : aiglatch m i = l.lit := by unfold aiglatch; rw [e]
  have e2 : aignext m i = l.next := by unfold aignext; rw [e]
  have hc1 : ulitincoi (startState m fl o coi).coi (aiglatch m i) ≠ 0 := by
    rw [h2, e1]; exact hc
  obtain ⟨n1, n2⟩ := hu.latch_ne i hi hc1
  have hmem : ∀ c, c ∈ latchClausesAt m (startState m fl o coi) (tm + 1) i →
      c ∈ shiftClauses m (startState m fl o coi) (tm + 1) := by
    intro c hcl
    unfold shiftClauses
    rw [if_pos (by omega)]
    apply List.mem_append_left
    unfold latchClauses
    exact List.mem_flatMap.mpr ⟨i, List.mem_range.mpr hi, hcl⟩
  have hA := h.mem_sat htm (hmem [-(shift (startState m fl o coi)
      (mainilit (startState m fl o coi) (aignext m i)) (tm + 1 - 1)),
      shift (startState m fl o coi) (mainilit (startState m fl o coi) (aiglatch m i)) (tm + 1)]
    (by unfold latchClausesAt equivClauses; rw [if_neg hc1]; simp))
  have hB := h.mem_sat htm (hmem [shift (startState m fl o coi)
      (mainilit (startState m fl o coi) (aignext m i)) (tm + 1 - 1),
      -(shift (startState m fl o coi) (mainilit (startState m fl o coi) (aiglatch m i))
        (tm + 1))]
    (by unfold latchClausesAt equivClauses; rw [if_neg hc1]; simp))
  have := equiv_sound (shift_ne_zero _ _ n2) (shift_ne_zero _ _ n1) hA hB
  rw [Nat.add_sub_cancel, e1, e2] at this
  exact this

theorem SatRun.reset {m : aiger} {fl : Flags} {o : Oracle} {coi : Nat → Nat} {k : Nat}
    {σ : Nat → Bool} (h : SatRun m fl o coi k σ) {l : aiger_symbol} (hl : l ∈ m.latches)
    (hc : coi (l.lit / 2) ≠ 0) :
    (l.reset = aiger_false → aval (startState m fl o coi) σ 0 l.lit = false) ∧
    (l.reset = aiger_true → aval (startState m fl o coi) σ 0 l.lit = true) := by
  obtain ⟨T0, -, -, -, -, h2, -, -, hu, hsol⟩ := start_spec h.wf fl o coi
  obtain ⟨i, hi, e⟩ := (mem_iff_getD m.latches ⟨0, 0, 0⟩).mp hl
  have e1 : aiglatch m i = l.lit := by unfold aiglatch; rw [e]
  have e3 : aigreset m i = l.reset := by unfold aigreset; rw [e]
  have hc1 : ulitincoi (startState m fl o coi).coi (aiglatch m i) ≠ 0 := by
    rw [h2, e1]; exact hc
  obtain ⟨n1, -⟩ := hu.latch_ne i hi hc1
  have hlit := (h.wf.latch_lit hl).2.1
  have hmem : ∀ c, c ∈ resetClauses m (startState m fl o coi) →
      satClause σ c = true := by
    intro c hcm
    apply satCnf_mem h.sat
    rw [(unrolled_spec h.wf fl o coi k).1, hsol]
    exact List.mem_append_left _ (List.mem_append_right _ hcm)
  have hav : aval (startState m fl o coi) σ 0 l.lit =
      litval σ (mainilit (startState m fl o coi) (aiglatch m i)) := by
    unfold aval
    rw [shift_zero, e1]
  constructor
  · intro hr
    have hne : ¬ aiglatch m i = aigreset m i := by
      rw [e1, e3, hr]; unfold aiger_false; omega
    have := hmem [-(mainilit (startState m fl o coi) (aiglatch m i))] (by
      unfold resetClauses
      refine List.mem_flatMap.mpr ⟨i, List.mem_range.mpr hi, ?_⟩
      rw [if_neg hc1, if_neg hne, e3, hr]
      simp)
    unfold satClause at this
    simp only [List.any_cons, List.any_nil, Bool.or_false, litval_neg σ n1] at this
    rw [hav]
    simpa using this
  · intro hr
    have hne : ¬ aiglatch m i = aigreset m i := by
      rw [e1, e3, hr]; unfold aiger_true; omega
    have := hmem [mainilit (startState m fl o coi) (aiglatch m i)] (by
      unfold resetClauses
      refine List.mem_flatMap.mpr ⟨i, List.mem_range.mpr hi, ?_⟩
      rw [if_neg hc1, if_neg hne, e3, hr]
      simp [aiger_true, aiger_false])
    unfold satClause at this
    simp only [List.any_cons, List.any_nil, Bool.or_false] at this
    rw [hav]
    exact this

theorem SatRun.aval_lit {m : aiger} {fl : Flags} {o : Oracle} {coi : Nat → Nat} {k : Nat}
    {σ : Nat → Bool} (h : SatRun m fl o coi k σ) (tm : Nat) {u : Nat} (hc : coi (u / 2) ≠ 0) :
    aval (startState m fl o coi) σ tm u =
      (aval (startState m fl o coi) σ tm (2 * (u / 2)) != decide (u % 2 = 1)) :=
  aval_eq _ σ tm (h.mapped hc)

theorem SatRun.eval_correct {m : aiger} {fl : Flags} {o : Oracle} {coi : Nat → Nat} {k : Nat}
    {σ : Nat → Bool} (h : SatRun m fl o coi k σ) {tm : Nat} (htm : tm ≤ k)
    (lat : Nat → Bool)
    (hlat : ∀ l ∈ m.latches, coi (l.lit / 2) ≠ 0 →
      lat (l.lit / 2) = aval (startState m fl o coi) σ tm l.lit)
    (rank : Nat → Nat)
    (hrank : ∀ a ∈ m.ands, rank (a.rhs0 / 2) < rank (a.lhs / 2) ∧
      rank (a.rhs1 / 2) < rank (a.lhs / 2)) :
    ∀ fuel v, coi v ≠ 0 → rank v < fuel →
      evalVar m (witnessInput (startState m fl o coi) σ tm) lat fuel v =
        aval (startState m fl o coi) σ tm (2 * v) := by
  obtain ⟨-, hcoi, -, -⟩ := h.start
  obtain ⟨hcl, -, hdef⟩ := h.coi_facts
  intro fuel
  induction fuel with
  | zero => intro v _ hr; omega
  | succ f ih =>
    intro v hv hr
    have e2 : 2 * v / 2 = v := by omega
    unfold evalVar
    split
    · next h0 =>
      subst h0
      exact (h.const_false hv htm).symm
    · next h0 =>
      split
      · next hin =>
        unfold witnessInput ulitincoi aiger_lit2var
        rw [hcoi, e2, if_pos hv]
        rfl
      · next hin =>
        split
        · next hla =>
          obtain ⟨l, hl⟩ := Option.isSome_iff_exists.mp hla
          obtain ⟨hl1, hl2⟩ := is_latch_some hl
          have := hlat l hl1 (by rw [hl2, e2]; exact hv)
          rw [hl2, e2] at this
          exact this
        · next hla =>
          split
          · next a ha =>
            obtain ⟨ha1, ha2⟩ := is_and_some ha
            have hc : coi (a.lhs / 2) ≠ 0 := by rw [ha2, e2]; exact hv
            have c0 : coi (a.rhs0 / 2) ≠ 0 := ((hcl _ hc).2 a ha1 rfl).1
            have c1 : coi (a.rhs1 / 2) ≠ 0 := ((hcl _ hc).2 a ha1 rfl).2
            obtain ⟨r0, r1⟩ := hrank a ha1
            rw [ha2, e2] at r0 r1
            rw [ih _ c0 (by omega), ih _ c1 (by omega), ← h.aval_lit tm c0,
              ← h.aval_lit tm c1, ← h.gate ha1 hc htm, ha2]
          · next hand =>
            exfalso
            have hd := hdef v hv h0
            unfold defined at hd
            simp only [List.mem_append, List.mem_map] at hd
            rcases hd with (⟨i, hi, e⟩ | ⟨l, hl, e⟩) | ⟨a, ha, e⟩
            · rw [← e, is_input_of_mem h.wf hi] at hin
              simp at hin
            · rw [← e, is_latch_of_mem h.wf hl] at hla
              simp at hla
            · rw [← e, is_and_of_mem h.wf ha] at hand
              simp at hand

theorem SatRun.evalLit_correct {m : aiger} {fl : Flags} {o : Oracle} {coi : Nat → Nat}
    {k : Nat} {σ : Nat → Bool} (h : SatRun m fl o coi k σ) {tm : Nat} (htm : tm ≤ k)
    (lat : Nat → Bool)
    (hlat : ∀ l ∈ m.latches, coi (l.lit / 2) ≠ 0 →
      lat (l.lit / 2) = aval (startState m fl o coi) σ tm l.lit)
    {u : Nat} (hc : coi (u / 2) ≠ 0) :
    evalLit m (witnessInput (startState m fl o coi) σ tm) lat (m.maxvar + 1) u =
      aval (startState m fl o coi) σ tm u := by
  obtain ⟨rank, hr1, hr2⟩ := h.wf.acyclic
  unfold evalLit
  rw [h.eval_correct htm lat hlat rank hr2 (m.maxvar + 1) (u / 2) hc
    (Nat.lt_succ_of_le (hr1 _)), ← h.aval_lit tm hc]

theorem SatRun.sim_latch {m : aiger} {fl : Flags} {o : Oracle} {coi : Nat → Nat} {k : Nat}
    {σ : Nat → Bool} (h : SatRun m fl o coi k σ) :
    ∀ tm, tm ≤ k → ∀ l ∈ m.latches, coi (l.lit / 2) ≠ 0 →
      simLatch m (witnessLatch (startState m fl o coi) σ)
        (witnessInput (startState m fl o coi) σ) tm (l.lit / 2) =
        aval (startState m fl o coi) σ tm l.lit := by
  obtain ⟨-, hcoi, -, -⟩ := h.start
  obtain ⟨hcl, -, -⟩ := h.coi_facts
  intro tm
  induction tm with
  | zero =>
    intro _ l hl hc
    have e := (h.wf.latch_lit hl).1
    have e2 : 2 * (l.lit / 2) / 2 = l.lit / 2 := by omega
    unfold simLatch witnessLatch ulitincoi aiger_lit2var
    rw [hcoi, e2, if_pos hc, ← e]
    rfl
  | succ tm ih =>
    intro htm l hl hc
    have e := (h.wf.latch_lit hl).1
    unfold simLatch
    rw [← e, is_latch_of_mem h.wf hl]
    dsimp only
    have c1 : coi (l.next / 2) ≠ 0 := (hcl _ hc).1 l hl rfl
    rw [h.evalLit_correct (by omega) _ (ih (by omega)) c1, h.link hl hc htm]

/-- C1 (witness replay): on a well-formed model, with the stored clauses taken as the clauses
of `logic` (as they are in the CaDiCaL mode, and in the Lingeling mode when the solver hands
back the clauses it was given), let an assignment satisfy every clause of the solver queried in pass `k` (the
clauses of `init` and of `shiftcnf (0)`, ..., `shiftcnf (k)`) and make the assumed bad
literal `shift (mainilit (bad), k)` true.  Then the run of the AIG from the latch values the
witness printer reads at time `0` under the inputs it reads at times `0 .. k` respects the
reset value of every COI latch and gives the bad literal the value `1` in cycle `k`. -/
theorem witness_replay (m : aiger) (fl : Flags) (o : Oracle) (t : Trav) (k : Nat)
    (σ : Nat → Bool) (hwf : WellFormed m) (ho : fl.use_cadical = true ∨ PlainTravall o)
    (ht : travcoi m coiZero = some t)
    (hsat : satCnf σ (unrolledState m fl o t.coi k).solver.clauses = true)
    (hbad : litval σ (shift (startState m fl o t.coi)
      (mainilit (startState m fl o t.coi) (aigbad m 0)) k) = true) :
    (∀ l ∈ m.latches, t.coi (l.lit / 2) ≠ 0 →
      (l.reset = aiger_false →
        witnessLatch (startState m fl o t.coi) σ (l.lit / 2) = false) ∧
      (l.reset = aiger_true →
        witnessLatch (startState m fl o t.coi) σ (l.lit / 2) = true)) ∧
    simLit m (witnessLatch (startState m fl o t.coi) σ)
      (witnessInput (startState m fl o t.coi) σ) k (aigbad m 0) = true := by
  have h : SatRun m fl o t.coi k σ := ⟨hwf, ho, ⟨t, ht, rfl⟩, hsat⟩
  have hbm : t.coi (aigbad m 0 / 2) ≠ 0 := h.coi_facts.2.1
  constructor
  · intro l hl hc
    have e0 := h.sim_latch 0 (Nat.zero_le k) l hl hc
    have e1 : simLatch m (witnessLatch (startState m fl o t.coi) σ)
        (witnessInput (startState m fl o t.coi) σ) 0 (l.lit / 2) =
        witnessLatch (startState m fl o t.coi) σ (l.lit / 2) := rfl
    rw [← e1, e0]
    exact h.reset hl hc
  · unfold simLit
    rw [h.evalLit_correct (Nat.le_refl k) _ (h.sim_latch k (Nat.le_refl k)) hbm]
    exact hbad

theorem exCounterTrav_eq : travcoi exCounter coiZero = some exCounterTrav := by
  have hs : (travcoi exCounter coiZero).isSome = true := by decide
  unfold exCounterTrav
  cases h : travcoi exCounter coiZero with
  | none => rw [h] at hs; exact absurd hs (by decide)
  | some t => rfl

/-- Witness for C1: the one-bit counter at `k = 1`; the assignment with variable `1` false
and variable `2` true satisfies `(-1)`, `(1, 2)`, `(-1, -2)` and the assumption `2`. -/
theorem witness_replay_witness :
    WellFormed exCounter ∧ (flagsOne.use_cadical = true ∨ PlainTravall oracleUnsat) ∧
    travcoi exCounter coiZero = some exCounterTrav ∧
    satCnf exSigma
      (unrolledState exCounter flagsOne oracleUnsat exCounterTrav.coi 1).solver.clauses = true ∧
    litval exSigma (shift (startState exCounter flagsOne oracleUnsat exCounterTrav.coi)
      (mainilit (startState exCounter flagsOne oracleUnsat exCounterTrav.coi)
        (aigbad exCounter 0)) 1) = true ∧
    ((∀ l ∈ exCounter.latches, exCounterTrav.coi (l.lit / 2) ≠ 0 →
      (l.reset = aiger_false →
        witnessLatch (startState exCounter flagsOne oracleUnsat exCounterTrav.coi) exSigma
          (l.lit / 2) = false) ∧
      (l.reset = aiger_true →
        witnessLatch (startState exCounter flagsOne oracleUnsat exCounterTrav.coi) exSigma
          (l.lit / 2) = true)) ∧
    simLit exCounter
      (witnessLatch (startState exCounter flagsOne oracleUnsat exCounterTrav.coi) exSigma)
      (witnessInput (startState exCounter flagsOne oracleUnsat exCounterTrav.coi) exSigma) 1
      (aigbad exCounter 0) = true) :=
  ⟨exCounter_wf, Or.inr (fun _ => rfl), exCounterTrav_eq, by decide, by decide,
    witness_replay exCounter flagsOne oracleUnsat exCounterTrav 1 exSigma exCounter_wf
      (Or.inr (fun _ => rfl)) exCounterTrav_eq (by decide) (by decide)⟩

/-! ## The literal range in the Lingeling path -/

theorem shift_range (s : St) {x : Int} {t K : Nat} (h1 : 1 ≤ x.natAbs)
    (h2 : x.natAbs ≤ s.maxvar) (ht : t ≤ K) :
    1 ≤ (shift s x t).natAbs ∧ (shift s x t).natAbs ≤ s.maxvar * (K + 1) := by
  rw [shift_natAbs]
  have := Nat.mul_le_mul_right s.maxvar ht
  rw [Nat.mul_succ, Nat.mul_comm s.maxvar K]
  omega

theorem neg_range {x : Int} {B : Nat} (h : 1 ≤ x.natAbs ∧ x.natAbs ≤ B) :
    1 ≤ (-x).natAbs ∧ (-x).natAbs ≤ B := by
  rw [Int.natAbs_neg]; exact h

theorem mainilit_natAbs (s : St) (u : Nat) : (mainilit s u).natAbs = s.litmap (u / 2 + 1) := by
  rw [mainilit_eq, mlit_natAbs, prepilit_natAbs]

theorem literal_range_lingeling {m : aiger} (hwf : WellFormed m) (fl : Flags) (o : Oracle)
    (coi : Nat → Nat) (hl : fl.use_cadical = false) (K k : Nat) (hk : k ≤ K) :
    ∀ c ∈ (unrolledState m fl o coi k).solver.clauses, ∀ lit ∈ c,
      1 ≤ lit.natAbs ∧ lit.natAbs ≤ (startState m fl o coi).maxvar * (K + 1) := by
  obtain ⟨T0, -, -, h1, h2, hcoi, -, h5, hu, hsol⟩ := start_spec hwf fl o coi
  have hinv := initMap_inv hwf coi T0
  have hle : ∀ i, (startState m fl o coi).litmap i ≤ (startState m fl o coi).maxvar := by
    intro i; rw [h1, h2]; exact hinv.le i
  have hmain : ∀ u, mainilit (startState m fl o coi) u ≠ 0 →
      1 ≤ (mainilit (startState m fl o coi) u).natAbs ∧
      (mainilit (startState m fl o coi) u).natAbs ≤ (startState m fl o coi).maxvar := by
    intro u hne
    refine ⟨Nat.pos_of_ne_zero (fun e => hne (Int.natAbs_eq_zero.mp e)), ?_⟩
    rw [mainilit_natAbs]; exact hle _
  have hV : ∀ x : Int, 1 ≤ x.natAbs ∧ x.natAbs ≤ (startState m fl o coi).maxvar →
      1 ≤ x.natAbs ∧ x.natAbs ≤ (startState m fl o coi).maxvar * (K + 1) := by
    intro x hx
    rw [Nat.mul_succ]
    omega
  intro c hc lit hlit
  rw [(unrolled_spec hwf fl o coi k).1, hsol, hl] at hc
  simp only [Bool.false_eq_true, if_false, List.nil_append, List.mem_append] at hc
  rcases hc with hc | hc
  · unfold resetClauses at hc
    obtain ⟨i, hi, hci⟩ := List.mem_flatMap.mp hc
    rw [List.mem_range] at hi
    split at hci
    · simp at hci
    · next hcoi1 =>
      have hne := (hu.latch_ne i hi hcoi1).1
      split at hci
      · simp at hci
      · rcases List.mem_append.mp hci with h | h
        · split at h
          · simp only [List.mem_singleton] at h
            subst h
            simp only [List.mem_singleton] at hlit
            subst hlit
            exact hV _ (neg_range (hmain _ hne))
          · simp at h
        · split at h
          · simp only [List.mem_singleton] at h
            subst h
            simp only [List.mem_singleton] at hlit
            subst hlit
            exact hV _ (hmain _ hne)
          · simp at h
  · unfold unrollClauses at hc
    obtain ⟨tm, htm, hct⟩ := List.mem_flatMap.mp hc
    rw [List.mem_range] at htm
    unfold shiftClauses at hct
    rcases List.mem_append.mp hct with h | h
    · split at h
      · next hpos =>
        unfold latchClauses at h
        obtain ⟨i, hi, hci⟩ := List.mem_flatMap.mp h
        rw [List.mem_range] at hi
        unfold latchClausesAt at hci
        split at hci
        · simp at hci
        · next hcoi1 =>
          obtain ⟨n1, n2⟩ := hu.latch_ne i hi hcoi1
          have b1 := shift_range (startState m fl o coi) (hmain _ n1).1 (hmain _ n1).2
            (show tm ≤ K by omega)
          have b2 := shift_range (startState m fl o coi) (hmain _ n2).1 (hmain _ n2).2
            (show tm - 1 ≤ K by omega)
          unfold equivClauses at hci
          simp only [List.mem_cons, List.mem_singleton, List.not_mem_nil, or_false] at hci
          rcases hci with rfl | rfl
          · simp only [List.mem_cons, List.mem_singleton, List.not_mem_nil, or_false] at hlit
            rcases hlit with rfl | rfl
            · exact neg_range b2
            · exact b1
          · simp only [List.mem_cons, List.mem_singleton, List.not_mem_nil, or_false] at hlit
            rcases hlit with rfl | rfl
            · exact b2
            · exact neg_range b1
      · simp at h
    · unfold shiftedClauses at h
      obtain ⟨c0, hc0, rfl⟩ := List.mem_map.mp h
      obtain ⟨l0, hl0, rfl⟩ := List.mem_map.mp hlit
      have hne : l0 ≠ 0 := hu.lits_ne c0 hc0 l0 hl0
      have hb : l0.natAbs ≤ (startState m fl o coi).maxvar := by
        rw [h5] at hc0
        obtain ⟨c1, -, rfl⟩ := List.mem_map.mp hc0
        obtain ⟨l1, -, rfl⟩ := List.mem_map.mp hl0
        rw [mlit_natAbs, ← h1]
        exact hle _
      exact shift_range (startState m fl o coi)
        (Nat.pos_of_ne_zero (fun e => hne (Int.natAbs_eq_zero.mp e))) hb (show tm ≤ K by omega)


/-! ## Completeness of the exhaustive solver -/

theorem mem_allAssign (n : Nat) : ∀ σ : Nat → Bool, (List.range n).map σ ∈ allAssign n := by
  induction n with
  | zero => intro σ; simp [allAssign]
  | succ n ih =>
    intro σ
    have h := ih (fun v => σ (v + 1))
    rw [List.range_succ_eq_map, List.map_cons, List.map_map]
    unfold allAssign
    rw [List.mem_flatMap]
    refine ⟨_, h, ?_⟩
    have e : (σ ∘ Nat.succ) = fun v => σ (v + 1) := rfl
    rw [e]
    cases σ 0 <;> simp

theorem assignOf_range (n : Nat) (σ : Nat → Bool) {v : Nat} (hv : v < n) :
    assignOf ((List.range n).map σ) v = σ v := by
  unfold assignOf
  rw [List.getD_eq_getElem?_getD, List.getElem?_map, List.getElem?_range hv]
  rfl

theorem litval_congr {σ τ : Nat → Bool} {l : Int} (h : σ l.natAbs = τ l.natAbs) :
    litval σ l = litval τ l := by
  unfold litval; rw [h]

theorem foldl_max_le (l : List Nat) : ∀ (a : Nat) {x : Nat}, x ∈ l → x ≤ l.foldl max a := by
  have hmono : ∀ (l : List Nat) (a : Nat), a ≤ l.foldl max a := by
    intro l
    induction l with
    | nil => intro a; exact Nat.le_refl a
    | cons y l ih => intro a; exact Nat.le_trans (Nat.le_max_left a y) (ih (max a y))
  induction l with
  | nil => intro a x hx; cases hx
  | cons y l ih =>
    intro a x hx
    rcases List.mem_cons.mp hx with h | h
    · subst h
      exact Nat.le_trans (Nat.le_max_right a x) (hmono l (max a x))
    · exact ih (max a y) h

theorem lt_varBound {cs : List (List Int)} {asm : List Int} {l : Int}
    (h : l ∈ cs.flatten ++ asm) : l.natAbs < varBound cs asm := by
  unfold varBound
  exact Nat.lt_succ_of_le (foldl_max_le _ 0 (List.mem_map_of_mem _ h))

theorem satCnf_congr {σ τ : Nat → Bool} {cs : List (List Int)}
    (h : ∀ c ∈ cs, ∀ l ∈ c, σ l.natAbs = τ l.natAbs) : satCnf σ cs = satCnf τ cs := by
  rw [Bool.eq_iff_iff]
  unfold satCnf satClause
  simp only [List.all_eq_true, List.any_eq_true]
  constructor
  · intro H c hc
    obtain ⟨l, hl, hv⟩ := H c hc
    exact ⟨l, hl, by rw [← litval_congr (h c hc l hl)]; exact hv⟩
  · intro H c hc
    obtain ⟨l, hl, hv⟩ := H c hc
    exact ⟨l, hl, by rw [litval_congr (h c hc l hl)]; exact hv⟩

theorem all_litval_congr {σ τ : Nat → Bool} {asm : List Int}
    (h : ∀ l ∈ asm, σ l.natAbs = τ l.natAbs) :
    asm.all (litval σ) = asm.all (litval τ) := by
  rw [Bool.eq_iff_iff]
  simp only [List.all_eq_true]
  constructor
  · intro H l hl
    rw [← litval_congr (h l hl)]; exact H l hl
  · intro H l hl
    rw [litval_congr (h l hl)]; exact H l hl

theorem findModel_sound {sv : Solver} {asm : List Int} {l : List Bool}
    (h : findModel sv asm = some l) :
    satCnf (assignOf l) sv.clauses = true ∧ asm.all (litval (assignOf l)) = true := by
  unfold findModel at h
  have := List.find?_some h
  simpa using this

theorem findModel_complete {sv : Solver} {asm : List Int} {σ : Nat → Bool}
    (h1 : satCnf σ sv.clauses = true) (h2 : asm.all (litval σ) = true) :
    (findModel sv asm).isSome = true := by
  unfold findModel
  rw [List.find?_isSome]
  refine ⟨_, mem_allAssign (varBound sv.clauses asm) σ, ?_⟩
  have e1 : satCnf (assignOf ((List.range (varBound sv.clauses asm)).map σ)) sv.clauses =
      satCnf σ sv.clauses := by
    apply satCnf_congr
    intro c hc l hl
    apply assignOf_range
    exact lt_varBound (List.mem_append_left _ (List.mem_flatten.mpr ⟨c, hc, hl⟩))
  have e2 : asm.all (litval (assignOf ((List.range (varBound sv.clauses asm)).map σ))) =
      asm.all (litval σ) := by
    apply all_litval_congr
    intro l hl
    apply assignOf_range
    exact lt_varBound (List.mem_append_right _ hl)
  rw [e1, e2, h1, h2]; rfl

theorem oracleFull_complete : Complete oracleFull := by
  refine ⟨fun _ => rfl, ?_, ?_, ?_, ?_⟩
  · intro sv lit h
    exact absurd (show (0 : Int) < 0 from h) (by decide)
  · rintro k sv ⟨σ, h1, h2⟩
    show (if (findModel sv sv.assumed).isSome then (10 : Int) else 20) = 10
    rw [if_pos (findModel_complete h1 h2)]
  · intro k sv h
    show (if (findModel sv sv.assumed).isSome then (10 : Int) else 20) = 20
    rw [if_neg]
    intro hs
    obtain ⟨l, hl⟩ := Option.isSome_iff_exists.mp hs
    exact h ⟨assignOf l, findModel_sound hl⟩
  · rintro sv ⟨σ, h1, h2⟩
    obtain ⟨l, hl⟩ := Option.isSome_iff_exists.mp (findModel_complete h1 h2)
    refine ⟨assignOf l, (findModel_sound hl).1, (findModel_sound hl).2, ?_⟩
    intro lit
    show ((0 : Int) < (match findModel sv sv.lastAssumed with
        | some l => if litval (assignOf l) lit then (1 : Int) else -1
        | none => 0) ↔ _) ∧ ((match findModel sv sv.lastAssumed with
        | some l => if litval (assignOf l) lit then (1 : Int) else -1
        | none => 0) < (0 : Int) ↔ _)
    rw [hl]
    by_cases hv : litval (assignOf l) lit = true
    · simp [hv]
    · simp [hv]


/-! ## Runs that end with verdict 1 -/

theorem verdict_sat (m : aiger) (fl : Flags) (o : Oracle) (s : St)
    (hfix : ¬ o.fixed s.solver (prepbad m 0) < 0) {j : Nat}
    (hp : Performed m fl o (prepare m o s) j)
    (h10 : answer m fl o (prepare m o s) j = 10) :
    verdict m fl o s = Outcome.exit 10 ((List.range j).map uLine ++ ["1", "b0"] ++
      witnessLines m fl o (bad m (shiftcnf m (passState m fl (prepare m o s) j) j) j).solved j
        ++ ["."]) := by
  obtain ⟨hA, hB⟩ := bmcLoop_spec m fl o (prepare m o s) (fl.maxk + 1) 0 0 rfl
    (Nat.succ_pos _)
  have hv : verdict m fl o s =
      (let b := bmcLoop m fl o (fl.maxk + 1)
          { st := passState m fl (prepare m o s) 0, res := 0, k := 0,
            out := (List.range 0).map uLine }
       if b.res = 10 then
         Outcome.exit b.res (b.out ++ ["1", "b0"] ++ witnessLines m fl o b.st b.k ++ ["."])
       else if b.res = 20 ∧ m.latches.length = 0 then
         Outcome.exit b.res (b.out ++ ["0", "b0", "."])
       else
         Outcome.exit b.res (b.out ++ ["2", "b0", "."])) := by
    unfold verdict
    rw [if_neg hfix]
    rfl
  rw [hv]
  by_cases hr : (bmcLoop m fl o (fl.maxk + 1)
          { st := passState m fl (prepare m o s) 0, res := 0, k := 0,
            out := (List.range 0).map uLine }).res = 10
  · obtain ⟨i, _, hi2, hi3, hi4, hi5, hi6⟩ := hA hr
    have hij : i = j := by
      rcases Nat.lt_trichotomy i j with h | h | h
      · exact absurd hi3 (hp.2.1 i h)
      · exact h
      · exact absurd h10 (hi4 j (Nat.zero_le j) h)
    subst hij
    rw [hi6]; simp
  · exfalso
    by_cases hl : m.latches.length = 0
    · rcases hp.2.2 with h | h
      · subst h; exact ((hB hr).1 hl).1 h10
      · exact h hl
    · exact ((hB hr).2 hl).1 j (Nat.zero_le j) hp.1 h10

theorem solveStep_complete {o : Oracle} (ho : Complete o) (k : Nat) (sv : Solver) :
    solveStep o k sv = o.sat k sv := by
  unfold solveStep
  by_cases h : ∃ σ, satCnf σ sv.clauses = true ∧ sv.assumed.all (litval σ) = true
  · simp [ho.sat_yes k sv h]
  · simp [ho.sat_no k sv h]

theorem travallExtract_plain {o : Oracle} (ho : PlainTravall o) (s : St) :
    travallExtract o s = travallExtract oracleUnsat s := by
  unfold travallExtract
  rw [ho s.lgl]
  rfl

theorem startState_plain (m : aiger) (fl : Flags) {o : Oracle} (ho : PlainTravall o)
    (coi : Nat → Nat) : startState m fl o coi = startState m fl oracleUnsat coi := by
  unfold startState prepare
  rw [travallExtract_plain ho]


/-! ## The scenario of the one-bit counter -/

theorem counter_fixed {o : Oracle} (ho : Complete o) (fl : Flags) :
    ¬ o.fixed (encode exCounter fl exCounterTrav.coi).solver (prepbad exCounter 0) < 0 := by
  intro h
  have hc : (encode exCounter fl exCounterTrav.coi).solver.clauses = [] := by
    rw [(encode_spec exCounter fl exCounterTrav.coi).2.2.2.2.1]
    decide
  have := ho.fixed_sound _ _ h (fun _ => true) (by rw [hc]; rfl)
  exact absurd this (by decide)

theorem counter_step0 {o : Oracle} (ho : Complete o) (uc xs nc : Bool) :
    answer exCounter (flagsCounter uc xs nc) o
      (startState exCounter (flagsCounter uc xs nc) oracleUnsat exCounterTrav.coi) 0 = 20 := by
  unfold answer
  rw [solveStep_complete ho]
  apply ho.sat_no
  rintro ⟨σ, h1, h2⟩
  have e1 : (bad exCounter (shiftcnf exCounter (passState exCounter (flagsCounter uc xs nc)
      (startState exCounter (flagsCounter uc xs nc) oracleUnsat exCounterTrav.coi) 0) 0)
        0).solver.clauses = [[-1]] := by
    cases uc <;> cases nc <;> cases xs <;> decide
  have e2 : (bad exCounter (shiftcnf exCounter (passState exCounter (flagsCounter uc xs nc)
      (startState exCounter (flagsCounter uc xs nc) oracleUnsat exCounterTrav.coi) 0) 0)
        0).solver.assumed = [1] := by
    cases uc <;> cases nc <;> cases xs <;> decide
  rw [e1] at h1
  rw [e2] at h2
  simp [satCnf, satClause, litval] at h1 h2
  rw [h1] at h2
  exact absurd h2 (by decide)

theorem counter_step1 {o : Oracle} (ho : Complete o) (uc xs nc : Bool) :
    answer exCounter (flagsCounter uc xs nc) o
      (startState exCounter (flagsCounter uc xs nc) oracleUnsat exCounterTrav.coi) 1 = 10 := by
  unfold answer
  rw [solveStep_complete ho]
  apply ho.sat_yes
  refine ⟨exSigma, ?_, ?_⟩
  · cases uc <;> cases nc <;> cases xs <;> decide
  · cases uc <;> cases nc <;> cases xs <;> decide

theorem counter_latch {o : Oracle} (ho : Complete o) (uc xs nc : Bool) :
    witnessLines exCounter (flagsCounter uc xs nc) o
      (bad exCounter (shiftcnf exCounter (passState exCounter (flagsCounter uc xs nc)
        (startState exCounter (flagsCounter uc xs nc) oracleUnsat exCounterTrav.coi) 1) 1)
          1).solved 1 = ["0", "", ""] := by
  have e1 : (bad exCounter (shiftcnf exCounter (passState exCounter (flagsCounter uc xs nc)
      (startState exCounter (flagsCounter uc xs nc) oracleUnsat exCounterTrav.coi) 1) 1)
        1).solved.solver.clauses = [[-1], [1, 2], [-1, -2]] := by
    cases uc <;> cases nc <;> cases xs <;> decide
  have e2 : (bad exCounter (shiftcnf exCounter (passState exCounter (flagsCounter uc xs nc)
      (startState exCounter (flagsCounter uc xs nc) oracleUnsat exCounterTrav.coi) 1) 1)
        1).solved.solver.lastAssumed = [2] := by
    cases uc <;> cases nc <;> cases xs <;> decide
  obtain ⟨σ, h1, -, h3⟩ := ho.deref_model (bad exCounter (shiftcnf exCounter
    (passState exCounter (flagsCounter uc xs nc)
      (startState exCounter (flagsCounter uc xs nc) oracleUnsat exCounterTrav.coi) 1) 1)
        1).solved.solver ⟨exSigma, by rw [e1]; decide, by rw [e2]; decide⟩
  rw [e1] at h1
  have hf : litval σ 1 = false := by
    simp [satCnf, satClause, litval] at h1
    simp [litval, h1.1]
  have hd := (h3 1).2.mpr hf
  have hl : latchLine exCounter (flagsCounter uc xs nc) o
      (bad exCounter (shiftcnf exCounter (passState exCounter (flagsCounter uc xs nc)
        (startState exCounter (flagsCounter uc xs nc) oracleUnsat exCounterTrav.coi) 1) 1)
          1).solved = String.mk [vch xs (o.deref (bad exCounter (shiftcnf exCounter
    (passState exCounter (flagsCounter uc xs nc)
      (startState exCounter (flagsCounter uc xs nc) oracleUnsat exCounterTrav.coi) 1) 1)
        1).solved.solver 1)] := by
    cases uc <;> cases nc <;> cases xs <;> rfl
  have hv : vch xs (o.deref (bad exCounter (shiftcnf exCounter
    (passState exCounter (flagsCounter uc xs nc)
      (startState exCounter (flagsCounter uc xs nc) oracleUnsat exCounterTrav.coi) 1) 1)
        1).solved.solver 1) = '0' := by
    unfold vch
    rw [if_neg (by omega), if_neg (by intro h; omega)]
  unfold witnessLines
  rw [hl, hv]
  rfl


/-- Counterexample for C11: with a complete solver the one-bit counter run with bound `5`
prints `u0`, `1`, `b0`, `0`, two empty lines and `.`, not the text with `u1` and three empty
lines. -/
theorem counter_scenario_counterexample :
    Complete oracleFull ∧
    main exCounter flagsFive oracleFull =
      Outcome.exit 10 ["u0", "1", "b0", "0", "", "", "."] ∧
    main exCounter flagsFive oracleFull ≠
      Outcome.exit 10 ["u0", "u1", "1", "b0", "0", "", "", "", "."] :=
  ⟨oracleFull_complete, by decide, by decide⟩

/-- C11 (amended: scenario of the one-bit counter): for the model with no inputs and one latch
with reset `0`, next-state literal the negated latch and bad literal the latch, run with
bound `5` and the witness enabled (either backend, with or without `-x`) on a solver that
answers SAT exactly when the clauses and the assumption of the step are satisfiable, `main`
returns `10` and stdout is `u0`, `1`, `b0`, the latch line `0`, two empty input lines and
`.`: the latch is `1` in cycle `1`, so step `1` is satisfiable and there is no line `u1`. -/
theorem counter_scenario (uc xs nc : Bool) (o : Oracle) (ho : Complete o) :
    main exCounter (flagsCounter uc xs nc) o =
      Outcome.exit 10 ["u0", "1", "b0", "0", "", "", "."] := by
  rw [main_eq_verdict exCounter _ o exCounterTrav (by decide) (by decide) rfl exCounterTrav_eq]
  have hS : prepare exCounter o (encode exCounter (flagsCounter uc xs nc) exCounterTrav.coi) =
      startState exCounter (flagsCounter uc xs nc) oracleUnsat exCounterTrav.coi :=
    startState_plain exCounter _ ho.plain _
  have h0 := counter_step0 ho uc xs nc
  have h1 := counter_step1 ho uc xs nc
  have hp : Performed exCounter (flagsCounter uc xs nc) o
      (prepare exCounter o (encode exCounter (flagsCounter uc xs nc) exCounterTrav.coi)) 1 := by
    rw [hS]
    refine ⟨(by show 1 ≤ 5; decide), ?_, Or.inr (by decide)⟩
    intro i hi
    have : i = 0 := by omega
    subst this
    rw [h0]; decide
  rw [verdict_sat exCounter _ o _ (counter_fixed ho _) hp (by rw [hS]; exact h1), hS,
    counter_latch ho]
  rfl

/-- Witness for C11 (amended): the exhaustive solver on the command line `blimc 5`. -/
theorem counter_scenario_witness :
    Complete oracleFull ∧
    main exCounter (flagsCounter false false false) oracleFull =
      Outcome.exit 10 ["u0", "1", "b0", "0", "", "", "."] :=
  ⟨oracleFull_complete, counter_scenario false false false oracleFull oracleFull_complete⟩


/-! ## Layout of the witness -/

theorem vch_cases (x : Bool) (v : Int) :
    vch x v = '0' ∨ vch x v = '1' ∨ (vch x v = 'x' ∧ x = true) := by
  unfold vch
  by_cases h1 : v > 0
  · rw [if_pos h1]; exact Or.inr (Or.inl rfl)
  · rw [if_neg h1]
    by_cases h2 : v = 0 ∧ x = true
    · rw [if_pos h2]; exact Or.inr (Or.inr ⟨rfl, h2.2⟩)
    · rw [if_neg h2]; exact Or.inl rfl

theorem vch_zero (x : Bool) : vch x 0 = if x then 'x' else '0' := by
  cases x <;> rfl

theorem latchLine_length (m : aiger) (fl : Flags) (o : Oracle) (s : St) :
    (latchLine m fl o s).length = m.latches.length := by
  unfold latchLine
  rw [String.length_mk, List.length_map, List.length_range]

theorem inputLine_length (m : aiger) (fl : Flags) (o : Oracle) (s : St) (i : Nat) :
    (inputLine m fl o s i).length = m.inputs.length := by
  unfold inputLine
  rw [String.length_mk, List.length_map, List.length_range]

theorem latchLine_chars (m : aiger) (fl : Flags) (o : Oracle) (s : St) :
    ∀ c ∈ (latchLine m fl o s).data, c = '0' ∨ c = '1' ∨ (c = 'x' ∧ fl.xstim = true) := by
  intro c hc
  unfold latchLine at hc
  obtain ⟨i, -, rfl⟩ := List.mem_map.mp hc
  exact vch_cases _ _

theorem inputLine_chars (m : aiger) (fl : Flags) (o : Oracle) (s : St) (i : Nat) :
    ∀ c ∈ (inputLine m fl o s i).data, c = '0' ∨ c = '1' ∨ (c = 'x' ∧ fl.xstim = true) := by
  intro c hc
  unfold inputLine at hc
  obtain ⟨j, -, rfl⟩ := List.mem_map.mp hc
  exact vch_cases _ _

theorem latchLine_outside (m : aiger) (fl : Flags) (o : Oracle) (s : St) {i : Nat}
    (hi : i < m.latches.length) (hc : ulitincoi s.coi (aiglatch m i) = 0) :
    (latchLine m fl o s).data[i]? = some (if fl.xstim then 'x' else '0') := by
  unfold latchLine
  simp only [List.getElem?_map, List.getElem?_range hi, Option.map_some']
  rw [if_neg (by simpa using hc), vch_zero]

theorem inputLine_outside (m : aiger) (fl : Flags) (o : Oracle) (s : St) (t : Nat) {j : Nat}
    (hj : j < m.inputs.length) (hc : ulitincoi s.coi (aiginput m j) = 0) :
    (inputLine m fl o s t).data[j]? = some (if fl.xstim then 'x' else '0') := by
  unfold inputLine
  simp only [List.getElem?_map, List.getElem?_range hj, Option.map_some']
  rw [if_neg (by simpa using hc), vch_zero]

theorem solved_state_coi {m : aiger} (hwf : WellFormed m) (fl : Flags) (o : Oracle)
    (coi : Nat → Nat) (k : Nat) :
    (bad m (shiftcnf m (passState m fl (startState m fl o coi) k) k) k).solved.coi = coi := by
  obtain ⟨T0, -, -, -, -, h3, -⟩ := start_spec hwf fl o coi
  have h1 := (unrolled_spec hwf fl o coi k).2.1
  have h2 := (same_bad m (unrolledState m fl o coi k) k).frame.coi
  have h4 := (same_solved (bad m (unrolledState m fl o coi k) k)).frame.coi
  unfold unrolledState at h1 h2 h4
  rw [h4, h2, h1.coi, h3]

theorem one_bad_le {m : aiger} (hwf : WellFormed m) : m.bad.length ≤ 1 := by
  have h := hwf.one_bad
  unfold num_bad badsyms at h
  by_cases hb : m.bad.length = 0
  · omega
  · rw [if_pos hb] at h; omega

/-- C12 (amended: witness layout): on a well-formed model without constraints, when the bad
literal is not reported fixed and the first satisfiable pass is `k`, with the witness enabled
`main` returns `10` and prints `u0 .. u(k-1)`, `1`, `b0`, one line with one character for
every latch, `k + 1` lines with one character for every input, and `.`.  Every character is
`0`, `1` or `x`, and `x` only occurs with `-x`.  The character of a latch (or input) outside
the COI is `0` without `-x` and `x` with `-x`. -/
theorem witness_layout (m : aiger) (hwf : WellFormed m) (hc : m.num_constraints = 0)
    (fl : Flags) (o : Oracle) (t : Trav) (ht : travcoi m coiZero = some t)
    (hw : fl.nowitness = false) (k : Nat)
    (hfix : ¬ o.fixed (encode m fl t.coi).solver (prepbad m 0) < 0)
    (hp : Performed m fl o (startState m fl o t.coi) k)
    (h10 : answer m fl o (startState m fl o t.coi) k = 10) :
    ∃ (latchL : String) (inputLs : List String),
      main m fl o = Outcome.exit 10
        ((List.range k).map uLine ++ ["1", "b0"] ++ latchL :: inputLs ++ ["."]) ∧
      latchL.length = m.latches.length ∧
      inputLs.length = k + 1 ∧
      (∀ l ∈ inputLs, l.length = m.inputs.length) ∧
      (∀ l ∈ latchL :: inputLs, ∀ c ∈ l.data,
        c = '0' ∨ c = '1' ∨ (c = 'x' ∧ fl.xstim = true)) ∧
      (∀ i, i < m.latches.length → ulitincoi t.coi (aiglatch m i) = 0 →
        latchL.data[i]? = some (if fl.xstim then 'x' else '0')) ∧
      (∀ l ∈ inputLs, ∀ j, j < m.inputs.length → ulitincoi t.coi (aiginput m j) = 0 →
        l.data[j]? = some (if fl.xstim then 'x' else '0')) := by
  have hcoi := solved_state_coi hwf fl o t.coi k
  refine ⟨latchLine m fl o
      (bad m (shiftcnf m (passState m fl (startState m fl o t.coi) k) k) k).solved,
    (List.range (k + 1)).map (inputLine m fl o
      (bad m (shiftcnf m (passState m fl (startState m fl o t.coi) k) k) k).solved),
    ?_, latchLine_length _ _ _ _, by rw [List.length_map, List.length_range], ?_, ?_, ?_, ?_⟩
  · rw [main_eq_verdict m fl o t hwf.one_bad (one_bad_le hwf) hc ht,
      verdict_sat m fl o _ hfix hp h10]
    unfold witnessLines
    rw [hw]
    rfl
  · intro l hl
    obtain ⟨i, -, rfl⟩ := List.mem_map.mp hl
    exact inputLine_length _ _ _ _ _
  · intro l hl
    rcases List.mem_cons.mp hl with h | h
    · subst h; exact latchLine_chars _ _ _ _
    · obtain ⟨i, -, rfl⟩ := List.mem_map.mp h
      exact inputLine_chars _ _ _ _ _
  · intro i hi hci
    exact latchLine_outside m fl o _ hi (by rw [hcoi]; exact hci)
  · intro l hl j hj hcj
    obtain ⟨i, -, rfl⟩ := List.mem_map.mp hl
    exact inputLine_outside m fl o _ i hj (by rw [hcoi]; exact hcj)

theorem exSpare_wf : WellFormed exSpare := by
  refine ⟨by decide, by decide, by decide, by decide, by decide, by decide, ?_⟩
  exact ⟨fun _ => 0, fun _ => Nat.zero_le _, by decide⟩

theorem exSpareTrav_eq : travcoi exSpare coiZero = some exSpareTrav := by
  have hs : (travcoi exSpare coiZero).isSome = true := by decide
  unfold exSpareTrav
  cases h : travcoi exSpare coiZero with
  | none => rw [h] at hs; exact absurd hs (by decide)
  | some t => rfl

/-- Counterexample for C12: with `-x` the latch `4` of `exSpare`, which is outside the COI,
is printed as `x`, not as `0`: the latch line of the witness is `1x`. -/
theorem witness_layout_counterexample :
    WellFormed exSpare ∧ travcoi exSpare coiZero = some exSpareTrav ∧
    ulitincoi exSpareTrav.coi (aiglatch exSpare 1) = 0 ∧
    main exSpare flagsX oracleFull = Outcome.exit 10 ["1", "b0", "1x", "", "."] :=
  ⟨exSpare_wf, exSpareTrav_eq, by decide, by decide⟩

/-- Witness for C12 (amended): the model `exSpare` with `-x` and the exhaustive solver, where
pass `0` is satisfiable. -/
theorem witness_layout_witness :
    WellFormed exSpare ∧ exSpare.num_constraints = 0 ∧
    travcoi exSpare coiZero = some exSpareTrav ∧ flagsX.nowitness = false ∧
    ¬ oracleFull.fixed (encode exSpare flagsX exSpareTrav.coi).solver (prepbad exSpare 0) < 0 ∧
    Performed exSpare flagsX oracleFull (startState exSpare flagsX oracleFull exSpareTrav.coi) 0 ∧
    answer exSpare flagsX oracleFull (startState exSpare flagsX oracleFull exSpareTrav.coi) 0
      = 10 ∧
    ∃ (latchL : String) (inputLs : List String),
      main exSpare flagsX oracleFull = Outcome.exit 10
        ((List.range 0).map uLine ++ ["1", "b0"] ++ latchL :: inputLs ++ ["."]) ∧
      latchL.length = exSpare.latches.length ∧
      inputLs.length = 0 + 1 ∧
      (∀ l ∈ inputLs, l.length = exSpare.inputs.length) ∧
      (∀ l ∈ latchL :: inputLs, ∀ c ∈ l.data,
        c = '0' ∨ c = '1' ∨ (c = 'x' ∧ flagsX.xstim = true)) ∧
      (∀ i, i < exSpare.latches.length → ulitincoi exSpareTrav.coi (aiglatch exSpare i) = 0 →
        latchL.data[i]? = some (if flagsX.xstim then 'x' else '0')) ∧
      (∀ l ∈ inputLs, ∀ j, j < exSpare.inputs.length →
        ulitincoi exSpareTrav.coi (aiginput exSpare j) = 0 →
        l.data[j]? = some (if flagsX.xstim then 'x' else '0')) :=
  ⟨exSpare_wf, rfl, exSpareTrav_eq, rfl, by decide,
    ⟨Nat.zero_le _, fun i hi => absurd hi (Nat.not_lt_zero i), Or.inl rfl⟩, by decide,
    witness_layout exSpare exSpare_wf rfl flagsX oracleFull exSpareTrav exSpareTrav_eq rfl 0
      (by decide) ⟨Nat.zero_le _, fun i hi => absurd hi (Nat.not_lt_zero i), Or.inl rfl⟩
      (by decide)⟩


/-! ## Validation of the model -/

theorem travLoop_justice (m : aiger) (j f : Nat) :
    ∀ (fuel : Nat) (s : Trav), travLoop (withJustice m j f) fuel s = travLoop m fuel s := by
  intro fuel
  induction fuel with
  | zero => intro s; rfl
  | succ n ih =>
    intro s
    unfold travLoop
    have hb : travBody (withJustice m j f) s = travBody m s := rfl
    simp only
    rw [hb, ih]

theorem bmcLoop_justice (m : aiger) (j f : Nat) (fl : Flags) (o : Oracle) :
    ∀ (fuel : Nat) (b : Bmc),
      bmcLoop (withJustice m j f) fl o fuel b = bmcLoop m fl o fuel b := by
  intro fuel
  induction fuel with
  | zero => intro b; rfl
  | succ n ih =>
    intro b
    unfold bmcLoop
    have h1 : bad (withJustice m j f) (shiftcnf (withJustice m j f) b.st b.k) b.k =
        bad m (shiftcnf m b.st b.k) b.k := rfl
    have h2 : (withJustice m j f).latches = m.latches := rfl
    simp only
    rw [h1, h2]
    simp only [ih]

theorem main_justice (m : aiger) (j f : Nat) (fl : Flags) (o : Oracle) :
    main (withJustice m j f) fl o = main m fl o := by
  unfold main
  have h1 : (withJustice m j f).outputs = m.outputs := rfl
  have h2 : (withJustice m j f).bad = m.bad := rfl
  have h3 : (withJustice m j f).num_constraints = m.num_constraints := rfl
  have h4 : travcoi (withJustice m j f) coiZero = travcoi m coiZero :=
    travLoop_justice m j f _ _
  have h5 : ∀ s, verdict (withJustice m j f) fl o s = verdict m fl o s := by
    intro s
    unfold verdict
    have e1 : prepbad (withJustice m j f) 0 = prepbad m 0 := rfl
    have e2 : prepare (withJustice m j f) o s = prepare m o s := rfl
    have e3 : ∀ st k, witnessLines (withJustice m j f) fl o st k = witnessLines m fl o st k :=
      fun _ _ => rfl
    have e4 : (withJustice m j f).latches = m.latches := rfl
    rw [e1, e2, e4]
    simp only [bmcLoop_justice, e3]
  rw [h1, h2, h3, h4]
  simp only [h5]
  have h6 : ∀ t : Trav, encode (withJustice m j f) fl t.coi = encode m fl t.coi := fun _ => rfl
  simp only [h6]

theorem main_die (m : aiger) (fl : Flags) (o : Oracle)
    (h : m.num_constraints > 0 ∨ m.bad.length > 1) :
    ∃ msg, main m fl o = Outcome.die msg := by
  unfold main
  by_cases h1 : m.outputs.length = 0 ∧ m.bad.length = 0
  · exact ⟨_, if_pos h1⟩
  · rw [if_neg h1]
    by_cases h2 : m.bad.length > 1
    · exact ⟨_, if_pos h2⟩
    · rw [if_neg h2]
      by_cases h3 : m.bad.length = 0 ∧ m.outputs.length > 1
      · exact ⟨_, if_pos h3⟩
      · rw [if_neg h3]
        have h4 : m.num_constraints > 0 := by
          rcases h with h | h
          · exact h
          · exact absurd h h2
        exact ⟨_, if_pos h4⟩

/-- Counterexample for C13: the one-bit counter with a justice property, or with a fairness
constraint, is not rejected: `main` returns with the verdict of the model without them. -/
theorem unsupported_rejected_counterexample :
    (withJustice exCounter 1 0).num_justice = 1 ∧
    main (withJustice exCounter 1 0) flagsFive oracleFull =
      Outcome.exit 10 ["u0", "1", "b0", "0", "", "", "."] ∧
    (withJustice exCounter 0 1).num_fairness = 1 ∧
    main (withJustice exCounter 0 1) flagsFive oracleFull =
      Outcome.exit 10 ["u0", "1", "b0", "0", "", "", "."] :=
  ⟨rfl, by decide, rfl, by decide⟩

/-- C13 (amended: unsupported inputs): a model with an environment constraint or with more
than one bad state property makes `main` end in `die` (exit status 1, nothing on stdout),
whatever the traversal and the solver would do.  Justice properties and fairness constraints
are ignored: the run is the run of the model without them. -/
theorem unsupported_rejected (m : aiger) (fl : Flags) (o : Oracle) :
    ((m.num_constraints > 0 ∨ m.bad.length > 1) → ∃ msg, main m fl o = Outcome.die msg) ∧
    ∀ j f, main (withJustice m j f) fl o = main m fl o :=
  ⟨main_die m fl o, fun j f => main_justice m j f fl o⟩

/-- Witness for C13 (amended): a model with two bad state properties. -/
theorem unsupported_rejected_witness :
    (exTwoBad.num_constraints > 0 ∨ exTwoBad.bad.length > 1) ∧
    ∃ msg, main exTwoBad flagsOne oracleUnsat = Outcome.die msg :=
  ⟨Or.inr (by decide),
    (unsupported_rejected exTwoBad flagsOne oracleUnsat).1 (Or.inr (by decide))⟩


/-! ## The compact variable of the constant -/

theorem one_not_mem_seq {m : aiger} (hwf : WellFormed m) (coi : Nat → Nat) :
    1 ∉ latchSeq m coi ++ inputSeq m coi := by
  intro h
  rcases List.mem_append.mp h with h | h
  · obtain ⟨l, hl, -, e⟩ := (mem_latchSeq hwf).mp h
    have := hwf.def_ok _ (mem_defined_latch hl)
    omega
  · obtain ⟨l, hl, -, e⟩ := (mem_inputSeq hwf).mp h
    have := hwf.def_ok _ (mem_defined_input hl)
    omega

theorem logicClauses_head (m : aiger) {coi : Nat → Nat} (h0 : ulitincoi coi 0 ≠ 0) :
    ∃ rest, logicClauses m coi = [-1] :: rest := by
  unfold logicClauses
  rw [if_pos h0]
  exact ⟨_, rfl⟩

theorem constant_compact {m : aiger} (hwf : WellFormed m) (coi : Nat → Nat)
    (h0 : ulitincoi coi 0 ≠ 0) :
    (initMap m coi (logicClauses m coi)).litmap 1 =
      (latchSeq m coi ++ inputSeq m coi).length + 1 := by
  obtain ⟨rest, hr⟩ := logicClauses_head m h0
  have h3 := (initMap_order hwf coi (logicClauses m coi)).2.2
  have hf : ∃ tl, firstNew (latchSeq m coi ++ inputSeq m coi)
      (clauseSeq (logicClauses m coi) ++ nextSeq m coi) = 1 :: tl := by
    rw [hr]
    have : clauseSeq ([-1] :: rest) ++ nextSeq m coi =
        1 :: (clauseSeq rest ++ nextSeq m coi) := rfl
    rw [this]
    unfold firstNew
    rw [if_neg (one_not_mem_seq hwf coi)]
    exact ⟨_, rfl⟩
  obtain ⟨tl, htl⟩ := hf
  have := h3 0 (by rw [htl]; exact Nat.succ_pos _)
  rw [htl] at this
  exact this

/-- C14 (amended: variable of the constant): on a well-formed model whose constant node is in
the COI, with the stored clauses taken as the clauses of `logic`, after `init` the compact
variable of the constant is `litmap[1] = L + I + 1`, where `L` and `I` count the latches and
inputs in the COI, and the first stored clause is the unit on that variable.  It is variable
`1` only in the numbering of `prepilit` (`prepilit (aiger_false) = 1`), or when no latch and
no input is in the COI. -/
theorem constant_variable (m : aiger) (hwf : WellFormed m) (fl : Flags) (o : Oracle)
    (coi : Nat → Nat) (ho : fl.use_cadical = true ∨ PlainTravall o)
    (h0 : ulitincoi coi 0 ≠ 0) :
    (startState m fl o coi).litmap 1 =
      ((List.range m.latches.length).filter
        (fun i => decide (ulitincoi coi (aiglatch m i) ≠ 0))).length +
      ((List.range m.inputs.length).filter
        (fun i => decide (ulitincoi coi (aiginput m i) ≠ 0))).length + 1 ∧
    (startState m fl o coi).clauses.head? =
      some [-(((startState m fl o coi).litmap 1 : Nat) : Int)] ∧
    prepilit aiger_false = 1 := by
  obtain ⟨T0, -, hT, h1, -, -, -, h5, -, -⟩ := start_spec hwf fl o coi
  have hT0 := hT ho
  subst hT0
  refine ⟨?_, ?_, rfl⟩
  · rw [h1, constant_compact hwf coi h0, List.length_append]
    unfold latchSeq inputSeq
    rw [List.length_map, List.length_map]
  · rw [h5, h1]
    obtain ⟨rest, hr⟩ := logicClauses_head m h0
    rw [hr]
    rfl

/-- Counterexample for C14: on `exReset` the constant node is in the COI and after `init` its
compact variable is `litmap[1] = 2` (variable `1` is the latch); the unit clause of the
template is `(-2)`. -/
theorem constant_variable_counterexample :
    WellFormed exReset ∧ (travcoi exReset coiZero).map Trav.coi = some exResetCoi ∧
    exResetCoi 0 ≠ 0 ∧
    (startState exReset flagsZero oracleUnsat exResetCoi).litmap 1 = 2 ∧
    (startState exReset flagsZero oracleUnsat exResetCoi).clauses = [[-2]] := by
  refine ⟨exReset_wf, ?_, by decide, by decide, by decide⟩
  have hs : (travcoi exReset coiZero).isSome = true := by decide
  unfold exResetCoi
  cases h : travcoi exReset coiZero with
  | none => rw [h] at hs; exact absurd hs (by decide)
  | some t => rfl

/-- Witness for C14 (amended): the model `exReset`, whose latch has the constant as next
state. -/
theorem constant_variable_witness :
    WellFormed exReset ∧ (flagsZero.use_cadical = true ∨ PlainTravall oracleUnsat) ∧
    ulitincoi exResetCoi 0 ≠ 0 ∧
    ((startState exReset flagsZero oracleUnsat exResetCoi).litmap 1 =
      ((List.range exReset.latches.length).filter
        (fun i => decide (ulitincoi exResetCoi (aiglatch exReset i) ≠ 0))).length +
      ((List.range exReset.inputs.length).filter
        (fun i => decide (ulitincoi exResetCoi (aiginput exReset i) ≠ 0))).length + 1 ∧
    (startState exReset flagsZero oracleUnsat exResetCoi).clauses.head? =
      some [-(((startState exReset flagsZero oracleUnsat exResetCoi).litmap 1 : Nat) : Int)] ∧
    prepilit aiger_false = 1) :=
  ⟨exReset_wf, Or.inr (fun _ => rfl), by decide,
    constant_variable exReset exReset_wf flagsZero oracleUnsat exResetCoi
      (Or.inr (fun _ => rfl)) (by decide)⟩


/-! ## Nodes outside the cone of influence -/

theorem mem_logicClauses {m : aiger} {coi : Nat → Nat} {c : List Int}
    (h : c ∈ logicClauses m coi) :
    (c = [-1] ∧ ulitincoi coi 0 ≠ 0) ∨
    ∃ a ∈ m.ands, ulitincoi coi a.lhs ≠ 0 ∧
      c ∈ andClauses (prepilit a.lhs) (prepilit a.rhs0) (prepilit a.rhs1) := by
  unfold logicClauses at h
  rcases List.mem_append.mp h with h | h
  · by_cases h0 : ulitincoi coi 0 ≠ 0
    · rw [if_pos h0] at h
      exact Or.inl ⟨List.mem_singleton.mp h, h0⟩
    · rw [if_neg h0] at h
      cases h
  · obtain ⟨i, hi, hc⟩ := List.mem_flatMap.mp h
    have hi' := List.mem_range.mp hi
    by_cases hl : ulitincoi coi (m.ands.getD i ⟨0, 0, 0⟩).lhs ≠ 0
    · rw [if_pos hl] at hc
      exact Or.inr ⟨m.ands.getD i ⟨0, 0, 0⟩, getD_mem _ _ hi', hl, hc⟩
    · rw [if_neg hl] at hc
      cases hc

theorem prepilit_flip (u : Nat) :
    ∃ u1, aiger_lit2var u1 = aiger_lit2var u ∧ prepilit u1 = -prepilit u := by
  by_cases h : u % 2 = 1
  · refine ⟨u - 1, by unfold aiger_lit2var; omega, ?_⟩
    unfold prepilit
    simp only
    have h1 : ¬ (u - 1) % 2 = 1 := by omega
    have h2 : (u - 1) / 2 = u / 2 := by omega
    rw [if_pos h, if_neg h1, h2]
    omega
  · refine ⟨u + 1, by unfold aiger_lit2var; omega, ?_⟩
    unfold prepilit
    simp only
    have h1 : (u + 1) % 2 = 1 := by omega
    have h2 : (u + 1) / 2 = u / 2 := by omega
    rw [if_neg h, if_pos h1, h2]

theorem logic_lit_coi {m : aiger} {coi : Nat → Nat} (hcl : CoiClosed m coi) {c : List Int}
    (hc : c ∈ logicClauses m coi) {lit : Int} (hl : lit ∈ c) :
    ∃ u, lit = prepilit u ∧ coi (aiger_lit2var u) ≠ 0 := by
  rcases mem_logicClauses hc with ⟨rfl, h0⟩ | ⟨a, ha, hlhs, hca⟩
  · rw [List.mem_singleton.mp hl]
    exact ⟨1, rfl, h0⟩
  · obtain ⟨h0, h1⟩ := (hcl _ hlhs).2 a ha rfl
    have pos : ∀ u, coi (aiger_lit2var u) ≠ 0 →
        ∃ v, prepilit u = prepilit v ∧ coi (aiger_lit2var v) ≠ 0 := fun u hu => ⟨u, rfl, hu⟩
    have neg : ∀ u, coi (aiger_lit2var u) ≠ 0 →
        ∃ v, -prepilit u = prepilit v ∧ coi (aiger_lit2var v) ≠ 0 := by
      intro u hu
      obtain ⟨u1, e1, e2⟩ := prepilit_flip u
      exact ⟨u1, e2.symm, by rw [e1]; exact hu⟩
    unfold andClauses at hca
    simp only [List.mem_cons, List.mem_singleton, List.not_mem_nil, or_false] at hca
    rcases hca with rfl | rfl | rfl
    · simp only [List.mem_cons, List.mem_singleton, List.not_mem_nil, or_false] at hl
      rcases hl with rfl | rfl
      · exact neg _ hlhs
      · exact pos _ h0
    · simp only [List.mem_cons, List.mem_singleton, List.not_mem_nil, or_false] at hl
      rcases hl with rfl | rfl
      · exact neg _ hlhs
      · exact pos _ h1
    · simp only [List.mem_cons, List.mem_singleton, List.not_mem_nil, or_false] at hl
      rcases hl with rfl | rfl | rfl
      · exact neg _ h0
      · exact neg _ h1
      · exact pos _ hlhs

theorem mapped_coi {m : aiger} (hwf : WellFormed m) {coi : Nat → Nat} (hcl : CoiClosed m coi)
    {idx : Nat} (h : (initMap m coi (logicClauses m coi)).litmap idx ≠ 0) :
    1 ≤ idx ∧ coi (idx - 1) ≠ 0 := by
  have hm := (initMap_mapped hwf coi (logicClauses m coi)).mp h
  unfold initSeq at hm
  rcases List.mem_append.mp hm with h1 | h1
  · rcases List.mem_append.mp h1 with h2 | h2
    · obtain ⟨l, -, hc, rfl⟩ := (mem_latchSeq hwf).mp h2
      exact ⟨Nat.succ_pos _, hc⟩
    · obtain ⟨l, -, hc, rfl⟩ := (mem_inputSeq hwf).mp h2
      exact ⟨Nat.succ_pos _, hc⟩
  · rcases List.mem_append.mp h1 with h2 | h2
    · unfold clauseSeq at h2
      obtain ⟨lit, hlit, rfl⟩ := List.mem_map.mp h2
      obtain ⟨c, hc, hl⟩ := List.mem_flatten.mp hlit
      obtain ⟨u, rfl, hu⟩ := logic_lit_coi hcl hc hl
      rw [prepilit_natAbs]
      exact ⟨Nat.succ_pos _, hu⟩
    · obtain ⟨l, hl, hc, rfl⟩ := mem_nextSeq.mp h2
      exact ⟨Nat.succ_pos _, (hcl _ hc).1 l hl rfl⟩

theorem pass_emits (m : aiger) (fl : Flags) {s0 : St} (hu : Unrollable m s0) (k : Nat) :
    Emits (passState m fl s0 k) (shiftcnf m (passState m fl s0 k) k)
      (shiftClauses m s0 k) := by
  have ih := passState_emits m fl hu k
  have hu1 := hu.after_emits ih
  have hc1 : (passState m fl s0 k).clauses = s0.clauses := by
    rw [ih.stored, hu.noextract]; simp
  have h2 := shiftcnf_emits m hu1 k
  rw [shiftClauses_congr m ih.frame hc1] at h2
  exact h2

theorem mainilit_flip (s : St) (u : Nat) :
    ∃ u1, aiger_lit2var u1 = aiger_lit2var u ∧ mainilit s u1 = -mainilit s u := by
  obtain ⟨u1, e1, e2⟩ := prepilit_flip u
  refine ⟨u1, e1, ?_⟩
  rw [mainilit_eq, mainilit_eq, e2, mlit_neg _ (prepilit_ne_zero u)]

theorem template_lit_coi {m : aiger} (hwf : WellFormed m) (fl : Flags) (o : Oracle)
    {coi : Nat → Nat} (hcl : CoiClosed m coi) (ho : fl.use_cadical = true ∨ PlainTravall o)
    {c : List Int} (hc : c ∈ (startState m fl o coi).clauses) {lit : Int} (hl : lit ∈ c) :
    ∃ u, coi (aiger_lit2var u) ≠ 0 ∧ lit = mainilit (startState m fl o coi) u := by
  obtain ⟨T0, -, hT, h1, -, -, -, h5, -, -⟩ := start_spec hwf fl o coi
  have hT0 := hT ho
  subst hT0
  rw [h5] at hc
  obtain ⟨c0, hc0, rfl⟩ := List.mem_map.mp hc
  obtain ⟨l0, hl0, rfl⟩ := List.mem_map.mp hl
  obtain ⟨u, rfl, hu⟩ := logic_lit_coi hcl hc0 hl0
  exact ⟨u, hu, by rw [mainilit_eq, h1]⟩

theorem shift_lit_coi {m : aiger} (hwf : WellFormed m) (fl : Flags) (o : Oracle)
    {coi : Nat → Nat} (hcl : CoiClosed m coi) (ho : fl.use_cadical = true ∨ PlainTravall o)
    (k : Nat) {c : List Int} (hc : c ∈ shiftClauses m (startState m fl o coi) k) {lit : Int}
    (hl : lit ∈ c) :
    ∃ u tm, coi (aiger_lit2var u) ≠ 0 ∧ tm ≤ k ∧
      lit = shift (startState m fl o coi) (mainilit (startState m fl o coi) u) tm := by
  obtain ⟨T0, -, -, -, -, h3, -, -, hu, -⟩ := start_spec hwf fl o coi
  unfold shiftClauses at hc
  rcases List.mem_append.mp hc with h | h
  · by_cases hk : k > 0
    · rw [if_pos hk] at h
      unfold latchClauses at h
      obtain ⟨i, hi, hci⟩ := List.mem_flatMap.mp h
      have hi' := List.mem_range.mp hi
      unfold latchClausesAt at hci
      by_cases h0 : ulitincoi (startState m fl o coi).coi (aiglatch m i) = 0
      · rw [if_pos h0] at hci; cases hci
      · rw [if_neg h0] at hci
        have hne := hu.latch_ne i hi' h0
        rw [h3] at h0
        have hnx : coi (aiger_lit2var (aignext m i)) ≠ 0 :=
          (hcl _ h0).1 _ (getD_mem m.latches ⟨0, 0, 0⟩ hi') rfl
        have posL : ∃ u tm, coi (aiger_lit2var u) ≠ 0 ∧ tm ≤ k ∧
            shift (startState m fl o coi) (mainilit (startState m fl o coi) (aiglatch m i)) k =
              shift (startState m fl o coi) (mainilit (startState m fl o coi) u) tm :=
          ⟨_, k, h0, Nat.le_refl k, rfl⟩
        have posN : ∃ u tm, coi (aiger_lit2var u) ≠ 0 ∧ tm ≤ k ∧
            shift (startState m fl o coi) (mainilit (startState m fl o coi) (aignext m i))
              (k - 1) =
              shift (startState m fl o coi) (mainilit (startState m fl o coi) u) tm :=
          ⟨_, k - 1, hnx, Nat.sub_le k 1, rfl⟩
        have negL : ∃ u tm, coi (aiger_lit2var u) ≠ 0 ∧ tm ≤ k ∧
            -shift (startState m fl o coi) (mainilit (startState m fl o coi) (aiglatch m i)) k
              = shift (startState m fl o coi) (mainilit (startState m fl o coi) u) tm := by
          obtain ⟨u1, e1, e2⟩ := mainilit_flip (startState m fl o coi) (aiglatch m i)
          exact ⟨u1, k, by rw [e1]; exact h0, Nat.le_refl k,
            by rw [e2, shift_neg_lit _ hne.1]⟩
        have negN : ∃ u tm, coi (aiger_lit2var u) ≠ 0 ∧ tm ≤ k ∧
            -shift (startState m fl o coi) (mainilit (startState m fl o coi) (aignext m i))
              (k - 1)
              = shift (startState m fl o coi) (mainilit (startState m fl o coi) u) tm := by
          obtain ⟨u1, e1, e2⟩ := mainilit_flip (startState m fl o coi) (aignext m i)
          exact ⟨u1, k - 1, by rw [e1]; exact hnx, Nat.sub_le k 1,
            by rw [e2, shift_neg_lit _ hne.2]⟩
        unfold equivClauses at hci
        simp only [List.mem_cons, List.mem_singleton, List.not_mem_nil, or_false] at hci
        rcases hci with rfl | rfl
        · simp only [List.mem_cons, List.mem_singleton, List.not_mem_nil, or_false] at hl
          rcases hl with rfl | rfl
          · exact negN
          · exact posL
        · simp only [List.mem_cons, List.mem_singleton, List.not_mem_nil, or_false] at hl
          rcases hl with rfl | rfl
          · exact posN
          · exact negL
    · rw [if_neg hk] at h; cases h
  · unfold shiftedClauses at h
    obtain ⟨c0, hc0, rfl⟩ := List.mem_map.mp h
    obtain ⟨l0, hl0, rfl⟩ := List.mem_map.mp hl
    obtain ⟨u, hu1, rfl⟩ := template_lit_coi hwf fl o hcl ho hc0 hl0
    exact ⟨u, k, hu1, Nat.le_refl k, rfl⟩

/-- C15 (COI exclusion): on a well-formed model, with the mark array of `travcoi` and the
stored clauses taken as the clauses of `logic`: every literal of every clause that `logic`
hands to the solver is `prepilit` of a literal whose node is marked; after `init` every index
with a non-zero `litmap` entry is `n + 1` for a marked node `n`, so a literal of an unmarked
node has no compact variable (`mainilit` is `0`); every literal of a stored clause is the
compact literal of a literal of a marked node; and every literal of every clause that
`shiftcnf (k)` adds is such a compact literal shifted to a time `tm ≤ k`. -/
theorem coi_exclusion (m : aiger) (hwf : WellFormed m) (fl : Flags) (o : Oracle) (t : Trav)
    (ht : travcoi m coiZero = some t) (ho : fl.use_cadical = true ∨ PlainTravall o) :
    (∀ c ∈ (encode m fl t.coi).solver.clauses, ∀ lit ∈ c,
      ∃ u, lit = prepilit u ∧ t.coi (aiger_lit2var u) ≠ 0) ∧
    (∀ idx, (startState m fl o t.coi).litmap idx ≠ 0 → 1 ≤ idx ∧ t.coi (idx - 1) ≠ 0) ∧
    (∀ u, t.coi (aiger_lit2var u) = 0 → mainilit (startState m fl o t.coi) u = 0) ∧
    (∀ c ∈ (startState m fl o t.coi).clauses, ∀ lit ∈ c,
      ∃ u, t.coi (aiger_lit2var u) ≠ 0 ∧ lit = mainilit (startState m fl o t.coi) u) ∧
    (∀ k, ∃ E, (unrolledState m fl o t.coi k).solver.clauses =
        (passState m fl (startState m fl o t.coi) k).solver.clauses ++ E ∧
      ∀ c ∈ E, ∀ lit ∈ c, ∃ u tm, t.coi (aiger_lit2var u) ≠ 0 ∧ tm ≤ k ∧
        lit = shift (startState m fl o t.coi) (mainilit (startState m fl o t.coi) u) tm) := by
  have hcl := (travcoi_closed_of hwf ht).1
  obtain ⟨T0, -, hT, h1, -, -, -, -, hu, -⟩ := start_spec hwf fl o t.coi
  have hT0 := hT ho
  subst hT0
  have hb : ∀ idx, (startState m fl o t.coi).litmap idx ≠ 0 →
      1 ≤ idx ∧ t.coi (idx - 1) ≠ 0 := by
    intro idx h
    rw [h1] at h
    exact mapped_coi hwf hcl h
  refine ⟨?_, hb, ?_, ?_, ?_⟩
  · intro c hc lit hl
    rw [(encode_spec m fl t.coi).2.2.2.2.1] at hc
    exact logic_lit_coi hcl hc hl
  · intro u hu0
    by_contra hne
    have := (hb _ ((mainilit_ne_zero_iff _ u).mp hne)).2
    exact this hu0
  · intro c hc lit hl
    exact template_lit_coi hwf fl o hcl ho hc hl
  · intro k
    refine ⟨shiftClauses m (startState m fl o t.coi) k, (pass_emits m fl hu k).solver, ?_⟩
    intro c hc lit hl
    exact shift_lit_coi hwf fl o hcl ho k hc hl

theorem exGateTrav_eq : travcoi exGate coiZero = some exGateTrav := by
  have hs : (travcoi exGate coiZero).isSome = true := by decide
  unfold exGateTrav
  cases h : travcoi exGate coiZero with
  | none => rw [h] at hs; exact absurd hs (by decide)
  | some t => rfl

/-- Witness for C15 on the model with a latch fed by an and-gate, whose input `4` is outside
the COI. -/
theorem coi_exclusion_witness :
    WellFormed exGate ∧ travcoi exGate coiZero = some exGateTrav ∧
    (flagsOne.use_cadical = true ∨ PlainTravall oracleUnsat) ∧
    ((∀ c ∈ (encode exGate flagsOne exGateTrav.coi).solver.clauses, ∀ lit ∈ c,
      ∃ u, lit = prepilit u ∧ exGateTrav.coi (aiger_lit2var u) ≠ 0) ∧
    (∀ idx, (startState exGate flagsOne oracleUnsat exGateTrav.coi).litmap idx ≠ 0 → 1 ≤ idx ∧ exGateTrav.coi (idx - 1) ≠ 0) ∧
    (∀ u, exGateTrav.coi (aiger_lit2var u) = 0 → mainilit (startState exGate flagsOne oracleUnsat exGateTrav.coi) u = 0) ∧
    (∀ c ∈ (startState exGate flagsOne oracleUnsat exGateTrav.coi).clauses, ∀ lit ∈ c,
      ∃ u, exGateTrav.coi (aiger_lit2var u) ≠ 0 ∧ lit = mainilit (startState exGate flagsOne oracleUnsat exGateTrav.coi) u) ∧
    (∀ k, ∃ E, (unrolledState exGate flagsOne oracleUnsat exGateTrav.coi k).solver.clauses =
        (passState exGate flagsOne (startState exGate flagsOne oracleUnsat exGateTrav.coi) k).solver.clauses ++ E ∧
      ∀ c ∈ E, ∀ lit ∈ c, ∃ u tm, exGateTrav.coi (aiger_lit2var u) ≠ 0 ∧ tm ≤ k ∧
        lit = shift (startState exGate flagsOne oracleUnsat exGateTrav.coi) (mainilit (startState exGate flagsOne oracleUnsat exGateTrav.coi) u) tm)) :=
  ⟨exGate_wf, exGateTrav_eq, Or.inr (fun _ => rfl),
    coi_exclusion exGate exGate_wf flagsOne oracleUnsat exGateTrav exGateTrav_eq
      (Or.inr (fun _ => rfl))⟩


/-! ## The clauses of the and-gates -/

theorem and_sat (σ : Nat → Bool) {x a b : Int} (hx : x ≠ 0) (ha : a ≠ 0) (hb : b ≠ 0) :
    satCnf σ [[-x, a], [-x, b], [-a, -b, x]] = true ↔
      litval σ x = (litval σ a && litval σ b) := by
  unfold satCnf satClause
  simp only [List.all_cons, List.any_cons, List.all_nil, List.any_nil, litval_neg σ hx,
    litval_neg σ ha, litval_neg σ hb]
  cases litval σ x <;> cases litval σ a <;> cases litval σ b <;> decide

/-- C16 (gate encoding): called in a state where no clause is half-way added, `logic` hands
to the solver exactly the unit clause `(-1)` if the constant node is in the COI, followed,
for every and-gate index in order whose left-hand side is in the COI, by the clauses
`(-x, a)`, `(-x, b)`, `(-a, -b, x)` with `x`, `a`, `b` the `prepilit` literals of the gate.
An assignment satisfies the three clauses of a gate exactly when it gives `x` the value of
`a` and `b`; the unit forces `prepilit (aiger_false)` to false; and `prepilit` of an odd AIG
literal is the negation of `prepilit` of the even literal of the node. -/
theorem gate_encoding (m : aiger) (s : St) (hr : Ready s) :
    (logic m s).solver.clauses = s.solver.clauses ++
      ((if ulitincoi s.coi 0 ≠ 0 then [[-1]] else []) ++
        (List.range m.ands.length).flatMap (fun i =>
          if ulitincoi s.coi (m.ands.getD i ⟨0, 0, 0⟩).lhs ≠ 0 then
            [[-(preplhs m i), prepleft m i], [-(preplhs m i), prepright m i],
              [-(prepleft m i), -(prepright m i), preplhs m i]]
          else [])) ∧
    (∀ (σ : Nat → Bool) (i : Nat),
      satCnf σ [[-(preplhs m i), prepleft m i], [-(preplhs m i), prepright m i],
        [-(prepleft m i), -(prepright m i), preplhs m i]] = true ↔
      litval σ (preplhs m i) = (litval σ (prepleft m i) && litval σ (prepright m i))) ∧
    (∀ σ : Nat → Bool, satCnf σ [[-1]] = true ↔ litval σ (prepilit aiger_false) = false) ∧
    (∀ (σ : Nat → Bool) (n : Nat),
      litval σ (prepilit (2 * n + 1)) = !litval σ (prepilit (2 * n))) := by
  refine ⟨(logic_emits m hr).solver, ?_, ?_, ?_⟩
  · intro σ i
    exact and_sat σ (prepilit_ne_zero _) (prepilit_ne_zero _) (prepilit_ne_zero _)
  · intro σ
    have e : prepilit aiger_false = 1 := rfl
    rw [e]
    unfold satCnf satClause
    simp only [List.all_cons, List.any_cons, List.all_nil, List.any_nil,
      litval_neg σ (show (1 : Int) ≠ 0 by decide)]
    cases litval σ 1 <;> decide
  · intro σ n
    have e : prepilit (2 * n + 1) = -prepilit (2 * n) := by
      unfold prepilit
      simp only
      have h1 : (2 * n + 1) % 2 = 1 := by omega
      have h2 : ¬ (2 * n) % 2 = 1 := by omega
      have h3 : (2 * n + 1) / 2 = (2 * n) / 2 := by omega
      rw [if_pos h1, if_neg h2, h3]
    rw [e, litval_neg σ (prepilit_ne_zero _)]

/-- Witness for C16: the state in which `main` calls `logic` on `exGate`; the clauses are
`(-5, 2)`, `(-5, -4)`, `(-2, 4, 5)`. -/
theorem gate_encoding_witness :
    Ready exGateSt ∧
    ((logic exGate exGateSt).solver.clauses = exGateSt.solver.clauses ++
      ((if ulitincoi exGateSt.coi 0 ≠ 0 then [[-1]] else []) ++
        (List.range exGate.ands.length).flatMap (fun i =>
          if ulitincoi exGateSt.coi (exGate.ands.getD i ⟨0, 0, 0⟩).lhs ≠ 0 then
            [[-(preplhs exGate i), prepleft exGate i], [-(preplhs exGate i), prepright exGate i],
              [-(prepleft exGate i), -(prepright exGate i), preplhs exGate i]]
          else [])) ∧
    (∀ (σ : Nat → Bool) (i : Nat),
      satCnf σ [[-(preplhs exGate i), prepleft exGate i], [-(preplhs exGate i), prepright exGate i],
        [-(prepleft exGate i), -(prepright exGate i), preplhs exGate i]] = true ↔
      litval σ (preplhs exGate i) = (litval σ (prepleft exGate i) && litval σ (prepright exGate i))) ∧
    (∀ σ : Nat → Bool, satCnf σ [[-1]] = true ↔ litval σ (prepilit aiger_false) = false) ∧
    (∀ (σ : Nat → Bool) (n : Nat),
      litval σ (prepilit (2 * n + 1)) = !litval σ (prepilit (2 * n)))) :=
  ⟨⟨rfl, rfl, rfl⟩, gate_encoding exGate exGateSt ⟨rfl, rfl, rfl⟩⟩


/-! ## The reset units -/

theorem init_spec {m : aiger} (hwf : WellFormed m) (fl : Flags) (o : Oracle)
    (coi : Nat → Nat) :
    ∃ P : St, startState m fl o coi = init m P ∧
      (init m P).solver.clauses = P.solver.clauses ++ resetClauses m (init m P) ∧
      (init m P).clauses = (initMapped m P).clauses := by
  obtain ⟨P, T0, hP, p1, p2, p3, p4, p5, hT0, hplain, p6⟩ := prepare_pre m fl o coi
  have hu := initMapped_unrollable hwf p4 p2
  have he : Emits (initMapped m P) (init m P) (resetClauses m (initMapped m P)) := by
    rw [init_eq]
    apply initReset_emits m hu.ready
    intro i hi hc
    exact (hu.latch_ne i hi hc).1
  have hM4 : (initMapped m P).solver = P.solver := by
    unfold St.solver initMapped
    simp only
  refine ⟨P, hP, ?_, ?_⟩
  · rw [he.solver, hM4, resetClauses_congr m he.frame]
  · rw [he.stored, hu.noextract]; simp

theorem mem_resetClauses {m : aiger} (hwf : WellFormed m) (s : St) (c : List Int) :
    c ∈ resetClauses m s ↔ ∃ i, i < m.latches.length ∧ ulitincoi s.coi (aiglatch m i) ≠ 0 ∧
      ((aigreset m i = aiger_false ∧ c = [-(mainilit s (aiglatch m i))]) ∨
       (aigreset m i = aiger_true ∧ c = [mainilit s (aiglatch m i)])) := by
  have hlat : ∀ i, i < m.latches.length → 2 ≤ aiglatch m i := by
    intro i hi
    exact (hwf.def_ok _ (mem_defined_latch (getD_mem m.latches ⟨0, 0, 0⟩ hi))).2.1
  unfold resetClauses
  rw [List.mem_flatMap]
  constructor
  · rintro ⟨i, hi, hc⟩
    have hi' := List.mem_range.mp hi
    refine ⟨i, hi', ?_⟩
    by_cases h0 : ulitincoi s.coi (aiglatch m i) = 0
    · rw [if_pos h0] at hc; cases hc
    · rw [if_neg h0] at hc
      by_cases h1 : aiglatch m i = aigreset m i
      · rw [if_pos h1] at hc; cases hc
      · rw [if_neg h1] at hc
        refine ⟨h0, ?_⟩
        rcases List.mem_append.mp hc with h | h
        · by_cases h2 : aiger_false = aigreset m i
          · rw [if_pos h2] at h
            exact Or.inl ⟨h2.symm, List.mem_singleton.mp h⟩
          · rw [if_neg h2] at h; cases h
        · by_cases h2 : aiger_true = aigreset m i
          · rw [if_pos h2] at h
            exact Or.inr ⟨h2.symm, List.mem_singleton.mp h⟩
          · rw [if_neg h2] at h; cases h
  · rintro ⟨i, hi, h0, h⟩
    refine ⟨i, List.mem_range.mpr hi, ?_⟩
    have h2 := hlat i hi
    rw [if_neg h0]
    rcases h with ⟨hr, rfl⟩ | ⟨hr, rfl⟩
    · have h1 : ¬ aiglatch m i = aigreset m i := by
        rw [hr]; unfold aiger_false; omega
      rw [if_neg h1, if_pos hr.symm]
      exact List.mem_append_left _ (List.mem_singleton.mpr rfl)
    · have h1 : ¬ aiglatch m i = aigreset m i := by
        rw [hr]; unfold aiger_true; omega
      rw [if_neg h1, if_pos hr.symm]
      exact List.mem_append_right _ (List.mem_singleton.mpr rfl)

theorem unit_of_logic {m : aiger} {coi : Nat → Nat} {c : List Int}
    (hc : c ∈ logicClauses m coi) (hl : c.length = 1) : c = [-1] := by
  rcases mem_logicClauses hc with ⟨rfl, -⟩ | ⟨a, -, -, hca⟩
  · rfl
  · unfold andClauses at hca
    simp only [List.mem_cons, List.mem_singleton, List.not_mem_nil, or_false] at hca
    rcases hca with rfl | rfl | rfl <;> simp at hl

theorem reset_not_shifted {m : aiger} (hwf : WellFormed m) (fl : Flags) (o : Oracle)
    (coi : Nat → Nat) (ho : fl.use_cadical = true ∨ PlainTravall o) (k : Nat)
    {c : List Int} (hc : c ∈ resetClauses m (startState m fl o coi)) :
    c.map (fun l => shift (startState m fl o coi) l k) ∉
      shiftClauses m (startState m fl o coi) k := by
  obtain ⟨T0, -, hT, h1, -, h3, -, h5, hu, -⟩ := start_spec hwf fl o coi
  have hT0 := hT ho
  subst hT0
  obtain ⟨i, hi, hcoi, hcase⟩ := (mem_resetClauses hwf _ c).mp hc
  have hne := (hu.latch_ne i hi hcoi).1
  have hidx : 2 ≤ aiglatch m i :=
    (hwf.def_ok _ (mem_defined_latch (getD_mem m.latches ⟨0, 0, 0⟩ hi))).2.1
  have hnat : ∀ l ∈ c, l.natAbs = (startState m fl o coi).litmap (aiglatch m i / 2 + 1) := by
    intro l hl
    rcases hcase with ⟨-, rfl⟩ | ⟨-, rfl⟩
    · rw [List.mem_singleton.mp hl, Int.natAbs_neg, mainilit_natAbs]
    · rw [List.mem_singleton.mp hl, mainilit_natAbs]
  have hlen : c.length = 1 := by
    rcases hcase with ⟨-, rfl⟩ | ⟨-, rfl⟩ <;> rfl
  intro hmem
  unfold shiftClauses at hmem
  rcases List.mem_append.mp hmem with h | h
  · by_cases hk : k > 0
    · rw [if_pos hk] at h
      unfold latchClauses at h
      obtain ⟨j, -, hcj⟩ := List.mem_flatMap.mp h
      unfold latchClausesAt at hcj
      split at hcj
      · cases hcj
      · unfold equivClauses at hcj
        simp only [List.mem_cons, List.mem_singleton, List.not_mem_nil, or_false] at hcj
        rcases hcj with e | e
        · have hl2 := congrArg List.length e
          rw [List.length_map, hlen] at hl2
          simp at hl2
        · have hl2 := congrArg List.length e
          rw [List.length_map, hlen] at hl2
          simp at hl2
    · rw [if_neg hk] at h; cases h
  · unfold shiftedClauses at h
    obtain ⟨c0, hc0, e0⟩ := List.mem_map.mp h
    rw [h5] at hc0
    obtain ⟨c1, hc1, rfl⟩ := List.mem_map.mp hc0
    have hl1 : c1.length = 1 := by
      have := congrArg List.length e0
      rw [List.length_map, List.length_map, List.length_map, hlen] at this
      exact this
    have e1 := unit_of_logic hc1 hl1
    subst e1
    obtain ⟨l, rfl⟩ : ∃ l, c = [l] := by
      match c, hlen with
      | [l], _ => exact ⟨l, rfl⟩
    have hl := hnat l (List.mem_singleton.mpr rfl)
    simp only [List.map_cons, List.map_nil, List.cons.injEq, and_true] at e0
    have e2 := congrArg Int.natAbs e0
    rw [shift_natAbs, shift_natAbs, mlit_natAbs, hl, ← h1] at e2
    have e3 : (startState m fl o coi).litmap 1 =
        (startState m fl o coi).litmap (aiglatch m i / 2 + 1) := by
      have : (Int.natAbs (-1)) = 1 := rfl
      rw [this] at e2
      omega
    have hinv := initMap_inv hwf coi (logicClauses m coi)
    rw [h1] at e3
    have hnz : (initMap m coi (logicClauses m coi)).litmap (aiglatch m i / 2 + 1) ≠ 0 := by
      rw [← h1]
      exact (mainilit_ne_zero_iff _ _).mp hne
    have := hinv.inj _ _ hnz e3.symm
    omega

/-- C17 (reset constraints): on a well-formed model `init` (called by `main` in the state `P`)
hands to the solver exactly the reset units: a clause is among them exactly when it is
`(-v)` for a COI latch with reset `0` or `(v)` for a COI latch with reset `1`, where
`v = mainilit (latch) = shift (v, 0)`; so there is none for a latch outside the COI or with
its own literal as reset.  The units leave the stored clauses as they were before the reset
loop, and with the stored clauses taken as the clauses of `logic` no call `shiftcnf (k)`
adds the copy of a reset unit shifted to time `k`. -/
theorem reset_constraints (m : aiger) (hwf : WellFormed m) (fl : Flags) (o : Oracle)
    (coi : Nat → Nat) (ho : fl.use_cadical = true ∨ PlainTravall o) :
    (∃ P : St, startState m fl o coi = init m P ∧
      (init m P).solver.clauses =
        P.solver.clauses ++ resetClauses m (startState m fl o coi) ∧
      (init m P).clauses = (initMapped m P).clauses) ∧
    (∀ c, c ∈ resetClauses m (startState m fl o coi) ↔
      ∃ i, i < m.latches.length ∧ ulitincoi coi (aiglatch m i) ≠ 0 ∧
        ((aigreset m i = aiger_false ∧
            c = [-(mainilit (startState m fl o coi) (aiglatch m i))]) ∨
         (aigreset m i = aiger_true ∧
            c = [mainilit (startState m fl o coi) (aiglatch m i)]))) ∧
    (∀ i, shift (startState m fl o coi) (mainilit (startState m fl o coi) (aiglatch m i)) 0 =
      mainilit (startState m fl o coi) (aiglatch m i)) ∧
    (∀ k, ∃ E, (unrolledState m fl o coi k).solver.clauses =
        (passState m fl (startState m fl o coi) k).solver.clauses ++ E ∧
      ∀ c ∈ resetClauses m (startState m fl o coi),
        c.map (fun l => shift (startState m fl o coi) l k) ∉ E) := by
  obtain ⟨T0, -, -, -, -, h3, -, -, hu, -⟩ := start_spec hwf fl o coi
  refine ⟨?_, ?_, fun i => shift_zero _ _, ?_⟩
  · obtain ⟨P, h1, h2, h4⟩ := init_spec hwf fl o coi
    exact ⟨P, h1, by rw [h2, ← h1], h4⟩
  · intro c
    rw [mem_resetClauses hwf, h3]
  · intro k
    refine ⟨shiftClauses m (startState m fl o coi) k, (pass_emits m fl hu k).solver, ?_⟩
    intro c hc
    exact reset_not_shifted hwf fl o coi ho k hc

/-- Witness for C17: the model `exReset`, whose latch has reset `1`; the reset unit is
`(1)`. -/
theorem reset_constraints_witness :
    WellFormed exReset ∧ (flagsZero.use_cadical = true ∨ PlainTravall oracleUnsat) ∧
    ((∃ P : St, startState exReset flagsZero oracleUnsat exResetCoi = init exReset P ∧
      (init exReset P).solver.clauses =
        P.solver.clauses ++ resetClauses exReset (startState exReset flagsZero oracleUnsat exResetCoi) ∧
      (init exReset P).clauses = (initMapped exReset P).clauses) ∧
    (∀ c, c ∈ resetClauses exReset (startState exReset flagsZero oracleUnsat exResetCoi) ↔
      ∃ i, i < exReset.latches.length ∧ ulitincoi exResetCoi (aiglatch exReset i) ≠ 0 ∧
        ((aigreset exReset i = aiger_false ∧
            c = [-(mainilit (startState exReset flagsZero oracleUnsat exResetCoi) (aiglatch exReset i))]) ∨
         (aigreset exReset i = aiger_true ∧
            c = [mainilit (startState exReset flagsZero oracleUnsat exResetCoi) (aiglatch exReset i)]))) ∧
    (∀ i, shift (startState exReset flagsZero oracleUnsat exResetCoi) (mainilit (startState exReset flagsZero oracleUnsat exResetCoi) (aiglatch exReset i)) 0 =
      mainilit (startState exReset flagsZero oracleUnsat exResetCoi) (aiglatch exReset i)) ∧
    (∀ k, ∃ E, (unrolledState exReset flagsZero oracleUnsat exResetCoi k).solver.clauses =
        (passState exReset flagsZero (startState exReset flagsZero oracleUnsat exResetCoi) k).solver.clauses ++ E ∧
      ∀ c ∈ resetClauses exReset (startState exReset flagsZero oracleUnsat exResetCoi),
        c.map (fun l => shift (startState exReset flagsZero oracleUnsat exResetCoi) l k) ∉ E)) :=
  ⟨exReset_wf, Or.inr (fun _ => rfl),
    reset_constraints exReset exReset_wf flagsZero oracleUnsat exResetCoi
      (Or.inr (fun _ => rfl))⟩


/-! ## The clauses of one unrolling step -/

theorem pass_unrollable {m : aiger} (hwf : WellFormed m) (fl : Flags) (o : Oracle)
    (coi : Nat → Nat) (k : Nat) :
    Unrollable m (passState m fl (startState m fl o coi) k) := by
  obtain ⟨T0, -, -, -, -, -, -, -, hu, -⟩ := start_spec hwf fl o coi
  exact hu.after_emits (passState_emits m fl hu k)

/-- C18 (emission of the unroller): on a well-formed model, the call `shiftcnf (k)` in pass `k`
of the BMC loop appends to the clause list of the queried solver, in this order: only when
`k > 0`, for every COI latch in latch order the two clauses `(-a, b)`, `(a, -b)` with
`a = shift (mainilit (next), k - 1)` and `b = shift (mainilit (latch), k)`; then every stored
clause in order with every literal `l` replaced by `shift (l, k)`, literal order kept.  The
stored clauses, `litmap` and `maxvar` are the same after the call, and at every pass they are
those that `init` left. -/
theorem shiftcnf_emission (m : aiger) (hwf : WellFormed m) (fl : Flags) (o : Oracle)
    (coi : Nat → Nat) (k : Nat) :
    (shiftcnf m (passState m fl (startState m fl o coi) k) k).solver.clauses =
      (passState m fl (startState m fl o coi) k).solver.clauses ++
        ((if k > 0 then
            (List.range m.latches.length).flatMap (fun i =>
              if ulitincoi (passState m fl (startState m fl o coi) k).coi (aiglatch m i) = 0
              then []
              else
                [[-(shift (passState m fl (startState m fl o coi) k)
                      (mainilit (passState m fl (startState m fl o coi) k) (aignext m i))
                      (k - 1)),
                  shift (passState m fl (startState m fl o coi) k)
                    (mainilit (passState m fl (startState m fl o coi) k) (aiglatch m i)) k],
                 [shift (passState m fl (startState m fl o coi) k)
                    (mainilit (passState m fl (startState m fl o coi) k) (aignext m i))
                    (k - 1),
                  -(shift (passState m fl (startState m fl o coi) k)
                    (mainilit (passState m fl (startState m fl o coi) k) (aiglatch m i))
                    k)]])
          else []) ++
          (passState m fl (startState m fl o coi) k).clauses.map (fun c =>
            c.map (fun lit => shift (passState m fl (startState m fl o coi) k) lit k))) ∧
    (shiftcnf m (passState m fl (startState m fl o coi) k) k).clauses =
      (passState m fl (startState m fl o coi) k).clauses ∧
    (shiftcnf m (passState m fl (startState m fl o coi) k) k).litmap =
      (passState m fl (startState m fl o coi) k).litmap ∧
    (shiftcnf m (passState m fl (startState m fl o coi) k) k).maxvar =
      (passState m fl (startState m fl o coi) k).maxvar ∧
    (passState m fl (startState m fl o coi) k).clauses = (startState m fl o coi).clauses ∧
    (passState m fl (startState m fl o coi) k).litmap = (startState m fl o coi).litmap ∧
    (passState m fl (startState m fl o coi) k).maxvar = (startState m fl o coi).maxvar := by
  have hu := pass_unrollable hwf fl o coi k
  have he := shiftcnf_emits m hu k
  obtain ⟨T0, -, -, -, -, -, -, -, hu0, -⟩ := start_spec hwf fl o coi
  have hp := passState_emits m fl hu0 k
  refine ⟨he.solver, ?_, he.frame.litmap, he.frame.maxvar, ?_, hp.frame.litmap,
    hp.frame.maxvar⟩
  · rw [he.stored, hu.noextract]; simp
  · rw [hp.stored, hu0.noextract]; simp

/-- Witness for C18: pass `1` on the model with a latch fed by an and-gate. -/
theorem shiftcnf_emission_witness :
    WellFormed exGate ∧
    ((shiftcnf exGate (passState exGate flagsOne (startState exGate flagsOne oracleUnsat exGateCoi) 1) 1).solver.clauses =
      (passState exGate flagsOne (startState exGate flagsOne oracleUnsat exGateCoi) 1).solver.clauses ++
        ((if 1 > 0 then
            (List.range exGate.latches.length).flatMap (fun i =>
              if ulitincoi (passState exGate flagsOne (startState exGate flagsOne oracleUnsat exGateCoi) 1).coi (aiglatch exGate i) = 0
              then []
              else
                [[-(shift (passState exGate flagsOne (startState exGate flagsOne oracleUnsat exGateCoi) 1)
                      (mainilit (passState exGate flagsOne (startState exGate flagsOne oracleUnsat exGateCoi) 1) (aignext exGate i))
                      (1 - 1)),
                  shift (passState exGate flagsOne (startState exGate flagsOne oracleUnsat exGateCoi) 1)
                    (mainilit (passState exGate flagsOne (startState exGate flagsOne oracleUnsat exGateCoi) 1) (aiglatch exGate i)) 1],
                 [shift (passState exGate flagsOne (startState exGate flagsOne oracleUnsat exGateCoi) 1)
                    (mainilit (passState exGate flagsOne (startState exGate flagsOne oracleUnsat exGateCoi) 1) (aignext exGate i))
                    (1 - 1),
                  -(shift (passState exGate flagsOne (startState exGate flagsOne oracleUnsat exGateCoi) 1)
                    (mainilit (passState exGate flagsOne (startState exGate flagsOne oracleUnsat exGateCoi) 1) (aiglatch exGate i))
                    1)]])
          else []) ++
          (passState exGate flagsOne (startState exGate flagsOne oracleUnsat exGateCoi) 1).clauses.map (fun c =>
            c.map (fun lit => shift (passState exGate flagsOne (startState exGate flagsOne oracleUnsat exGateCoi) 1) lit 1))) ∧
    (shiftcnf exGate (passState exGate flagsOne (startState exGate flagsOne oracleUnsat exGateCoi) 1) 1).clauses =
      (passState exGate flagsOne (startState exGate flagsOne oracleUnsat exGateCoi) 1).clauses ∧
    (shiftcnf exGate (passState exGate flagsOne (startState exGate flagsOne oracleUnsat exGateCoi) 1) 1).litmap =
      (passState exGate flagsOne (startState exGate flagsOne oracleUnsat exGateCoi) 1).litmap ∧
    (shiftcnf exGate (passState exGate flagsOne (startState exGate flagsOne oracleUnsat exGateCoi) 1) 1).maxvar =
      (passState exGate flagsOne (startState exGate flagsOne oracleUnsat exGateCoi) 1).maxvar ∧
    (passState exGate flagsOne (startState exGate flagsOne oracleUnsat exGateCoi) 1).clauses = (startState exGate flagsOne oracleUnsat exGateCoi).clauses ∧
    (passState exGate flagsOne (startState exGate flagsOne oracleUnsat exGateCoi) 1).litmap = (startState exGate flagsOne oracleUnsat exGateCoi).litmap ∧
    (passState exGate flagsOne (startState exGate flagsOne oracleUnsat exGateCoi) 1).maxvar = (startState exGate flagsOne oracleUnsat exGateCoi).maxvar) :=
  ⟨exGate_wf, shiftcnf_emission exGate exGate_wf flagsOne oracleUnsat exGateCoi 1⟩


/-! ## Freeze counters of the main solver -/

theorem lgladd_frozen (L : Solver) (l : Int) : (lgladd L l).frozen = L.frozen := by
  unfold lgladd
  split <;> rfl

theorem unit_lgl {s : St} (h : s.use_cadical = false) (a : Int) :
    unit s a = s.withLgl (lgladd (lgladd s.lgl a) 0) := by
  unfold unit St.withLgl
  simp [h]

theorem binary_lgl {s : St} (h : s.use_cadical = false) (a b : Int) :
    binary s a b = s.withLgl (lgladd (lgladd (lgladd s.lgl a) b) 0) := by
  unfold binary St.withLgl
  simp [h]

theorem equiv_lgl {s : St} (h : s.use_cadical = false) (a b : Int) :
    ∃ L, equiv s a b = s.withLgl L ∧ L.frozen = s.lgl.frozen := by
  unfold equiv
  rw [binary_lgl h]
  have h2 : (s.withLgl (lgladd (lgladd (lgladd s.lgl (-a)) b) 0)).use_cadical = false := h
  rw [binary_lgl h2]
  exact ⟨_, rfl, by simp only [St.withLgl, lgladd_frozen]⟩

theorem latch_step (m : aiger) (k : Nat) {P0 : St} (h : P0.use_cadical = false) (L : Solver)
    (i : Nat) :
    ∃ L1, shiftcnfLatch m k (P0.withLgl L) i = P0.withLgl L1 ∧
      L1.frozen = (match nextVar m P0 (k - 1) i with
        | none => L.frozen
        | some x => Function.update L.frozen x (L.frozen x + (-1))) := by
  unfold shiftcnfLatch
  by_cases hc : ulitincoi P0.coi (aiglatch m i) = 0
  · have hc1 : ulitincoi (P0.withLgl L).coi (aiglatch m i) = 0 := hc
    rw [if_pos hc1]
    refine ⟨L, rfl, ?_⟩
    unfold nextVar
    rw [if_neg (by simpa using hc)]
  · have hc1 : ¬ ulitincoi (P0.withLgl L).coi (aiglatch m i) = 0 := hc
    rw [if_neg hc1]
    obtain ⟨L1, e1, e2⟩ := equiv_lgl (show (P0.withLgl L).use_cadical = false from h)
      (shift (P0.withLgl L) (mainilit (P0.withLgl L) (aignext m i)) (k - 1))
      (shift (P0.withLgl L) (mainilit (P0.withLgl L) (aiglatch m i)) k)
    dsimp only
    rw [e1]
    have hu : (!((P0.withLgl L).withLgl L1).use_cadical) = true := by
      show (!P0.use_cadical) = true
      rw [h]; rfl
    rw [if_pos hu]
    refine ⟨lglmelt L1 (shift P0 (mainilit P0 (aignext m i)) (k - 1)), rfl, ?_⟩
    unfold nextVar
    rw [if_pos hc]
    show Function.update L1.frozen _ _ = _
    rw [e2]
    rfl

theorem fold_count (P0 : St) (step : St → Nat → St) (g : Nat → Option Nat) (δ : Int)
    (hstep : ∀ L i, ∃ L1, step (P0.withLgl L) i = P0.withLgl L1 ∧
      L1.frozen = (match g i with
        | none => L.frozen
        | some x => Function.update L.frozen x (L.frozen x + δ))) :
    ∀ n L, ∃ L1, (List.range n).foldl step (P0.withLgl L) = P0.withLgl L1 ∧
      ∀ x, L1.frozen x = L.frozen x +
        δ * (((List.range n).filter (fun j => decide (g j = some x))).length : Nat) := by
  intro n
  induction n with
  | zero => intro L; exact ⟨L, rfl, fun x => by simp⟩
  | succ n ih =>
    intro L
    obtain ⟨L1, e1, e2⟩ := ih L
    obtain ⟨L2, e3, e4⟩ := hstep L1 n
    refine ⟨L2, ?_, ?_⟩
    · rw [List.range_succ, List.foldl_append, e1]
      exact e3
    · intro x
      have hlen : (List.filter (fun j => decide (g j = some x)) [n]).length =
          if g n = some x then 1 else 0 := by
        by_cases hx : g n = some x
        · rw [if_pos hx, List.filter_cons_of_pos (by simpa using hx)]; rfl
        · rw [if_neg hx, List.filter_cons_of_neg (by simpa using hx)]; rfl
      rw [e4, List.range_succ, List.filter_append, List.length_append, hlen]
      cases hg : g n with
      | none =>
        rw [if_neg (by simp)]
        show L1.frozen x = _
        rw [e2 x]
        simp
      | some y =>
        show Function.update L1.frozen y (L1.frozen y + δ) x = _
        by_cases hxy : y = x
        · subst hxy
          rw [Function.update_same, e2 y, if_pos rfl]
          push_cast
          ring
        · rw [Function.update_noteq (Ne.symm hxy), e2 x,
            if_neg (fun e => hxy (Option.some.inj e))]
          simp

theorem lit_fold (k : Nat) {P0 : St} (h : P0.use_cadical = false) (c : List Int) :
    ∀ L, ∃ L1, c.foldl (shiftcnfLit k) (P0.withLgl L) = P0.withLgl L1 ∧
      L1.frozen = L.frozen := by
  induction c with
  | nil => intro L; exact ⟨L, rfl, rfl⟩
  | cons l c ih =>
    intro L
    have e : shiftcnfLit k (P0.withLgl L) l =
        P0.withLgl (lgladd L (shift P0 l k)) := by
      unfold shiftcnfLit
      have hu : (!(P0.withLgl L).use_cadical) = true := by
        show (!P0.use_cadical) = true
        rw [h]; rfl
      rw [if_pos hu]
      rfl
    obtain ⟨L1, e1, e2⟩ := ih (lgladd L (shift P0 l k))
    exact ⟨L1, by rw [List.foldl_cons, e, e1], by rw [e2, lgladd_frozen]⟩

theorem clause_fold (k : Nat) {P0 : St} (h : P0.use_cadical = false) (cs : List (List Int)) :
    ∀ L, ∃ L1, cs.foldl (shiftcnfClause k) (P0.withLgl L) = P0.withLgl L1 ∧
      L1.frozen = L.frozen := by
  induction cs with
  | nil => intro L; exact ⟨L, rfl, rfl⟩
  | cons c cs ih =>
    intro L
    obtain ⟨L1, e1, e2⟩ := lit_fold k h c L
    have e : shiftcnfClause k (P0.withLgl L) c = P0.withLgl (lgladd L1 0) := by
      unfold shiftcnfClause
      dsimp only
      rw [e1]
      have hu : (!(P0.withLgl L1).use_cadical) = true := by
        show (!P0.use_cadical) = true
        rw [h]; rfl
      rw [if_pos hu]
      rfl
    obtain ⟨L2, e3, e4⟩ := ih (lgladd L1 0)
    exact ⟨L2, by rw [List.foldl_cons, e, e3], by rw [e4, lgladd_frozen, e2]⟩

theorem freeze_step (m : aiger) (k : Nat) {P0 : St} (h : P0.use_cadical = false) (L : Solver)
    (i : Nat) :
    ∃ L1, shiftcnfFreeze m k (P0.withLgl L) i = P0.withLgl L1 ∧
      L1.frozen = (match nextVar m P0 k i with
        | none => L.frozen
        | some x => Function.update L.frozen x (L.frozen x + 1)) := by
  unfold shiftcnfFreeze
  by_cases hc : ulitincoi P0.coi (aiglatch m i) ≠ 0
  · have hc1 : ulitincoi (P0.withLgl L).coi (aiglatch m i) ≠ 0 := hc
    have hu : (!(P0.withLgl L).use_cadical) = true := by
      show (!P0.use_cadical) = true
      rw [h]; rfl
    rw [if_pos hc1, if_pos hu]
    refine ⟨lglfreeze L (shift P0 (mainilit P0 (aignext m i)) k), rfl, ?_⟩
    unfold nextVar
    rw [if_pos hc]
    rfl
  · have hc1 : ¬ ulitincoi (P0.withLgl L).coi (aiglatch m i) ≠ 0 := hc
    rw [if_neg hc1]
    refine ⟨L, rfl, ?_⟩
    unfold nextVar
    rw [if_neg hc]

theorem shiftcnf_frozen (m : aiger) {P0 : St} (h : P0.use_cadical = false) (k : Nat)
    (L : Solver) :
    ∃ L1, shiftcnf m (P0.withLgl L) k = P0.withLgl L1 ∧
      ∀ x, L1.frozen x = L.frozen x +
        (if k > 0 then -((nextCount m P0 (k - 1) x : Nat) : Int) else 0) +
        ((nextCount m P0 k x : Nat) : Int) := by
  unfold shiftcnf
  dsimp only
  have hA : ∃ LA, (if k > 0 then
      (List.range m.latches.length).foldl (shiftcnfLatch m k) (P0.withLgl L)
      else P0.withLgl L) = P0.withLgl LA ∧
      ∀ x, LA.frozen x = L.frozen x +
        (if k > 0 then -((nextCount m P0 (k - 1) x : Nat) : Int) else 0) := by
    by_cases hk : k > 0
    · obtain ⟨LA, e1, e2⟩ := fold_count P0 (shiftcnfLatch m k) (nextVar m P0 (k - 1)) (-1)
        (latch_step m k h) m.latches.length L
      refine ⟨LA, by rw [if_pos hk, e1], ?_⟩
      intro x
      rw [e2 x, if_pos hk]
      unfold nextCount
      ring
    · exact ⟨L, by rw [if_neg hk], fun x => by rw [if_neg hk]; simp⟩
  obtain ⟨LA, eA, fA⟩ := hA
  rw [eA]
  obtain ⟨LB, eB, fB⟩ := clause_fold k h (P0.withLgl LA).clauses LA
  rw [eB]
  obtain ⟨LC, eC, fC⟩ := fold_count P0 (shiftcnfFreeze m k) (nextVar m P0 k) 1
    (freeze_step m k h) m.latches.length LB
  refine ⟨LC, eC, ?_⟩
  intro x
  rw [fC x, fB, fA x]
  unfold nextCount
  ring

theorem bad_lgl (m : aiger) {P0 : St} (h : P0.use_cadical = false) (L : Solver) (t : Nat) :
    ∃ L1, bad m (P0.withLgl L) t = P0.withLgl L1 ∧ L1.frozen = L.frozen := by
  unfold bad
  have hu : (!(P0.withLgl L).use_cadical) = true := by
    show (!P0.use_cadical) = true
    rw [h]; rfl
  rw [if_pos hu]
  exact ⟨_, rfl, rfl⟩

theorem solved_lgl {P0 : St} (h : P0.use_cadical = false) (L : Solver) :
    ∃ L1, (P0.withLgl L).solved = P0.withLgl L1 ∧ L1.frozen = L.frozen := by
  unfold St.solved
  have hu : (!(P0.withLgl L).use_cadical) = true := by
    show (!P0.use_cadical) = true
    rw [h]; rfl
  rw [if_pos hu]
  exact ⟨_, rfl, rfl⟩

theorem simplify_lgl {P0 : St} (h : P0.use_cadical = false) (L : Solver) :
    ∃ L1, (P0.withLgl L).simplify = P0.withLgl L1 ∧ L1.frozen = L.frozen := by
  unfold St.simplify
  have hu : (!(P0.withLgl L).use_cadical) = true := by
    show (!P0.use_cadical) = true
    rw [h]; rfl
  rw [if_pos hu]
  exact ⟨_, rfl, rfl⟩

theorem pass_frozen (m : aiger) (fl : Flags) {s0 : St} (h : s0.use_cadical = false)
    (hz : ∀ x, s0.lgl.frozen x = 0) :
    ∀ k, (∃ L, passState m fl s0 k = s0.withLgl L ∧
        ∀ x, L.frozen x = if k = 0 then 0 else ((nextCount m s0 (k - 1) x : Nat) : Int)) ∧
      (∃ L, shiftcnf m (passState m fl s0 k) k = s0.withLgl L ∧
        ∀ x, L.frozen x = ((nextCount m s0 k x : Nat) : Int)) := by
  have hstep : ∀ k, (∃ L, passState m fl s0 k = s0.withLgl L ∧
        ∀ x, L.frozen x = if k = 0 then 0 else ((nextCount m s0 (k - 1) x : Nat) : Int)) →
      (∃ L, shiftcnf m (passState m fl s0 k) k = s0.withLgl L ∧
        ∀ x, L.frozen x = ((nextCount m s0 k x : Nat) : Int)) := by
    rintro k ⟨L, e1, e2⟩
    obtain ⟨L1, e3, e4⟩ := shiftcnf_frozen m h k L
    refine ⟨L1, by rw [e1, e3], ?_⟩
    intro x
    rw [e4 x, e2 x]
    by_cases hk : k = 0
    · subst hk; simp
    · rw [if_neg hk, if_pos (Nat.pos_of_ne_zero hk)]
      ring
  intro k
  induction k with
  | zero =>
    have h0 : ∃ L, passState m fl s0 0 = s0.withLgl L ∧
        ∀ x, L.frozen x = if 0 = 0 then 0 else ((nextCount m s0 (0 - 1) x : Nat) : Int) :=
      ⟨s0.lgl, rfl, fun x => by rw [if_pos rfl]; exact hz x⟩
    exact ⟨h0, hstep 0 h0⟩
  | succ k ih =>
    obtain ⟨L, e1, e2⟩ := ih.2
    have hn : ∃ L, passState m fl s0 (k + 1) = s0.withLgl L ∧
        ∀ x, L.frozen x =
          if k + 1 = 0 then 0 else ((nextCount m s0 (k + 1 - 1) x : Nat) : Int) := by
      obtain ⟨L1, e3, e4⟩ := bad_lgl m h L k
      obtain ⟨L2, e5, e6⟩ := solved_lgl h L1
      obtain ⟨L3, e7, e8⟩ := simplify_lgl h L2
      have hf : ∀ x, L2.frozen x = ((nextCount m s0 k x : Nat) : Int) := by
        intro x; rw [e6, e4, e2 x]
      unfold passState
      dsimp only
      rw [e1, e3, e5]
      split
      · refine ⟨L3, e7, ?_⟩
        intro x
        rw [if_neg (Nat.succ_ne_zero k), e8, hf x]
        rfl
      · refine ⟨L2, rfl, ?_⟩
        intro x
        rw [if_neg (Nat.succ_ne_zero k), hf x]
        rfl
    exact ⟨hn, hstep (k + 1) hn⟩

theorem initReset_lgl (m : aiger) {P0 : St} (h : P0.use_cadical = false) (L : Solver)
    (i : Nat) :
    ∃ L1, initReset m (P0.withLgl L) i = P0.withLgl L1 ∧
      L1.frozen = (match (none : Option Nat) with
        | none => L.frozen
        | some x => Function.update L.frozen x (L.frozen x + 0)) := by
  have hu : ∀ L0, (P0.withLgl L0).use_cadical = false := fun _ => h
  unfold initReset
  split
  · exact ⟨L, rfl, rfl⟩
  · split
    · exact ⟨L, rfl, rfl⟩
    · dsimp only
      by_cases h0 : aiger_false = aigreset m i
      · rw [if_pos h0, unit_lgl (hu L)]
        by_cases h1 : aiger_true = aigreset m i
        · exfalso
          rw [← h0] at h1
          exact absurd h1 (by decide)
        · rw [if_neg h1]
          exact ⟨_, rfl, by simp only [St.withLgl, lgladd_frozen]⟩
      · rw [if_neg h0]
        by_cases h1 : aiger_true = aigreset m i
        · rw [if_pos h1, unit_lgl (hu _)]
          exact ⟨_, rfl, by simp only [St.withLgl, lgladd_frozen]⟩
        · rw [if_neg h1]
          exact ⟨L, rfl, rfl⟩

theorem init_frozen (m : aiger) {P : St} (h : P.use_cadical = false) :
    (init m P).use_cadical = false ∧ ∀ x, (init m P).lgl.frozen x = P.lgl.frozen x := by
  rw [init_eq]
  have h0 : (initMapped m P).use_cadical = false := h
  obtain ⟨L1, e1, e2⟩ := fold_count (initMapped m P) (initReset m) (fun _ => none) 0
    (initReset_lgl m h0) m.latches.length (initMapped m P).lgl
  have e0 : (initMapped m P).withLgl (initMapped m P).lgl = initMapped m P := rfl
  rw [e0] at e1
  rw [e1]
  refine ⟨h, ?_⟩
  intro x
  show L1.frozen x = _
  rw [e2 x]
  simp
  rfl

theorem start_frozen (m : aiger) (fl : Flags) (o : Oracle) (coi : Nat → Nat)
    (hl : fl.use_cadical = false) :
    (startState m fl o coi).use_cadical = false ∧
      ∀ x, (startState m fl o coi).lgl.frozen x = 0 := by
  obtain ⟨e1, e2, e3, e4, e5, e6⟩ := encode_spec m fl coi
  rw [hl] at e1
  obtain ⟨T, hT, eT⟩ := travall_fold_gen (o.travall (encode m fl coi).lgl)
    (encode m fl coi) e4.2.2
  have ht : travallExtract o (encode m fl coi) =
      { encode m fl coi with clauses := (encode m fl coi).clauses ++ T } := by
    unfold travallExtract
    rw [eT]
  have hcond : (!(encode m fl coi).use_cadical) = true := by rw [e1]; rfl
  have hs : startState m fl o coi = init m
      { encode m fl coi with clauses := (encode m fl coi).clauses ++ T,
                             lgl := Solver.fresh } := by
    unfold startState prepare
    dsimp only
    rw [if_pos hcond, ht]
  rw [hs]
  obtain ⟨h1, h2⟩ := init_frozen m (P := { encode m fl coi with
    clauses := (encode m fl coi).clauses ++ T, lgl := Solver.fresh }) e1
  exact ⟨h1, fun x => by rw [h2 x]; rfl⟩

theorem filter_range_succ_le (p : Nat → Bool) {i n : Nat} (hi : i < n) (hp : p i = true) :
    ((List.range i).filter p).length + 1 ≤ ((List.range n).filter p).length := by
  have h1 : ((List.range (i + 1)).filter p).length = ((List.range i).filter p).length + 1 := by
    rw [List.range_succ, List.filter_append, List.length_append,
      List.filter_cons_of_pos hp]
    rfl
  rw [← h1]
  exact ((List.range_sublist.mpr hi).filter p).length_le

theorem melt_positive (m : aiger) (fl : Flags) {s0 : St} (h : s0.use_cadical = false)
    (hz : ∀ x, s0.lgl.frozen x = 0) (k : Nat) {i : Nat} (hi : i < m.latches.length)
    (hc : ulitincoi s0.coi (aiglatch m i) ≠ 0) :
    0 < ((List.range i).foldl (shiftcnfLatch m (k + 1)) (passState m fl s0 (k + 1))).lgl.frozen
      (shift s0 (mainilit s0 (aignext m i)) k).natAbs := by
  obtain ⟨L, e1, e2⟩ := (pass_frozen m fl h hz (k + 1)).1
  obtain ⟨L1, e3, e4⟩ := fold_count s0 (shiftcnfLatch m (k + 1)) (nextVar m s0 k) (-1)
    (latch_step m (k + 1) h) i L
  rw [e1, e3]
  show 0 < L1.frozen _
  rw [e4, e2, if_neg (Nat.succ_ne_zero k)]
  have hv : nextVar m s0 k i = some (shift s0 (mainilit s0 (aignext m i)) k).natAbs := by
    unfold nextVar
    rw [if_pos hc]
  have := filter_range_succ_le (fun j => decide (nextVar m s0 k j =
    some (shift s0 (mainilit s0 (aignext m i)) k).natAbs)) hi (by simpa using hv)
  unfold nextCount
  rw [Nat.add_sub_cancel]
  omega

theorem nextCount_eq (m : aiger) (s : St) (k x : Nat) :
    nextCount m s k x = ((List.range m.latches.length).filter (fun i =>
      decide (ulitincoi s.coi (aiglatch m i) ≠ 0 ∧
        (shift s (mainilit s (aignext m i)) k).natAbs = x))).length := by
  unfold nextCount
  congr 1
  apply List.filter_congr
  intro i _
  unfold nextVar
  by_cases hc : ulitincoi s.coi (aiglatch m i) ≠ 0
  · rw [if_pos hc]
    simp [hc]
  · rw [if_neg hc]
    simp [hc]

theorem nextCount_zero {m : aiger} {s : St} {k x : Nat}
    (h : ∀ i, i < m.latches.length → ulitincoi s.coi (aiglatch m i) ≠ 0 →
      (shift s (mainilit s (aignext m i)) k).natAbs ≠ x) : nextCount m s k x = 0 := by
  rw [nextCount_eq, List.length_eq_zero, List.filter_eq_nil_iff]
  intro i hi
  have := h i (List.mem_range.mp hi)
  simp only [decide_eq_true_eq, not_and]
  exact this

theorem next_slot {m : aiger} (hwf : WellFormed m) (fl : Flags) (o : Oracle) (coi : Nat → Nat)
    {i : Nat} (hi : i < m.latches.length) (hc : ulitincoi coi (aiglatch m i) ≠ 0) :
    1 ≤ (mainilit (startState m fl o coi) (aignext m i)).natAbs ∧
    (mainilit (startState m fl o coi) (aignext m i)).natAbs ≤
      (startState m fl o coi).maxvar := by
  obtain ⟨T0, -, -, h1, h2, h3, -, -, hu, -⟩ := start_spec hwf fl o coi
  have hne := (hu.latch_ne i hi (by rw [h3]; exact hc)).2
  constructor
  · exact Nat.pos_of_ne_zero (fun e => hne (Int.natAbs_eq_zero.mp e))
  · rw [mainilit_natAbs, h1, h2]
    exact (initMap_inv hwf coi T0).le _

/-- C19 (freeze and melt): in the Lingeling path on a well-formed model, with the freeze
counters of the new main solver all zero when the BMC loop starts: after `shiftcnf (k)` in
pass `k` the counter of every variable `x` is the number of COI latches whose next-state
literal at time `k` has variable `x`; every `lglmelt` of `shiftcnf (k + 1)` (pass `i` of its
latch loop, for a COI latch `i`) meets a positive counter; and after `shiftcnf (k)` the
counter of the next-state variable of every COI latch at an earlier time `j < k` is zero. -/
theorem freeze_melt (m : aiger) (hwf : WellFormed m) (fl : Flags) (o : Oracle)
    (coi : Nat → Nat) (hl : fl.use_cadical = false) :
    (∀ x, (startState m fl o coi).lgl.frozen x = 0) ∧
    (∀ k x, (unrolledState m fl o coi k).lgl.frozen x =
      ((((List.range m.latches.length).filter (fun i =>
        decide (ulitincoi coi (aiglatch m i) ≠ 0 ∧
          (shift (startState m fl o coi)
            (mainilit (startState m fl o coi) (aignext m i)) k).natAbs = x))).length :
        Nat) : Int)) ∧
    (∀ k i, i < m.latches.length → ulitincoi coi (aiglatch m i) ≠ 0 →
      0 < ((List.range i).foldl (shiftcnfLatch m (k + 1))
        (passState m fl (startState m fl o coi) (k + 1))).lgl.frozen
          (shift (startState m fl o coi)
            (mainilit (startState m fl o coi) (aignext m i)) k).natAbs) ∧
    (∀ k j i, j < k → i < m.latches.length → ulitincoi coi (aiglatch m i) ≠ 0 →
      (unrolledState m fl o coi k).lgl.frozen
        (shift (startState m fl o coi)
          (mainilit (startState m fl o coi) (aignext m i)) j).natAbs = 0) := by
  obtain ⟨huc, hz⟩ := start_frozen m fl o coi hl
  obtain ⟨T0, -, -, -, -, h3, -, -, -, -⟩ := start_spec hwf fl o coi
  have hcnt : ∀ k x, (unrolledState m fl o coi k).lgl.frozen x =
      ((nextCount m (startState m fl o coi) k x : Nat) : Int) := by
    intro k x
    obtain ⟨L, e1, e2⟩ := (pass_frozen m fl huc hz k).2
    unfold unrolledState
    rw [e1]
    exact e2 x
  refine ⟨hz, ?_, ?_, ?_⟩
  · intro k x
    rw [hcnt k x, nextCount_eq, h3]
  · intro k i hi hc
    exact melt_positive m fl huc hz k hi (by rw [h3]; exact hc)
  · intro k j i hjk hi hc
    rw [hcnt, nextCount_zero]
    · rfl
    · intro i1 hi1 hc1 e
      rw [h3] at hc1
      rw [shift_natAbs, shift_natAbs] at e
      obtain ⟨a1, a2⟩ := next_slot hwf fl o coi hi1 hc1
      obtain ⟨b1, b2⟩ := next_slot hwf fl o coi hi hc
      have := (slot_unique a1 a2 b1 b2 e).2
      omega

/-- Witness for C19: the model with a latch fed by an and-gate, run with Lingeling. -/
theorem freeze_melt_witness :
    WellFormed exGate ∧ flagsOne.use_cadical = false ∧
    ((∀ x, (startState exGate flagsOne oracleUnsat exGateCoi).lgl.frozen x = 0) ∧
    (∀ k x, (unrolledState exGate flagsOne oracleUnsat exGateCoi k).lgl.frozen x =
      ((((List.range exGate.latches.length).filter (fun i =>
        decide (ulitincoi exGateCoi (aiglatch exGate i) ≠ 0 ∧
          (shift (startState exGate flagsOne oracleUnsat exGateCoi)
            (mainilit (startState exGate flagsOne oracleUnsat exGateCoi) (aignext exGate i)) k).natAbs = x))).length :
        Nat) : Int)) ∧
    (∀ k i, i < exGate.latches.length → ulitincoi exGateCoi (aiglatch exGate i) ≠ 0 →
      0 < ((List.range i).foldl (shiftcnfLatch exGate (k + 1))
        (passState exGate flagsOne (startState exGate flagsOne oracleUnsat exGateCoi) (k + 1))).lgl.frozen
          (shift (startState exGate flagsOne oracleUnsat exGateCoi)
            (mainilit (startState exGate flagsOne oracleUnsat exGateCoi) (aignext exGate i)) k).natAbs) ∧
    (∀ k j i, j < k → i < exGate.latches.length → ulitincoi exGateCoi (aiglatch exGate i) ≠ 0 →
      (unrolledState exGate flagsOne oracleUnsat exGateCoi k).lgl.frozen
        (shift (startState exGate flagsOne oracleUnsat exGateCoi)
          (mainilit (startState exGate flagsOne oracleUnsat exGateCoi) (aignext exGate i)) j).natAbs = 0)) :=
  ⟨exGate_wf, rfl, freeze_melt exGate exGate_wf flagsOne oracleUnsat exGateCoi rfl⟩


/-! ## Cadence of the simplification -/

theorem and_pred_eq_zero_iff : ∀ k : Nat, (k + 1) &&& k = 0 ↔ ∃ n, k + 1 = 2 ^ n := by
  intro k
  induction k using Nat.strong_induction_on with
  | _ k ih =>
    have hdiv : ((k + 1) &&& k) / 2 = (k + 1) / 2 &&& k / 2 := Nat.and_div_two
    have hmod : ¬ ((k + 1) &&& k) % 2 = 1 := by
      rw [Nat.and_mod_two_eq_one]
      omega
    by_cases hk : k = 0
    · subst hk
      exact ⟨fun _ => ⟨0, rfl⟩, fun _ => by decide⟩
    · by_cases hodd : k % 2 = 1
      · have h1 : (k + 1) / 2 = k / 2 + 1 := by omega
        rw [h1] at hdiv
        have ih' := ih (k / 2) (by omega)
        constructor
        · intro h
          have h0 : (k / 2 + 1) &&& (k / 2) = 0 := by rw [← hdiv, h]
          obtain ⟨n, hn⟩ := ih'.mp h0
          exact ⟨n + 1, by rw [pow_succ]; omega⟩
        · rintro ⟨n, hn⟩
          cases n with
          | zero => simp at hn; omega
          | succ n =>
            rw [pow_succ] at hn
            have : (k / 2 + 1) &&& (k / 2) = 0 := ih'.mpr ⟨n, by omega⟩
            rw [this] at hdiv
            omega
      · have h1 : (k + 1) / 2 = k / 2 := by omega
        rw [h1, Nat.and_self] at hdiv
        constructor
        · intro h
          rw [h] at hdiv
          omega
        · rintro ⟨n, hn⟩
          exfalso
          cases n with
          | zero => simp at hn; omega
          | succ n => rw [pow_succ] at hn; omega

theorem simplify_nsimp (s : St) : s.simplify.solver.nsimp = s.solver.nsimp + 1 := by
  unfold St.simplify St.solver
  cases h : s.use_cadical <;> simp [lglsimp, h]

/-- C20 (simplification cadence): `((k + 1) & k) == 0` holds exactly when `k + 1` is a power
of two.  Consequently a pass of the BMC loop with counter `k` goes on to the next pass with
the solver simplified (its count of simplifications is one more) exactly when the step was
not answered SAT, the model has a latch, `k < maxk` and `k + 1` is a power of two; when the
step was not answered SAT and the model has a latch but `k = maxk` or `k + 1` is no power of
two, it goes on without simplifying; and when the step was answered SAT or the model has no
latch, the loop is left without simplifying. -/
theorem simplification_cadence (k : Nat) :
    ((k + 1) &&& k = 0 ↔ ∃ n, k + 1 = 2 ^ n) ∧
    ∀ (m : aiger) (fl : Flags) (o : Oracle) (fuel : Nat) (b : Bmc), b.k = k →
      ((solveStep o k (bad m (shiftcnf m b.st k) k).solver ≠ 10 ∧ m.latches.length ≠ 0 ∧
          k < fl.maxk ∧ ∃ n, k + 1 = 2 ^ n) →
        bmcLoop m fl o (fuel + 1) b = bmcLoop m fl o fuel
          { st := (bad m (shiftcnf m b.st k) k).solved.simplify
            res := solveStep o k (bad m (shiftcnf m b.st k) k).solver
            k := k + 1
            out := b.out ++ [uLine k] }) ∧
      ((solveStep o k (bad m (shiftcnf m b.st k) k).solver ≠ 10 ∧ m.latches.length ≠ 0 ∧
          ¬ (k < fl.maxk ∧ ∃ n, k + 1 = 2 ^ n)) →
        bmcLoop m fl o (fuel + 1) b = bmcLoop m fl o fuel
          { st := (bad m (shiftcnf m b.st k) k).solved
            res := solveStep o k (bad m (shiftcnf m b.st k) k).solver
            k := k + 1
            out := b.out ++ [uLine k] }) ∧
      (solveStep o k (bad m (shiftcnf m b.st k) k).solver = 10 →
        bmcLoop m fl o (fuel + 1) b =
          { b with st := (bad m (shiftcnf m b.st k) k).solved, res := 10 }) ∧
      ((solveStep o k (bad m (shiftcnf m b.st k) k).solver ≠ 10 ∧ m.latches.length = 0) →
        bmcLoop m fl o (fuel + 1) b =
          { st := (bad m (shiftcnf m b.st k) k).solved
            res := solveStep o k (bad m (shiftcnf m b.st k) k).solver
            k := k
            out := b.out ++ [uLine k] }) ∧
      (bad m (shiftcnf m b.st k) k).solved.simplify.solver.nsimp =
        (bad m (shiftcnf m b.st k) k).solved.solver.nsimp + 1 := by
  have hp := and_pred_eq_zero_iff k
  refine ⟨hp, ?_⟩
  intro m fl o fuel b hb
  subst hb
  refine ⟨?_, ?_, ?_, ?_, simplify_nsimp _⟩
  · rintro ⟨h1, h2, h3, h4⟩
    have hc : b.k < fl.maxk ∧ (b.k + 1) &&& b.k = 0 := ⟨h3, hp.mpr h4⟩
    rw [bmcLoop]
    simp only [h1, h2, hc, if_false, if_true, and_self]
  · rintro ⟨h1, h2, h3⟩
    have hc : ¬ (b.k < fl.maxk ∧ (b.k + 1) &&& b.k = 0) := fun h => h3 ⟨h.1, hp.mp h.2⟩
    rw [bmcLoop]
    simp only [h1, h2, hc, if_false]
  · intro h1
    rw [bmcLoop]
    simp only [h1, if_true]
  · rintro ⟨h1, h2⟩
    rw [bmcLoop]
    simp only [h1, h2, if_false, if_true]

/-- Witness for C20: pass `0` of the one-bit counter with bound `1` and a solver that answers
UNSAT: `0 + 1 = 2 ^ 0`, so the solver is simplified before pass `1`. -/
theorem simplification_cadence_witness :
    exBmc.k = 0 ∧
    (solveStep oracleUnsat 0 (bad exCounter (shiftcnf exCounter exBmc.st 0) 0).solver ≠ 10 ∧
      exCounter.latches.length ≠ 0 ∧ 0 < flagsOne.maxk ∧ ∃ n, 0 + 1 = 2 ^ n) ∧
    bmcLoop exCounter flagsOne oracleUnsat (1 + 1) exBmc =
      bmcLoop exCounter flagsOne oracleUnsat 1
        { st := (bad exCounter (shiftcnf exCounter exBmc.st 0) 0).solved.simplify
          res := solveStep oracleUnsat 0 (bad exCounter (shiftcnf exCounter exBmc.st 0) 0).solver
          k := 0 + 1
          out := exBmc.out ++ [uLine 0] } :=
  ⟨rfl, ⟨by decide, by decide, by decide, ⟨0, rfl⟩⟩,
    ((simplification_cadence 0).2 exCounter flagsOne oracleUnsat 1 exBmc rfl).1
      ⟨by decide, by decide, by decide, ⟨0, rfl⟩⟩⟩


/-! ## Resources and minimality of the traversal -/

theorem travNext_core {m : aiger} {s1 : Trav} (h1 : TravCore m s1) (e : ¬ s1.next = s1.top) :
    TravCore m { s1 with lit := s1.stack s1.next, next := s1.next + 1 } := by
  have hle := h1.next_le
  have hlt : s1.next < s1.top := by omega
  refine ⟨?_, ?_, ?_, h1.le_top, h1.bound, h1.inj, h1.surj, h1.badm, ?_⟩
  · simp only; omega
  · simp only; omega
  · intro j hj1 hj2
    simp only at hj1 hj2 ⊢
    exact h1.stk j (by omega) hj2
  · simp only
    exact h1.stk _ (Nat.le_refl _) hlt

theorem travLoop_inv {m : aiger} (hwf : WellFormed m) (I J : Trav → Prop)
    (hbody : ∀ s, TravCore m s → I s → J (travBody m s))
    (hnext : ∀ s1, TravCore m s1 → J s1 → ¬ s1.next = s1.top →
      I { s1 with lit := s1.stack s1.next, next := s1.next + 1 }) :
    ∀ (fuel : Nat) (s t : Trav), TravCore m s → ClosedBelow m s s.next → I s →
      travLoop m fuel s = some t → J t := by
  intro fuel
  induction fuel with
  | zero => intro s t _ _ _ h; cases h
  | succ f ih =>
    intro s t hcore hcb hI ht
    obtain ⟨h1, h2, h3⟩ := travBody_spec hwf hcore hcb
    have hJ := hbody s hcore hI
    unfold travLoop at ht
    simp only at ht
    split at ht
    · next e =>
      cases ht
      exact hJ
    · next e =>
      refine ih _ t (travNext_core h1 e) ?_ (hnext _ h1 hJ e) ht
      simp only
      rw [h3]; exact h2

theorem travPush_counters (s : Trav) (lit : Nat) :
    (travPush s lit).inputs = s.inputs ∧ (travPush s lit).latches = s.latches ∧
    (travPush s lit).ands = s.ands ∧ (travPush s lit).constants = s.constants := by
  by_cases h0 : s.coi (aiger_lit2var lit) = 0
  · rw [travPush_pos s lit h0]; exact ⟨rfl, rfl, rfl, rfl⟩
  · rw [travPush_neg s lit h0]; exact ⟨rfl, rfl, rfl, rfl⟩

theorem travBody_count (m : aiger) {s : Trav} (h : CountHead s) : CountBody (travBody m s) := by
  unfold CountHead at h
  unfold CountBody travBody
  simp only
  split
  · simp only; omega
  · split
    · obtain ⟨h1, h2, h3, h4⟩ := travPush_counters { s with latches := s.latches + 1 } _
      rw [h1, h2, h3, h4, travPush_next]
      simp only; omega
    · split
      · obtain ⟨h1, h2, h3, h4⟩ := travPush_counters
          (travPush { s with ands := s.ands + 1 } _) ‹aiger_and›.rhs1
        obtain ⟨g1, g2, g3, g4⟩ := travPush_counters { s with ands := s.ands + 1 }
          ‹aiger_and›.rhs0
        rw [h1, h2, h3, h4, g1, g2, g3, g4, travPush_next, travPush_next]
        simp only; omega
      · simp only; omega

theorem travPush_stack {s : Trav} (h : StackOk s) (lit : Nat) : StackOk (travPush s lit) := by
  obtain ⟨h1, h2, h3⟩ := h
  by_cases h0 : s.coi (aiger_lit2var lit) = 0
  · rw [travPush_pos s lit h0]
    refine ⟨Nat.le_succ_of_le h1, ?_, ?_⟩
    · intro j hj1 hj2
      simp only at hj2 ⊢
      by_cases ej : j = s.top
      · subst ej; simp [Function.update]
      · have hlt : j < s.top := by omega
        have hs := h2 j hj1 hlt
        have hne : aiger_lit2var (s.stack j) ≠ aiger_lit2var lit := by
          intro e'; rw [e', h0] at hs; omega
        simp [Function.update, ej, hne, hs]
    · intro j hj
      simp only at hj ⊢
      have ej : j ≠ s.top := by omega
      rw [Function.update_noteq ej]
      exact h3 j (by omega)
  · rw [travPush_neg s lit h0]; exact ⟨h1, h2, h3⟩

theorem travBody_stack (m : aiger) {s : Trav} (h : StackOk s) : StackOk (travBody m s) := by
  unfold travBody
  simp only
  split
  · exact h
  · split
    · exact travPush_stack (s := { s with latches := s.latches + 1 }) h _
    · split
      · exact travPush_stack
          (travPush_stack (s := { s with ands := s.ands + 1 }) h _) _
      · exact h

theorem travPush_reach {m : aiger} {s : Trav} (h : MarkedReach m s) {lit : Nat}
    (hr : Reach m (aiger_lit2var lit)) : MarkedReach m (travPush s lit) := by
  by_cases h0 : s.coi (aiger_lit2var lit) = 0
  · rw [travPush_pos s lit h0]
    intro v hv
    simp only [Function.update_apply] at hv
    by_cases e : v = aiger_lit2var lit
    · rw [e]; exact hr
    · rw [if_neg e] at hv
      exact h v hv
  · rw [travPush_neg s lit h0]; exact h

theorem travBody_reach {m : aiger} {s : Trav} (hcore : TravCore m s)
    (h : MarkedReach m s) : MarkedReach m (travBody m s) := by
  have hstrip : aiger_strip s.lit = 2 * aiger_lit2var s.lit := aiger_strip_eq s.lit
  have hcur : Reach m (aiger_lit2var s.lit) := by
    apply h
    rw [hcore.cur]
    have := hcore.next_pos
    omega
  unfold travBody
  simp only
  split
  · exact h
  · split
    · next l hl =>
      obtain ⟨hl1, hl2⟩ := is_latch_some hl
      have e : aiger_lit2var l.lit = aiger_lit2var s.lit := by
        rw [hl2, hstrip]; unfold aiger_lit2var; omega
      exact travPush_reach (s := { s with latches := s.latches + 1 }) h
        (Reach.next l hl1 (by rw [e]; exact hcur))
    · split
      · next a ha =>
        obtain ⟨ha1, ha2⟩ := is_and_some ha
        have e : aiger_lit2var a.lhs = aiger_lit2var s.lit := by
          rw [ha2, hstrip]; unfold aiger_lit2var; omega
        exact travPush_reach
          (travPush_reach (s := { s with ands := s.ands + 1 }) h
            (Reach.left a ha1 (by rw [e]; exact hcur)))
          (Reach.right a ha1 (by rw [e]; exact hcur))
      · exact h

theorem travLoop_exit (m : aiger) :
    ∀ (fuel : Nat) (s t : Trav), travLoop m fuel s = some t → t.next = t.top := by
  intro fuel
  induction fuel with
  | zero => intro s t h; cases h
  | succ f ih =>
    intro s t h
    unfold travLoop at h
    simp only at h
    split at h
    · next e => cases h; exact e
    · exact ih _ t h

theorem travcoi_extra {m : aiger} (hwf : WellFormed m) {t : Trav}
    (ht : travcoi m coiZero = some t) :
    TravCore m t ∧ CountBody t ∧ StackOk t ∧ MarkedReach m t ∧ t.next = t.top := by
  obtain ⟨h1, h2⟩ := travInit_core hwf
  obtain ⟨t1, ht1, hc, -⟩ := travcoi_spec hwf
  rw [ht] at ht1
  cases ht1
  unfold travcoi at ht
  refine ⟨hc, ?_, ?_, ?_, travLoop_exit m _ _ _ ht⟩
  · refine travLoop_inv hwf CountHead CountBody (fun s _ h => travBody_count m h) ?_
      _ _ _ h1 h2 ?_ ht
    · intro s1 _ h _
      unfold CountBody at h
      unfold CountHead
      simp only
      omega
    · rfl
  · refine travLoop_inv hwf StackOk StackOk (fun s _ h => travBody_stack m h) ?_
      _ _ _ h1 h2 ?_ ht
    · intro s1 _ h _
      exact h
    · refine ⟨Nat.le_refl 1, ?_, fun _ _ => rfl⟩
      intro j hj1 hj2
      have : (travInit m coiZero).top = 1 := rfl
      omega
  · refine travLoop_inv hwf (MarkedReach m) (MarkedReach m)
      (fun s hs h => travBody_reach hs h) ?_ _ _ _ h1 h2 ?_ ht
    · intro s1 _ h _
      exact h
    · intro v hv
      have hcoi : (travInit m coiZero).coi v =
          if v = aiger_lit2var (aigbad m 0) then 1 else 0 := by
        simp [travInit, Function.update_apply, coiZero]
      rw [hcoi] at hv
      by_cases e : v = aiger_lit2var (aigbad m 0)
      · rw [e]; exact Reach.bad
      · rw [if_neg e] at hv; exact absurd rfl hv

theorem marked_card {m : aiger} {t : Trav} (h : TravCore m t) :
    ((Finset.range (m.maxvar + 1)).filter (fun v => t.coi v ≠ 0)).card = t.top := by
  have hb : ((Finset.range (m.maxvar + 1)).filter (fun v => t.coi v ≠ 0)).card =
      (Finset.Icc 1 t.top).card := by
    apply Finset.card_bij (fun v _ => t.coi v)
    · intro v hv
      rw [Finset.mem_filter] at hv
      rw [Finset.mem_Icc]
      exact ⟨Nat.pos_of_ne_zero hv.2, h.le_top v⟩
    · intro u hu v _ e
      rw [Finset.mem_filter] at hu
      exact h.inj u v hu.2 e
    · intro j hj
      rw [Finset.mem_Icc] at hj
      obtain ⟨v, hv⟩ := h.surj j hj.1 hj.2
      have hv0 : t.coi v ≠ 0 := by omega
      refine ⟨v, ?_, hv⟩
      rw [Finset.mem_filter, Finset.mem_range]
      exact ⟨Nat.lt_succ_of_le (h.bound v hv0), hv0⟩
  rw [hb, Nat.card_Icc]
  omega

/-- C21 (worklist of the traversal): on a well-formed model `travcoi` returns.  On exit
`next = top ≤ maxvar + 1`; every stack slot `1 .. top - 1` holds a literal whose node carries
the mark `slot + 1` (so the slots hold pairwise distinct nodes) and no other slot was ever
written; the marks of the marked nodes are pairwise distinct, lie in `1 .. top` and hit every
value of `1 .. top`, and marked nodes are within `maxvar`; the number of marked nodes is `top`
and equals `inputs + latches + ands + constants`.  A push of a marked node changes nothing,
and a push of an unmarked node writes slot `top` and marks the node with the new `top`. -/
theorem travcoi_resources (m : aiger) (hwf : WellFormed m) :
    ∃ t, travcoi m coiZero = some t ∧
      t.top ≤ m.maxvar + 1 ∧ 1 ≤ t.top ∧ t.next = t.top ∧
      (∀ j, 1 ≤ j → j < t.top → t.coi (aiger_lit2var (t.stack j)) = j + 1) ∧
      (∀ j, (j = 0 ∨ t.top ≤ j) → t.stack j = 0) ∧
      (∀ v, t.coi v ≠ 0 → v ≤ m.maxvar ∧ 1 ≤ t.coi v ∧ t.coi v ≤ t.top) ∧
      (∀ u v, t.coi u ≠ 0 → t.coi u = t.coi v → u = v) ∧
      (∀ j, 1 ≤ j → j ≤ t.top → ∃ v, t.coi v = j) ∧
      ((Finset.range (m.maxvar + 1)).filter (fun v => t.coi v ≠ 0)).card = t.top ∧
      t.inputs + t.latches + t.ands + t.constants = t.top ∧
      (∀ (s : Trav) (lit : Nat), s.coi (aiger_lit2var lit) ≠ 0 → travPush s lit = s) ∧
      (∀ (s : Trav) (lit : Nat), s.coi (aiger_lit2var lit) = 0 →
        (travPush s lit).stack s.top = lit ∧ (travPush s lit).top = s.top + 1 ∧
        (travPush s lit).coi (aiger_lit2var lit) = s.top + 1) := by
  obtain ⟨t, ht, -, -⟩ := travcoi_spec hwf
  obtain ⟨hc, hcnt, hst, -, hex⟩ := travcoi_extra hwf ht
  refine ⟨t, ht, hc.top_le, hst.1, hex, hst.2.1, hst.2.2, ?_, hc.inj, hc.surj,
    marked_card hc, ?_, travPush_neg, ?_⟩
  · intro v hv
    exact ⟨hc.bound v hv, Nat.pos_of_ne_zero hv, hc.le_top v⟩
  · unfold CountBody at hcnt
    rw [hcnt, hex]
  · intro s lit h0
    rw [travPush_pos s lit h0]
    simp


/-- Witness for C21 on the model with a latch fed by an and-gate. -/
theorem travcoi_resources_witness :
    WellFormed exGate ∧
    (∃ t, travcoi exGate coiZero = some t ∧
      t.top ≤ exGate.maxvar + 1 ∧ 1 ≤ t.top ∧ t.next = t.top ∧
      (∀ j, 1 ≤ j → j < t.top → t.coi (aiger_lit2var (t.stack j)) = j + 1) ∧
      (∀ j, (j = 0 ∨ t.top ≤ j) → t.stack j = 0) ∧
      (∀ v, t.coi v ≠ 0 → v ≤ exGate.maxvar ∧ 1 ≤ t.coi v ∧ t.coi v ≤ t.top) ∧
      (∀ u v, t.coi u ≠ 0 → t.coi u = t.coi v → u = v) ∧
      (∀ j, 1 ≤ j → j ≤ t.top → ∃ v, t.coi v = j) ∧
      ((Finset.range (exGate.maxvar + 1)).filter (fun v => t.coi v ≠ 0)).card = t.top ∧
      t.inputs + t.latches + t.ands + t.constants = t.top ∧
      (∀ (s : Trav) (lit : Nat), s.coi (aiger_lit2var lit) ≠ 0 → travPush s lit = s) ∧
      (∀ (s : Trav) (lit : Nat), s.coi (aiger_lit2var lit) = 0 →
        (travPush s lit).stack s.top = lit ∧ (travPush s lit).top = s.top + 1 ∧
        (travPush s lit).coi (aiger_lit2var lit) = s.top + 1)) :=
  ⟨exGate_wf, travcoi_resources exGate exGate_wf⟩

theorem reach_marked {m : aiger} {coi : Nat → Nat} (hcl : CoiClosed m coi)
    (hb : coi (aiger_lit2var (aigbad m 0)) ≠ 0) {n : Nat} (h : Reach m n) : coi n ≠ 0 := by
  induction h with
  | bad => exact hb
  | next l hl _ ih => exact (hcl _ ih).1 l hl rfl
  | left a ha _ ih => exact ((hcl _ ih).2 a ha rfl).1
  | right a ha _ ih => exact ((hcl _ ih).2 a ha rfl).2

theorem is_latch_withReset (m : aiger) (f : aiger_symbol → Nat) (x : Nat) :
    aiger_is_latch (withReset m f) x =
      (aiger_is_latch m x).map (fun l => { l with reset := f l }) := by
  unfold aiger_is_latch withReset
  simp only
  rw [List.find?_map]
  rfl

theorem travBody_withReset (m : aiger) (f : aiger_symbol → Nat) (s : Trav) :
    travBody (withReset m f) s = travBody m s := by
  unfold travBody
  simp only
  have h1 : aiger_is_input (withReset m f) (aiger_strip s.lit) =
      aiger_is_input m (aiger_strip s.lit) := rfl
  have h3 : aiger_is_and (withReset m f) (aiger_strip s.lit) =
      aiger_is_and m (aiger_strip s.lit) := rfl
  rw [h1, h3, is_latch_withReset]
  cases aiger_is_latch m (aiger_strip s.lit) <;> rfl

theorem travLoop_withReset (m : aiger) (f : aiger_symbol → Nat) :
    ∀ (fuel : Nat) (s : Trav), travLoop (withReset m f) fuel s = travLoop m fuel s := by
  intro fuel
  induction fuel with
  | zero => intro s; rfl
  | succ n ih =>
    intro s
    unfold travLoop
    simp only
    rw [travBody_withReset, ih]

/-- C24 (COI minimality): on a well-formed model the nodes marked by `travcoi` are exactly the
nodes backward reachable from the node of the bad literal through next-state literals of
latches and inputs of and-gates; and the traversal of the model with the reset literals of
the latches replaced by any others returns the same result. -/
theorem coi_minimality (m : aiger) (hwf : WellFormed m) :
    ∃ t, travcoi m coiZero = some t ∧
      (∀ n, t.coi n ≠ 0 ↔ Reach m n) ∧
      ∀ f : aiger_symbol → Nat, travcoi (withReset m f) coiZero = some t := by
  obtain ⟨t, ht, hc, hcl⟩ := travcoi_spec hwf
  obtain ⟨-, -, -, hr, -⟩ := travcoi_extra hwf ht
  refine ⟨t, ht, fun n => ⟨hr n, reach_marked hcl hc.badm⟩, ?_⟩
  intro f
  rw [← ht]
  exact travLoop_withReset m f _ _

/-- Witness for C24 on the model with a latch fed by an and-gate. -/
theorem coi_minimality_witness :
    WellFormed exGate ∧
    (∃ t, travcoi exGate coiZero = some t ∧
      (∀ n, t.coi n ≠ 0 ↔ Reach exGate n) ∧
      ∀ f : aiger_symbol → Nat, travcoi (withReset exGate f) coiZero = some t) :=
  ⟨exGate_wf, coi_minimality exGate exGate_wf⟩


/-! ## Validity of the assertions -/

theorem coi_mapped {m : aiger} (hwf : WellFormed m) (fl : Flags) (o : Oracle) {t : Trav}
    (ht : travcoi m coiZero = some t) (ho : fl.use_cadical = true ∨ PlainTravall o)
    {v : Nat} (hv : t.coi v ≠ 0) : (startState m fl o t.coi).litmap (v + 1) ≠ 0 := by
  obtain ⟨T0, -, hT, h1, -, -, -, -, -, -⟩ := start_spec hwf fl o t.coi
  have hT0 := hT ho
  subst hT0
  rw [h1, initMap_mapped hwf]
  unfold initSeq
  by_cases h0 : v = 0
  · subst h0
    apply List.mem_append_right
    apply List.mem_append_left
    exact mem_clauseSeq (logic_unit_mem m t.coi hv) (List.mem_singleton.mpr rfl)
  · have hd := travcoi_defined hwf ht hv h0
    unfold defined at hd
    simp only [List.mem_append, List.mem_map] at hd
    rcases hd with (⟨i, hi, e⟩ | ⟨l, hl, e⟩) | ⟨a, ha, e⟩
    · apply List.mem_append_left
      apply List.mem_append_right
      rw [mem_inputSeq hwf]
      refine ⟨i, hi, ?_, ?_⟩
      · unfold ulitincoi aiger_lit2var; rw [e]; simpa using hv
      · rw [e]; omega
    · apply List.mem_append_left
      apply List.mem_append_left
      rw [mem_latchSeq hwf]
      refine ⟨l, hl, ?_, ?_⟩
      · unfold ulitincoi aiger_lit2var; rw [e]; simpa using hv
      · rw [e]; omega
    · apply List.mem_append_right
      apply List.mem_append_left
      have hc : ulitincoi t.coi a.lhs ≠ 0 := by
        unfold ulitincoi aiger_lit2var; rw [e]; simpa using hv
      have hmem : [-(prepilit a.lhs), prepilit a.rhs0] ∈ logicClauses m t.coi :=
        logic_and_mem ha hc (by simp [andClauses])
      have := mem_clauseSeq hmem (List.mem_cons_self _ _)
      rw [Int.natAbs_neg, prepilit_natAbs, e] at this
      have e2 : 2 * v / 2 = v := by omega
      rw [e2] at this
      exact this

theorem marked_asserts {m : aiger} (hwf : WellFormed m) (fl : Flags) (o : Oracle) {t : Trav}
    (ht : travcoi m coiZero = some t) (ho : fl.use_cadical = true ∨ PlainTravall o)
    {u : Nat} (hu : t.coi (aiger_lit2var u) ≠ 0) :
    prepilitAssert m t.coi u ∧ indexAssert m (prepilit u) ∧
    mainilit (startState m fl o t.coi) u ≠ 0 ∧
    shiftAssert (startState m fl o t.coi) (mainilit (startState m fl o t.coi) u) := by
  obtain ⟨t1, ht1, hc, -⟩ := travcoi_spec hwf
  rw [ht] at ht1
  cases ht1
  have hb := hc.bound _ hu
  have hmap := coi_mapped hwf fl o ht ho hu
  obtain ⟨T0, -, -, h1, h2, -, -, -, -, -⟩ := start_spec hwf fl o t.coi
  have hle := (initMap_inv hwf t.coi T0).le (aiger_lit2var u + 1)
  rw [← h1, ← h2] at hle
  refine ⟨⟨hb, hu, ?_⟩, ⟨?_, ?_⟩, (mainilit_ne_zero_iff _ u).mpr hmap, ⟨?_, ?_⟩⟩
  · unfold aiger_lit2var at hb; omega
  · rw [prepilit_natAbs]; omega
  · rw [prepilit_natAbs]; unfold aiger_lit2var at hb; omega
  · rw [mainilit_natAbs]
    exact Nat.pos_of_ne_zero hmap
  · rw [mainilit_natAbs]
    exact hle

/-- C23 (assertion validity): on a well-formed model, with the mark array of `travcoi` and
the stored clauses taken as the clauses of `logic`: the assertions of `prepilit` hold for the
three literals of every gate that `logic` encodes, for the latch and next-state literal of
every COI latch, for every COI input and for the bad literal; for the latch, next-state,
input and bad literals `mainilit` meets its index assertion and returns a non-zero literal
that meets the assertion of `shift`; the entry `litmap[abs (prepbad (0))]` is non-zero; every
literal that `mapcnf` rewrites meets the index assertion of `mapuntimedlit`; every stored
literal meets the assertion of `shift`; and `maxvar ≥ 1` after `init`. -/
theorem assertions_hold (m : aiger) (hwf : WellFormed m) (fl : Flags) (o : Oracle) (t : Trav)
    (ht : travcoi m coiZero = some t) (ho : fl.use_cadical = true ∨ PlainTravall o) :
    (∀ i, i < m.ands.length → ulitincoi t.coi (m.ands.getD i ⟨0, 0, 0⟩).lhs ≠ 0 →
      prepilitAssert m t.coi (m.ands.getD i ⟨0, 0, 0⟩).lhs ∧
      prepilitAssert m t.coi (m.ands.getD i ⟨0, 0, 0⟩).rhs0 ∧
      prepilitAssert m t.coi (m.ands.getD i ⟨0, 0, 0⟩).rhs1) ∧
    (∀ i, i < m.latches.length → ulitincoi t.coi (aiglatch m i) ≠ 0 →
      (prepilitAssert m t.coi (aiglatch m i) ∧ indexAssert m (prepilit (aiglatch m i)) ∧
        mainilit (startState m fl o t.coi) (aiglatch m i) ≠ 0 ∧
        shiftAssert (startState m fl o t.coi)
          (mainilit (startState m fl o t.coi) (aiglatch m i))) ∧
      (prepilitAssert m t.coi (aignext m i) ∧ indexAssert m (prepilit (aignext m i)) ∧
        mainilit (startState m fl o t.coi) (aignext m i) ≠ 0 ∧
        shiftAssert (startState m fl o t.coi)
          (mainilit (startState m fl o t.coi) (aignext m i)))) ∧
    (∀ j, j < m.inputs.length → ulitincoi t.coi (aiginput m j) ≠ 0 →
      prepilitAssert m t.coi (aiginput m j) ∧ indexAssert m (prepilit (aiginput m j)) ∧
      mainilit (startState m fl o t.coi) (aiginput m j) ≠ 0 ∧
      shiftAssert (startState m fl o t.coi)
        (mainilit (startState m fl o t.coi) (aiginput m j))) ∧
    (prepilitAssert m t.coi (aigbad m 0) ∧ indexAssert m (prepilit (aigbad m 0)) ∧
      mainilit (startState m fl o t.coi) (aigbad m 0) ≠ 0 ∧
      shiftAssert (startState m fl o t.coi)
        (mainilit (startState m fl o t.coi) (aigbad m 0))) ∧
    (startState m fl o t.coi).litmap (prepbad m 0).natAbs ≠ 0 ∧
    (∀ c ∈ (encode m fl t.coi).solver.clauses, ∀ lit ∈ c, indexAssert m lit) ∧
    (∀ c ∈ (startState m fl o t.coi).clauses, ∀ lit ∈ c,
      shiftAssert (startState m fl o t.coi) lit) ∧
    1 ≤ (startState m fl o t.coi).maxvar := by
  obtain ⟨hcl, hbad⟩ := travcoi_closed_of hwf ht
  have key := fun (u : Nat) (hu : t.coi (aiger_lit2var u) ≠ 0) =>
    marked_asserts hwf fl o ht ho hu
  have hB := key (aigbad m 0) hbad
  refine ⟨?_, ?_, ?_, hB, ?_, ?_, ?_, ?_⟩
  · intro i hi hc
    have ha := getD_mem m.ands ⟨0, 0, 0⟩ hi
    obtain ⟨h0, h1⟩ := (hcl _ hc).2 _ ha rfl
    exact ⟨(key _ hc).1, (key _ h0).1, (key _ h1).1⟩
  · intro i hi hc
    have hl := getD_mem m.latches ⟨0, 0, 0⟩ hi
    exact ⟨key _ hc, key _ ((hcl _ hc).1 _ hl rfl)⟩
  · intro j _ hc
    exact key _ hc
  · have := (mainilit_ne_zero_iff _ (aigbad m 0)).mp hB.2.2.1
    unfold prepbad
    rw [prepilit_natAbs]
    exact this
  · intro c hc lit hl
    rw [(encode_spec m fl t.coi).2.2.2.2.1] at hc
    obtain ⟨u, rfl, hu⟩ := logic_lit_coi hcl hc hl
    exact (key u hu).2.1
  · intro c hc lit hl
    obtain ⟨u, hu, rfl⟩ := template_lit_coi hwf fl o hcl ho hc hl
    exact (key u hu).2.2.2
  · exact Nat.le_trans hB.2.2.2.1 hB.2.2.2.2

/-- Witness for C23 on the model with a latch fed by an and-gate. -/
theorem assertions_hold_witness :
    WellFormed exGate ∧ travcoi exGate coiZero = some exGateTrav ∧
    (flagsOne.use_cadical = true ∨ PlainTravall oracleUnsat) ∧
    ((∀ i, i < exGate.ands.length → ulitincoi exGateTrav.coi (exGate.ands.getD i ⟨0, 0, 0⟩).lhs ≠ 0 →
      prepilitAssert exGate exGateTrav.coi (exGate.ands.getD i ⟨0, 0, 0⟩).lhs ∧
      prepilitAssert exGate exGateTrav.coi (exGate.ands.getD i ⟨0, 0, 0⟩).rhs0 ∧
      prepilitAssert exGate exGateTrav.coi (exGate.ands.getD i ⟨0, 0, 0⟩).rhs1) ∧
    (∀ i, i < exGate.latches.length → ulitincoi exGateTrav.coi (aiglatch exGate i) ≠ 0 →
      (prepilitAssert exGate exGateTrav.coi (aiglatch exGate i) ∧ indexAssert exGate (prepilit (aiglatch exGate i)) ∧
        mainilit (startState exGate flagsOne oracleUnsat exGateTrav.coi) (aiglatch exGate i) ≠ 0 ∧
        shiftAssert (startState exGate flagsOne oracleUnsat exGateTrav.coi)
          (mainilit (startState exGate flagsOne oracleUnsat exGateTrav.coi) (aiglatch exGate i))) ∧
      (prepilitAssert exGate exGateTrav.coi (aignext exGate i) ∧ indexAssert exGate (prepilit (aignext exGate i)) ∧
        mainilit (startState exGate flagsOne oracleUnsat exGateTrav.coi) (aignext exGate i) ≠ 0 ∧
        shiftAssert (startState exGate flagsOne oracleUnsat exGateTrav.coi)
          (mainilit (startState exGate flagsOne oracleUnsat exGateTrav.coi) (aignext exGate i)))) ∧
    (∀ j, j < exGate.inputs.length → ulitincoi exGateTrav.coi (aiginput exGate j) ≠ 0 →
      prepilitAssert exGate exGateTrav.coi (aiginput exGate j) ∧ indexAssert exGate (prepilit (aiginput exGate j)) ∧
      mainilit (startState exGate flagsOne oracleUnsat exGateTrav.coi) (aiginput exGate j) ≠ 0 ∧
      shiftAssert (startState exGate flagsOne oracleUnsat exGateTrav.coi)
        (mainilit (startState exGate flagsOne oracleUnsat exGateTrav.coi) (aiginput exGate j))) ∧
    (prepilitAssert exGate exGateTrav.coi (aigbad exGate 0) ∧ indexAssert exGate (prepilit (aigbad exGate 0)) ∧
      mainilit (startState exGate flagsOne oracleUnsat exGateTrav.coi) (aigbad exGate 0) ≠ 0 ∧
      shiftAssert (startState exGate flagsOne oracleUnsat exGateTrav.coi)
        (mainilit (startState exGate flagsOne oracleUnsat exGateTrav.coi) (aigbad exGate 0))) ∧
    (startState exGate flagsOne oracleUnsat exGateTrav.coi).litmap (prepbad exGate 0).natAbs ≠ 0 ∧
    (∀ c ∈ (encode exGate flagsOne exGateTrav.coi).solver.clauses, ∀ lit ∈ c, indexAssert exGate lit) ∧
    (∀ c ∈ (startState exGate flagsOne oracleUnsat exGateTrav.coi).clauses, ∀ lit ∈ c,
      shiftAssert (startState exGate flagsOne oracleUnsat exGateTrav.coi) lit) ∧
    1 ≤ (startState exGate flagsOne oracleUnsat exGateTrav.coi).maxvar) :=
  ⟨exGate_wf, exGateTrav_eq, Or.inr (fun _ => rfl),
    assertions_hold exGate exGate_wf flagsOne oracleUnsat exGateTrav exGateTrav_eq
      (Or.inr (fun _ => rfl))⟩


/-! ## Completeness of the encoding -/

theorem not_input_of_latch {m : aiger} (hwf : WellFormed m) {l : aiger_symbol}
    (hl : l ∈ m.latches) : (aiger_is_input m l.lit).isSome = false := by
  cases h : aiger_is_input m l.lit with
  | none => rfl
  | some i =>
    obtain ⟨h1, h2⟩ := is_input_some h
    exact absurd h2 (hwf.input_ne_latch h1 hl)

theorem not_input_of_and {m : aiger} (hwf : WellFormed m) {a : aiger_and}
    (ha : a ∈ m.ands) : (aiger_is_input m a.lhs).isSome = false := by
  cases h : aiger_is_input m a.lhs with
  | none => rfl
  | some i =>
    obtain ⟨h1, h2⟩ := is_input_some h
    exact absurd h2 (hwf.input_ne_and h1 ha)

theorem not_latch_of_and {m : aiger} (hwf : WellFormed m) {a : aiger_and}
    (ha : a ∈ m.ands) : (aiger_is_latch m a.lhs).isSome = false := by
  cases h : aiger_is_latch m a.lhs with
  | none => rfl
  | some l =>
    obtain ⟨h1, h2⟩ := is_latch_some h
    exact absurd h2 (hwf.latch_ne_and h1 ha)

theorem evalVar_latch {m : aiger} (hwf : WellFormed m) (inp lat : Nat → Bool) (f : Nat)
    {l : aiger_symbol} (hl : l ∈ m.latches) :
    evalVar m inp lat (f + 1) (l.lit / 2) = lat (l.lit / 2) := by
  obtain ⟨e, h1, -⟩ := hwf.latch_lit hl
  unfold evalVar
  rw [if_neg (by omega), ← e, not_input_of_latch hwf hl, is_latch_of_mem hwf hl]
  simp

theorem evalVar_and {m : aiger} (hwf : WellFormed m) (inp lat : Nat → Bool) (f : Nat)
    {a : aiger_and} (ha : a ∈ m.ands) :
    evalVar m inp lat (f + 1) (a.lhs / 2) =
      (evalLit m inp lat f a.rhs0 && evalLit m inp lat f a.rhs1) := by
  obtain ⟨e, h1, -⟩ := hwf.and_lit ha
  unfold evalVar
  rw [if_neg (by omega), ← e, not_input_of_and hwf ha, not_latch_of_and hwf ha,
    is_and_of_mem hwf ha]
  simp
  rfl

theorem evalVar_fuel {m : aiger} (inp lat : Nat → Bool) (rank : Nat → Nat)
    (hrank : ∀ a ∈ m.ands, rank (a.rhs0 / 2) < rank (a.lhs / 2) ∧
      rank (a.rhs1 / 2) < rank (a.lhs / 2)) :
    ∀ f1 f2 v, rank v < f1 → rank v < f2 →
      evalVar m inp lat f1 v = evalVar m inp lat f2 v := by
  intro f1
  induction f1 with
  | zero => intro f2 v h; omega
  | succ n ih =>
    intro f2 v h1 h2
    cases f2 with
    | zero => omega
    | succ k =>
      have e2 : 2 * v / 2 = v := by omega
      unfold evalVar
      split
      · rfl
      · split
        · rfl
        · split
          · rfl
          · split
            · next a ha =>
              obtain ⟨ha1, ha2⟩ := is_and_some ha
              obtain ⟨r0, r1⟩ := hrank a ha1
              rw [ha2, e2] at r0 r1
              rw [ih k _ (by omega) (by omega), ih k (a.rhs1 / 2) (by omega) (by omega)]
            · rfl

theorem evalLit_fuel {m : aiger} (hwf : WellFormed m) (inp lat : Nat → Bool)
    {a : aiger_and} (ha : a ∈ m.ands) :
    evalVar m inp lat (m.maxvar + 1) (a.lhs / 2) =
      (evalLit m inp lat (m.maxvar + 1) a.rhs0 && evalLit m inp lat (m.maxvar + 1) a.rhs1) := by
  obtain ⟨rank, hr1, hr2⟩ := hwf.acyclic
  obtain ⟨r0, r1⟩ := hr2 a ha
  have hl := hr1 (a.lhs / 2)
  rw [evalVar_and hwf inp lat m.maxvar ha]
  unfold evalLit
  rw [evalVar_fuel inp lat rank hr2 m.maxvar (m.maxvar + 1) (a.rhs0 / 2) (by omega) (by omega),
    evalVar_fuel inp lat rank hr2 m.maxvar (m.maxvar + 1) (a.rhs1 / 2) (by omega) (by omega)]

theorem nodeOfVar_eq {m : aiger} {s : St}
    (hinj : ∀ i j, s.litmap i ≠ 0 → s.litmap i = s.litmap j → i = j) {n : Nat}
    (hn : n ≤ m.maxvar) (hmap : s.litmap (n + 1) ≠ 0) :
    nodeOfVar m s (s.litmap (n + 1)) = some n := by
  unfold nodeOfVar
  cases h : (List.range (m.maxvar + 1)).find? (fun k => s.litmap (k + 1) == s.litmap (n + 1))
    with
  | none =>
    exfalso
    rw [List.find?_eq_none] at h
    have := h n (List.mem_range.mpr (Nat.lt_succ_of_le hn))
    simp at this
  | some k =>
    have hk := List.find?_some h
    simp only [beq_iff_eq] at hk
    have := hinj (n + 1) (k + 1) hmap hk.symm
    congr 1
    omega

theorem run_val {m : aiger} {s : St} (init0 : Nat → Bool) (inp : Nat → Nat → Bool)
    (hinj : ∀ i j, s.litmap i ≠ 0 → s.litmap i = s.litmap j → i = j)
    (hle : ∀ i, s.litmap i ≤ s.maxvar) {n : Nat}
    (hn : n ≤ m.maxvar) (hmap : s.litmap (n + 1) ≠ 0) (t : Nat) :
    runAssign m s init0 inp (s.litmap (n + 1) + t * s.maxvar) =
      evalVar m (inp t) (simLatch m init0 inp t) (m.maxvar + 1) n := by
  have h1 : 1 ≤ s.litmap (n + 1) := Nat.pos_of_ne_zero hmap
  have h2 := hle (n + 1)
  have hV : 0 < s.maxvar := by omega
  have e0 : s.litmap (n + 1) + t * s.maxvar - 1 = (s.litmap (n + 1) - 1) + t * s.maxvar := by
    omega
  have e1 : (s.litmap (n + 1) + t * s.maxvar - 1) % s.maxvar + 1 = s.litmap (n + 1) := by
    rw [e0, Nat.add_mul_mod_self_right, Nat.mod_eq_of_lt (by omega)]
    omega
  have e2 : (s.litmap (n + 1) + t * s.maxvar - 1) / s.maxvar = t := by
    rw [e0, Nat.add_mul_div_right _ _ hV, Nat.div_eq_of_lt (by omega)]
    omega
  unfold runAssign
  rw [if_neg (by omega), e1, e2, nodeOfVar_eq hinj hn hmap]

theorem run_lit {m : aiger} {s : St} (init0 : Nat → Bool) (inp : Nat → Nat → Bool)
    (hinj : ∀ i j, s.litmap i ≠ 0 → s.litmap i = s.litmap j → i = j)
    (hle : ∀ i, s.litmap i ≤ s.maxvar) {u : Nat}
    (hn : u / 2 ≤ m.maxvar) (hmap : s.litmap (u / 2 + 1) ≠ 0) (t : Nat) :
    litval (runAssign m s init0 inp) (shift s (mainilit s u) t) =
      simLit m init0 inp t u := by
  have hv := run_val init0 inp hinj hle hn hmap t
  have hne : mainilit s u ≠ 0 := (mainilit_ne_zero_iff s u).mpr hmap
  have hneg : mainilit s u < 0 ↔ u % 2 = 1 := by
    rw [mainilit_eq, mlit_neg_iff (by rw [prepilit_natAbs]; exact hmap), prepilit_neg_iff]
  have hs : shift s (mainilit s u) t < 0 ↔ u % 2 = 1 := by
    rw [shift_lt_zero s t hne, hneg]
  unfold litval simLit evalLit
  rw [shift_natAbs, mainilit_natAbs, hv]
  by_cases ho : u % 2 = 1
  · rw [if_pos (hs.mpr ho)]
    simp [ho]
  · rw [if_neg (fun h => ho (hs.mp h))]
    simp [ho]

theorem RunSetup.facts {m : aiger} {fl : Flags} {o : Oracle} {t : Trav}
    (h : RunSetup m fl o t) :
    (∀ i j, (startState m fl o t.coi).litmap i ≠ 0 →
      (startState m fl o t.coi).litmap i = (startState m fl o t.coi).litmap j → i = j) ∧
    (∀ i, (startState m fl o t.coi).litmap i ≤ (startState m fl o t.coi).maxvar) ∧
    (startState m fl o t.coi).coi = t.coi ∧
    (startState m fl o t.coi).clauses = (logicClauses m t.coi).map (fun c =>
      c.map (mlit (startState m fl o t.coi).litmap)) ∧
    Unrollable m (startState m fl o t.coi) ∧
    CoiClosed m t.coi ∧ t.coi (aiger_lit2var (aigbad m 0)) ≠ 0 := by
  obtain ⟨T0, -, hT, h1, h2, h3, -, h5, hu, -⟩ := start_spec h.wf fl o t.coi
  have hT0 := hT h.plain
  subst hT0
  have hinv := initMap_inv h.wf t.coi (logicClauses m t.coi)
  obtain ⟨hcl, hb⟩ := travcoi_closed_of h.wf h.trav
  refine ⟨?_, ?_, h3, by rw [h5, h1], hu, hcl, hb⟩
  · rw [h1]; exact hinv.inj
  · rw [h1, h2]; exact hinv.le

theorem RunSetup.lit {m : aiger} {fl : Flags} {o : Oracle} {t : Trav}
    (h : RunSetup m fl o t) (init0 : Nat → Bool) (inp : Nat → Nat → Bool) {u : Nat}
    (hu : t.coi (u / 2) ≠ 0) (tm : Nat) :
    litval (runAssign m (startState m fl o t.coi) init0 inp)
      (shift (startState m fl o t.coi) (mainilit (startState m fl o t.coi) u) tm) =
      simLit m init0 inp tm u := by
  obtain ⟨hinj, hle, -, -, -, -, -⟩ := h.facts
  obtain ⟨t1, ht1, hc, -⟩ := travcoi_spec h.wf
  rw [h.trav] at ht1
  cases ht1
  exact run_lit init0 inp hinj hle (hc.bound _ hu) (coi_mapped h.wf fl o h.trav h.plain hu) tm

theorem simLit_latch {m : aiger} (hwf : WellFormed m) (init0 : Nat → Bool)
    (inp : Nat → Nat → Bool) (tm : Nat) {l : aiger_symbol} (hl : l ∈ m.latches) :
    simLit m init0 inp tm l.lit = simLatch m init0 inp tm (l.lit / 2) := by
  obtain ⟨e, -, -⟩ := hwf.latch_lit hl
  unfold simLit evalLit
  rw [evalVar_latch hwf _ _ _ hl]
  have : ¬ l.lit % 2 = 1 := by omega
  simp [this]

theorem simLit_and {m : aiger} (hwf : WellFormed m) (init0 : Nat → Bool)
    (inp : Nat → Nat → Bool) (tm : Nat) {a : aiger_and} (ha : a ∈ m.ands) :
    simLit m init0 inp tm a.lhs =
      (simLit m init0 inp tm a.rhs0 && simLit m init0 inp tm a.rhs1) := by
  obtain ⟨e, -, -⟩ := hwf.and_lit ha
  have : ¬ a.lhs % 2 = 1 := by omega
  unfold simLit
  rw [← evalLit_fuel hwf _ _ ha]
  unfold evalLit
  simp [this]

theorem simLit_next {m : aiger} (hwf : WellFormed m) (init0 : Nat → Bool)
    (inp : Nat → Nat → Bool) (tm : Nat) {l : aiger_symbol} (hl : l ∈ m.latches) :
    simLit m init0 inp (tm + 1) l.lit = simLit m init0 inp tm l.next := by
  obtain ⟨e, -, -⟩ := hwf.latch_lit hl
  rw [simLit_latch hwf init0 inp (tm + 1) hl]
  unfold simLatch
  rw [← e, is_latch_of_mem hwf hl]
  rfl

theorem simLit_false (m : aiger) (init0 : Nat → Bool) (inp : Nat → Nat → Bool) (tm : Nat) :
    simLit m init0 inp tm 0 = false := by
  unfold simLit evalLit evalVar
  simp

theorem equiv_sat {σ : Nat → Bool} {a b : Int} (ha : a ≠ 0) (hb : b ≠ 0)
    (h : litval σ a = litval σ b) {c : List Int} (hc : c ∈ equivClauses a b) :
    satClause σ c = true := by
  unfold equivClauses at hc
  simp only [List.mem_cons, List.mem_singleton, List.not_mem_nil, or_false] at hc
  rcases hc with rfl | rfl
  · unfold satClause
    simp only [List.any_cons, List.any_nil, Bool.or_false, litval_neg σ ha, h]
    cases litval σ b <;> rfl
  · unfold satClause
    simp only [List.any_cons, List.any_nil, Bool.or_false, litval_neg σ hb, h]
    cases litval σ b <;> rfl

theorem RunSetup.reset_sat {m : aiger} {fl : Flags} {o : Oracle} {t : Trav}
    (h : RunSetup m fl o t) {init0 : Nat → Bool} (hv : ValidInit m init0)
    (inp : Nat → Nat → Bool) {c : List Int}
    (hc : c ∈ resetClauses m (startState m fl o t.coi)) :
    satClause (runAssign m (startState m fl o t.coi) init0 inp) c = true := by
  obtain ⟨-, -, h3, -, hu, -, -⟩ := h.facts
  obtain ⟨i, hi, hcoi, hcase⟩ := (mem_resetClauses h.wf _ c).mp hc
  have hl := getD_mem m.latches ⟨0, 0, 0⟩ hi
  have hne := (hu.latch_ne i hi hcoi).1
  rw [h3] at hcoi
  have hval := h.lit init0 inp (u := aiglatch m i) hcoi 0
  have hsl : simLit m init0 inp 0 (aiglatch m i) = init0 (aiglatch m i / 2) :=
    simLit_latch h.wf init0 inp 0 hl
  rw [shift_zero, hsl] at hval
  rcases hcase with ⟨hr, rfl⟩ | ⟨hr, rfl⟩
  · unfold satClause
    simp only [List.any_cons, List.any_nil, Bool.or_false, litval_neg _ hne]
    rw [hval]
    have hz : init0 (aiglatch m i / 2) = false := (hv _ hl).1 hr
    rw [hz]
    rfl
  · unfold satClause
    simp only [List.any_cons, List.any_nil, Bool.or_false]
    rw [hval]
    exact (hv _ hl).2 hr

theorem RunSetup.latch_sat {m : aiger} {fl : Flags} {o : Oracle} {t : Trav}
    (h : RunSetup m fl o t) (init0 : Nat → Bool) (inp : Nat → Nat → Bool) (tm : Nat)
    {c : List Int} (hc : c ∈ latchClauses m (startState m fl o t.coi) (tm + 1)) :
    satClause (runAssign m (startState m fl o t.coi) init0 inp) c = true := by
  obtain ⟨-, -, h3, -, hu, hcl, -⟩ := h.facts
  unfold latchClauses at hc
  obtain ⟨i, hi, hci⟩ := List.mem_flatMap.mp hc
  have hi' := List.mem_range.mp hi
  have hl := getD_mem m.latches ⟨0, 0, 0⟩ hi'
  unfold latchClausesAt at hci
  by_cases h0 : ulitincoi (startState m fl o t.coi).coi (aiglatch m i) = 0
  · rw [if_pos h0] at hci; cases hci
  · rw [if_neg h0] at hci
    have hne := hu.latch_ne i hi' h0
    rw [h3] at h0
    have hnx : t.coi (aignext m i / 2) ≠ 0 := (hcl _ h0).1 _ hl rfl
    have v1 := h.lit init0 inp (u := aiglatch m i) h0 (tm + 1)
    have v2 := h.lit init0 inp (u := aignext m i) hnx tm
    have hs : simLit m init0 inp (tm + 1) (aiglatch m i) =
        simLit m init0 inp tm (aignext m i) := simLit_next h.wf init0 inp tm hl
    refine equiv_sat ?_ ?_ ?_ hci
    · exact shift_ne_zero _ _ hne.2
    · exact shift_ne_zero _ _ hne.1
    · rw [Nat.add_sub_cancel, v1, v2, hs]

theorem RunSetup.logic_sat {m : aiger} {fl : Flags} {o : Oracle} {t : Trav}
    (h : RunSetup m fl o t) (init0 : Nat → Bool) (inp : Nat → Nat → Bool) (tm : Nat)
    {c : List Int} (hc : c ∈ shiftedClauses (startState m fl o t.coi) tm) :
    satClause (runAssign m (startState m fl o t.coi) init0 inp) c = true := by
  obtain ⟨-, -, h3, h4, hu, hcl, -⟩ := h.facts
  have hmapped : ∀ u, t.coi (u / 2) ≠ 0 →
      (startState m fl o t.coi).litmap (prepilit u).natAbs ≠ 0 := by
    intro u hu
    rw [prepilit_natAbs]
    exact coi_mapped h.wf fl o h.trav h.plain hu
  have hval : ∀ u, t.coi (u / 2) ≠ 0 →
      litval (runAssign m (startState m fl o t.coi) init0 inp)
        (shift (startState m fl o t.coi)
          (mlit (startState m fl o t.coi).litmap (prepilit u)) tm) =
        simLit m init0 inp tm u := fun u hu => h.lit init0 inp hu tm
  have hnegv : ∀ u, t.coi (u / 2) ≠ 0 →
      litval (runAssign m (startState m fl o t.coi) init0 inp)
        (shift (startState m fl o t.coi)
          (mlit (startState m fl o t.coi).litmap (-prepilit u)) tm) =
        !simLit m init0 inp tm u := by
    intro u hu
    rw [lv_neg _ _ _ (hmapped u hu) (prepilit_ne_zero u), hval u hu]
  unfold shiftedClauses at hc
  obtain ⟨c0, hc0, rfl⟩ := List.mem_map.mp hc
  rw [h4] at hc0
  obtain ⟨c1, hc1, rfl⟩ := List.mem_map.mp hc0
  unfold satClause
  rw [List.any_map, List.any_map]
  rcases mem_logicClauses hc1 with ⟨rfl, hz⟩ | ⟨a, ha, hlhs, hca⟩
  · have e1 : (-1 : Int) = -prepilit 0 := rfl
    simp only [List.any_cons, List.any_nil, Bool.or_false, Function.comp]
    rw [e1, hnegv 0 hz, simLit_false]
    rfl
  · obtain ⟨g0, g1⟩ := (hcl _ hlhs).2 a ha rfl
    have hg := simLit_and h.wf init0 inp tm ha
    unfold andClauses at hca
    simp only [List.mem_cons, List.mem_singleton, List.not_mem_nil, or_false] at hca
    rcases hca with rfl | rfl | rfl
    · simp only [List.any_cons, List.any_nil, Bool.or_false, Function.comp]
      rw [hnegv _ hlhs, hval _ g0, hg]
      cases simLit m init0 inp tm a.rhs0 <;> cases simLit m init0 inp tm a.rhs1 <;> rfl
    · simp only [List.any_cons, List.any_nil, Bool.or_false, Function.comp]
      rw [hnegv _ hlhs, hval _ g1, hg]
      cases simLit m init0 inp tm a.rhs0 <;> cases simLit m init0 inp tm a.rhs1 <;> rfl
    · simp only [List.any_cons, List.any_nil, Bool.or_false, Function.comp]
      rw [hnegv _ g0, hnegv _ g1, hval _ hlhs, hg]
      cases simLit m init0 inp tm a.rhs0 <;> cases simLit m init0 inp tm a.rhs1 <;> rfl

theorem RunSetup.unroll_sat {m : aiger} {fl : Flags} {o : Oracle} {t : Trav}
    (h : RunSetup m fl o t) {init0 : Nat → Bool} (hv : ValidInit m init0)
    (inp : Nat → Nat → Bool) (k : Nat) :
    satCnf (runAssign m (startState m fl o t.coi) init0 inp)
      (resetClauses m (startState m fl o t.coi) ++
        unrollClauses m (startState m fl o t.coi) k) = true := by
  unfold satCnf
  rw [List.all_eq_true]
  intro c hc
  rcases List.mem_append.mp hc with hc | hc
  · exact h.reset_sat hv inp hc
  · unfold unrollClauses at hc
    obtain ⟨tm, -, hct⟩ := List.mem_flatMap.mp hc
    unfold shiftClauses at hct
    rcases List.mem_append.mp hct with h1 | h1
    · cases tm with
      | zero => simp at h1
      | succ n =>
        rw [if_pos (Nat.succ_pos n)] at h1
        exact h.latch_sat init0 inp n h1
    · exact h.logic_sat init0 inp tm h1

/-! ## Assumptions of the queried solver -/

theorem fold_keeps {α : Type} (P0 : St) (Q : Solver → Prop) (step : St → α → St)
    (hstep : ∀ L a, Q L → ∃ L1, step (P0.withLgl L) a = P0.withLgl L1 ∧ Q L1) :
    ∀ (l : List α) (L : Solver), Q L →
      ∃ L1, l.foldl step (P0.withLgl L) = P0.withLgl L1 ∧ Q L1 := by
  intro l
  induction l with
  | nil => intro L h; exact ⟨L, rfl, h⟩
  | cons a l ih =>
    intro L h
    obtain ⟨L1, e1, h1⟩ := hstep L a h
    obtain ⟨L2, e2, h2⟩ := ih L1 h1
    exact ⟨L2, by rw [List.foldl_cons, e1, e2], h2⟩

theorem keeps_assumed (A : List Int) : LglKeeps (fun L => L.assumed = A) := by
  refine ⟨?_, fun _ _ h => h, fun _ _ h => h⟩
  intro L l h
  unfold lgladd
  split <;> exact h

theorem unit_keeps {Q : Solver → Prop} (hQ : LglKeeps Q) {P0 : St}
    (h : P0.use_cadical = false) (L : Solver) (a : Int) (hL : Q L) :
    ∃ L1, unit (P0.withLgl L) a = P0.withLgl L1 ∧ Q L1 := by
  rw [unit_lgl (show (P0.withLgl L).use_cadical = false from h)]
  exact ⟨_, rfl, hQ.add _ _ (hQ.add _ _ hL)⟩

theorem binary_keeps {Q : Solver → Prop} (hQ : LglKeeps Q) {P0 : St}
    (h : P0.use_cadical = false) (L : Solver) (a b : Int) (hL : Q L) :
    ∃ L1, binary (P0.withLgl L) a b = P0.withLgl L1 ∧ Q L1 := by
  rw [binary_lgl (show (P0.withLgl L).use_cadical = false from h)]
  exact ⟨_, rfl, hQ.add _ _ (hQ.add _ _ (hQ.add _ _ hL))⟩

theorem shiftcnfLatch_keeps {Q : Solver → Prop} (hQ : LglKeeps Q) (m : aiger) (k : Nat)
    {P0 : St} (h : P0.use_cadical = false) (L : Solver) (i : Nat) (hL : Q L) :
    ∃ L1, shiftcnfLatch m k (P0.withLgl L) i = P0.withLgl L1 ∧ Q L1 := by
  unfold shiftcnfLatch
  split
  · exact ⟨L, rfl, hL⟩
  · dsimp only
    unfold equiv
    obtain ⟨L1, e1, h1⟩ := binary_keeps hQ h L
      (-(shift (P0.withLgl L) (mainilit (P0.withLgl L) (aignext m i)) (k - 1)))
      (shift (P0.withLgl L) (mainilit (P0.withLgl L) (aiglatch m i)) k) hL
    rw [e1]
    obtain ⟨L2, e2, h2⟩ := binary_keeps hQ h L1
      (shift (P0.withLgl L) (mainilit (P0.withLgl L) (aignext m i)) (k - 1))
      (-(shift (P0.withLgl L) (mainilit (P0.withLgl L) (aiglatch m i)) k)) h1
    rw [e2]
    have hu : (!(P0.withLgl L2).use_cadical) = true := by
      show (!P0.use_cadical) = true
      rw [h]; rfl
    rw [if_pos hu]
    exact ⟨_, rfl, hQ.melt _ _ h2⟩

theorem shiftcnfClause_keeps {Q : Solver → Prop} (hQ : LglKeeps Q) (k : Nat)
    {P0 : St} (h : P0.use_cadical = false) (L : Solver) (c : List Int) (hL : Q L) :
    ∃ L1, shiftcnfClause k (P0.withLgl L) c = P0.withLgl L1 ∧ Q L1 := by
  have hu : ∀ L0, (!(P0.withLgl L0).use_cadical) = true := by
    intro L0
    show (!P0.use_cadical) = true
    rw [h]; rfl
  have hlit : ∀ L0 (l : Int), Q L0 →
      ∃ L1, shiftcnfLit k (P0.withLgl L0) l = P0.withLgl L1 ∧ Q L1 := by
    intro L0 l h0
    unfold shiftcnfLit
    rw [if_pos (hu L0)]
    exact ⟨_, rfl, hQ.add _ _ h0⟩
  obtain ⟨L1, e1, h1⟩ := fold_keeps P0 Q (shiftcnfLit k) hlit c L hL
  unfold shiftcnfClause
  dsimp only
  rw [e1, if_pos (hu L1)]
  exact ⟨_, rfl, hQ.add _ _ h1⟩

theorem shiftcnfFreeze_keeps {Q : Solver → Prop} (hQ : LglKeeps Q) (m : aiger) (k : Nat)
    {P0 : St} (h : P0.use_cadical = false) (L : Solver) (i : Nat) (hL : Q L) :
    ∃ L1, shiftcnfFreeze m k (P0.withLgl L) i = P0.withLgl L1 ∧ Q L1 := by
  unfold shiftcnfFreeze
  split
  · have hu : (!(P0.withLgl L).use_cadical) = true := by
      show (!P0.use_cadical) = true
      rw [h]; rfl
    rw [if_pos hu]
    exact ⟨_, rfl, hQ.freeze _ _ hL⟩
  · exact ⟨L, rfl, hL⟩

theorem shiftcnf_keeps {Q : Solver → Prop} (hQ : LglKeeps Q) (m : aiger) (k : Nat)
    {P0 : St} (h : P0.use_cadical = false) (L : Solver) (hL : Q L) :
    ∃ L1, shiftcnf m (P0.withLgl L) k = P0.withLgl L1 ∧ Q L1 := by
  unfold shiftcnf
  dsimp only
  have hA : ∃ LA, (if k > 0 then
      (List.range m.latches.length).foldl (shiftcnfLatch m k) (P0.withLgl L)
      else P0.withLgl L) = P0.withLgl LA ∧ Q LA := by
    by_cases hk : k > 0
    · rw [if_pos hk]
      exact fold_keeps P0 Q _ (shiftcnfLatch_keeps hQ m k h) _ L hL
    · rw [if_neg hk]
      exact ⟨L, rfl, hL⟩
  obtain ⟨LA, eA, hA1⟩ := hA
  rw [eA]
  obtain ⟨LB, eB, hB⟩ := fold_keeps P0 Q _ (shiftcnfClause_keeps hQ k h)
    (P0.withLgl LA).clauses LA hA1
  rw [eB]
  exact fold_keeps P0 Q _ (shiftcnfFreeze_keeps hQ m k h) _ LB hB

theorem initReset_keeps {Q : Solver → Prop} (hQ : LglKeeps Q) (m : aiger)
    {P0 : St} (h : P0.use_cadical = false) (L : Solver) (i : Nat) (hL : Q L) :
    ∃ L1, initReset m (P0.withLgl L) i = P0.withLgl L1 ∧ Q L1 := by
  unfold initReset
  split
  · exact ⟨L, rfl, hL⟩
  · split
    · exact ⟨L, rfl, hL⟩
    · dsimp only
      by_cases h0 : aiger_false = aigreset m i
      · rw [if_pos h0]
        by_cases h1 : aiger_true = aigreset m i
        · exfalso
          rw [← h0] at h1
          exact absurd h1 (by decide)
        · rw [if_neg h1]
          exact unit_keeps hQ h L _ hL
      · rw [if_neg h0]
        by_cases h1 : aiger_true = aigreset m i
        · rw [if_pos h1]
          exact unit_keeps hQ h L _ hL
        · rw [if_neg h1]
          exact ⟨L, rfl, hL⟩

theorem start_assumed (m : aiger) (fl : Flags) (o : Oracle) (coi : Nat → Nat)
    (hl : fl.use_cadical = false) :
    (startState m fl o coi).lgl.assumed = [] := by
  obtain ⟨e1, e2, e3, e4, e5, e6⟩ := encode_spec m fl coi
  rw [hl] at e1
  obtain ⟨T, hT, eT⟩ := travall_fold_gen (o.travall (encode m fl coi).lgl)
    (encode m fl coi) e4.2.2
  have ht : travallExtract o (encode m fl coi) =
      { encode m fl coi with clauses := (encode m fl coi).clauses ++ T } := by
    unfold travallExtract
    rw [eT]
  have hcond : (!(encode m fl coi).use_cadical) = true := by rw [e1]; rfl
  have hs : startState m fl o coi = init m
      { encode m fl coi with clauses := (encode m fl coi).clauses ++ T,
                             lgl := Solver.fresh } := by
    unfold startState prepare
    dsimp only
    rw [if_pos hcond, ht]
  rw [hs, init_eq]
  have h0 : (initMapped m { encode m fl coi with
      clauses := (encode m fl coi).clauses ++ T, lgl := Solver.fresh }).use_cadical = false := e1
  obtain ⟨L1, e7, h7⟩ := fold_keeps _ _ (initReset m)
    (initReset_keeps (keeps_assumed []) m h0) (List.range m.latches.length) Solver.fresh rfl
  have e0 : (initMapped m { encode m fl coi with
      clauses := (encode m fl coi).clauses ++ T, lgl := Solver.fresh }).withLgl Solver.fresh =
      initMapped m { encode m fl coi with
      clauses := (encode m fl coi).clauses ++ T, lgl := Solver.fresh } := rfl
  rw [e0] at e7
  rw [e7]
  exact h7

theorem pass_assumed (m : aiger) (fl : Flags) {s0 : St} (h : s0.use_cadical = false)
    (hz : s0.lgl.assumed = []) :
    ∀ k, (∃ L, passState m fl s0 k = s0.withLgl L ∧ L.assumed = []) ∧
      (bad m (shiftcnf m (passState m fl s0 k) k) k).solver.assumed =
        [shift s0 (mainilit s0 (aigbad m 0)) k] := by
  have hu : ∀ L0, (!(s0.withLgl L0).use_cadical) = true := by
    intro L0
    show (!s0.use_cadical) = true
    rw [h]; rfl
  have hstep : ∀ k, (∃ L, passState m fl s0 k = s0.withLgl L ∧ L.assumed = []) →
      ∃ L, bad m (shiftcnf m (passState m fl s0 k) k) k = s0.withLgl L ∧
        L.assumed = [shift s0 (mainilit s0 (aigbad m 0)) k] := by
    rintro k ⟨L, e1, e2⟩
    obtain ⟨L1, e3, e4⟩ := shiftcnf_keeps (keeps_assumed []) m k h L e2
    rw [e1, e3]
    unfold bad
    rw [if_pos (hu L1)]
    refine ⟨_, rfl, ?_⟩
    show L1.assumed ++ _ = _
    rw [e4]
    rfl
  have hsol : ∀ L, (s0.withLgl L).solver = L := by
    intro L
    unfold St.solver
    rw [if_pos (hu L)]
    rfl
  intro k
  induction k with
  | zero =>
    have h0 : ∃ L, passState m fl s0 0 = s0.withLgl L ∧ L.assumed = [] :=
      ⟨s0.lgl, rfl, hz⟩
    obtain ⟨L, e1, e2⟩ := hstep 0 h0
    exact ⟨h0, by rw [e1, hsol, e2]⟩
  | succ k ih =>
    obtain ⟨L, e1, e2⟩ := hstep k ih.1
    have hn : ∃ L, passState m fl s0 (k + 1) = s0.withLgl L ∧ L.assumed = [] := by
      unfold passState
      dsimp only
      rw [e1]
      unfold St.solved
      rw [if_pos (hu L)]
      split
      · unfold St.simplify
        rw [if_pos (hu _)]
        exact ⟨_, rfl, rfl⟩
      · exact ⟨_, rfl, rfl⟩
    obtain ⟨L1, e3, e4⟩ := hstep (k + 1) hn
    exact ⟨hn, by rw [e3, hsol, e4]⟩


theorem resetInit_valid {m : aiger} (hwf : WellFormed m) : ValidInit m (resetInit m) := by
  intro l hl
  have he : 2 * (l.lit / 2) = l.lit := by
    have := (hwf.def_ok _ (mem_defined_latch hl)).1
    omega
  have hr : resetInit m (l.lit / 2) = decide (l.reset = aiger_true) := by
    unfold resetInit
    rw [he, is_latch_of_mem hwf hl]
  rw [hr]
  constructor
  · intro h0
    rw [h0]
    decide
  · intro h1
    rw [h1]
    decide

theorem bad_solver_clauses (m : aiger) (s : St) (tm : Nat) :
    (bad m s tm).solver.clauses = s.solver.clauses ∧
    (bad m s tm).solved.solver.clauses = s.solver.clauses ∧
    (bad m s tm).solved.solver.assumed = [] := by
  unfold bad St.solved St.solver
  cases h : s.use_cadical <;> simp [h, lglassume]

theorem step_query {m : aiger} {fl : Flags} {o : Oracle} {t : Trav}
    (h : RunSetup m fl o t) (hl : fl.use_cadical = false) (k : Nat) :
    (unrolledState m fl o t.coi k).solver.clauses =
      resetClauses m (startState m fl o t.coi) ++ unrollClauses m (startState m fl o t.coi) k ∧
    (bad m (unrolledState m fl o t.coi k) k).solver.assumed =
      [shift (startState m fl o t.coi) (mainilit (startState m fl o t.coi) (aigbad m 0)) k] := by
  obtain ⟨T0, -, -, -, -, -, hc, -, -, hs⟩ := start_spec h.wf fl o t.coi
  rw [hl] at hc
  constructor
  · rw [(unrolled_spec h.wf fl o t.coi k).1, hs, hl]
    simp
  · exact (pass_assumed m fl hc (start_assumed m fl o t.coi hl) k).2

theorem run_query {m : aiger} {fl : Flags} {o : Oracle} {t : Trav}
    (h : RunSetup m fl o t) (hl : fl.use_cadical = false) (hc : Complete o) (k : Nat) :
    o.sat k (bad m (unrolledState m fl o t.coi k) k).solved.solver = 10 ∧
    ((∃ init0 inp, ValidInit m init0 ∧ simLit m init0 inp k (aigbad m 0) = true) →
      answer m fl o (startState m fl o t.coi) k = 10) := by
  obtain ⟨e1, e2⟩ := step_query h hl k
  obtain ⟨b1, b2, b3⟩ := bad_solver_clauses m (unrolledState m fl o t.coi k) k
  constructor
  · apply hc.sat_yes
    refine ⟨runAssign m (startState m fl o t.coi) (resetInit m) (fun _ _ => false), ?_, ?_⟩
    · rw [b2, e1]
      exact h.unroll_sat (resetInit_valid h.wf) _ k
    · rw [b3]; rfl
  · rintro ⟨init0, inp, hv, hb⟩
    unfold answer
    rw [solveStep_complete hc]
    apply hc.sat_yes
    refine ⟨runAssign m (startState m fl o t.coi) init0 inp, ?_, ?_⟩
    · show satCnf _ (bad m (unrolledState m fl o t.coi k) k).solver.clauses = true
      rw [b1, e1]
      exact h.unroll_sat hv inp k
    · show (bad m (unrolledState m fl o t.coi k) k).solver.assumed.all _ = true
      rw [e2]
      simp only [List.all_cons, List.all_nil, Bool.and_true]
      rw [h.lit init0 inp h.facts.2.2.2.2.2.2 k]
      exact hb

/-- C22 (encoding completeness): for a well-formed model whose stored clauses are the
compacted clauses of `logic`, and every `k`: the assignment `runAssign` of any run that
respects the resets gives the shifted variable of every COI literal at every cycle the value
of that literal in the run, and satisfies every clause that `init` and `shiftcnf (0..k)` pass
to the solver; the run from the reset values is such a run, so these clauses are satisfiable.
With Lingeling, whose instance is fresh, they are all the clauses of the queried instance and
the query of step `k` assumes the bad literal of cycle `k` only; a complete solver then
answers `10` to the query without assumptions after the step, answers `10` at step `k`
whenever some run makes bad true in cycle `k`, and so answers `20` (line `u<k>`) only when no
run does. -/
theorem encoding_complete {m : aiger} (hwf : WellFormed m) (fl : Flags) (o : Oracle)
    {t : Trav} (ht : travcoi m coiZero = some t)
    (ho : fl.use_cadical = true ∨ PlainTravall o) (k : Nat) :
    (startState m fl o t.coi).clauses = (logicClauses m t.coi).map (fun c =>
      c.map (mlit (startState m fl o t.coi).litmap)) ∧
    (∀ (init0 : Nat → Bool) (inp : Nat → Nat → Bool), ValidInit m init0 →
      satCnf (runAssign m (startState m fl o t.coi) init0 inp)
        (resetClauses m (startState m fl o t.coi) ++
          unrollClauses m (startState m fl o t.coi) k) = true ∧
      ∀ u tm, t.coi (u / 2) ≠ 0 →
        litval (runAssign m (startState m fl o t.coi) init0 inp)
          (shift (startState m fl o t.coi) (mainilit (startState m fl o t.coi) u) tm) =
          simLit m init0 inp tm u) ∧
    ValidInit m (resetInit m) ∧
    (∃ σ, satCnf σ (resetClauses m (startState m fl o t.coi) ++
      unrollClauses m (startState m fl o t.coi) k) = true) ∧
    (fl.use_cadical = false →
      (unrolledState m fl o t.coi k).solver.clauses =
        resetClauses m (startState m fl o t.coi) ++
          unrollClauses m (startState m fl o t.coi) k ∧
      (bad m (unrolledState m fl o t.coi k) k).solver.assumed =
        [shift (startState m fl o t.coi)
          (mainilit (startState m fl o t.coi) (aigbad m 0)) k] ∧
      (Complete o →
        o.sat k (bad m (unrolledState m fl o t.coi k) k).solved.solver = 10 ∧
        ((∃ init0 inp, ValidInit m init0 ∧ simLit m init0 inp k (aigbad m 0) = true) →
          answer m fl o (startState m fl o t.coi) k = 10) ∧
        (answer m fl o (startState m fl o t.coi) k = 20 →
          ∀ (init0 : Nat → Bool) (inp : Nat → Nat → Bool), ValidInit m init0 →
            simLit m init0 inp k (aigbad m 0) = false))) := by
  have h : RunSetup m fl o t := ⟨hwf, ht, ho⟩
  refine ⟨h.facts.2.2.2.1, ?_, resetInit_valid hwf, ?_, ?_⟩
  · intro init0 inp hv
    exact ⟨h.unroll_sat hv inp k, fun u tm hu => h.lit init0 inp hu tm⟩
  · exact ⟨_, h.unroll_sat (resetInit_valid hwf) (fun _ _ => false) k⟩
  · intro hl
    obtain ⟨e1, e2⟩ := step_query h hl k
    refine ⟨e1, e2, ?_⟩
    intro hc
    obtain ⟨q1, q2⟩ := run_query h hl hc k
    refine ⟨q1, q2, ?_⟩
    intro h20 init0 inp hv
    cases hb : simLit m init0 inp k (aigbad m 0) with
    | false => rfl
    | true =>
      have h10 := q2 ⟨init0, inp, hv, hb⟩
      rw [h10] at h20
      exact absurd h20 (by decide)

/-- Witness for C22 on the one-bit counter, with the exhaustive solver and `k = 1`. -/
theorem encoding_complete_witness :
    WellFormed exCounter ∧ travcoi exCounter coiZero = some exCounterTrav ∧
    (flagsFive.use_cadical = true ∨ PlainTravall oracleFull) ∧
    ((startState exCounter flagsFive oracleFull exCounterTrav.coi).clauses = (logicClauses exCounter exCounterTrav.coi).map (fun c =>
      c.map (mlit (startState exCounter flagsFive oracleFull exCounterTrav.coi).litmap)) ∧
    (∀ (init0 : Nat → Bool) (inp : Nat → Nat → Bool), ValidInit exCounter init0 →
      satCnf (runAssign exCounter (startState exCounter flagsFive oracleFull exCounterTrav.coi) init0 inp)
        (resetClauses exCounter (startState exCounter flagsFive oracleFull exCounterTrav.coi) ++
          unrollClauses exCounter (startState exCounter flagsFive oracleFull exCounterTrav.coi) 1) = true ∧
      ∀ u tm, exCounterTrav.coi (u / 2) ≠ 0 →
        litval (runAssign exCounter (startState exCounter flagsFive oracleFull exCounterTrav.coi) init0 inp)
          (shift (startState exCounter flagsFive oracleFull exCounterTrav.coi) (mainilit (startState exCounter flagsFive oracleFull exCounterTrav.coi) u) tm) =
          simLit exCounter init0 inp tm u) ∧
    ValidInit exCounter (resetInit exCounter) ∧
    (∃ σ, satCnf σ (resetClauses exCounter (startState exCounter flagsFive oracleFull exCounterTrav.coi) ++
      unrollClauses exCounter (startState exCounter flagsFive oracleFull exCounterTrav.coi) 1) = true) ∧
    (flagsFive.use_cadical = false →
      (unrolledState exCounter flagsFive oracleFull exCounterTrav.coi 1).solver.clauses =
        resetClauses exCounter (startState exCounter flagsFive oracleFull exCounterTrav.coi) ++
          unrollClauses exCounter (startState exCounter flagsFive oracleFull exCounterTrav.coi) 1 ∧
      (bad exCounter (unrolledState exCounter flagsFive oracleFull exCounterTrav.coi 1) 1).solver.assumed =
        [shift (startState exCounter flagsFive oracleFull exCounterTrav.coi)
          (mainilit (startState exCounter flagsFive oracleFull exCounterTrav.coi) (aigbad exCounter 0)) 1] ∧
      (Complete oracleFull →
        oracleFull.sat 1 (bad exCounter (unrolledState exCounter flagsFive oracleFull exCounterTrav.coi 1) 1).solved.solver = 10 ∧
        ((∃ init0 inp, ValidInit exCounter init0 ∧ simLit exCounter init0 inp 1 (aigbad exCounter 0) = true) →
          answer exCounter flagsFive oracleFull (startState exCounter flagsFive oracleFull exCounterTrav.coi) 1 = 10) ∧
        (answer exCounter flagsFive oracleFull (startState exCounter flagsFive oracleFull exCounterTrav.coi) 1 = 20 →
          ∀ (init0 : Nat → Bool) (inp : Nat → Nat → Bool), ValidInit exCounter init0 →
            simLit exCounter init0 inp 1 (aigbad exCounter 0) = false)))) :=
  ⟨exCounter_wf, exCounterTrav_eq, Or.inr oracleFull_complete.plain,
    encoding_complete exCounter_wf flagsFive oracleFull exCounterTrav_eq
      (Or.inr oracleFull_complete.plain) 1⟩


end Blimc
